import Mathlib

/-! # UNCALLED path search: a shallow embedding of `aligner.cpp` and `mapper.cpp`

The definitions below translate the path buffer (`PathBuffer`), the threshold
lookup (`AlnParams::get_prob_thresh`) and the per-event beam step
(`Mapper::add_event`, `Aligner::add_event`) into Lean functions.

Conventions of the embedding.

* Probabilities are `float` in the sources; they are rationals here, so every
  statement is about exact arithmetic.
* `Mapper::PathBuffer` and `Aligner::PathBuffer` have the same fields under two
  sets of names (`seed_prob_` / `win_prob_`, `path_type_counts_` /
  `win_type_counts_`, `MAX_PATH_LEN` / `MAX_WIN_LEN`).  One record `PathBuffer`
  is used for both, with the names of `aligner.cpp`; the two `make_source` and
  the two `make_child` are translated separately and selected by `Impl`.
* The headers (`aligner.hpp`, `mapper.hpp`, `range.hpp`, `params.hpp`, ...) are
  not among the sources.  What they declare is either modelled from the
  specification (and marked so) or taken as a parameter (`Params`).
* A method that mutates `*this` takes the old contents of the slot as its first
  argument and returns the new contents.
-/

namespace Uncalled

/-! ## Event types -/

/-- Modelled from the spec: the enumeration `EventType` (declared in a header
that is not among the sources).  Four tags in a fixed order, `MATCH` being
tag 0 and `STAY` tag 1, so that two bits encode one event. -/
inductive EventType where
  | MATCH
  | STAY
  | SKIP
  | IGNORE
  deriving DecidableEq, Repr

/-- The integer value of a tag (its position in the enumeration). -/
def EventType.toNat : EventType → Nat
  | .MATCH => 0
  | .STAY => 1
  | .SKIP => 2
  | .IGNORE => 3

/-- Modelled from the spec: `EventType::NUM_TYPES`, the number of tags. -/
def NUM_TYPES : Nat := 4

/-- Modelled from the spec: `TYPE_BITS`, the number of bits of one packed event. -/
def TYPE_BITS : Nat := 2

/-- The mask `TYPE_MASK = (u8) ((1 << TYPE_BITS) - 1)` set up by the constructors
`Mapper::Mapper` and `Aligner::Aligner`. -/
def TYPE_MASK : Nat := ((1 <<< TYPE_BITS) - 1) % 256

/-! ## Ranges -/

/-- Modelled from the spec: `Range`, an inclusive interval `[start_, end_]` of
suffix-array indices (`range.hpp` is not among the sources).  The bounds are
integers and the arithmetic on them (`start_ - 1`, `end_ + 1`) is exact. -/
structure Range where
  start_ : Int
  end_ : Int
  deriving DecidableEq, Repr, Inhabited

namespace Range

/-- Modelled from the spec: a range is valid when `start ≤ end`. -/
def is_valid (r : Range) : Bool := decide (r.start_ ≤ r.end_)

/-- Modelled from the spec: the length is `end - start + 1`. -/
def length (r : Range) : Int := r.end_ - r.start_ + 1

/-- Modelled from the spec: the ordering of ranges is lexicographic on
`(start, end)`. -/
def lt (a b : Range) : Bool :=
  decide (a.start_ < b.start_) || (decide (a.start_ = b.start_) && decide (a.end_ < b.end_))

/-- Modelled from the spec: equality of ranges is element-wise. -/
def eq (a b : Range) : Bool := decide (a.start_ = b.start_) && decide (a.end_ = b.end_)

/-- The suffix-array indices `start_, start_ + 1, ..., end_` visited by the loop
`for (u64 s = start_; s <= end_; s++)`. -/
def indices (r : Range) : List Int :=
  (List.range (r.end_ - r.start_ + 1).toNat).map (fun k => r.start_ + (k : Int))

end Range

/-! ## Path buffers -/

/-- The array `win_type_counts_[EventType::NUM_TYPES]` (`path_type_counts_` in
`mapper.cpp`) of `unsigned char` counters, one per event type. -/
structure TypeCounts where
  n_match : Nat
  n_stay : Nat
  n_skip : Nat
  n_ignore : Nat
  deriving DecidableEq, Repr, Inhabited

namespace TypeCounts

/-- The read `counts[i]`; an index beyond the array reads as 0. -/
def get (c : TypeCounts) (i : Nat) : Nat :=
  match i with
  | 0 => c.n_match
  | 1 => c.n_stay
  | 2 => c.n_skip
  | 3 => c.n_ignore
  | _ => 0

/-- The write `counts[i] = v`; an index beyond the array writes nothing. -/
def set (c : TypeCounts) (i : Nat) (v : Nat) : TypeCounts :=
  match i with
  | 0 => { c with n_match := v }
  | 1 => { c with n_stay := v }
  | 2 => { c with n_skip := v }
  | 3 => { c with n_ignore := v }
  | _ => c

/-- The statement `counts[i]++` on an `unsigned char` counter. -/
def incr (c : TypeCounts) (i : Nat) : TypeCounts := c.set i ((c.get i + 1) % 256)

/-- The statement `counts[i]--` on an `unsigned char` counter. -/
def decr (c : TypeCounts) (i : Nat) : TypeCounts := c.set i ((c.get i + 255) % 256)

/-- The sum of the four counters. -/
def total (c : TypeCounts) : Nat := c.n_match + c.n_stay + c.n_skip + c.n_ignore

end TypeCounts

/-- The fields of `Aligner::PathBuffer` and `Mapper::PathBuffer`.
`prob_sums_` is the array of `W + 1` prefix sums owned by the slot;
`total_match_len_` exists in `mapper.cpp` only.  `length_`, `consec_stays_`,
`event_types_` and `kmer_` are unsigned integers whose widths are declared in the
absent headers; they are natural numbers here (the spec describes `length` as
the number of events consumed). -/
structure PathBuffer where
  length_ : Nat
  consec_stays_ : Nat
  event_types_ : Nat
  win_prob_ : ℚ
  fm_range_ : Range
  kmer_ : Nat
  sa_checked_ : Bool
  win_type_counts_ : TypeCounts
  total_match_len_ : Nat
  prob_sums_ : List ℚ
  deriving DecidableEq, Repr, Inhabited

/-- Which of the two translation units a definition follows. -/
inductive Impl where
  | mapper
  | aligner
  deriving DecidableEq, Repr

/-- The width in bits of an entry of `TYPE_ADDS`: `u32` in `mapper.cpp`,
`unsigned long` in `aligner.cpp`. -/
def Impl.type_adds_bits : Impl → Nat
  | .mapper => 32
  | .aligner => 64

/-- The table `TYPE_ADDS[t] = t << ((W - 2) * TYPE_BITS)` filled by the
constructors, `W` being `MAX_PATH_LEN` / `MAX_WIN_LEN`. -/
def TYPE_ADDS (v : Impl) (W : Nat) (t : EventType) : Nat :=
  (t.toNat <<< ((W - 2) * TYPE_BITS)) % 2 ^ v.type_adds_bits

/-- The read `a[i]` of a `float` array; an index beyond the array reads as 0. -/
def rd (a : List ℚ) (i : Nat) : ℚ := a.getD i 0

/-- The call `memcpy(dst, src, n * sizeof(float))`: the first `n` entries of
`dst` are replaced by the first `n` entries of `src`. -/
def memcpy (dst src : List ℚ) (n : Nat) : List ℚ := src.take n ++ dst.drop n

namespace PathBuffer

/-- `PathBuffer::is_valid`. -/
def is_valid (p : PathBuffer) : Bool := decide (p.length_ > 0)

/-- `PathBuffer::invalidate`. -/
def invalidate (p : PathBuffer) : PathBuffer := { p with length_ := 0 }

/-- `PathBuffer::match_len`. -/
def match_len (p : PathBuffer) : Nat := p.win_type_counts_.get EventType.MATCH.toNat

/-- `PathBuffer::type_head`, with `W` the window length. -/
def type_head (W : Nat) (p : PathBuffer) : Nat :=
  (p.event_types_ >>> (TYPE_BITS * (W - 2))) &&& TYPE_MASK

/-- `PathBuffer::type_tail`. -/
def type_tail (p : PathBuffer) : Nat := p.event_types_ &&& TYPE_MASK

/-- `Aligner::PathBuffer::win_full`, with `W` the window length. -/
def win_full (W : Nat) (p : PathBuffer) : Bool := decide (p.length_ > W)

/-- `Aligner::PathBuffer::win_len`. -/
def win_len (W : Nat) (p : PathBuffer) : Nat := if p.win_full W then W else p.length_

/-- The comparison `operator<` on path buffers (mapper.cpp, lines 129-134;
aligner.cpp, lines 213-218). -/
def lt (p1 p2 : PathBuffer) : Bool :=
  p1.fm_range_.lt p2.fm_range_ ||
    (p1.fm_range_.eq p2.fm_range_ && decide (p1.win_prob_ < p2.win_prob_))

end PathBuffer

namespace Mapper

/-- `Mapper::PathBuffer::make_source` (mapper.cpp, lines 46-63).  Only the
`MATCH` and `STAY` counters are written. -/
def make_source (self : PathBuffer) (range : Range) (kmer : Nat) (prob : ℚ) : PathBuffer :=
  { self with
    length_ := 1
    consec_stays_ := 0
    event_types_ := 0
    win_prob_ := prob
    fm_range_ := range
    kmer_ := kmer
    sa_checked_ := false
    win_type_counts_ :=
      (self.win_type_counts_.set EventType.MATCH.toNat 1).set EventType.STAY.toNat 0
    total_match_len_ := 1
    prob_sums_ := (self.prob_sums_.set 0 0).set 1 prob }

/-- `Mapper::PathBuffer::make_child` (mapper.cpp, lines 66-94), with `W` the
value of `MAX_PATH_LEN`.  The length saturates at `W + 1`. -/
def make_child (W : Nat) (self p : PathBuffer) (range : Range) (kmer : Nat) (prob : ℚ)
    (type : EventType) : PathBuffer :=
  let length := p.length_ + (if p.length_ ≤ W then 1 else 0)
  let event_types := TYPE_ADDS .mapper W type ||| (p.event_types_ >>> TYPE_BITS)
  let consec_stays :=
    (p.consec_stays_ + (if type = .STAY then 1 else 0)) * (if type = .STAY then 1 else 0)
  let counts := p.win_type_counts_.incr type.toNat
  let total_match_len := p.total_match_len_ + (if type = .MATCH then 1 else 0)
  if length > W then
    let sums0 := memcpy self.prob_sums_ (p.prob_sums_.drop 1) W
    let sums := sums0.set W (rd sums0 (W - 1) + prob)
    { length_ := length
      consec_stays_ := consec_stays
      event_types_ := event_types
      win_prob_ := (rd sums W - rd sums 0) / (W : ℚ)
      fm_range_ := range
      kmer_ := kmer
      sa_checked_ := p.sa_checked_
      win_type_counts_ := counts.decr p.type_tail
      total_match_len_ := total_match_len
      prob_sums_ := sums }
  else
    let sums0 := memcpy self.prob_sums_ p.prob_sums_ length
    let sums := sums0.set length (rd sums0 (length - 1) + prob)
    { length_ := length
      consec_stays_ := consec_stays
      event_types_ := event_types
      win_prob_ := rd sums length / (length : ℚ)
      fm_range_ := range
      kmer_ := kmer
      sa_checked_ := p.sa_checked_
      win_type_counts_ := counts
      total_match_len_ := total_match_len
      prob_sums_ := sums }

end Mapper

namespace Aligner

/-- `Aligner::PathBuffer::make_source` (aligner.cpp, lines 85-105).  Every
counter other than `MATCH` is cleared. -/
def make_source (self : PathBuffer) (range : Range) (kmer : Nat) (prob : ℚ) : PathBuffer :=
  { self with
    length_ := 1
    consec_stays_ := 0
    event_types_ := 0
    win_prob_ := prob
    fm_range_ := range
    kmer_ := kmer
    sa_checked_ := false
    win_type_counts_ := { n_match := 1, n_stay := 0, n_skip := 0, n_ignore := 0 }
    prob_sums_ := (self.prob_sums_.set 0 0).set 1 prob }

/-- `Aligner::PathBuffer::make_child` (aligner.cpp, lines 108-144), with `W` the
value of `MAX_WIN_LEN`.  The length is incremented without saturation. -/
def make_child (W : Nat) (self p : PathBuffer) (range : Range) (kmer : Nat) (prob : ℚ)
    (type : EventType) : PathBuffer :=
  let length := p.length_ + 1
  let event_types := TYPE_ADDS .aligner W type ||| (p.event_types_ >>> TYPE_BITS)
  let consec_stays := if type = .STAY then p.consec_stays_ + 1 else 0
  if length > W then
    let sums0 := memcpy self.prob_sums_ (p.prob_sums_.drop 1) W
    let sums := sums0.set W (rd sums0 (W - 1) + prob)
    { length_ := length
      consec_stays_ := consec_stays
      event_types_ := event_types
      win_prob_ := (rd sums W - rd sums 0) / (W : ℚ)
      fm_range_ := range
      kmer_ := kmer
      sa_checked_ := p.sa_checked_
      win_type_counts_ := (p.win_type_counts_.decr p.type_tail).incr type.toNat
      total_match_len_ := self.total_match_len_
      prob_sums_ := sums }
  else
    let sums0 := memcpy self.prob_sums_ p.prob_sums_ (length + 1)
    let sums := sums0.set length (rd sums0 (length - 1) + prob)
    { length_ := length
      consec_stays_ := consec_stays
      event_types_ := event_types
      win_prob_ := (rd sums length - rd sums 0) / (length : ℚ)
      fm_range_ := range
      kmer_ := kmer
      sa_checked_ := p.sa_checked_
      win_type_counts_ := p.win_type_counts_.incr type.toNat
      total_match_len_ := self.total_match_len_
      prob_sums_ := sums }

end Aligner

/-- The `make_source` of the chosen translation unit. -/
def make_source (v : Impl) (self : PathBuffer) (range : Range) (kmer : Nat) (prob : ℚ) :
    PathBuffer :=
  match v with
  | .mapper => Mapper.make_source self range kmer prob
  | .aligner => Aligner.make_source self range kmer prob

/-- The `make_child` of the chosen translation unit. -/
def make_child (v : Impl) (W : Nat) (self p : PathBuffer) (range : Range) (kmer : Nat)
    (prob : ℚ) (type : EventType) : PathBuffer :=
  match v with
  | .mapper => Mapper.make_child W self p range kmer prob type
  | .aligner => Aligner.make_child W self p range kmer prob type

/-! ## Threshold policy (`AlnParams`) -/

/-- The data members of `AlnParams` set by its constructor (aligner.cpp, lines
3-43); the reference `model_` to the k-mer model is part of `Env`. -/
structure AlnParams where
  path_win_len_ : Nat
  min_rep_len_ : Nat
  max_rep_copy_ : Nat
  max_paths_ : Nat
  max_stay_frac_ : ℚ
  max_consec_stay_ : Nat
  max_ignores_ : Nat
  max_skips_ : Nat
  evpr_lengths_ : List Nat
  evpr_threshes_ : List ℚ
  window_prob_ : ℚ
  deriving DecidableEq

/-- The offset `pr - evpr_threshes_.begin()` at the end of the loop of
`AlnParams::get_prob_thresh` (aligner.cpp, lines 46-52): the walk over the
boundaries stops at the first one that `fm_length` exceeds. -/
def thresh_pos : List Nat → Nat → Nat
  | [], _ => 0
  | len :: rest, fm_length => if fm_length > len then 0 else thresh_pos rest fm_length + 1

/-- `AlnParams::get_prob_thresh` (aligner.cpp, lines 45-55): the dereference
`*pr`.  A position beyond the table (undefined in C++) reads as 0. -/
def AlnParams.get_prob_thresh (a : AlnParams) (fm_length : Nat) : ℚ :=
  rd a.evpr_threshes_ (thresh_pos a.evpr_lengths_ fm_length)

/-- `AlnParams::get_source_prob` (aligner.cpp, lines 57-59): the front of the
table.  An empty table (undefined in C++) reads as 0. -/
def AlnParams.get_source_prob (a : AlnParams) : ℚ := rd a.evpr_threshes_ 0

/-! ## Parameters and external collaborators -/

/-- One seed handed to the seed tracker (`seed_tracker_.add_seed` in
`mapper.cpp`) or appended to the results (`results.push_back` in `aligner.cpp`).
`ref_end` is `fmi.size() - fmi.sa(s) + 1`, `read_event_end` is the event index
minus `path_ended`, `read_window` and `win_prob` are the further arguments of
the `Result` constructor.  The last two fields are annotations that are not in
the C++ record: the path that emitted the seed and the flag it was emitted
with. -/
structure Seed where
  ref_end : Int
  match_len : Nat
  read_event_end : Int
  read_window : Nat
  win_prob : ℚ
  path : PathBuffer
  path_ended : Bool
  deriving DecidableEq, Inhabited

/-- The collaborators of the path search that are not among the sources: the
k-mer model, the FM-index, the table of full k-mer ranges, the default
constructor of `Range`, the library sort (`pdqsort`, `std::sort`) and the
decision of the seed tracker (`seed_tracker_.get_final().is_valid()`, a function
of the seeds received since the last reset).  Each is taken as a parameter.
K-mers are `u16` values below `kmer_count`; bases are `0, 1, 2, 3`. -/
structure Env where
  kmer_count : Nat
  model_get_neighbor : Nat → Nat → Nat
  model_get_last_base : Nat → Nat
  event_match_prob : ℚ → Nat → ℚ
  fmi_get_neighbor : Range → Nat → Range
  fmi_sa : Int → Nat
  fmi_size : Nat
  kmer_fmranges : Nat → Range
  range_default : Range
  sort : List PathBuffer → List PathBuffer
  seed_tracker_final : List Seed → Bool

/-- The parameters read by the path search: the members of the singleton
`PARAMS` used by `mapper.cpp`, whose class is not among the sources.  The two
threshold accessors are parameters; `AlnParams.params` instantiates them for
`aligner.cpp`. -/
structure Params where
  env : Env
  seed_len : Nat
  min_rep_len : Nat
  max_rep_copy : Nat
  max_paths : Nat
  max_stay_frac : ℚ
  max_consec_stay : Nat
  min_seed_prob : ℚ
  max_events_proc : Nat
  get_prob_thresh : Nat → ℚ
  get_source_prob : ℚ

/-- The parameters as `aligner.cpp` reads them from its `AlnParams` member
(`path_win_len_` for `seed_len`, `window_prob_` for `min_seed_prob`).  The
aligner has no event cap; `max_events_proc` is not read by its code. -/
def AlnParams.params (a : AlnParams) (E : Env) : Params :=
  { env := E
    seed_len := a.path_win_len_
    min_rep_len := a.min_rep_len_
    max_rep_copy := a.max_rep_copy_
    max_paths := a.max_paths_
    max_stay_frac := a.max_stay_frac_
    max_consec_stay := a.max_consec_stay_
    min_seed_prob := a.window_prob_
    max_events_proc := 0
    get_prob_thresh := a.get_prob_thresh
    get_source_prob := a.get_source_prob }

/-! ## The seed predicate and seed emission -/

/-- `Mapper::PathBuffer::is_seed_valid` (mapper.cpp, lines 116-126) and
`Aligner::PathBuffer::should_report` (aligner.cpp, lines 187-198): the same
expression over the two sets of names. -/
def is_seed_valid (P : Params) (p : PathBuffer) (path_ended : Bool) : Bool :=
  (decide (p.fm_range_.length = 1) ||
      (path_ended &&
        decide (p.fm_range_.length ≤ (P.max_rep_copy : Int)) &&
        decide (p.match_len ≥ P.min_rep_len))) &&
    decide (p.length_ ≥ P.seed_len) &&
    (path_ended || decide (p.type_head P.seed_len = EventType.MATCH.toNat)) &&
    (path_ended ||
      decide ((p.win_type_counts_.get EventType.STAY.toNat : ℚ)
        ≤ P.max_stay_frac * (P.seed_len : ℚ))) &&
    decide (p.win_prob_ ≥ P.min_seed_prob)

/-- `Aligner::PathBuffer::should_report`, the name of the seed predicate in
`aligner.cpp`. -/
def should_report (P : Params) (p : PathBuffer) (path_ended : Bool) : Bool :=
  is_seed_valid P p path_ended

/-- `Mapper::update_seeds` (mapper.cpp, lines 603-617) and
`Aligner::check_alignments` (aligner.cpp, lines 530-558): the new contents of
the path and the seeds emitted, in order. -/
def update_seeds (P : Params) (event_i : Nat) (p : PathBuffer) (path_ended : Bool) :
    PathBuffer × List Seed :=
  if is_seed_valid P p path_ended then
    ({ p with sa_checked_ := true },
      p.fm_range_.indices.map (fun s =>
        { ref_end := (P.env.fmi_size : Int) - (P.env.fmi_sa s : Int) + 1
          match_len := p.match_len
          read_event_end := (event_i : Int) - (if path_ended then 1 else 0)
          read_window := P.seed_len
          win_prob := p.win_prob_
          path := p
          path_ended := path_ended }))
  else (p, [])

/-! ## The beam step -/

/-- A `for` loop over `items` whose body may `break`: the body returns the new
state and whether it broke out of the loop. -/
def for_break {α σ : Type} (body : α → σ → σ × Bool) : List α → σ → σ
  | [], s => s
  | a :: rest, s =>
    match body a s with
    | (s1, true) => s1
    | (s1, false) => for_break body rest s1

/-- The buffer `l` after slot `n` has been rewritten in place by `f`; a slot
beyond the buffer leaves it unchanged. -/
def modify_at {α : Type} (f : α → α) : Nat → List α → List α
  | _, [] => []
  | 0, a :: l => f a :: l
  | n + 1, a :: l => a :: modify_at f n l

/-- The variables that `add_event` works on: the two path buffers and the
`sources_added_` bitmap of the driver, the cursor `next_path` (as the offset
`next_path - next_paths_.begin()`) and the seeds emitted so far in this step.
`overrun` is an annotation that is not in the C++ code: it records that a slot
at or beyond `next_paths_.end()` was written. -/
structure Beam where
  prev_paths_ : List PathBuffer
  next_paths_ : List PathBuffer
  sources_added_ : Nat → Bool
  next_path : Nat
  seeds : List Seed
  overrun : Bool

namespace Beam

/-- The test `next_path == next_paths_.end()`. -/
def at_end (bm : Beam) : Bool := decide (bm.next_path = bm.next_paths_.length)

/-- A write `next_path->make_child(...)` or `next_path->make_source(...)`: the
slot under the cursor is rewritten by `f`. -/
def emplace (bm : Beam) (f : PathBuffer → PathBuffer) : Beam :=
  { bm with
    next_paths_ := modify_at f bm.next_path bm.next_paths_
    overrun := bm.overrun || decide (bm.next_paths_.length ≤ bm.next_path) }

/-- The increment `next_path++`. -/
def advance (bm : Beam) : Beam := { bm with next_path := bm.next_path + 1 }

/-- The write `sources_added_[kmer] = flag`. -/
def set_added (bm : Beam) (kmer : Nat) (flag : Bool) : Beam :=
  { bm with sources_added_ := Function.update bm.sources_added_ kmer flag }

/-- The beam after slot `i` of `next_paths_` has been rewritten in place by `f`
and the seeds `seeds` have been emitted. -/
def settle_at (bm : Beam) (i : Nat) (f : PathBuffer → PathBuffer) (seeds : List Seed) : Beam :=
  { bm with
    next_paths_ := modify_at f i bm.next_paths_
    seeds := bm.seeds ++ seeds }

/-- The read `prev_paths_[pi]`. -/
def prev_at (bm : Beam) (pi : Nat) : PathBuffer := bm.prev_paths_.getD pi default

/-- The read `next_paths_[i]`. -/
def next_at (bm : Beam) (i : Nat) : PathBuffer := bm.next_paths_.getD i default

end Beam

/-- The base handed to `fmi.get_neighbor`: the loop variable `b` in `mapper.cpp`
(line 426), `model_.get_last_base(next_kmer)` in `aligner.cpp` (lines 348-354). -/
def neighbor_base (v : Impl) (E : Env) (next_kmer b : Nat) : Nat :=
  match v with
  | .mapper => b
  | .aligner => E.model_get_last_base next_kmer

/-- Modelled from the spec: `ALPH_SIZE`, the number of bases (the literal 4 in
`aligner.cpp`). -/
def ALPH_SIZE : Nat := 4

/-- The body of the loop "Add all the neighbors" (mapper.cpp, lines 419-448;
aligner.cpp, lines 338-375) for base `b`.  The state is the beam and
`child_found`; the result says whether the loop was left by `break`. -/
def add_neighbor (P : Params) (v : Impl) (kmer_probs : Nat → ℚ) (prev_path : PathBuffer)
    (evpr_thresh : ℚ) (b : Nat) (st : Beam × Bool) : (Beam × Bool) × Bool :=
  let next_kmer := P.env.model_get_neighbor prev_path.kmer_ b
  if kmer_probs next_kmer < evpr_thresh then (st, false)
  else
    let next_range := P.env.fmi_get_neighbor prev_path.fm_range_ (neighbor_base v P.env next_kmer b)
    if next_range.is_valid = false then (st, false)
    else
      let bm := (st.1.emplace (fun slot =>
        make_child v P.seed_len slot prev_path next_range next_kmer (kmer_probs next_kmer)
          .MATCH)).advance
      ((bm, true), bm.at_end)

/-- The call `update_seeds(prev_paths_[pi], true)` of the first loop: the flag
`sa_checked_` of the path is updated in place and its seeds are emitted. -/
def end_path (P : Params) (event_i pi : Nat) (bm : Beam) : Beam :=
  { bm with
    prev_paths_ := modify_at (fun p => (update_seeds P event_i p true).1) pi bm.prev_paths_
    seeds := bm.seeds ++ (update_seeds P event_i (bm.prev_at pi) true).2 }

/-- The body of the loop "Find neighbors of previous nodes" (mapper.cpp, lines
385-465; aligner.cpp, lines 299-392) for the index `pi`; the result says whether
the loop was left by `break`. -/
def extend_prev (P : Params) (v : Impl) (kmer_probs : Nat → ℚ) (event_i : Nat) (pi : Nat)
    (bm : Beam) : Beam × Bool :=
  let prev_path := bm.prev_at pi
  if prev_path.is_valid = false then (bm, false)
  else
    let evpr_thresh := P.get_prob_thresh prev_path.fm_range_.length.toNat
    let stay := decide (prev_path.consec_stays_ < P.max_consec_stay) &&
      decide (kmer_probs prev_path.kmer_ ≥ evpr_thresh)
    let bm1 :=
      if stay then
        (bm.emplace (fun slot =>
          make_child v P.seed_len slot prev_path prev_path.fm_range_ prev_path.kmer_
            (kmer_probs prev_path.kmer_) .STAY)).advance
      else bm
    if stay && bm1.at_end then (bm1, true)
    else
      let st2 := for_break (add_neighbor P v kmer_probs prev_path evpr_thresh)
        (List.range ALPH_SIZE) (bm1, stay)
      let bm3 :=
        if !st2.2 && !prev_path.sa_checked_ then end_path P event_i pi st2.1 else st2.1
      (bm3, bm3.at_end)

/-- The first loop of `add_event`: every index `pi < prev_size_` in order. -/
def phase1 (P : Params) (v : Impl) (kmer_probs : Nat → ℚ) (event_i prev_size : Nat)
    (bm : Beam) : Beam :=
  for_break (extend_prev P v kmer_probs event_i) (List.range prev_size) bm

/-- The local variables of the block "Create sources between gaps" next to the
beam: `prev_kmer` and `unchecked_range`. -/
structure SrcState where
  bm : Beam
  prev_kmer : Nat
  unchecked_range : Range

/-- The statements `if (source_range.is_valid()) { next_path->make_source(...);
next_path++; }`. -/
def add_source (v : Impl) (kmer_probs : Nat → ℚ) (bm : Beam) (source_range : Range)
    (source_kmer : Nat) : Beam :=
  if source_range.is_valid then
    (bm.emplace (fun slot =>
      make_source v slot source_range source_kmer (kmer_probs source_kmer))).advance
  else bm

/-- The call `update_seeds(next_paths_[i], false)` of the second loop. -/
def report_path (P : Params) (event_i i : Nat) (bm : Beam) : Beam :=
  bm.settle_at i (fun p => (update_seeds P event_i p false).1)
    (update_seeds P event_i (bm.next_at i) false).2

/-- The statement `next_paths_[i].invalidate()` of the second loop. -/
def invalidate_at (i : Nat) (bm : Beam) : Beam := bm.settle_at i PathBuffer.invalidate []

/-- The block "Add source for beginning of kmer range" of the second loop
(mapper.cpp, lines 483-508; aligner.cpp, lines 417-440) for the index `i`,
together with the assignment `prev_kmer = source_kmer` that follows it. -/
def left_source (P : Params) (v : Impl) (kmer_probs : Nat → ℚ) (i : Nat) (st : SrcState) :
    SrcState :=
  let source_kmer := (st.bm.next_at i).kmer_
  if decide (source_kmer ≠ st.prev_kmer) && !st.bm.at_end &&
      decide (kmer_probs source_kmer ≥ P.get_source_prob) then
    let bm1 := add_source v kmer_probs (st.bm.set_added source_kmer true)
      { start_ := (P.env.kmer_fmranges source_kmer).start_
        end_ := (st.bm.next_at i).fm_range_.start_ - 1 }
      source_kmer
    { bm := bm1
      prev_kmer := source_kmer
      unchecked_range :=
        { start_ := (bm1.next_at i).fm_range_.end_ + 1
          end_ := (P.env.kmer_fmranges source_kmer).end_ } }
  else { st with prev_kmer := source_kmer }

/-- The block "Start source after current path" of the second loop (mapper.cpp,
lines 519-548; aligner.cpp, lines 451-475) for the index `i` and the k-mer
`source_kmer` of the child at that index. -/
def after_source (P : Params) (v : Impl) (kmer_probs : Nat → ℚ) (next_size i source_kmer : Nat)
    (st : SrcState) : SrcState :=
  if !st.bm.at_end && decide (kmer_probs source_kmer ≥ P.get_source_prob) then
    let between := decide (i < next_size - 1) &&
      decide (source_kmer = (st.bm.next_at (i + 1)).kmer_)
    let source_range : Range :=
      if between then
        { st.unchecked_range with end_ := (st.bm.next_at (i + 1)).fm_range_.start_ - 1 }
      else st.unchecked_range
    let unchecked_range : Range :=
      if between &&
          decide (st.unchecked_range.start_ ≤ (st.bm.next_at (i + 1)).fm_range_.end_) then
        { st.unchecked_range with start_ := (st.bm.next_at (i + 1)).fm_range_.end_ + 1 }
      else st.unchecked_range
    { bm := add_source v kmer_probs st.bm source_range source_kmer
      prev_kmer := st.prev_kmer
      unchecked_range := unchecked_range }
  else st

/-- The body of the loop over the sorted children (mapper.cpp, lines 480-551;
aligner.cpp, lines 413-486) for the index `i`: the left source, the removal of
a path whose range is repeated by the next one (`continue`), the source after
the path, and the seed report. -/
def source_step (P : Params) (v : Impl) (kmer_probs : Nat → ℚ) (event_i next_size : Nat)
    (st : SrcState) (i : Nat) : SrcState :=
  let source_kmer := (st.bm.next_at i).kmer_
  let st1 := left_source P v kmer_probs i st
  if decide (i < next_size - 1) &&
      (st1.bm.next_at i).fm_range_.eq (st1.bm.next_at (i + 1)).fm_range_ then
    { st1 with bm := invalidate_at i st1.bm }
  else
    let st2 := after_source P v kmer_probs next_size i source_kmer st1
    { st2 with bm := report_path P event_i i st2.bm }

/-- The call `pdqsort(next_paths_.begin(), next_path)` (`std::sort` in
`aligner.cpp`): the slots below the cursor are sorted in place. -/
def sort_children (P : Params) (bm : Beam) : Beam :=
  { bm with
    next_paths_ :=
      P.env.sort (bm.next_paths_.take bm.next_path) ++ bm.next_paths_.drop bm.next_path }

/-- The state of the second loop after the indices below `i` have been visited,
from the beam `bmS` that holds the `next_size` sorted children.  `prev_kmer` is
a `u16` initialised with `kmer_count()`; `unchecked_range` is default
constructed. -/
def loop2_upto (P : Params) (v : Impl) (kmer_probs : Nat → ℚ) (event_i next_size : Nat)
    (bmS : Beam) (i : Nat) : SrcState :=
  (List.range i).foldl (source_step P v kmer_probs event_i next_size)
    { bm := bmS
      prev_kmer := P.env.kmer_count % 65536
      unchecked_range := P.env.range_default }

/-- The block "Create sources between gaps" (mapper.cpp, lines 468-552;
aligner.cpp, lines 398-487): if the first loop wrote any child, the children
are sorted in place, then visited in order. -/
def phase2 (P : Params) (v : Impl) (kmer_probs : Nat → ℚ) (event_i : Nat) (bm : Beam) : Beam :=
  if bm.next_path ≠ 0 then
    (loop2_upto P v kmer_probs event_i bm.next_path (sort_children P bm) bm.next_path).bm
  else bm

/-- One round of the last loop of `add_event` (mapper.cpp, lines 554-577;
aligner.cpp, lines 493-513) for the k-mer `kmer`: the loop condition
`next_path != next_paths_.end()`, then the body. -/
def full_source (P : Params) (v : Impl) (kmer_probs : Nat → ℚ) (kmer : Nat) (bm : Beam) :
    Beam × Bool :=
  if bm.at_end then (bm, true)
  else
    let next_range := P.env.kmer_fmranges kmer
    if !bm.sources_added_ kmer && decide (kmer_probs kmer ≥ P.get_source_prob) &&
        !bm.at_end && next_range.is_valid then
      ((bm.emplace (fun slot => make_source v slot next_range kmer (kmer_probs kmer))).advance,
        false)
    else (bm.set_added kmer false, false)

/-- The last loop of `add_event`: every k-mer below `kmer_count()` in order,
until the buffer is full. -/
def phase3 (P : Params) (v : Impl) (kmer_probs : Nat → ℚ) (bm : Beam) : Beam :=
  for_break (full_source P v kmer_probs) (List.range P.env.kmer_count) bm

/-- The beam at the start of `add_event`: the cursor is at
`next_paths_.begin()`. -/
def Beam.start (prev_paths next_paths : List PathBuffer) (sources_added : Nat → Bool) : Beam :=
  { prev_paths_ := prev_paths
    next_paths_ := next_paths
    sources_added_ := sources_added
    next_path := 0
    seeds := []
    overrun := false }

/-- The three loops of `add_event` in sequence (the BeamStep of the spec),
before the buffers are swapped. -/
def beam_step (P : Params) (v : Impl) (kmer_probs : Nat → ℚ) (event_i prev_size : Nat)
    (bm : Beam) : Beam :=
  phase3 P v kmer_probs (phase2 P v kmer_probs event_i (phase1 P v kmer_probs event_i prev_size bm))

/-! ## The drivers -/

/-- Modelled from the spec: `Mapper::State` (declared in `mapper.hpp`). -/
inductive State where
  | INACTIVE
  | MAPPING
  | SUCCESS
  | FAILURE
  deriving DecidableEq, Repr

/-- The data members of `Mapper` that `add_event` reads or writes.
`seed_tracker_` is the list of the seeds handed to the seed tracker since its
last reset, oldest first. -/
structure Mapper where
  prev_paths_ : List PathBuffer
  next_paths_ : List PathBuffer
  sources_added_ : Nat → Bool
  prev_size_ : Nat
  event_i_ : Nat
  state_ : State
  reset_ : Bool
  seed_tracker_ : List Seed

/-- The beam step that `Mapper::add_event` runs on the driver `m` for the event
mean `event` (mapper.cpp, lines 378-577); `kmer_probs_` is filled from the
event by `model.event_match_prob`. -/
def Mapper.step (P : Params) (m : Mapper) (event : ℚ) : Beam :=
  beam_step P .mapper (P.env.event_match_prob event) m.event_i_ m.prev_size_
    (Beam.start m.prev_paths_ m.next_paths_ m.sources_added_)

/-- `Mapper::add_event` (mapper.cpp, lines 365-601): the new driver and the
returned flag. -/
def Mapper.add_event (P : Params) (m : Mapper) (event : ℚ) : Mapper × Bool :=
  if m.reset_ || decide (m.event_i_ ≥ P.max_events_proc) then
    ({ m with state_ := .FAILURE }, true)
  else
    let bm := Mapper.step P m event
    let m1 : Mapper :=
      { m with
        prev_size_ := bm.next_path
        prev_paths_ := bm.next_paths_
        next_paths_ := bm.prev_paths_
        sources_added_ := bm.sources_added_
        event_i_ := m.event_i_ + 1
        seed_tracker_ := m.seed_tracker_ ++ bm.seeds }
    if P.env.seed_tracker_final m1.seed_tracker_ then ({ m1 with state_ := .SUCCESS }, true)
    else (m1, false)

/-- The data members of `Aligner` that `add_event` reads or writes. -/
structure Aligner where
  prev_paths_ : List PathBuffer
  next_paths_ : List PathBuffer
  sources_added_ : Nat → Bool
  prev_size_ : Nat
  cur_event_ : Nat

/-- The beam step that `Aligner::add_event` runs on the driver `a` for the
probability vector `kmer_probs` (aligner.cpp, lines 294-513). -/
def Aligner.step (P : Params) (a : Aligner) (kmer_probs : Nat → ℚ) : Beam :=
  beam_step P .aligner kmer_probs a.cur_event_ a.prev_size_
    (Beam.start a.prev_paths_ a.next_paths_ a.sources_added_)

/-- `Aligner::add_event` (aligner.cpp, lines 275-528): the new driver and the
returned vector `results`. -/
def Aligner.add_event (P : Params) (a : Aligner) (kmer_probs : Nat → ℚ) :
    Aligner × List Seed :=
  let bm := Aligner.step P a kmer_probs
  ({ prev_size_ := bm.next_path
     prev_paths_ := bm.next_paths_
     next_paths_ := bm.prev_paths_
     sources_added_ := bm.sources_added_
     cur_event_ := a.cur_event_ + 1 }, bm.seeds)

/-! ## Paths built from a source -/

/-- One extension of a path: the arguments `(range, kmer, prob, type)` of a
`make_child` call together with the old contents of the slot that receives the
child. -/
structure Ext where
  slot : PathBuffer
  range : Range
  kmer : Nat
  prob : ℚ
  type : EventType

/-- The path obtained by `make_source` into `slot0` followed by one `make_child`
per entry of `exts`, each child being made from the previous path. -/
def build_path (v : Impl) (W : Nat) (slot0 : PathBuffer) (range0 : Range) (kmer0 : Nat)
    (p1 : ℚ) (exts : List Ext) : PathBuffer :=
  exts.foldl (fun p e => make_child v W e.slot p e.range e.kmer e.prob e.type)
    (make_source v slot0 range0 kmer0 p1)

/-- The probabilities `p1, p2, ..., pn` of the events of a path, oldest first. -/
def path_probs (p1 : ℚ) (exts : List Ext) : List ℚ := p1 :: exts.map (fun e => e.prob)

/-- The mean of the last `min n W` entries of a list of `n` probabilities. -/
def window_mean (W : Nat) (probs : List ℚ) : ℚ :=
  (probs.drop (probs.length - min probs.length W)).sum / ((min probs.length W : Nat) : ℚ)

/-! ## Auxiliary definitions for the proofs -/

/-- The sum of the first `i` probabilities. -/
def psum (probs : List ℚ) (i : Nat) : ℚ := (probs.take i).sum

/-- The prefix sums written by a `make_child` that slides the window. -/
def slide_arr (slot p : List ℚ) (W : Nat) (prob : ℚ) : List ℚ :=
  (memcpy slot (p.drop 1) W).set W (rd (memcpy slot (p.drop 1) W) (W - 1) + prob)

/-- The prefix sums written by a `make_child` whose window is not yet full:
`k` entries are copied and entry `len` is written. -/
def grow_arr (slot p : List ℚ) (k len : Nat) (prob : ℚ) : List ℚ :=
  (memcpy slot p k).set len (rd (memcpy slot p k) (len - 1) + prob)

/-- The window invariant of a path that has consumed the events whose
probabilities are `probs`, oldest first: entry `i` of `prob_sums_` is the sum of
the probabilities up to the `i`-th event of the window. -/
structure WinInv (v : Impl) (W : Nat) (p : PathBuffer) (probs : List ℚ) : Prop where
  len_sums : p.prob_sums_.length = W + 1
  pos : 1 ≤ probs.length
  len : p.length_ = match v with
    | .mapper => min probs.length (W + 1)
    | .aligner => probs.length
  sums : ∀ i, i ≤ min probs.length W →
    rd p.prob_sums_ i = psum probs (probs.length - min probs.length W + i)
  prob : p.win_prob_ = window_mean W probs

/-! ## Concrete inputs for the witnesses -/

/-- A slot as the constructor leaves it for `W = 2`: length 0 and an array of
three prefix sums. -/
def slot_w2 : PathBuffer := { (default : PathBuffer) with prob_sums_ := [0, 0, 0] }

/-- Three extensions with probabilities 1/4, 1/8 and 1/2. -/
def exts_w2 : List Ext :=
  [ { slot := slot_w2, range := ⟨3, 4⟩, kmer := 1, prob := 1 / 4, type := .MATCH },
    { slot := slot_w2, range := ⟨3, 4⟩, kmer := 1, prob := 1 / 8, type := .STAY },
    { slot := slot_w2, range := ⟨3, 3⟩, kmer := 2, prob := 1 / 2, type := .MATCH } ]

/-- A threshold policy with two boundaries and three thresholds. -/
def aln_two_buckets : AlnParams :=
  { path_win_len_ := 4, min_rep_len_ := 3, max_rep_copy_ := 3, max_paths_ := 16,
    max_stay_frac_ := 1 / 2, max_consec_stay_ := 2, max_ignores_ := 0, max_skips_ := 0,
    evpr_lengths_ := [10, 5], evpr_threshes_ := [1 / 10, 1 / 5, 3 / 10],
    window_prob_ := 1 / 2 }


/-! ## Provenance of the slots written by a beam step -/

/-- The threshold `evpr_thresh` that the first loop computes for a path of
`prev_paths_`. -/
def evpr_thresh_of (P : Params) (prev_path : PathBuffer) : ℚ :=
  P.get_prob_thresh prev_path.fm_range_.length.toNat

/-- The path `c` is a child that the first loop of `add_event` makes from
`parent` in a slot whose old contents are `slot`: a STAY child, made under the
guard of mapper.cpp lines 399-400, or a MATCH child for a base `b`, made after
the two `continue` tests of lines 422-430. -/
inductive Child (P : Params) (v : Impl) (kmer_probs : Nat → ℚ) (parent slot : PathBuffer) :
    PathBuffer → Prop
  | stay :
      parent.consec_stays_ < P.max_consec_stay →
      kmer_probs parent.kmer_ ≥ evpr_thresh_of P parent →
      Child P v kmer_probs parent slot
        (make_child v P.seed_len slot parent parent.fm_range_ parent.kmer_
          (kmer_probs parent.kmer_) .STAY)
  | mtch (b : Nat) :
      b < ALPH_SIZE →
      ¬ kmer_probs (P.env.model_get_neighbor parent.kmer_ b) < evpr_thresh_of P parent →
      (P.env.fmi_get_neighbor parent.fm_range_
        (neighbor_base v P.env (P.env.model_get_neighbor parent.kmer_ b) b)).is_valid = true →
      Child P v kmer_probs parent slot
        (make_child v P.seed_len slot parent
          (P.env.fmi_get_neighbor parent.fm_range_
            (neighbor_base v P.env (P.env.model_get_neighbor parent.kmer_ b) b))
          (P.env.model_get_neighbor parent.kmer_ b)
          (kmer_probs (P.env.model_get_neighbor parent.kmer_ b)) .MATCH)

/-- The invariant of the first loop of `add_event`, relating the beam `bm` to
the beam `bm0` at the start of the step: the buffers keep their sizes, the
cursor stays inside the buffer, no slot beyond the buffer was written, the
slots from the cursor on are untouched, every slot below the cursor holds a
child of a valid path of `prev_paths_`, and `prev_paths_` changes by the flag
`sa_checked_` only. -/
structure P1Inv (P : Params) (v : Impl) (kmer_probs : Nat → ℚ) (prev_size : Nat)
    (bm0 bm : Beam) : Prop where
  len_next : bm.next_paths_.length = bm0.next_paths_.length
  len_prev : bm.prev_paths_.length = bm0.prev_paths_.length
  cursor_le : bm.next_path ≤ bm.next_paths_.length
  safe : bm.overrun = false
  srcs : bm.sources_added_ = bm0.sources_added_
  stale : ∀ j, bm.next_path ≤ j → bm.next_at j = bm0.next_at j
  child : ∀ i, i < bm.next_path → ∃ pi, pi < prev_size ∧
    (bm0.prev_at pi).is_valid = true ∧
    Child P v kmer_probs (bm0.prev_at pi) (bm0.next_at i) (bm.next_at i)
  prev : ∀ j, bm.prev_at j = bm0.prev_at j ∨
    bm.prev_at j = { bm0.prev_at j with sa_checked_ := true }
  seeds : ∀ s ∈ bm.seeds, s ∈ bm0.seeds ∨
    (s.path_ended = true ∧ is_seed_valid P s.path true = true ∧
      ∃ pi, pi < prev_size ∧ s.path = bm0.prev_at pi)


/-- The contract of the library sort (`pdqsort`, `std::sort`) with the
comparison `operator<`: the result is a rearrangement of the input in which no
element is less than an earlier one. -/
def IsSort (sort : List PathBuffer → List PathBuffer) : Prop :=
  ∀ l, (sort l).Perm l ∧ (sort l).Pairwise (fun a b => PathBuffer.lt b a = false)

/-- The path `c` is a source made by `make_source` in a slot whose old contents
are `slot`, for a k-mer whose probability clears the source threshold and a
valid range. -/
def IsSource (P : Params) (v : Impl) (kmer_probs : Nat → ℚ) (slot c : PathBuffer) : Prop :=
  ∃ range kmer, c = make_source v slot range kmer (kmer_probs kmer) ∧
    range.is_valid = true ∧ kmer_probs kmer ≥ P.get_source_prob

/-- The contents of slot `j` of the sorted children `S` once the second loop has
visited it: invalidated if the next child has the same range, else passed to
`update_seeds`. -/
def settle (P : Params) (event_i n : Nat) (S : Nat → PathBuffer) (j : Nat) : PathBuffer :=
  if j < n - 1 ∧ (S j).fm_range_.eq (S (j + 1)).fm_range_ = true then (S j).invalidate
  else (update_seeds P event_i (S j) false).1

/-- The invariant of the second loop of `add_event` before index `i`, relating
the beam `bm` to the beam `bmS` that holds the `n` sorted children: the children
from `i` on are untouched, the children below `i` are settled, the slots from
`n` to the cursor hold sources for k-mers of children, and the slots from the
cursor on are untouched. -/
structure P2Inv (P : Params) (v : Impl) (kmer_probs : Nat → ℚ) (event_i n : Nat)
    (bmS : Beam) (i : Nat) (bm : Beam) : Prop where
  len_next : bm.next_paths_.length = bmS.next_paths_.length
  prev : bm.prev_paths_ = bmS.prev_paths_
  cursor_ge : n ≤ bm.next_path
  cursor_le : bm.next_path ≤ bm.next_paths_.length
  safe : bm.overrun = false
  todo : ∀ j, i ≤ j → j < n → bm.next_at j = bmS.next_at j
  done : ∀ j, j < i → bm.next_at j = settle P event_i n bmS.next_at j
  stale : ∀ j, bm.next_path ≤ j → bm.next_at j = bmS.next_at j
  srcs : ∀ j, n ≤ j → j < bm.next_path →
    IsSource P v kmer_probs (bmS.next_at j) (bm.next_at j) ∧
      ∃ c, c < n ∧ (bm.next_at j).kmer_ = (bmS.next_at c).kmer_
  seeds : ∀ s ∈ bm.seeds, s ∈ bmS.seeds ∨
    (s.path_ended = false ∧ is_seed_valid P s.path false = true ∧
      ∃ c, c < n ∧ s.path = bmS.next_at c)
  added : ∀ k, bm.sources_added_ k = true → bmS.sources_added_ k = true ∨
    ∃ c, c < n ∧ (bmS.next_at c).kmer_ = k ∧ kmer_probs k ≥ P.get_source_prob


/-! ## The sources of the second loop as a function of the sorted children -/

/-- The part of the state of the second loop that decides which sources are
made: the sources made so far (range and k-mer, in order), `prev_kmer` and
`unchecked_range`. -/
structure Plan where
  srcs : List (Range × Nat)
  prev_kmer : Nat
  unchecked_range : Range

/-- The effect of `add_source` on the list of sources. -/
def plan_add (srcs : List (Range × Nat)) (r : Range) (k : Nat) : List (Range × Nat) :=
  if r.is_valid then srcs ++ [(r, k)] else srcs

/-- The effect of `left_source` on the plan, for `n` sorted children `S` in a
buffer of `cap` slots: the buffer is full when `n` plus the number of sources
reaches `cap`. -/
def plan_left (P : Params) (kmer_probs : Nat → ℚ) (n cap : Nat) (S : Nat → PathBuffer)
    (i : Nat) (pl : Plan) : Plan :=
  let source_kmer := (S i).kmer_
  if decide (source_kmer ≠ pl.prev_kmer) && !decide (n + pl.srcs.length = cap) &&
      decide (kmer_probs source_kmer ≥ P.get_source_prob) then
    { srcs := plan_add pl.srcs
        { start_ := (P.env.kmer_fmranges source_kmer).start_
          end_ := (S i).fm_range_.start_ - 1 } source_kmer
      prev_kmer := source_kmer
      unchecked_range :=
        { start_ := (S i).fm_range_.end_ + 1
          end_ := (P.env.kmer_fmranges source_kmer).end_ } }
  else { pl with prev_kmer := source_kmer }

/-- The effect of `after_source` on the plan. -/
def plan_after (P : Params) (kmer_probs : Nat → ℚ) (n cap : Nat) (S : Nat → PathBuffer)
    (i : Nat) (pl : Plan) : Plan :=
  let source_kmer := (S i).kmer_
  if !decide (n + pl.srcs.length = cap) &&
      decide (kmer_probs source_kmer ≥ P.get_source_prob) then
    let between := decide (i < n - 1) && decide (source_kmer = (S (i + 1)).kmer_)
    { srcs := plan_add pl.srcs
        (if between then
          { pl.unchecked_range with end_ := (S (i + 1)).fm_range_.start_ - 1 }
        else pl.unchecked_range) source_kmer
      prev_kmer := pl.prev_kmer
      unchecked_range :=
        if between && decide (pl.unchecked_range.start_ ≤ (S (i + 1)).fm_range_.end_) then
          { pl.unchecked_range with start_ := (S (i + 1)).fm_range_.end_ + 1 }
        else pl.unchecked_range }
  else pl

/-- The effect of `source_step` on the plan. -/
def plan_step (P : Params) (kmer_probs : Nat → ℚ) (n cap : Nat) (S : Nat → PathBuffer)
    (pl : Plan) (i : Nat) : Plan :=
  if decide (i < n - 1) && (S i).fm_range_.eq (S (i + 1)).fm_range_ then
    plan_left P kmer_probs n cap S i pl
  else plan_after P kmer_probs n cap S i (plan_left P kmer_probs n cap S i pl)

/-- The plan after the second loop has visited the children below `i`. -/
def plan_upto (P : Params) (kmer_probs : Nat → ℚ) (n cap : Nat) (S : Nat → PathBuffer)
    (i : Nat) : Plan :=
  (List.range i).foldl (plan_step P kmer_probs n cap S)
    { srcs := []
      prev_kmer := P.env.kmer_count % 65536
      unchecked_range := P.env.range_default }

/-- The slots of the beam `bm` from `n` to the cursor hold the sources `srcs`,
in order, each made in the slot as it was in `bmS`. -/
def SimSlots (v : Impl) (kmer_probs : Nat → ℚ) (n : Nat) (bmS bm : Beam)
    (srcs : List (Range × Nat)) : Prop :=
  bm.next_path = n + srcs.length ∧
    ∀ t r k, srcs[t]? = some (r, k) →
      bm.next_at (n + t) = make_source v (bmS.next_at (n + t)) r k (kmer_probs k)

/-- The state `st` of the second loop agrees with the plan `pl`. -/
structure Sim (v : Impl) (kmer_probs : Nat → ℚ) (n : Nat) (bmS : Beam) (st : SrcState)
    (pl : Plan) : Prop where
  kmer : st.prev_kmer = pl.prev_kmer
  unchecked : st.unchecked_range = pl.unchecked_range
  slots : SimSlots v kmer_probs n bmS st.bm pl.srcs

/-! ## The last loop and the whole step -/

/-- The invariant of the last loop of `add_event`, relating the beam `bm` to the
beam `bm2` left by the second loop: the slots below the old cursor are
untouched, the slots from the old cursor to the cursor hold sources over the
full range of a k-mer whose flag in `sources_added_` was clear, and a flag is
never set. -/
structure P3Inv (P : Params) (v : Impl) (kmer_probs : Nat → ℚ) (bm2 bm : Beam) : Prop where
  len_next : bm.next_paths_.length = bm2.next_paths_.length
  prev : bm.prev_paths_ = bm2.prev_paths_
  cursor_ge : bm2.next_path ≤ bm.next_path
  cursor_le : bm.next_path ≤ bm.next_paths_.length
  safe : bm.overrun = false
  old : ∀ j, j < bm2.next_path → bm.next_at j = bm2.next_at j
  stale : ∀ j, bm.next_path ≤ j → bm.next_at j = bm2.next_at j
  srcs : ∀ j, bm2.next_path ≤ j → j < bm.next_path →
    IsSource P v kmer_probs (bm2.next_at j) (bm.next_at j) ∧
      (bm.next_at j).kmer_ < P.env.kmer_count ∧
      (bm.next_at j).fm_range_ = P.env.kmer_fmranges (bm.next_at j).kmer_ ∧
      bm2.sources_added_ (bm.next_at j).kmer_ = false ∧
      ∀ j2, j < j2 → j2 < bm.next_path → (bm.next_at j).kmer_ < (bm.next_at j2).kmer_
  seeds : bm.seeds = bm2.seeds
  added : ∀ k, bm.sources_added_ k = true → bm2.sources_added_ k = true

/-- The path `c` is a path `q` up to the marks that the second loop leaves on a
child: `c` is `q` itself, or `q` invalidated, or `q` with `sa_checked_` set. -/
def Marked (q c : PathBuffer) : Prop :=
  c = q ∨ c = q.invalidate ∨ c = { q with sa_checked_ := true }

/-- The path `c` was written by the beam step from the beam `bm0`: it is, up to
marks, a child of a valid path among the first `prev_size` slots of
`prev_paths_`, or a source. -/
def Written (P : Params) (v : Impl) (kmer_probs : Nat → ℚ) (prev_size : Nat) (bm0 : Beam)
    (c : PathBuffer) : Prop :=
  ∃ q, Marked q c ∧
    ((∃ pi slot, pi < prev_size ∧ (bm0.prev_at pi).is_valid = true ∧
        Child P v kmer_probs (bm0.prev_at pi) slot q) ∨
      ∃ slot, IsSource P v kmer_probs slot q)


/-- What a beam step guarantees about the beam `bm` it leaves, relative to the
beam `bm0` it started from: the buffers keep their sizes, the cursor is inside
the buffer and no slot beyond the buffer was written, the slots from the cursor
on are untouched and the slots below it were written by the step,
`prev_paths_` changed by the flag `sa_checked_` only, and every seed emitted
passed the seed predicate, with `path_ended` set for a path of `prev_paths_`
and clear for a child. -/
structure StepInv (P : Params) (v : Impl) (kmer_probs : Nat → ℚ) (prev_size : Nat)
    (bm0 bm : Beam) : Prop where
  len_next : bm.next_paths_.length = bm0.next_paths_.length
  len_prev : bm.prev_paths_.length = bm0.prev_paths_.length
  cursor_le : bm.next_path ≤ bm.next_paths_.length
  safe : bm.overrun = false
  stale : ∀ j, bm.next_path ≤ j → bm.next_at j = bm0.next_at j
  written : ∀ j, j < bm.next_path → Written P v kmer_probs prev_size bm0 (bm.next_at j)
  prev : ∀ j, bm.prev_at j = bm0.prev_at j ∨
    bm.prev_at j = { bm0.prev_at j with sa_checked_ := true }
  seeds : ∀ s ∈ bm.seeds, s ∈ bm0.seeds ∨
    (is_seed_valid P s.path s.path_ended = true ∧
      ((s.path_ended = true ∧ ∃ pi, pi < prev_size ∧ s.path = bm0.prev_at pi) ∨
        (s.path_ended = false ∧ ∃ pi slot, pi < prev_size ∧
          (bm0.prev_at pi).is_valid = true ∧
          Child P v kmer_probs (bm0.prev_at pi) slot s.path)))


/-- The seeds of `bm2` are the seeds of `bm` followed by seeds emitted by
`update_seeds`: the path of each passed the seed predicate with the flag
recorded in the seed, and the seed carries the window mean of its path. -/
def SeedsExt (P : Params) (bm bm2 : Beam) : Prop :=
  ∃ extra, bm2.seeds = bm.seeds ++ extra ∧
    ∀ s ∈ extra, is_seed_valid P s.path s.path_ended = true ∧ s.win_prob = s.path.win_prob_


/-! ## A concrete sort, a small environment and the constructed driver -/

/-- The order that the library sort establishes: `a` may come before `b` when
`b` is not less than `a`. -/
def path_le (a b : PathBuffer) : Prop := PathBuffer.lt b a = false

instance path_le_decidable : DecidableRel path_le := fun a b =>
  inferInstanceAs (Decidable (PathBuffer.lt b a = false))

/-- A sort that meets the contract `IsSort`: insertion sort. -/
def insertion_sort (l : List PathBuffer) : List PathBuffer := l.insertionSort path_le

/-- A threshold policy with one boundary and two thresholds. -/
def toy_aln : AlnParams :=
  { path_win_len_ := 2, min_rep_len_ := 1, max_rep_copy_ := 10, max_paths_ := 8,
    max_stay_frac_ := 1 / 2, max_consec_stay_ := 2, max_ignores_ := 0, max_skips_ := 0,
    evpr_lengths_ := [3], evpr_threshes_ := [1 / 2, 3 / 5], window_prob_ := 1 / 2 }

/-- A small environment: four k-mers `0..3` with full ranges `[10k+1, 10k+10]`,
an index whose extension by the base `b` lands inside the full range of `b` and
halves the length, an emission model that gives 9/10 to the k-mer named by the
event, 3/5 to the next k-mer and 1/10 to the others, and insertion sort. -/
def toy_env : Env :=
  { kmer_count := 4
    model_get_neighbor := fun _ b => b
    model_get_last_base := fun k => k
    event_match_prob := fun ev k =>
      if (k : ℚ) = ev then 9 / 10 else if (k : ℚ) = ev + 1 then 3 / 5 else 1 / 10
    fmi_get_neighbor := fun r b =>
      { start_ := 10 * (b : Int) + 2, end_ := 10 * (b : Int) + 1 + (r.end_ - r.start_ + 1) / 2 }
    fmi_sa := fun s => s.toNat
    fmi_size := 100
    kmer_fmranges := fun k => { start_ := 10 * (k : Int) + 1, end_ := 10 * (k : Int) + 10 }
    range_default := { start_ := 1, end_ := 0 }
    sort := insertion_sort
    seed_tracker_final := fun _ => false }

/-- The parameters of the small environment, with a cap of 100 events. -/
def toy_params : Params := { toy_aln.params toy_env with max_events_proc := 100 }

/-- The slot that `PathBuffer::PathBuffer()` leaves for the window length `W`:
`length_` is 0 and `prob_sums_` is an array of `W + 1` floats; the other fields
are not initialised and are taken from `junk`. -/
def PathBuffer.construct (W : Nat) (junk : PathBuffer) : PathBuffer :=
  { junk with
    length_ := 0
    prob_sums_ := (junk.prob_sums_ ++ List.replicate (W + 1) 0).take (W + 1) }

/-- The driver that `Mapper::Mapper()` leaves (mapper.cpp, lines 136-155): two
buffers of `max_paths` constructed slots, a clear bitmap, no paths, event 0 and
state `INACTIVE`.  The flag `reset_` is not initialised; it is `reset0`. -/
def Mapper.construct (P : Params) (junk_prev junk_next : Nat → PathBuffer) (reset0 : Bool) :
    Mapper :=
  { prev_paths_ := (List.range P.max_paths).map
      (fun i => PathBuffer.construct P.seed_len (junk_prev i))
    next_paths_ := (List.range P.max_paths).map
      (fun i => PathBuffer.construct P.seed_len (junk_next i))
    sources_added_ := fun _ => false
    prev_size_ := 0
    event_i_ := 0
    state_ := .INACTIVE
    reset_ := reset0
    seed_tracker_ := [] }

/-- The driver after `add_event` has been called for each event of `events` in
order. -/
def Mapper.run (P : Params) (m : Mapper) (events : List ℚ) : Mapper :=
  events.foldl (fun m event => (Mapper.add_event P m event).1) m

/-- The driver of the small environment as constructed. -/
def toy_mapper : Mapper := Mapper.construct toy_params (fun _ => default) (fun _ => default) false


/-- The driver of the small environment after the event that names k-mer 0. -/
def toy_mapper1 : Mapper := Mapper.run toy_params toy_mapper [0]

/-- An aligner driver of the small environment with the buffers of
`toy_mapper1`. -/
def toy_aligner1 : Aligner :=
  { prev_paths_ := toy_mapper1.prev_paths_
    next_paths_ := toy_mapper1.next_paths_
    sources_added_ := toy_mapper1.sources_added_
    prev_size_ := toy_mapper1.prev_size_
    cur_event_ := 1 }


/-- The bound of C9 on one path: a valid path has at most `max_consec_stay`
consecutive stays. -/
def StaysOK (P : Params) (p : PathBuffer) : Prop :=
  p.is_valid = true → p.consec_stays_ ≤ P.max_consec_stay

/-- The invariant of C9 on a driver: the two buffers have the same size and
every slot of either satisfies the bound. -/
def StaysInv (P : Params) (m : Mapper) : Prop :=
  m.prev_paths_.length = m.next_paths_.length ∧
    (∀ j, StaysOK P (m.prev_paths_.getD j default)) ∧
    (∀ j, StaysOK P (m.next_paths_.getD j default))


/-! ## The sources of the second loop and the FM-index -/

/-- The position `x` is covered for the k-mer `K`: it lies in the range of one
of the `n` children `S` with that k-mer, or in one of the sources `srcs` made
for that k-mer. -/
def Covered (n : Nat) (S : Nat → PathBuffer) (srcs : List (Range × Nat)) (K : Nat) (x : Int) :
    Prop :=
  (∃ j, j < n ∧ (S j).kmer_ = K ∧ (S j).fm_range_.start_ ≤ x ∧ x ≤ (S j).fm_range_.end_) ∨
    (∃ rk ∈ srcs, rk.2 = K ∧ rk.1.start_ ≤ x ∧ x ≤ rk.1.end_)

/-- What the second loop relies on about the `n` sorted children `S`: they are
in the order of their range starts, each has a non-empty range inside the full
range of its k-mer, the full ranges of the k-mers of two children with different
k-mers lie in the order of the children, and no k-mer equals the initial value
of `prev_kmer`. -/
structure KidsOK (P : Params) (n : Nat) (S : Nat → PathBuffer) : Prop where
  sorted : ∀ a b, a < b → b < n → (S a).fm_range_.start_ ≤ (S b).fm_range_.start_
  lo : ∀ j, j < n → (P.env.kmer_fmranges (S j).kmer_).start_ ≤ (S j).fm_range_.start_
  ne : ∀ j, j < n → (S j).fm_range_.start_ ≤ (S j).fm_range_.end_
  hi : ∀ j, j < n → (S j).fm_range_.end_ ≤ (P.env.kmer_fmranges (S j).kmer_).end_
  block : ∀ a b, a < b → b < n → (S a).kmer_ ≠ (S b).kmer_ →
    (P.env.kmer_fmranges (S a).kmer_).end_ < (P.env.kmer_fmranges (S b).kmer_).start_
  nosent : ∀ j, j < n → (S j).kmer_ ≠ P.env.kmer_count % 65536

/-- What holds of a source `rk` (range and k-mer) made by the second loop while
it visited the children below `i`: the range is non-empty and inside the full
range of the k-mer, the k-mer is that of a visited child and clears the source
threshold, the range meets the range of no child of the k-mer, and it cannot be
extended: on either side it ends at the bound of the full range or next to a
child of the k-mer. -/
structure SrcOK (P : Params) (kmer_probs : Nat → ℚ) (n : Nat) (S : Nat → PathBuffer) (i : Nat)
    (rk : Range × Nat) : Prop where
  valid : rk.1.start_ ≤ rk.1.end_
  clears : kmer_probs rk.2 ≥ P.get_source_prob
  kid : ∃ c, c < i ∧ c < n ∧ (S c).kmer_ = rk.2
  lo : (P.env.kmer_fmranges rk.2).start_ ≤ rk.1.start_
  hi : rk.1.end_ ≤ (P.env.kmer_fmranges rk.2).end_
  avoid : ∀ j, j < n → (S j).kmer_ = rk.2 →
    (S j).fm_range_.end_ < rk.1.start_ ∨ rk.1.end_ < (S j).fm_range_.start_
  left_max : rk.1.start_ = (P.env.kmer_fmranges rk.2).start_ ∨
    ∃ j, j < n ∧ (S j).kmer_ = rk.2 ∧ (S j).fm_range_.end_ + 1 = rk.1.start_
  right_max : rk.1.end_ = (P.env.kmer_fmranges rk.2).end_ ∨
    ∃ j, j < n ∧ (S j).kmer_ = rk.2 ∧ rk.1.end_ + 1 = (S j).fm_range_.start_

/-- What holds of `unchecked_range` while the second loop is inside the run of
children of the k-mer `K` and has looked at the children up to `i`: it ends with
the full range of `K`, it starts right after the range of one of those children
and after the ranges of all of them and of all sources made so far, and every
position of the full range before its start is covered. -/
structure Sweep (P : Params) (n : Nat) (S : Nat → PathBuffer) (i K : Nat) (pl : Plan) :
    Prop where
  stop : pl.unchecked_range.end_ = (P.env.kmer_fmranges K).end_
  past : ∀ j, j ≤ i → j < n → (S j).kmer_ = K →
    (S j).fm_range_.end_ < pl.unchecked_range.start_
  tight : ∃ j, j ≤ i ∧ j < n ∧ (S j).kmer_ = K ∧
    pl.unchecked_range.start_ = (S j).fm_range_.end_ + 1
  srcs_past : ∀ rk ∈ pl.srcs, rk.1.end_ < pl.unchecked_range.start_
  covered : ∀ x, (P.env.kmer_fmranges K).start_ ≤ x → x < pl.unchecked_range.start_ →
    Covered n S pl.srcs K x

/-- The invariant of the second loop on the plan `pl` between the block that
makes the left source for the child `i` and the rest of the body. -/
structure MidInv (P : Params) (kmer_probs : Nat → ℚ) (n cap : Nat) (S : Nat → PathBuffer)
    (i : Nat) (pl : Plan) : Prop where
  cap_le : n + pl.srcs.length ≤ cap
  kmer : pl.prev_kmer = (S i).kmer_
  act : n + pl.srcs.length ≠ cap → kmer_probs (S i).kmer_ ≥ P.get_source_prob →
    Sweep P n S i (S i).kmer_ pl
  srcs : ∀ rk ∈ pl.srcs, SrcOK P kmer_probs n S (i + 1) rk
  front : ∀ rk ∈ pl.srcs, rk.1.end_ < (S i).fm_range_.start_
  order : pl.srcs.Pairwise (fun a b => a.1.end_ < b.1.start_)
  fin : ∀ c, c < i → (S c).kmer_ ≠ (S i).kmer_ → n + pl.srcs.length ≠ cap →
    kmer_probs (S c).kmer_ ≥ P.get_source_prob →
    ∀ x, (P.env.kmer_fmranges (S c).kmer_).start_ ≤ x →
      x ≤ (P.env.kmer_fmranges (S c).kmer_).end_ → Covered n S pl.srcs (S c).kmer_ x

/-- The invariant of the second loop on the plan `pl` before it visits the
child `i`: the sources made so far are in order and each is as `SrcOK` says,
they end before the range of child `i`, `unchecked_range` is as `Sweep` says if
the child `i` continues the run of the child before it, and the full range of
the k-mer of every finished run is covered. -/
structure GapInv (P : Params) (kmer_probs : Nat → ℚ) (n cap : Nat) (S : Nat → PathBuffer)
    (i : Nat) (pl : Plan) : Prop where
  cap_le : n + pl.srcs.length ≤ cap
  kmer0 : i = 0 → pl.prev_kmer = P.env.kmer_count % 65536
  kmerS : ∀ c, c + 1 = i → pl.prev_kmer = (S c).kmer_
  act : ∀ c, c + 1 = i → i < n → (S i).kmer_ = (S c).kmer_ → n + pl.srcs.length ≠ cap →
    kmer_probs (S i).kmer_ ≥ P.get_source_prob → Sweep P n S i (S i).kmer_ pl
  srcs : ∀ rk ∈ pl.srcs, SrcOK P kmer_probs n S i rk
  front : i < n → ∀ rk ∈ pl.srcs, rk.1.end_ < (S i).fm_range_.start_
  order : pl.srcs.Pairwise (fun a b => a.1.end_ < b.1.start_)
  fin : ∀ c, c < i → (i < n → (S c).kmer_ ≠ (S i).kmer_) → n + pl.srcs.length ≠ cap →
    kmer_probs (S c).kmer_ ≥ P.get_source_prob →
    ∀ x, (P.env.kmer_fmranges (S c).kmer_).start_ ≤ x →
      x ≤ (P.env.kmer_fmranges (S c).kmer_).end_ → Covered n S pl.srcs (S c).kmer_ x

/-- The path `p` has a k-mer below `kmer_count()` and a non-empty range inside
the full range of its k-mer. -/
def PathOK (P : Params) (p : PathBuffer) : Prop :=
  p.kmer_ < P.env.kmer_count ∧
    (P.env.kmer_fmranges p.kmer_).start_ ≤ p.fm_range_.start_ ∧
    p.fm_range_.start_ ≤ p.fm_range_.end_ ∧
    p.fm_range_.end_ ≤ (P.env.kmer_fmranges p.kmer_).end_

/-- Distinct k-mers have disjoint full ranges: of two non-empty full ranges of
different k-mers, one ends before the other starts. -/
def FullDisjoint (E : Env) : Prop :=
  ∀ k1, k1 < E.kmer_count → ∀ k2, k2 < E.kmer_count → k1 ≠ k2 →
    (E.kmer_fmranges k1).start_ ≤ (E.kmer_fmranges k1).end_ →
    (E.kmer_fmranges k2).start_ ≤ (E.kmer_fmranges k2).end_ →
    (E.kmer_fmranges k1).end_ < (E.kmer_fmranges k2).start_ ∨
      (E.kmer_fmranges k2).end_ < (E.kmer_fmranges k1).start_

/-- The collaborators behave as a k-mer model and an FM-index do: there are
fewer than `2^16` k-mers (a k-mer is a `u16`), distinct k-mers have disjoint
full ranges, the neighbour of a k-mer is a k-mer, and the extension of a
non-empty range inside the full range of a k-mer `k` by a base, when it is not
empty, lies inside the full range of the neighbour of `k` for that base. -/
structure FMIndexOK (P : Params) (v : Impl) : Prop where
  count : P.env.kmer_count < 65536
  disjoint : FullDisjoint P.env
  kmer_closed : ∀ k b, k < P.env.kmer_count → b < ALPH_SIZE →
    P.env.model_get_neighbor k b < P.env.kmer_count
  inside : ∀ k r b, k < P.env.kmer_count → b < ALPH_SIZE →
    (P.env.kmer_fmranges k).start_ ≤ r.start_ → r.start_ ≤ r.end_ →
    r.end_ ≤ (P.env.kmer_fmranges k).end_ →
    (P.env.fmi_get_neighbor r
      (neighbor_base v P.env (P.env.model_get_neighbor k b) b)).is_valid = true →
    (P.env.kmer_fmranges (P.env.model_get_neighbor k b)).start_
        ≤ (P.env.fmi_get_neighbor r
            (neighbor_base v P.env (P.env.model_get_neighbor k b) b)).start_ ∧
      (P.env.fmi_get_neighbor r
            (neighbor_base v P.env (P.env.model_get_neighbor k b) b)).end_
        ≤ (P.env.kmer_fmranges (P.env.model_get_neighbor k b)).end_

/-- The invariant of C6 on a driver: the two buffers have the same size, every
live path among the first `prev_size_` slots of `prev_paths_` is as `PathOK`
says, and no two of them have the same range. -/
def LiveOK (P : Params) (m : Mapper) : Prop :=
  m.prev_paths_.length = m.next_paths_.length ∧
    (∀ j, j < m.prev_size_ → (m.prev_paths_.getD j default).is_valid = true →
      PathOK P (m.prev_paths_.getD j default)) ∧
    (∀ j1 j2, j1 < j2 → j2 < m.prev_size_ →
      (m.prev_paths_.getD j1 default).is_valid = true →
      (m.prev_paths_.getD j2 default).is_valid = true →
      (m.prev_paths_.getD j1 default).fm_range_ ≠ (m.prev_paths_.getD j2 default).fm_range_)


/-! ## Seed records of the aligner -/

/-- The value of an `unsigned int` expression whose exact value is `n`
(`unsigned int` is taken to be 32 bits wide). -/
def u32 (n : Int) : Nat := (n % 4294967296).toNat

/-- Modelled from the spec: the data members of `Result` (the class is declared
in `aligner.hpp`, which is not among the sources; its constructor and
`set_ref_range` are in `aligner.cpp`). -/
structure Result where
  read_range_ : Range
  ref_range_ : Range
  seed_prob_ : ℚ

/-- `Result::Result` (aligner.cpp, lines 561-568); the four integer parameters
are `unsigned int`. -/
def Result.construct (read_end seed_len : Int) (prob : ℚ) (ref_start ref_end : Int) : Result :=
  { read_range_ := { start_ := u32 ((u32 read_end : Int) - u32 seed_len), end_ := u32 read_end }
    ref_range_ := { start_ := u32 ref_start, end_ := u32 ref_end }
    seed_prob_ := prob }

/-- `Result::set_ref_range` (aligner.cpp, lines 570-573); both parameters are
`unsigned int` and `end - length + 1` is computed in that type. -/
def Result.set_ref_range (r : Result) (end_arg length : Int) : Result :=
  { r with
    ref_range_ :=
      { start_ := u32 ((u32 end_arg : Int) - u32 length + 1), end_ := u32 end_arg } }

/-- The record that `Aligner::check_alignments` pushes for the seed `s`
(aligner.cpp, lines 538-550): the `Result` constructed from the event index,
the window length and the window mean, after `set_ref_range(rev_en,
p.match_len())`.  `ref_start0` and `ref_end0` are the default arguments of the
constructor, declared in the absent header. -/
def Aligner.result_of (ref_start0 ref_end0 : Int) (s : Seed) : Result :=
  (Result.construct s.read_event_end s.read_window s.win_prob ref_start0 ref_end0).set_ref_range
    s.ref_end s.match_len

/-- A path of two events with the range `[5, 7]`, two matches in its window and
the window mean 9/10. -/
def seed_path : PathBuffer :=
  { (default : PathBuffer) with
    length_ := 2
    fm_range_ := { start_ := 5, end_ := 7 }
    kmer_ := 0
    win_prob_ := 9 / 10
    win_type_counts_ := { n_match := 2, n_stay := 0, n_skip := 0, n_ignore := 0 } }

/-- The first seed that `seed_path` emits at event 4 when it has ended, in the
small environment. -/
def seed_record : Seed :=
  { ref_end := 96, match_len := 2, read_event_end := 3, read_window := 2, win_prob := 9 / 10,
    path := seed_path, path_ended := true }


/-! ## The packed history and the counts of a path -/

/-- The types `t2, ..., tn` of the child events of a path, oldest first. -/
def child_types (exts : List Ext) : List EventType := exts.map (fun e => e.type)

/-- The two-bit slots of the packed history of a path whose child events have
the types `ts`, tail first: `W - 1` slots, the last holding the type of the
newest child event; while there are fewer than `W - 1` child events the slots
at the tail hold 0. -/
def slots (W : Nat) (ts : List EventType) : List Nat :=
  (List.replicate (W - 1) 0 ++ ts.map EventType.toNat).drop ts.length

/-- The last `min (n - 1) (W - 1)` child events of a path of `n` events: the
events whose types are in the packed history. -/
def tracked (W : Nat) (ts : List EventType) : List EventType := ts.drop (ts.length - (W - 1))

/-- The types of the last `min n W` events of a path of `n` events, oldest
first, the source counting as a `MATCH`: the window of the specification. -/
def window_types (W : Nat) (ts : List EventType) : List EventType :=
  (EventType.MATCH :: ts).drop ((ts.length + 1) - min (ts.length + 1) W)

/-- The count that the statement `counts[p.type_tail()]--` of a `make_child`
that slides the window decrements, just before the decrement: in `mapper.cpp`
the new type has already been counted, in `aligner.cpp` it has not. -/
def decr_operand (v : Impl) (p : PathBuffer) (type : EventType) : Nat :=
  match v with
  | .mapper => (p.win_type_counts_.incr type.toNat).get p.type_tail
  | .aligner => p.win_type_counts_.get p.type_tail

/-- The value of `length_` for a path of `n` events: `mapper.cpp` saturates it
at `W + 1`, `aligner.cpp` does not. -/
def path_len (v : Impl) (W n : Nat) : Nat :=
  match v with
  | .mapper => min n (W + 1)
  | .aligner => n

/-- The invariant of the history of a path `p` whose child events have the
types `ts`: the length, the packed history and the counts of `MATCH` and
`STAY`. -/
structure HistInv (v : Impl) (W : Nat) (p : PathBuffer) (ts : List EventType) : Prop where
  len : p.length_ = path_len v W (ts.length + 1)
  types : p.event_types_ = Nat.ofDigits 4 (slots W ts)
  n_match : p.win_type_counts_.get 0 = 1 + (tracked W ts).count .MATCH
  n_stay : p.win_type_counts_.get 1 = (tracked W ts).count .STAY
  others : v = .aligner → p.win_type_counts_.get 2 = 0 ∧ p.win_type_counts_.get 3 = 0


/-- A slot as the constructor leaves it for `W = 18`: length 0 and an array of
nineteen prefix sums. -/
def slot_w18 : PathBuffer := { (default : PathBuffer) with prob_sums_ := List.replicate 19 0 }

/-- Nineteen `STAY` extensions of probability 1/2. -/
def stays_w18 : List Ext :=
  List.replicate 19
    { slot := slot_w18, range := ⟨1, 1⟩, kmer := 0, prob := 1 / 2, type := .STAY }


/-- A slot whose `SKIP` counter holds 5 from an earlier use of the memory; the
constructor does not write the counters. -/
def slot_junk : PathBuffer :=
  { slot_w2 with win_type_counts_ := { n_match := 0, n_stay := 0, n_skip := 5, n_ignore := 0 } }

/-- The driver of the small environment with the reset flag set, as
`request_reset` leaves it. -/
def reset_mapper : Mapper := { toy_mapper with reset_ := true }

/-- The invariant of C16 on a driver: the two buffers have the same size and
every slot of either has a length of at most `seed_len + 1`. -/
def LenInv (P : Params) (m : Mapper) : Prop :=
  m.prev_paths_.length = m.next_paths_.length ∧
    (∀ j, (m.prev_paths_.getD j default).length_ ≤ P.seed_len + 1) ∧
    (∀ j, (m.next_paths_.getD j default).length_ ≤ P.seed_len + 1)

/-- A `Mapper` path with `W = 2` whose length is 5, a value that no beam step
produces. -/
def long_path : PathBuffer := { slot_w2 with length_ := 5 }

/-- The seeds of `bm2` are the seeds of `bm` followed by seeds that satisfy
`Q`. -/
def SeedsSat (Q : Seed → Prop) (bm bm2 : Beam) : Prop :=
  ∃ extra, bm2.seeds = bm.seeds ++ extra ∧ ∀ s ∈ extra, Q s

/-- An environment with one k-mer that occurs once in the reference and is its
own successor by the base 0; every event matches it with probability 9/10. -/
def uniq_env : Env :=
  { toy_env with
    kmer_count := 1
    model_get_neighbor := fun _ _ => 0
    event_match_prob := fun _ _ => 9 / 10
    fmi_get_neighbor := fun _ b =>
      if b = 0 then { start_ := 1, end_ := 1 } else { start_ := 1, end_ := 0 }
    kmer_fmranges := fun _ => { start_ := 1, end_ := 1 } }

/-- The parameters of the small environment over `uniq_env`, with no stays
allowed. -/
def uniq_params : Params := { toy_params with env := uniq_env, max_consec_stay := 0 }

/-- The driver over `uniq_env` as constructed. -/
def uniq_mapper : Mapper :=
  Mapper.construct uniq_params (fun _ => default) (fun _ => default) false

/-- Eighteen `STAY` extensions for `W = 18`: the last one is the first that
slides the window. -/
def stays_slide : List Ext := stays_w18.take 18

/-! ## The state of the driver between reads -/

/-- `Mapper::reset` (mapper.cpp, lines 220-239) on the members of `Mapper` that
`add_event` reads or writes: `prev_size_`, `event_i_`, `reset_`, `state_` and the
seed tracker.  The buffers and `sources_added_` are not touched. -/
def Mapper.reset (m : Mapper) : Mapper :=
  { m with
    prev_size_ := 0
    event_i_ := 0
    reset_ := false
    state_ := .MAPPING
    seed_tracker_ := [] }

/-- `Mapper::new_read` (mapper.cpp, lines 200-218): the read buffer, which
`add_event` does not read, is replaced, and `reset()` is called. -/
def Mapper.new_read (m : Mapper) : Mapper := m.reset

/-- `Mapper::request_reset` (mapper.cpp, lines 254-256). -/
def Mapper.request_reset (m : Mapper) : Mapper := { m with reset_ := true }

/-- `Mapper::end_reset` (mapper.cpp, lines 258-260). -/
def Mapper.end_reset (m : Mapper) : Mapper := { m with reset_ := false }

/-- `Mapper::finished` (mapper.cpp, lines 245-247). -/
def Mapper.finished (m : Mapper) : Bool :=
  decide (m.state_ = .SUCCESS) || decide (m.state_ = .FAILURE)

/-- A call that a client makes on the driver between two `new_read` calls. -/
inductive Call where
  | add_event (event : ℚ)
  | request_reset
  | end_reset

/-- The driver after one call. -/
def Mapper.call (P : Params) (m : Mapper) : Call → Mapper
  | .add_event event => (Mapper.add_event P m event).1
  | .request_reset => m.request_reset
  | .end_reset => m.end_reset

/-- The driver after a sequence of calls, in order. -/
def Mapper.calls (P : Params) (m : Mapper) (cs : List Call) : Mapper :=
  cs.foldl (Mapper.call P) m

/-- The environment `uniq_env` with a seed tracker that accepts as soon as it
has received a seed. -/
def accept_env : Env := { uniq_env with seed_tracker_final := fun seeds => !seeds.isEmpty }

/-- The parameters of `uniq_params` over `accept_env`. -/
def accept_params : Params := { uniq_params with env := accept_env }

/-- The driver over `accept_env` after construction and `new_read`. -/
def accept_mapper : Mapper :=
  (Mapper.construct accept_params (fun _ => default) (fun _ => default) false).new_read

/-- The parameters of the small environment with room for seven paths. -/
def cap7_params : Params := { toy_params with max_paths := 7 }

/-- The driver of `cap7_params` as constructed. -/
def cap7_mapper : Mapper :=
  Mapper.construct cap7_params (fun _ => default) (fun _ => default) false

/-! ## The children that the first loop would make -/

/-- The two tests that the loop "Add all the neighbors" makes for the base `b`
before it writes a `MATCH` child of `p` (mapper.cpp, lines 422-430): the
probability of the next k-mer is not below the threshold and the range of the
neighbor is valid. -/
def passes (P : Params) (v : Impl) (kmer_probs : Nat → ℚ) (p : PathBuffer) (b : Nat) : Bool :=
  !decide (kmer_probs (P.env.model_get_neighbor p.kmer_ b) < evpr_thresh_of P p) &&
    (P.env.fmi_get_neighbor p.fm_range_
      (neighbor_base v P.env (P.env.model_get_neighbor p.kmer_ b) b)).is_valid

/-- The number of children that the first loop makes from the path `p` when the
buffer has room for them: none for a path that is not valid, else a `STAY` child
under the guard of mapper.cpp lines 399-400 and a `MATCH` child for every base
that passes the two tests. -/
def n_children (P : Params) (v : Impl) (kmer_probs : Nat → ℚ) (p : PathBuffer) : Nat :=
  if p.is_valid = false then 0
  else
    (if decide (p.consec_stays_ < P.max_consec_stay) &&
        decide (kmer_probs p.kmer_ ≥ P.get_prob_thresh p.fm_range_.length.toNat) then 1 else 0)
      + ((List.range ALPH_SIZE).filter (passes P v kmer_probs p)).length

/-- The number of children that the first loop would make from the first
`prev_size` slots of `prev_paths` if the buffer had room for all of them. -/
def potential_children (P : Params) (v : Impl) (kmer_probs : Nat → ℚ) (prev_size : Nat)
    (prev_paths : List PathBuffer) : Nat :=
  ((List.range prev_size).map
    (fun pi => n_children P v kmer_probs (prev_paths.getD pi default))).sum

/-! ## The constructor of `AlnParams` -/

/-- The value of `std::string::npos`, the largest `size_t` (`size_t` is taken to
be 64 bits wide). -/
def npos : Nat := 18446744073709551615

/-- The value of a `size_t` expression whose exact value is `n`. -/
def size_t (n : Nat) : Nat := n % 18446744073709551616

/-- `std::string::find(c, pos)`: the position of the first `c` at or after `pos`,
or `npos`. -/
def str_find (s : List Char) (c : Char) (pos : Nat) : Nat :=
  if (s.drop pos).findIdx (fun x => x == c) < (s.drop pos).length then
    pos + (s.drop pos).findIdx (fun x => x == c)
  else npos

/-- The characters of `std::string::substr(pos, count)` for `pos ≤ size()`; for
`pos > size()` the call throws `std::out_of_range`, which the callers test. -/
def str_substr (s : List Char) (pos count : Nat) : List Char := (s.drop pos).take count

/-- The C library functions that the constructor calls on the pieces of the
threshold string: `atof` and `atoi`, as functions of the characters of the
argument. -/
structure LibC where
  atof : List Char → ℚ
  atoi : List Char → Int

/-- The ways in which a run of the constructor can end: it returns, or it is
left by the exception `std::out_of_range` that `substr` throws; `cut_off` is the
model's answer when the rounds allowed for the loop are used up. -/
inductive Run (α : Type) where
  | returned (a : α)
  | out_of_range
  | cut_off
  deriving DecidableEq, Repr

/-- The loop of `AlnParams::AlnParams` (aligner.cpp, lines 32-42) from the state
`i`, `j`, `evpr_lengths_ = ls`, `evpr_threshes_ = ts`, for at most `fuel` rounds.
The lengths are stored as `unsigned int`. -/
def evpr_loop (C : LibC) (s : List Char) :
    Nat → Nat → Nat → List Nat → List ℚ → Run (List Nat × List ℚ)
  | 0, i, _, ls, ts => if i < s.length then .cut_off else .returned (ls, ts)
  | fuel + 1, i, j, ls, ts =>
    if i < s.length then
      let k := str_find s '-' i
      let len := C.atoi (str_substr s i k)
      if k > s.length then .out_of_range
      else
        let thr := C.atof (str_substr s k j)
        let i2 := size_t (j + 1)
        let j0 := str_find s '_' (size_t (i2 + 1))
        let j2 := if j0 = npos then s.length else j0
        evpr_loop C s fuel i2 j2 (ls ++ [u32 len]) (ts ++ [thr])
    else .returned (ls, ts)

/-- The two tables that `AlnParams::AlnParams` fills from the string
`event_probs` (aligner.cpp, lines 25-42); the loop is given `size() + 2`
rounds. -/
def evpr_tables (C : LibC) (s : List Char) : Run (List Nat × List ℚ) :=
  let i := str_find s '_' 0
  let p0 := C.atof (str_substr s 0 i)
  evpr_loop C s (s.length + 2) (size_t (i + 1)) (str_find s '_' 0) [] [p0]

/-- `AlnParams::AlnParams` (aligner.cpp, lines 3-43): the members are
initialised from the arguments and the two tables are filled from
`event_probs`. -/
def AlnParams.construct (C : LibC) (path_win_len min_rep_len max_rep_copy max_paths : Nat)
    (max_stay_frac : ℚ) (max_consec_stay max_ignores max_skips : Nat)
    (event_probs : List Char) (window_prob : ℚ) : Run AlnParams :=
  match evpr_tables C event_probs with
  | .returned (ls, ts) =>
    .returned
      { path_win_len_ := path_win_len, min_rep_len_ := min_rep_len,
        max_rep_copy_ := max_rep_copy, max_paths_ := max_paths,
        max_stay_frac_ := max_stay_frac, max_consec_stay_ := max_consec_stay,
        max_ignores_ := max_ignores, max_skips_ := max_skips,
        evpr_lengths_ := ls, evpr_threshes_ := ts, window_prob_ := window_prob }
  | .out_of_range => .out_of_range
  | .cut_off => .cut_off

/-! ## Decimal text -/

/-- The value of a decimal digit. -/
def digit_val (c : Char) : Nat := c.toNat - 48

/-- The test `isspace` of the C locale. -/
def is_space (c : Char) : Bool := c.toNat == 32 || (decide (9 ≤ c.toNat) && decide (c.toNat ≤ 13))

/-- The number written by the leading decimal digits of `s`, after the digits
`acc`, and the rest of the text. -/
def read_digits : List Char → Nat → Nat × List Char
  | [], acc => (acc, [])
  | c :: rest, acc => if c.isDigit then read_digits rest (10 * acc + digit_val c) else (acc, c :: rest)

/-- The text after an optional sign, and whether the sign is `-`. -/
def read_sign : List Char → Bool × List Char
  | '-' :: rest => (true, rest)
  | '+' :: rest => (false, rest)
  | s => (false, s)

/-- A reading of `atoi` for decimal text: white space, an optional sign and
decimal digits; the value is 0 when there is no digit. -/
def dec_atoi (s : List Char) : Int :=
  let t := read_sign (s.dropWhile is_space)
  let n := (read_digits t.2 0).1
  if t.1 then -(n : Int) else (n : Int)

/-- A reading of `atof` for decimal text without exponent: white space, an
optional sign, decimal digits and an optional fraction; the value is 0 when
there is no digit. -/
def dec_atof (s : List Char) : ℚ :=
  let t := read_sign (s.dropWhile is_space)
  let whole := read_digits t.2 0
  let frac : ℚ :=
    match whole.2 with
    | '.' :: rest =>
      ((read_digits rest 0).1 : ℚ) / (10 : ℚ) ^ (rest.length - (read_digits rest 0).2.length)
    | _ => 0
  if t.1 then -((whole.1 : ℚ) + frac) else (whole.1 : ℚ) + frac

/-- The C library functions on decimal text. -/
def dec_libc : LibC := { atof := dec_atof, atoi := dec_atoi }

/-- The text of a bucket `_L-p` of a threshold string: the characters between
the `_` and the `-`, and the characters after the `-`. -/
structure Bucket where
  len_text : List Char
  thr_text : List Char

/-- The characters of a bucket, from its `_` on. -/
def Bucket.text (b : Bucket) : List Char := '_' :: (b.len_text ++ '-' :: b.thr_text)

/-- The separators of a bucket are where the grammar puts them: no `_` in either
field and no `-` before the separating `-`. -/
def Bucket.ok (b : Bucket) : Prop :=
  '_' ∉ b.len_text ∧ '-' ∉ b.len_text ∧ '_' ∉ b.thr_text

instance Bucket.ok_decidable (b : Bucket) : Decidable b.ok :=
  inferInstanceAs (Decidable ('_' ∉ b.len_text ∧ '-' ∉ b.len_text ∧ '_' ∉ b.thr_text))

/-- The threshold string `p0_L1-p1_..._Lk-pk` with the fields `p0` and `bs`. -/
def policy_text (p0 : List Char) (bs : List Bucket) : List Char :=
  p0 ++ (bs.map Bucket.text).flatten

/-- The boundary that a round of the loop reads for the bucket `b` whose `_` is
at position `off` of the string `s`: `atoi` of the text from the start of the
bucket. -/
def Bucket.length_at (C : LibC) (s : List Char) (off : Nat) (b : Bucket) : Nat :=
  u32 (C.atoi (str_substr s (off + 1) (off + 1 + b.len_text.length)))

/-- The threshold that a round of the loop reads for the bucket `b` whose `_` is
at position `off` of the string `s`: `atof` of the text that starts at the `-`
of the bucket. -/
def Bucket.thresh_at (C : LibC) (s : List Char) (off : Nat) (b : Bucket) : ℚ :=
  C.atof (str_substr s (off + 1 + b.len_text.length) (off + b.text.length))

/-- The boundaries read for the buckets `bs`, the first of which starts at
position `off`. -/
def read_lengths (C : LibC) (s : List Char) : Nat → List Bucket → List Nat
  | _, [] => []
  | off, b :: bs => b.length_at C s off :: read_lengths C s (off + b.text.length) bs

/-- The thresholds read for the buckets `bs`, the first of which starts at
position `off`. -/
def read_threshes (C : LibC) (s : List Char) : Nat → List Bucket → List ℚ
  | _, [] => []
  | off, b :: bs => b.thresh_at C s off :: read_threshes C s (off + b.text.length) bs

/-- The field `p0` of the threshold string `0.5_10-0.6_5-0.7`. -/
def text_p0 : List Char := ['0', '.', '5']

/-- The buckets `_10-0.6` and `_5-0.7`. -/
def text_buckets : List Bucket :=
  [{ len_text := ['1', '0'], thr_text := ['0', '.', '6'] },
    { len_text := ['5'], thr_text := ['0', '.', '7'] }]

/-- The constructor call with the arguments of `toy_aln` and the threshold
string `s`. -/
def toy_construct (s : List Char) : Run AlnParams :=
  AlnParams.construct dec_libc 2 1 10 8 (1 / 2) 2 0 0 s (1 / 2)

/-- The policy that the constructor makes from `0.5_10-0.6_5-0.7`. -/
def aln_read : AlnParams :=
  { path_win_len_ := 2, min_rep_len_ := 1, max_rep_copy_ := 10, max_paths_ := 8,
    max_stay_frac_ := 1 / 2, max_consec_stay_ := 2, max_ignores_ := 0, max_skips_ := 0,
    evpr_lengths_ := [10, 10, 5], evpr_threshes_ := [1 / 2, 0, -3 / 5, -7 / 10],
    window_prob_ := 1 / 2 }

/-- A threshold string whose fields are not numbers and hold a blank:
`x y_z-w`. -/
def text_junk : List Char := ['x', ' ', 'y', '_', 'z', '-', 'w']

/-! # Theorems -/

/-! ## Arrays of prefix sums -/

theorem rd_set (a : List ℚ) (i j : Nat) (x : ℚ) :
    rd (a.set i x) j = if i = j ∧ i < a.length then x else rd a j := by
  unfold rd
  rw [List.getD_eq_getElem?_getD, List.getD_eq_getElem?_getD, List.getElem?_set]
  by_cases h : i = j
  · by_cases h2 : i < a.length
    · subst h
      simp [h2]
    · subst h
      simp [h2]
      have : a.length ≤ i := by omega
      simp [List.getElem?_eq_none this]
  · simp [h]

theorem length_memcpy (dst src : List ℚ) (n : Nat) (hs : n ≤ src.length) (hd : n ≤ dst.length) :
    (memcpy dst src n).length = dst.length := by
  unfold memcpy
  simp [List.length_append, List.length_take, List.length_drop]
  omega

theorem rd_memcpy (dst src : List ℚ) (n i : Nat) (hs : n ≤ src.length) :
    rd (memcpy dst src n) i = if i < n then rd src i else rd dst i := by
  unfold rd memcpy
  simp only [List.getD_eq_getElem?_getD]
  by_cases h : i < n
  · rw [List.getElem?_append_left (by simp [List.length_take]; omega)]
    simp [h, List.getElem?_take]
  · rw [List.getElem?_append_right (by simp [List.length_take]; omega)]
    simp [h, List.length_take, Nat.min_eq_left hs]
    congr 2
    omega

theorem rd_drop (a : List ℚ) (k i : Nat) : rd (a.drop k) i = rd a (k + i) := by
  unfold rd
  simp [List.getD_eq_getElem?_getD, List.getElem?_drop]

theorem psum_zero (probs : List ℚ) : psum probs 0 = 0 := by simp [psum]

theorem psum_append_le (probs : List ℚ) (x : ℚ) (i : Nat) (h : i ≤ probs.length) :
    psum (probs ++ [x]) i = psum probs i := by
  unfold psum
  rw [List.take_append_of_le_length h]

theorem psum_append_succ (probs : List ℚ) (x : ℚ) :
    psum (probs ++ [x]) (probs.length + 1) = psum probs probs.length + x := by
  unfold psum
  rw [List.take_of_length_le (by simp), List.take_of_length_le (by simp)]
  simp

theorem window_mean_eq (W : Nat) (probs : List ℚ) :
    window_mean W probs =
      (psum probs probs.length - psum probs (probs.length - min probs.length W)) /
        ((min probs.length W : Nat) : ℚ) := by
  unfold window_mean psum
  congr 1
  have := List.sum_take_add_sum_drop probs (probs.length - min probs.length W)
  rw [List.take_of_length_le (le_refl _)]
  linarith

theorem WinInv_source (v : Impl) (W : Nat) (hW : 1 ≤ W) (slot : PathBuffer)
    (hs : slot.prob_sums_.length = W + 1) (range : Range) (kmer : Nat) (p1 : ℚ) :
    WinInv v W (make_source v slot range kmer p1) [p1] := by
  have hsum : ∀ i, i ≤ 1 → rd ((slot.prob_sums_.set 0 0).set 1 p1) i = psum [p1] i := by
    intro i hi
    rw [rd_set, rd_set]
    interval_cases i
    · simp [psum, hs]
    · simp [psum, hs]
      omega
  have hmin : min 1 W = 1 := by omega
  have hprob : p1 = window_mean W [p1] := by
    simp [window_mean, hmin]
  cases v
  · refine ⟨?_, by simp, ?_, ?_, ?_⟩
    · simp [make_source, Mapper.make_source, hs]
    · simp [make_source, Mapper.make_source]
    · intro i hi
      simp only [List.length_singleton, hmin] at hi ⊢
      simpa [make_source, Mapper.make_source] using hsum i hi
    · simpa [make_source, Mapper.make_source] using hprob
  · refine ⟨?_, by simp, ?_, ?_, ?_⟩
    · simp [make_source, Aligner.make_source, hs]
    · simp [make_source, Aligner.make_source]
    · intro i hi
      simp only [List.length_singleton, hmin] at hi ⊢
      simpa [make_source, Aligner.make_source] using hsum i hi
    · simpa [make_source, Aligner.make_source] using hprob


theorem slide_sums (W : Nat) (hW : 1 ≤ W) (slot p : List ℚ) (probs : List ℚ) (prob : ℚ)
    (hn : W ≤ probs.length) (hslot : slot.length = W + 1) (hp : p.length = W + 1)
    (hsum : ∀ i, i ≤ W → rd p i = psum probs (probs.length - W + i)) :
    ((memcpy slot (p.drop 1) W).set W (rd (memcpy slot (p.drop 1) W) (W - 1) + prob)).length
        = W + 1 ∧
    ∀ i, i ≤ W →
      rd ((memcpy slot (p.drop 1) W).set W (rd (memcpy slot (p.drop 1) W) (W - 1) + prob)) i
        = psum (probs ++ [prob]) (probs.length + 1 - W + i) := by
  have hdrop : W ≤ (p.drop 1).length := by simp [hp]
  have hlen : (memcpy slot (p.drop 1) W).length = W + 1 := by
    rw [length_memcpy _ _ _ hdrop (by omega), hslot]
  refine ⟨by rw [List.length_set, hlen], ?_⟩
  intro i hi
  rw [rd_set, hlen]
  by_cases hiW : i = W
  · subst hiW
    simp only [true_and, Nat.lt_succ_self, if_true]
    rw [rd_memcpy _ _ _ _ hdrop, if_pos (by omega), rd_drop, hsum _ (by omega)]
    have e1 : probs.length - i + (1 + (i - 1)) = probs.length := by omega
    have e2 : probs.length + 1 - i + i = probs.length + 1 := by omega
    rw [e1, e2, psum_append_succ]
  · have hne : ¬ (W = i ∧ W < W + 1) := by omega
    rw [if_neg hne, rd_memcpy _ _ _ _ hdrop, if_pos (by omega), rd_drop, hsum _ (by omega)]
    have e1 : probs.length - W + (1 + i) = probs.length + 1 - W + i := by omega
    rw [e1, psum_append_le _ _ _ (by omega)]

theorem grow_sums (W : Nat) (slot p : List ℚ) (probs : List ℚ) (prob : ℚ) (k : Nat)
    (hn : probs.length < W) (hk : probs.length + 1 ≤ k) (hkW : k ≤ W + 1)
    (hslot : slot.length = W + 1) (hp : p.length = W + 1)
    (hsum : ∀ i, i ≤ probs.length → rd p i = psum probs i) :
    ((memcpy slot p k).set (probs.length + 1)
        (rd (memcpy slot p k) (probs.length + 1 - 1) + prob)).length = W + 1 ∧
    ∀ i, i ≤ probs.length + 1 →
      rd ((memcpy slot p k).set (probs.length + 1)
        (rd (memcpy slot p k) (probs.length + 1 - 1) + prob)) i
        = psum (probs ++ [prob]) i := by
  have hlen : (memcpy slot p k).length = W + 1 := by
    rw [length_memcpy _ _ _ (by omega) (by omega), hslot]
  refine ⟨by rw [List.length_set, hlen], ?_⟩
  intro i hi
  rw [rd_set, hlen]
  by_cases hiW : i = probs.length + 1
  · subst hiW
    rw [if_pos ⟨rfl, by omega⟩, rd_memcpy _ _ _ _ (by omega), if_pos (by omega),
      hsum _ (by omega), psum_append_succ]
    simp
  · have hne : ¬ (probs.length + 1 = i ∧ probs.length + 1 < W + 1) := by omega
    rw [if_neg hne, rd_memcpy _ _ _ _ (by omega), if_pos (by omega), hsum _ (by omega),
      psum_append_le _ _ _ (by omega)]


theorem window_mean_full (W : Nat) (probs : List ℚ) (hn : W ≤ probs.length)
    (a b : ℚ) (ha : a = psum probs probs.length) (hb : b = psum probs (probs.length - W)) :
    (a - b) / (W : ℚ) = window_mean W probs := by
  rw [window_mean_eq, Nat.min_eq_right hn, ha, hb]

theorem window_mean_short (W : Nat) (probs : List ℚ) (hn : probs.length ≤ W)
    (a : ℚ) (ha : a = psum probs probs.length) :
    a / (probs.length : ℚ) = window_mean W probs := by
  rw [window_mean_eq, Nat.min_eq_left hn, ha, Nat.sub_self, psum_zero, sub_zero]


/-! ## The window mean (C1) -/

theorem mapper_make_child_slide (W : Nat) (self p : PathBuffer) (range : Range) (kmer : Nat)
    (prob : ℚ) (type : EventType) (h : W ≤ p.length_) :
    (Mapper.make_child W self p range kmer prob type).prob_sums_
        = slide_arr self.prob_sums_ p.prob_sums_ W prob ∧
    (Mapper.make_child W self p range kmer prob type).win_prob_
        = (rd (slide_arr self.prob_sums_ p.prob_sums_ W prob) W
            - rd (slide_arr self.prob_sums_ p.prob_sums_ W prob) 0) / (W : ℚ) ∧
    (Mapper.make_child W self p range kmer prob type).length_
        = p.length_ + (if p.length_ ≤ W then 1 else 0) := by
  have hc : p.length_ + (if p.length_ ≤ W then 1 else 0) > W := by
    split_ifs <;> omega
  refine ⟨?_, ?_, ?_⟩ <;> simp only [Mapper.make_child, slide_arr, if_pos hc]

theorem mapper_make_child_grow (W : Nat) (self p : PathBuffer) (range : Range) (kmer : Nat)
    (prob : ℚ) (type : EventType) (h : p.length_ < W) :
    (Mapper.make_child W self p range kmer prob type).prob_sums_
        = grow_arr self.prob_sums_ p.prob_sums_ (p.length_ + 1) (p.length_ + 1) prob ∧
    (Mapper.make_child W self p range kmer prob type).win_prob_
        = rd (grow_arr self.prob_sums_ p.prob_sums_ (p.length_ + 1) (p.length_ + 1) prob)
            (p.length_ + 1) / ((p.length_ + 1 : Nat) : ℚ) ∧
    (Mapper.make_child W self p range kmer prob type).length_ = p.length_ + 1 := by
  have h1 : (if p.length_ ≤ W then 1 else 0) = 1 := by
    rw [if_pos (by omega)]
  have hc : ¬ (p.length_ + 1 > W) := by omega
  refine ⟨?_, ?_, ?_⟩ <;> simp only [Mapper.make_child, grow_arr, h1, if_neg hc]

theorem aligner_make_child_slide (W : Nat) (self p : PathBuffer) (range : Range) (kmer : Nat)
    (prob : ℚ) (type : EventType) (h : W ≤ p.length_) :
    (Aligner.make_child W self p range kmer prob type).prob_sums_
        = slide_arr self.prob_sums_ p.prob_sums_ W prob ∧
    (Aligner.make_child W self p range kmer prob type).win_prob_
        = (rd (slide_arr self.prob_sums_ p.prob_sums_ W prob) W
            - rd (slide_arr self.prob_sums_ p.prob_sums_ W prob) 0) / (W : ℚ) ∧
    (Aligner.make_child W self p range kmer prob type).length_ = p.length_ + 1 := by
  have hc : p.length_ + 1 > W := by omega
  refine ⟨?_, ?_, ?_⟩ <;> simp only [Aligner.make_child, slide_arr, if_pos hc]

theorem aligner_make_child_grow (W : Nat) (self p : PathBuffer) (range : Range) (kmer : Nat)
    (prob : ℚ) (type : EventType) (h : p.length_ < W) :
    (Aligner.make_child W self p range kmer prob type).prob_sums_
        = grow_arr self.prob_sums_ p.prob_sums_ (p.length_ + 1 + 1) (p.length_ + 1) prob ∧
    (Aligner.make_child W self p range kmer prob type).win_prob_
        = (rd (grow_arr self.prob_sums_ p.prob_sums_ (p.length_ + 1 + 1) (p.length_ + 1) prob)
            (p.length_ + 1)
           - rd (grow_arr self.prob_sums_ p.prob_sums_ (p.length_ + 1 + 1) (p.length_ + 1) prob)
            0) / ((p.length_ + 1 : Nat) : ℚ) ∧
    (Aligner.make_child W self p range kmer prob type).length_ = p.length_ + 1 := by
  have hc : ¬ (p.length_ + 1 > W) := by omega
  refine ⟨?_, ?_, ?_⟩ <;> simp only [Aligner.make_child, grow_arr, if_neg hc]

theorem WinInv_child (v : Impl) (W : Nat) (hW : 1 ≤ W) (slot p : PathBuffer) (probs : List ℚ)
    (h : WinInv v W p probs) (hs : slot.prob_sums_.length = W + 1)
    (range : Range) (kmer : Nat) (prob : ℚ) (type : EventType) :
    WinInv v W (make_child v W slot p range kmer prob type) (probs ++ [prob]) := by
  obtain ⟨hlen, hpos, hl, hsum, _⟩ := h
  have hlen2 : (probs ++ [prob]).length = probs.length + 1 := by simp
  by_cases hn : W ≤ probs.length
  · -- the window was full: it slides
    have hmin : min probs.length W = W := Nat.min_eq_right hn
    rw [hmin] at hsum
    obtain ⟨r1, r2⟩ := slide_sums W hW slot.prob_sums_ p.prob_sums_ probs prob hn hs hlen hsum
    have hmin2 : min (probs.length + 1) W = W := by omega
    have hwp := window_mean_full W (probs ++ [prob]) (by rw [hlen2]; omega)
      (rd (slide_arr slot.prob_sums_ p.prob_sums_ W prob) W)
      (rd (slide_arr slot.prob_sums_ p.prob_sums_ W prob) 0)
      (by rw [hlen2]; exact (r2 W (le_refl _)).trans (by congr 1; omega))
      (by rw [hlen2]; exact (r2 0 (Nat.zero_le _)))
    cases v
    · have hl2 : p.length_ = min probs.length (W + 1) := hl
      obtain ⟨e1, e2, e3⟩ := mapper_make_child_slide W slot p range kmer prob type (by omega)
      refine ⟨?_, by simp, ?_, ?_, ?_⟩
      · simp only [make_child]
        rw [e1]
        exact r1
      · simp only [make_child, hlen2]
        rw [e3]
        split_ifs <;> omega
      · intro i hi
        rw [hlen2, hmin2] at hi ⊢
        simp only [make_child]
        rw [e1]
        exact r2 i hi
      · simp only [make_child]
        rw [e2]
        exact hwp
    · have hl2 : p.length_ = probs.length := hl
      obtain ⟨e1, e2, e3⟩ := aligner_make_child_slide W slot p range kmer prob type (by omega)
      refine ⟨?_, by simp, ?_, ?_, ?_⟩
      · simp only [make_child]
        rw [e1]
        exact r1
      · simp only [make_child, hlen2]
        rw [e3]
        omega
      · intro i hi
        rw [hlen2, hmin2] at hi ⊢
        simp only [make_child]
        rw [e1]
        exact r2 i hi
      · simp only [make_child]
        rw [e2]
        exact hwp
  · -- the window grows
    have hn2 : probs.length < W := by omega
    have hmin : min probs.length W = probs.length := by omega
    rw [hmin] at hsum
    have hsum2 : ∀ i, i ≤ probs.length → rd p.prob_sums_ i = psum probs i := by
      intro i hi
      rw [hsum i hi]
      congr 1
      omega
    have hmin2 : min (probs.length + 1) W = probs.length + 1 := by omega
    have hl2 : p.length_ = probs.length := by
      cases v
      · have : p.length_ = min probs.length (W + 1) := hl
        omega
      · exact hl
    cases v
    · obtain ⟨r1, r2⟩ := grow_sums W slot.prob_sums_ p.prob_sums_ probs prob (probs.length + 1)
        hn2 (le_refl _) (by omega) hs hlen hsum2
      have hwp := window_mean_short W (probs ++ [prob]) (by rw [hlen2]; omega)
        (rd (grow_arr slot.prob_sums_ p.prob_sums_ (probs.length + 1) (probs.length + 1) prob)
          (probs.length + 1))
        (by rw [hlen2]; exact r2 _ (le_refl _))
      rw [hlen2] at hwp
      obtain ⟨e1, e2, e3⟩ := mapper_make_child_grow W slot p range kmer prob type (by omega)
      rw [hl2] at e1 e2 e3
      refine ⟨?_, by simp, ?_, ?_, ?_⟩
      · simp only [make_child]
        rw [e1]
        exact r1
      · simp only [make_child, hlen2]
        rw [e3]
        omega
      · intro i hi
        rw [hlen2, hmin2] at hi ⊢
        simp only [make_child]
        rw [e1, Nat.sub_self, Nat.zero_add]
        exact r2 i hi
      · simp only [make_child]
        rw [e2]
        exact hwp
    · obtain ⟨r1, r2⟩ := grow_sums W slot.prob_sums_ p.prob_sums_ probs prob (probs.length + 1 + 1)
        hn2 (by omega) (by omega) hs hlen hsum2
      have hwp := window_mean_short W (probs ++ [prob]) (by rw [hlen2]; omega)
        (rd (grow_arr slot.prob_sums_ p.prob_sums_ (probs.length + 1 + 1) (probs.length + 1) prob)
          (probs.length + 1))
        (by rw [hlen2]; exact r2 _ (le_refl _))
      rw [hlen2] at hwp
      obtain ⟨e1, e2, e3⟩ := aligner_make_child_grow W slot p range kmer prob type (by omega)
      rw [hl2] at e1 e2 e3
      refine ⟨?_, by simp, ?_, ?_, ?_⟩
      · simp only [make_child]
        rw [e1]
        exact r1
      · simp only [make_child, hlen2]
        rw [e3]
      · intro i hi
        rw [hlen2, hmin2] at hi ⊢
        simp only [make_child]
        rw [e1, Nat.sub_self, Nat.zero_add]
        exact r2 i hi
      · simp only [make_child]
        rw [e2]
        have h0 := r2 0 (Nat.zero_le _)
        rw [psum_zero] at h0
        unfold grow_arr
        rw [h0, sub_zero]
        exact hwp


theorem WinInv_build (v : Impl) (W : Nat) (hW : 1 ≤ W) (slot0 : PathBuffer)
    (range0 : Range) (kmer0 : Nat) (p1 : ℚ) (exts : List Ext)
    (h0 : slot0.prob_sums_.length = W + 1)
    (hs : ∀ e ∈ exts, e.slot.prob_sums_.length = W + 1) :
    WinInv v W (build_path v W slot0 range0 kmer0 p1 exts) (path_probs p1 exts) := by
  induction exts using List.reverseRecOn with
  | nil => exact WinInv_source v W hW slot0 h0 range0 kmer0 p1
  | append_singleton es e ih =>
    have ih2 := ih (fun x hx => hs x (List.mem_append_left _ hx))
    have hstep := WinInv_child v W hW e.slot _ _ ih2
      (hs e (List.mem_append_right _ (List.mem_singleton_self e))) e.range e.kmer e.prob e.type
    have e1 : build_path v W slot0 range0 kmer0 p1 (es ++ [e])
        = make_child v W e.slot (build_path v W slot0 range0 kmer0 p1 es)
            e.range e.kmer e.prob e.type := by
      simp [build_path, List.foldl_append]
    have e2 : path_probs p1 (es ++ [e]) = path_probs p1 es ++ [e.prob] := by
      simp [path_probs]
    rw [e1, e2]
    exact hstep

/-- C1: for every path built by `make_source` with probability `p1` followed by
any sequence of `make_child` calls (window length `W ≥ 2`, exact arithmetic, every
slot owning its array of `W + 1` prefix sums), in `mapper.cpp` and in
`aligner.cpp`, the resulting `win_prob` is the sum of the last `min n W`
probabilities divided by `min n W`, `n` being the number of events. -/
theorem make_child_win_prob (v : Impl) (W : Nat) (hW : 2 ≤ W) (slot0 : PathBuffer)
    (range0 : Range) (kmer0 : Nat) (p1 : ℚ) (exts : List Ext)
    (h0 : slot0.prob_sums_.length = W + 1)
    (hs : ∀ e ∈ exts, e.slot.prob_sums_.length = W + 1) :
    (build_path v W slot0 range0 kmer0 p1 exts).win_prob_
      = window_mean W (path_probs p1 exts) :=
  (WinInv_build v W (by omega) slot0 range0 kmer0 p1 exts h0 hs).prob

/-- Witness of C1: a source of probability 1/2 extended three times with `W = 2`;
the window mean of the last two events is 5/16. -/
theorem make_child_win_prob_witness :
    (build_path .mapper 2 slot_w2 ⟨1, 9⟩ 0 (1 / 2) exts_w2).win_prob_
        = window_mean 2 (path_probs (1 / 2) exts_w2) ∧
    (build_path .aligner 2 slot_w2 ⟨1, 9⟩ 0 (1 / 2) exts_w2).win_prob_
        = window_mean 2 (path_probs (1 / 2) exts_w2) ∧
    window_mean 2 (path_probs (1 / 2) exts_w2) = 5 / 16 :=
  ⟨make_child_win_prob .mapper 2 (by decide) slot_w2 ⟨1, 9⟩ 0 (1 / 2) exts_w2 (by decide)
      (by decide),
    make_child_win_prob .aligner 2 (by decide) slot_w2 ⟨1, 9⟩ 0 (1 / 2) exts_w2 (by decide)
      (by decide),
    by norm_num [window_mean, path_probs, exts_w2]⟩

/-! ## The seed predicate (C2) -/

/-- C2: the seed predicate (`is_seed_valid` in `mapper.cpp`, `should_report` in
`aligner.cpp`) with argument `path_ended` returns true if and only if all of the
following hold: the range has length 1, or the path has ended and the range is no
longer than `max_rep_copy` and the window has at least `min_rep_len` matches; the
length is at least `W`; the path has ended or the head event is a `MATCH`; the
path has ended or the stays of the window are at most `max_stay_frac * W`; the
window mean is at least `window_prob`. -/
theorem seed_predicate_iff (P : Params) (p : PathBuffer) (path_ended : Bool) :
    (is_seed_valid P p path_ended = true ↔
      ((p.fm_range_.length = 1 ∨
          (path_ended = true ∧ p.fm_range_.length ≤ (P.max_rep_copy : Int) ∧
            p.win_type_counts_.get EventType.MATCH.toNat ≥ P.min_rep_len)) ∧
        p.length_ ≥ P.seed_len ∧
        (path_ended = true ∨ p.type_head P.seed_len = EventType.MATCH.toNat) ∧
        (path_ended = true ∨
          (p.win_type_counts_.get EventType.STAY.toNat : ℚ)
            ≤ P.max_stay_frac * (P.seed_len : ℚ)) ∧
        p.win_prob_ ≥ P.min_seed_prob)) ∧
    should_report P p path_ended = is_seed_valid P p path_ended := by
  refine ⟨?_, rfl⟩
  simp only [is_seed_valid, PathBuffer.match_len, Bool.and_eq_true, Bool.or_eq_true,
    decide_eq_true_eq, and_assoc]

/-! ## The threshold lookup (C4) -/

theorem thresh_pos_le (ls : List Nat) (fm : Nat) : thresh_pos ls fm ≤ ls.length := by
  induction ls with
  | nil => simp [thresh_pos]
  | cons l rest ih =>
    simp only [thresh_pos, List.length_cons]
    split_ifs <;> omega

theorem thresh_pos_spec (ls : List Nat) (fm : Nat) :
    (∀ (j : Nat) (_ : j < thresh_pos ls fm) (_ : j < ls.length), fm ≤ ls[j]) ∧
    ∀ (h : thresh_pos ls fm < ls.length), fm > ls[thresh_pos ls fm] := by
  induction ls with
  | nil => simp [thresh_pos]
  | cons l rest ih =>
    by_cases hc : fm > l
    · simp [thresh_pos, hc]
    · constructor
      · intro j hj hl
        simp only [thresh_pos, hc, if_false] at hj
        cases j with
        | zero => simpa using hc
        | succ j =>
          simp only [List.getElem_cons_succ]
          exact ih.1 j (by omega) (by simpa using hl)
      · intro h
        simp only [thresh_pos, hc, if_false, List.length_cons] at h ⊢
        simp only [List.getElem_cons_succ]
        exact ih.2 (by omega)

theorem thresh_pos_unique (ls : List Nat) (fm i : Nat) (hi : i ≤ ls.length)
    (hlow : ∀ (j : Nat) (_ : j < i) (_ : j < ls.length), fm ≤ ls[j])
    (hhigh : ∀ (h : i < ls.length), fm > ls[i]) : thresh_pos ls fm = i := by
  obtain ⟨h1, h2⟩ := thresh_pos_spec ls fm
  have hle := thresh_pos_le ls fm
  rcases Nat.lt_trichotomy (thresh_pos ls fm) i with h | h | h
  · have a := h2 (by omega)
    have b := hlow _ h (by omega)
    omega
  · exact h
  · have a := hhigh (by omega)
    have b := h1 i h (by omega)
    omega


/-- C4: for boundaries `[L1..Lk]` and thresholds `[p0..pk]`, `get_prob_thresh`
returns the threshold listed just before the first boundary that `fm_length`
exceeds (entry `i` of the table for the boundary of index `i`, counting from 0),
and the last threshold `pk` when `fm_length` exceeds no boundary; the entry read
is `p0` exactly when there is no boundary or `fm_length` exceeds the first. -/
theorem get_prob_thresh_bucket (a : AlnParams) (fm_length : Nat)
    (h : a.evpr_threshes_.length = a.evpr_lengths_.length + 1) :
    (∀ (i : Nat) (hi : i < a.evpr_lengths_.length),
        fm_length > a.evpr_lengths_[i] →
        (∀ (j : Nat) (_ : j < i) (_ : j < a.evpr_lengths_.length),
          fm_length ≤ a.evpr_lengths_[j]) →
        a.evpr_threshes_[i]? = some (a.get_prob_thresh fm_length)) ∧
    ((∀ (j : Nat) (_ : j < a.evpr_lengths_.length), fm_length ≤ a.evpr_lengths_[j]) →
        a.evpr_threshes_[a.evpr_lengths_.length]? = some (a.get_prob_thresh fm_length)) ∧
    (thresh_pos a.evpr_lengths_ fm_length = 0 ↔
        (a.evpr_lengths_ = [] ∨
          ∃ l1 rest, a.evpr_lengths_ = l1 :: rest ∧ fm_length > l1)) := by
  have hrd : ∀ i, i < a.evpr_threshes_.length →
      a.evpr_threshes_[i]? = some (rd a.evpr_threshes_ i) := by
    intro i hi
    simp [rd, List.getD_eq_getElem?_getD, List.getElem?_eq_getElem hi]
  refine ⟨?_, ?_, ?_⟩
  · intro i hi hgt hlow
    have hp : thresh_pos a.evpr_lengths_ fm_length = i :=
      thresh_pos_unique _ _ i (by omega) hlow (fun _ => hgt)
    rw [AlnParams.get_prob_thresh, hp]
    exact hrd i (by omega)
  · intro hlow
    have hp : thresh_pos a.evpr_lengths_ fm_length = a.evpr_lengths_.length :=
      thresh_pos_unique _ _ _ (le_refl _) (fun j _ hj => hlow j hj) (fun hh => by omega)
    rw [AlnParams.get_prob_thresh, hp]
    exact hrd _ (by omega)
  · cases hl : a.evpr_lengths_ with
    | nil => simp [thresh_pos]
    | cons l1 rest =>
      by_cases hc : fm_length > l1
      · simp [thresh_pos, hc]
      · simp [thresh_pos, hc]

/-- Witness of C4: with boundaries `[10, 5]` the length 7 exceeds the second
boundary first, and the threshold read is the second entry, 1/5. -/
theorem get_prob_thresh_bucket_witness :
    aln_two_buckets.evpr_threshes_[1]? = some (aln_two_buckets.get_prob_thresh 7) ∧
    aln_two_buckets.get_prob_thresh 7 = 1 / 5 :=
  ⟨(get_prob_thresh_bucket aln_two_buckets 7 (by decide)).1 1 (by decide) (by decide)
      (by decide),
    by norm_num [aln_two_buckets, AlnParams.get_prob_thresh, thresh_pos, rd]⟩


/-! ## Loops and buffers -/

theorem for_break_rule {α σ : Type} (body : α → σ → σ × Bool) (Inv : List α → σ → Prop)
    (Post : σ → Prop)
    (hstep : ∀ a rest s, Inv (a :: rest) s →
      ((body a s).2 = true → Post (body a s).1) ∧ ((body a s).2 = false → Inv rest (body a s).1))
    (hend : ∀ s, Inv [] s → Post s) :
    ∀ l s, Inv l s → Post (for_break body l s) := by
  intro l
  induction l with
  | nil =>
    intro s hs
    exact hend s hs
  | cons a rest ih =>
    intro s hs
    have h := hstep a rest s hs
    unfold for_break
    rcases hb : body a s with ⟨s1, brk⟩
    rw [hb] at h
    cases brk with
    | true => exact h.1 rfl
    | false => exact ih s1 (h.2 rfl)

theorem length_modify_at {α : Type} (f : α → α) (n : Nat) (l : List α) :
    (modify_at f n l).length = l.length := by
  induction l generalizing n with
  | nil => cases n <;> rfl
  | cons a l ih =>
    cases n with
    | zero => rfl
    | succ n => simp [modify_at, ih]

theorem getD_modify_at {α : Type} (f : α → α) (n : Nat) (l : List α) (i : Nat) (d : α) :
    (modify_at f n l).getD i d
      = if i = n ∧ n < l.length then f (l.getD n d) else l.getD i d := by
  induction l generalizing n i with
  | nil => simp [modify_at]
  | cons a l ih =>
    cases n with
    | zero =>
      cases i with
      | zero => simp [modify_at]
      | succ i => simp [modify_at]
    | succ n =>
      cases i with
      | zero => simp [modify_at]
      | succ i =>
        simp only [modify_at, List.getD_cons_succ, ih, List.length_cons]
        simp

namespace Beam

theorem next_at_emplace (bm : Beam) (f : PathBuffer → PathBuffer) (i : Nat) :
    (bm.emplace f).next_at i
      = if i = bm.next_path ∧ bm.next_path < bm.next_paths_.length
        then f (bm.next_at bm.next_path) else bm.next_at i := by
  simp only [next_at, emplace, getD_modify_at]

theorem next_at_advance (bm : Beam) (i : Nat) : bm.advance.next_at i = bm.next_at i := rfl

theorem prev_at_emplace (bm : Beam) (f : PathBuffer → PathBuffer) (i : Nat) :
    (bm.emplace f).prev_at i = bm.prev_at i := rfl

theorem prev_at_advance (bm : Beam) (i : Nat) : bm.advance.prev_at i = bm.prev_at i := rfl

end Beam

theorem update_seeds_fst (P : Params) (e : Nat) (p : PathBuffer) (pe : Bool) :
    (update_seeds P e p pe).1 = p ∨ (update_seeds P e p pe).1 = { p with sa_checked_ := true } := by
  by_cases h : is_seed_valid P p pe = true
  · right
    rw [update_seeds, if_pos h]
  · left
    rw [update_seeds, if_neg h]

theorem update_seeds_snd (P : Params) (e : Nat) (p : PathBuffer) (pe : Bool) :
    ∀ s ∈ (update_seeds P e p pe).2,
      s.path = p ∧ s.path_ended = pe ∧ is_seed_valid P p pe = true ∧ s.win_prob = p.win_prob_ := by
  intro s hs
  by_cases h : is_seed_valid P p pe = true
  · rw [update_seeds, if_pos h] at hs
    simp only [List.mem_map] at hs
    obtain ⟨x, _, rfl⟩ := hs
    exact ⟨rfl, rfl, h, rfl⟩
  · rw [update_seeds, if_neg h] at hs
    simp at hs

/-! ## The first loop -/

theorem P1Inv.start_ok (P : Params) (v : Impl) (kp : Nat → ℚ) (prev_size : Nat) (bm0 : Beam)
    (h0 : bm0.next_path = 0) (h1 : bm0.overrun = false) :
    P1Inv P v kp prev_size bm0 bm0 :=
  { len_next := rfl
    len_prev := rfl
    cursor_le := by omega
    safe := h1
    srcs := rfl
    stale := fun _ _ => rfl
    child := fun i hi => by omega
    prev := fun _ => Or.inl rfl
    seeds := fun _ hs => Or.inl hs }

theorem P1Inv.write {P : Params} {v : Impl} {kp : Nat → ℚ} {prev_size : Nat} {bm0 bm : Beam}
    (h : P1Inv P v kp prev_size bm0 bm) (hc : bm.next_path < bm.next_paths_.length)
    (f : PathBuffer → PathBuffer) (pi : Nat) (hpi : pi < prev_size)
    (hv : (bm0.prev_at pi).is_valid = true)
    (hchild : Child P v kp (bm0.prev_at pi) (bm0.next_at bm.next_path)
      (f (bm0.next_at bm.next_path))) :
    P1Inv P v kp prev_size bm0 (bm.emplace f).advance := by
  have hcur : bm.next_at bm.next_path = bm0.next_at bm.next_path := h.stale _ (le_refl _)
  refine
    { len_next := ?_
      len_prev := h.len_prev
      cursor_le := ?_
      safe := ?_
      srcs := h.srcs
      stale := ?_
      child := ?_
      prev := h.prev
      seeds := h.seeds }
  · simp only [Beam.advance, Beam.emplace, length_modify_at]
    exact h.len_next
  · simp only [Beam.advance, Beam.emplace, length_modify_at]
    omega
  · simp only [Beam.advance, Beam.emplace, h.safe, Bool.false_or, decide_eq_false_iff_not]
    omega
  · intro j hj
    have hj2 : bm.next_path + 1 ≤ j := hj
    rw [Beam.next_at_advance, Beam.next_at_emplace, if_neg (by omega)]
    exact h.stale j (by omega)
  · intro i hi
    have hi2 : i < bm.next_path + 1 := hi
    rw [Beam.next_at_advance, Beam.next_at_emplace]
    by_cases hic : i = bm.next_path
    · rw [if_pos ⟨hic, hc⟩, hcur, hic]
      exact ⟨pi, hpi, hv, hchild⟩
    · rw [if_neg (by tauto)]
      exact h.child i (by omega)

theorem prev_at_end_path (P : Params) (e pi : Nat) (bm : Beam) (j : Nat) :
    (end_path P e pi bm).prev_at j
      = if j = pi ∧ pi < bm.prev_paths_.length
        then (update_seeds P e (bm.prev_at pi) true).1 else bm.prev_at j := by
  simp only [Beam.prev_at, end_path, getD_modify_at]

theorem P1Inv.end_path {P : Params} {v : Impl} {kp : Nat → ℚ} {prev_size : Nat} {bm0 bm : Beam}
    (h : P1Inv P v kp prev_size bm0 bm) (e pi : Nat) (hpi : pi < prev_size)
    (hsame : bm.prev_at pi = bm0.prev_at pi) :
    P1Inv P v kp prev_size bm0 (end_path P e pi bm) := by
  refine
    { len_next := h.len_next
      len_prev := ?_
      cursor_le := h.cursor_le
      safe := h.safe
      srcs := h.srcs
      stale := h.stale
      child := h.child
      prev := ?_
      seeds := ?_ }
  · simp only [Uncalled.end_path, length_modify_at]
    exact h.len_prev
  · intro j
    rw [prev_at_end_path]
    split_ifs with hj
    · rw [hj.1, hsame]
      exact update_seeds_fst P e _ true
    · exact h.prev j
  · intro s hs
    simp only [Uncalled.end_path, List.mem_append] at hs
    rcases hs with hs | hs
    · exact h.seeds s hs
    · obtain ⟨a, b, c, _⟩ := update_seeds_snd P e _ true s hs
      right
      rw [hsame] at a c
      exact ⟨b, by rw [a]; exact c, pi, hpi, a⟩


theorem add_neighbor_loop {P : Params} {v : Impl} {kp : Nat → ℚ} {prev_size : Nat}
    {bm0 : Beam} (pi : Nat) (hpi : pi < prev_size)
    (hv : (bm0.prev_at pi).is_valid = true) (prevs : List PathBuffer) (seeds : List Seed) :
    ∀ (bs : List Nat) (st : Beam × Bool),
      (P1Inv P v kp prev_size bm0 st.1 ∧ st.1.next_path < st.1.next_paths_.length ∧
        (∀ b ∈ bs, b < ALPH_SIZE) ∧ st.1.prev_paths_ = prevs ∧ st.1.seeds = seeds) →
      P1Inv P v kp prev_size bm0
          (for_break (add_neighbor P v kp (bm0.prev_at pi) (evpr_thresh_of P (bm0.prev_at pi)))
            bs st).1 ∧
        (for_break (add_neighbor P v kp (bm0.prev_at pi) (evpr_thresh_of P (bm0.prev_at pi)))
            bs st).1.prev_paths_ = prevs ∧
        (for_break (add_neighbor P v kp (bm0.prev_at pi) (evpr_thresh_of P (bm0.prev_at pi)))
            bs st).1.seeds = seeds := by
  refine for_break_rule _
    (fun (bs : List Nat) (st : Beam × Bool) =>
      P1Inv P v kp prev_size bm0 st.1 ∧ st.1.next_path < st.1.next_paths_.length ∧
        (∀ b ∈ bs, b < ALPH_SIZE) ∧ st.1.prev_paths_ = prevs ∧ st.1.seeds = seeds)
    (fun (st : Beam × Bool) =>
      P1Inv P v kp prev_size bm0 st.1 ∧ st.1.prev_paths_ = prevs ∧ st.1.seeds = seeds)
    ?_ ?_
  · rintro b rest ⟨bm, cf⟩ ⟨hinv, hc, hb, hp, hse⟩
    have hb0 : b < ALPH_SIZE := hb b (List.mem_cons_self _ _)
    have hrest : ∀ x ∈ rest, x < ALPH_SIZE := fun x hx => hb x (List.mem_cons_of_mem _ hx)
    simp only at hinv hc hp hse
    unfold add_neighbor
    by_cases h1 : kp (P.env.model_get_neighbor (bm0.prev_at pi).kmer_ b)
        < evpr_thresh_of P (bm0.prev_at pi)
    · simp only [if_pos h1]
      exact ⟨fun hh => by simp at hh, fun _ => ⟨hinv, hc, hrest, hp, hse⟩⟩
    · simp only [if_neg h1]
      by_cases h2 : (P.env.fmi_get_neighbor (bm0.prev_at pi).fm_range_
          (neighbor_base v P.env (P.env.model_get_neighbor (bm0.prev_at pi).kmer_ b) b)).is_valid
          = false
      · simp only [if_pos h2]
        exact ⟨fun hh => by simp at hh, fun _ => ⟨hinv, hc, hrest, hp, hse⟩⟩
      · simp only [if_neg h2]
        have hw := hinv.write hc
          (fun slot => make_child v P.seed_len slot (bm0.prev_at pi)
            (P.env.fmi_get_neighbor (bm0.prev_at pi).fm_range_
              (neighbor_base v P.env (P.env.model_get_neighbor (bm0.prev_at pi).kmer_ b) b))
            (P.env.model_get_neighbor (bm0.prev_at pi).kmer_ b)
            (kp (P.env.model_get_neighbor (bm0.prev_at pi).kmer_ b)) .MATCH)
          pi hpi hv (Child.mtch b hb0 h1 (by simpa using h2))
        refine ⟨fun _ => ⟨hw, hp, hse⟩, fun hne => ⟨hw, ?_, hrest, hp, hse⟩⟩
        have hle := hw.cursor_le
        simp only [Beam.at_end, decide_eq_false_iff_not] at hne
        omega
  · rintro st ⟨hinv, _, _, hp, hse⟩
    exact ⟨hinv, hp, hse⟩


theorem default_not_valid : (default : PathBuffer).is_valid = false := by
  decide

theorem prev_at_nil (bm : Beam) (h : bm.prev_paths_ = []) (j : Nat) : bm.prev_at j = default := by
  simp [Beam.prev_at, h]

theorem extend_prev_inv {P : Params} {v : Impl} {kp : Nat → ℚ} {prev_size : Nat}
    {bm0 bm : Beam} (e pi : Nat) (h : P1Inv P v kp prev_size bm0 bm) (hpi : pi < prev_size)
    (hsame : bm.prev_at pi = bm0.prev_at pi)
    (hhead : bm.next_path < bm.next_paths_.length ∨ bm0.prev_paths_ = []) :
    P1Inv P v kp prev_size bm0 (extend_prev P v kp e pi bm).1 ∧
      (∀ j, j ≠ pi → (extend_prev P v kp e pi bm).1.prev_at j = bm.prev_at j) ∧
      ((extend_prev P v kp e pi bm).2 = false →
        (extend_prev P v kp e pi bm).1.next_path < (extend_prev P v kp e pi bm).1.next_paths_.length
          ∨ bm0.prev_paths_ = []) := by
  unfold extend_prev
  simp only [hsame]
  by_cases hv : (bm0.prev_at pi).is_valid = false
  · simp only [if_pos hv]
    exact ⟨h, by simp, fun _ => hhead⟩
  · simp only [if_neg hv]
    have hvt : (bm0.prev_at pi).is_valid = true := by simpa using hv
    have hc : bm.next_path < bm.next_paths_.length := by
      rcases hhead with hc | hnil
      · exact hc
      · have := prev_at_nil bm0 hnil pi
        rw [this, default_not_valid] at hvt
        exact absurd hvt (by decide)
    -- the beam after the STAY child, if any
    have hbm1 : ∀ stay : Bool,
        (stay = true → (bm0.prev_at pi).consec_stays_ < P.max_consec_stay ∧
          kp (bm0.prev_at pi).kmer_ ≥ evpr_thresh_of P (bm0.prev_at pi)) →
        P1Inv P v kp prev_size bm0
          (if stay = true then
            (bm.emplace (fun slot =>
              make_child v P.seed_len slot (bm0.prev_at pi) (bm0.prev_at pi).fm_range_
                (bm0.prev_at pi).kmer_ (kp (bm0.prev_at pi).kmer_) .STAY)).advance
          else bm) := by
      intro stay hstay
      cases stay with
      | false => simpa using h
      | true =>
        simp only [if_true]
        exact h.write hc _ pi hpi hvt (Child.stay (hstay rfl).1 (hstay rfl).2)
    generalize hst : (decide ((bm0.prev_at pi).consec_stays_ < P.max_consec_stay) &&
      decide (kp (bm0.prev_at pi).kmer_ ≥
        P.get_prob_thresh (bm0.prev_at pi).fm_range_.length.toNat)) = stay
    have hstay : stay = true → (bm0.prev_at pi).consec_stays_ < P.max_consec_stay ∧
        kp (bm0.prev_at pi).kmer_ ≥ evpr_thresh_of P (bm0.prev_at pi) := by
      intro hs
      rw [hs] at hst
      simpa [evpr_thresh_of] using hst
    have h1 := hbm1 stay hstay
    generalize hb1 : (if stay = true then
            (bm.emplace (fun slot =>
              make_child v P.seed_len slot (bm0.prev_at pi) (bm0.prev_at pi).fm_range_
                (bm0.prev_at pi).kmer_ (kp (bm0.prev_at pi).kmer_) .STAY)).advance
          else bm) = bm1 at h1 ⊢
    have hp1 : bm1.prev_paths_ = bm.prev_paths_ := by
      rw [← hb1]
      split_ifs <;> rfl
    have hs1 : bm1.seeds = bm.seeds := by
      rw [← hb1]
      split_ifs <;> rfl
    by_cases hbrk : (stay && bm1.at_end) = true
    · rw [if_pos hbrk]
      refine ⟨h1, fun j _ => ?_, fun hh => by simp at hh⟩
      simp only [Beam.prev_at, hp1]
    · rw [if_neg hbrk]
      have hc1 : bm1.next_path < bm1.next_paths_.length := by
        have hle := h1.cursor_le
        cases stay with
        | false =>
          simp only [if_false, Bool.false_eq_true] at hb1
          rw [← hb1]
          exact hc
        | true =>
          simp only [Bool.true_and, Beam.at_end, decide_eq_true_eq] at hbrk
          omega
      obtain ⟨h2, hp2, hs2⟩ := add_neighbor_loop pi hpi hvt bm.prev_paths_ bm.seeds
        (List.range ALPH_SIZE) (bm1, stay)
        ⟨h1, hc1, fun b hb => List.mem_range.mp hb, hp1, hs1⟩
      simp only [evpr_thresh_of] at h2 hp2 hs2
      generalize (for_break
        (add_neighbor P v kp (bm0.prev_at pi)
          (P.get_prob_thresh (bm0.prev_at pi).fm_range_.length.toNat))
        (List.range ALPH_SIZE) (bm1, stay)) = st2 at h2 hp2 hs2 ⊢
      have hsame2 : st2.1.prev_at pi = bm0.prev_at pi := by
        simp only [Beam.prev_at, hp2]
        exact hsame
      have h3 : P1Inv P v kp prev_size bm0
          (if (!st2.2 && !(bm0.prev_at pi).sa_checked_) = true then end_path P e pi st2.1
            else st2.1) := by
        split_ifs
        · exact h2.end_path e pi hpi hsame2
        · exact h2
      refine ⟨h3, fun j hj => ?_, fun hh => ?_⟩
      · split_ifs
        · rw [prev_at_end_path, if_neg (by tauto)]
          simp only [Beam.prev_at, hp2]
        · simp only [Beam.prev_at, hp2]
      · left
        have hle := h3.cursor_le
        simp only [Beam.at_end, decide_eq_false_iff_not] at hh
        show (if (!st2.2 && !(bm0.prev_at pi).sa_checked_) = true then end_path P e pi st2.1
            else st2.1).next_path
          < (if (!st2.2 && !(bm0.prev_at pi).sa_checked_) = true then end_path P e pi st2.1
            else st2.1).next_paths_.length
        omega

theorem phase1_inv (P : Params) (v : Impl) (kp : Nat → ℚ) (e prev_size : Nat) (bm0 : Beam)
    (h0 : bm0.next_path = 0) (h1 : bm0.overrun = false)
    (hlen : bm0.prev_paths_.length = bm0.next_paths_.length) :
    P1Inv P v kp prev_size bm0 (phase1 P v kp e prev_size bm0) := by
  unfold phase1
  refine for_break_rule _
    (fun (rem : List Nat) (bm : Beam) =>
      P1Inv P v kp prev_size bm0 bm ∧ rem.Nodup ∧
        (∀ j ∈ rem, j < prev_size ∧ bm.prev_at j = bm0.prev_at j) ∧
        (bm.next_path < bm.next_paths_.length ∨ bm0.prev_paths_ = []))
    (fun (bm : Beam) => P1Inv P v kp prev_size bm0 bm) ?_ ?_ (List.range prev_size) bm0 ?_
  · rintro pi rest bm ⟨hinv, hnd, hrem, hhead⟩
    obtain ⟨hpi, hsame⟩ := hrem pi (List.mem_cons_self _ _)
    obtain ⟨r1, r2, r3⟩ := extend_prev_inv e pi hinv hpi hsame hhead
    refine ⟨fun _ => r1, fun hb => ⟨r1, (List.nodup_cons.mp hnd).2, fun j hj => ?_, r3 hb⟩⟩
    have hne : j ≠ pi := by
      intro hjp
      rw [hjp] at hj
      exact (List.nodup_cons.mp hnd).1 hj
    obtain ⟨hj1, hj2⟩ := hrem j (List.mem_cons_of_mem _ hj)
    exact ⟨hj1, (r2 j hne).trans hj2⟩
  · rintro bm ⟨hinv, _⟩
    exact hinv
  · refine ⟨P1Inv.start_ok P v kp prev_size bm0 h0 h1, List.nodup_range _,
      fun j hj => ⟨List.mem_range.mp hj, rfl⟩, ?_⟩
    by_cases hz : bm0.next_paths_.length = 0
    · right
      exact List.length_eq_zero.mp (hlen.trans hz)
    · left
      omega

/-! ## The second loop: frame and provenance -/

theorem make_source_fields (v : Impl) (slot : PathBuffer) (r : Range) (k : Nat) (p : ℚ) :
    (make_source v slot r k p).kmer_ = k ∧ (make_source v slot r k p).fm_range_ = r ∧
      (make_source v slot r k p).length_ = 1 ∧ (make_source v slot r k p).consec_stays_ = 0 ∧
      (make_source v slot r k p).win_prob_ = p ∧
      (make_source v slot r k p).sa_checked_ = false := by
  cases v <;> exact ⟨rfl, rfl, rfl, rfl, rfl, rfl⟩

theorem P2Inv.add_source {P : Params} {v : Impl} {kp : Nat → ℚ} {e n : Nat} {bmS bm : Beam}
    {i : Nat} (h : P2Inv P v kp e n bmS i bm) (hi : i ≤ n) (hend : bm.at_end = false)
    (r : Range) (k : Nat)
    (hk : kp k ≥ P.get_source_prob) (hc : ∃ c, c < n ∧ (bmS.next_at c).kmer_ = k) :
    P2Inv P v kp e n bmS i (add_source v kp bm r k) := by
  unfold Uncalled.add_source
  by_cases hr : r.is_valid = true
  · rw [if_pos hr]
    have hlt : bm.next_path < bm.next_paths_.length := by
      have := h.cursor_le
      simp only [Beam.at_end, decide_eq_false_iff_not] at hend
      omega
    have hge := h.cursor_ge
    have hcur : bm.next_at bm.next_path = bmS.next_at bm.next_path := h.stale _ (le_refl _)
    refine
      { len_next := ?_
        prev := h.prev
        cursor_ge := ?_
        cursor_le := ?_
        safe := ?_
        todo := ?_
        done := ?_
        stale := ?_
        srcs := ?_
        seeds := h.seeds
        added := h.added }
    · simp only [Beam.advance, Beam.emplace, length_modify_at]
      exact h.len_next
    · simp only [Beam.advance, Beam.emplace]
      omega
    · simp only [Beam.advance, Beam.emplace, length_modify_at]
      omega
    · simp only [Beam.advance, Beam.emplace, h.safe, Bool.false_or, decide_eq_false_iff_not]
      omega
    · intro j hj hjn
      rw [Beam.next_at_advance, Beam.next_at_emplace, if_neg (by omega)]
      exact h.todo j hj hjn
    · intro j hj
      rw [Beam.next_at_advance, Beam.next_at_emplace, if_neg (by omega)]
      exact h.done j hj
    · intro j hj
      have hj2 : bm.next_path + 1 ≤ j := hj
      rw [Beam.next_at_advance, Beam.next_at_emplace, if_neg (by omega)]
      exact h.stale j (by omega)
    · intro j hj hjc
      have hjc2 : j < bm.next_path + 1 := hjc
      rw [Beam.next_at_advance, Beam.next_at_emplace]
      by_cases hjn : j = bm.next_path
      · rw [if_pos ⟨hjn, hlt⟩, hcur, hjn]
        obtain ⟨c, hc1, hc2⟩ := hc
        exact ⟨⟨r, k, rfl, hr, hk⟩, c, hc1, by rw [(make_source_fields v _ r k _).1, hc2]⟩
      · rw [if_neg (by tauto)]
        exact h.srcs j hj (by omega)
  · rw [if_neg hr]
    exact h


theorem SimSlots.add_source_sim {P : Params} {v : Impl} {kp : Nat → ℚ} {e n : Nat} {bmS bm : Beam}
    {i : Nat} {srcs : List (Range × Nat)} (h : P2Inv P v kp e n bmS i bm)
    (hs : SimSlots v kp n bmS bm srcs) (hend : bm.at_end = false) (r : Range) (k : Nat) :
    SimSlots v kp n bmS (add_source v kp bm r k) (plan_add srcs r k) := by
  obtain ⟨hcur, hsl⟩ := hs
  unfold Uncalled.add_source plan_add
  by_cases hr : r.is_valid = true
  · rw [if_pos hr, if_pos hr]
    have hlt : bm.next_path < bm.next_paths_.length := by
      have := h.cursor_le
      simp only [Beam.at_end, decide_eq_false_iff_not] at hend
      omega
    have hcur0 : bm.next_at bm.next_path = bmS.next_at bm.next_path := h.stale _ (le_refl _)
    refine ⟨?_, ?_⟩
    · simp only [Beam.advance, Beam.emplace, List.length_append, List.length_singleton]
      omega
    · intro t r1 k1 ht
      rw [Beam.next_at_advance, Beam.next_at_emplace]
      by_cases htl : t < srcs.length
      · rw [List.getElem?_append_left htl] at ht
        rw [if_neg (by omega)]
        exact hsl t r1 k1 ht
      · have hge : srcs.length ≤ t := by omega
        rw [List.getElem?_append_right hge] at ht
        have ht0 : t - srcs.length = 0 := by
          by_contra hne
          have : ([(r, k)] : List (Range × Nat))[t - srcs.length]? = none := by
            apply List.getElem?_eq_none
            simp only [List.length_singleton]
            omega
          rw [this] at ht
          exact absurd ht (by simp)
        rw [ht0] at ht
        simp only [List.getElem?_cons_zero, Option.some.injEq, Prod.mk.injEq] at ht
        obtain ⟨rfl, rfl⟩ := ht
        have htn : n + t = bm.next_path := by omega
        rw [if_pos ⟨htn, hlt⟩, hcur0, htn]
  · rw [if_neg hr, if_neg hr]
    exact ⟨hcur, hsl⟩

theorem P2Inv.set_added {P : Params} {v : Impl} {kp : Nat → ℚ} {e n : Nat} {bmS bm : Beam}
    {i : Nat} (h : P2Inv P v kp e n bmS i bm) (k : Nat)
    (hk : kp k ≥ P.get_source_prob) (hc : ∃ c, c < n ∧ (bmS.next_at c).kmer_ = k) :
    P2Inv P v kp e n bmS i (bm.set_added k true) := by
  refine
    { len_next := h.len_next
      prev := h.prev
      cursor_ge := h.cursor_ge
      cursor_le := h.cursor_le
      safe := h.safe
      todo := h.todo
      done := h.done
      stale := h.stale
      srcs := h.srcs
      seeds := h.seeds
      added := ?_ }
  intro k1 hk1
  by_cases hkk : k1 = k
  · right
    obtain ⟨c, hc1, hc2⟩ := hc
    exact ⟨c, hc1, by rw [hkk]; exact hc2, by rw [hkk]; exact hk⟩
  · simp only [Beam.set_added, Function.update_noteq hkk] at hk1
    exact h.added k1 hk1

theorem left_source_sim {P : Params} {v : Impl} {kp : Nat → ℚ} {e n : Nat} {bmS : Beam}
    {i : Nat} {st : SrcState} {pl : Plan} (h : P2Inv P v kp e n bmS i st.bm)
    (hs : Sim v kp n bmS st pl) (hi : i < n) :
    P2Inv P v kp e n bmS i (left_source P v kp i st).bm ∧
      Sim v kp n bmS (left_source P v kp i st)
        (plan_left P kp n bmS.next_paths_.length bmS.next_at i pl) ∧
      (left_source P v kp i st).prev_kmer = (bmS.next_at i).kmer_ := by
  have hread : st.bm.next_at i = bmS.next_at i := h.todo i (le_refl _) hi
  have hend : st.bm.at_end = decide (n + pl.srcs.length = bmS.next_paths_.length) := by
    simp only [Beam.at_end, hs.slots.1, h.len_next]
  unfold left_source plan_left
  simp only [hread, hs.kmer, hend]
  by_cases hg : (decide ((bmS.next_at i).kmer_ ≠ pl.prev_kmer) &&
      !decide (n + pl.srcs.length = bmS.next_paths_.length) &&
      decide (kp (bmS.next_at i).kmer_ ≥ P.get_source_prob)) = true
  · rw [if_pos hg, if_pos hg]
    have hg2 := hg
    simp only [Bool.and_eq_true, Bool.not_eq_true', decide_eq_true_eq, decide_eq_false_iff_not]
      at hg2
    obtain ⟨⟨_, hroom⟩, hclr⟩ := hg2
    have hc : ∃ c, c < n ∧ (bmS.next_at c).kmer_ = (bmS.next_at i).kmer_ := ⟨i, hi, rfl⟩
    have h1 := h.set_added (bmS.next_at i).kmer_ hclr hc
    have hend1 : (st.bm.set_added (bmS.next_at i).kmer_ true).at_end = false := by
      simp only [Beam.at_end, Beam.set_added, hs.slots.1, h.len_next, decide_eq_false_iff_not]
      exact hroom
    have h2 := h1.add_source (le_of_lt hi) hend1
      { start_ := (P.env.kmer_fmranges (bmS.next_at i).kmer_).start_
        end_ := (bmS.next_at i).fm_range_.start_ - 1 } (bmS.next_at i).kmer_ hclr hc
    have hs2 := SimSlots.add_source_sim h1 hs.slots hend1
      { start_ := (P.env.kmer_fmranges (bmS.next_at i).kmer_).start_
        end_ := (bmS.next_at i).fm_range_.start_ - 1 } (bmS.next_at i).kmer_
    refine ⟨h2, ⟨rfl, ?_, hs2⟩, rfl⟩
    simp only
    rw [h2.todo i (le_refl _) hi]
  · rw [if_neg hg, if_neg hg]
    exact ⟨h, ⟨rfl, hs.unchecked, hs.slots⟩, rfl⟩


theorem after_source_sim {P : Params} {v : Impl} {kp : Nat → ℚ} {e n : Nat} {bmS : Beam}
    {i : Nat} {st : SrcState} {pl : Plan} (h : P2Inv P v kp e n bmS i st.bm)
    (hs : Sim v kp n bmS st pl) (hi : i < n) :
    P2Inv P v kp e n bmS i (after_source P v kp n i (bmS.next_at i).kmer_ st).bm ∧
      Sim v kp n bmS (after_source P v kp n i (bmS.next_at i).kmer_ st)
        (plan_after P kp n bmS.next_paths_.length bmS.next_at i pl) ∧
      (after_source P v kp n i (bmS.next_at i).kmer_ st).prev_kmer = st.prev_kmer := by
  have hend : st.bm.at_end = decide (n + pl.srcs.length = bmS.next_paths_.length) := by
    simp only [Beam.at_end, hs.slots.1, h.len_next]
  have hread : decide (i < n - 1) = true → st.bm.next_at (i + 1) = bmS.next_at (i + 1) := by
    intro hlt
    simp only [decide_eq_true_eq] at hlt
    exact h.todo (i + 1) (by omega) (by omega)
  unfold after_source plan_after
  simp only [hs.unchecked, hend]
  by_cases hg : (!decide (n + pl.srcs.length = bmS.next_paths_.length) &&
      decide (kp (bmS.next_at i).kmer_ ≥ P.get_source_prob)) = true
  · rw [if_pos hg, if_pos hg]
    have hg2 := hg
    simp only [Bool.and_eq_true, Bool.not_eq_true', decide_eq_true_eq, decide_eq_false_iff_not]
      at hg2
    obtain ⟨hroom, hclr⟩ := hg2
    have hc : ∃ c, c < n ∧ (bmS.next_at c).kmer_ = (bmS.next_at i).kmer_ := ⟨i, hi, rfl⟩
    have hend1 : st.bm.at_end = false := by
      rw [hend]
      simpa using hroom
    cases hlt : decide (i < n - 1) with
    | false =>
      simp only [Bool.false_and, Bool.false_eq_true, if_false]
      exact ⟨h.add_source (le_of_lt hi) hend1 _ _ hclr hc,
        ⟨hs.kmer, rfl, SimSlots.add_source_sim h hs.slots hend1 _ _⟩, trivial⟩
    | true =>
      simp only [Bool.true_and, hread hlt]
      exact ⟨h.add_source (le_of_lt hi) hend1 _ _ hclr hc,
        ⟨hs.kmer, rfl, SimSlots.add_source_sim h hs.slots hend1 _ _⟩, trivial⟩
  · rw [if_neg hg, if_neg hg]
    exact ⟨h, hs, rfl⟩

theorem P2Inv.settle_slot {P : Params} {v : Impl} {kp : Nat → ℚ} {e n : Nat} {bmS bm : Beam}
    {i : Nat} (h : P2Inv P v kp e n bmS i bm) (hi : i < n) (f : PathBuffer → PathBuffer)
    (seeds : List Seed)
    (hf : f (bmS.next_at i) = settle P e n bmS.next_at i)
    (hseeds : ∀ s ∈ seeds, s.path_ended = false ∧ is_seed_valid P s.path false = true ∧
      s.path = bmS.next_at i) :
    P2Inv P v kp e n bmS (i + 1) (bm.settle_at i f seeds) := by
  have hge := h.cursor_ge
  have hle := h.cursor_le
  have hnx : ∀ j, (bm.settle_at i f seeds).next_at j
      = if j = i ∧ i < bm.next_paths_.length then f (bm.next_at i) else bm.next_at j := by
    intro j
    simp only [Beam.next_at, Beam.settle_at, getD_modify_at]
  refine
    { len_next := ?_
      prev := h.prev
      cursor_ge := h.cursor_ge
      cursor_le := ?_
      safe := h.safe
      todo := ?_
      done := ?_
      stale := ?_
      srcs := ?_
      seeds := ?_
      added := h.added }
  · simp only [Beam.settle_at, length_modify_at]
    exact h.len_next
  · simp only [Beam.settle_at, length_modify_at]
    exact h.cursor_le
  · intro j hj hjn
    rw [hnx, if_neg (by omega)]
    exact h.todo j (by omega) hjn
  · intro j hj
    rw [hnx]
    by_cases hji : j = i
    · rw [if_pos ⟨hji, by omega⟩, h.todo i (le_refl _) hi, hji]
      exact hf
    · rw [if_neg (by tauto)]
      exact h.done j (by omega)
  · intro j hj
    have hj2 : bm.next_path ≤ j := hj
    rw [hnx, if_neg (by omega)]
    exact h.stale j hj2
  · intro j hj hjc
    have hjc2 : j < bm.next_path := hjc
    rw [hnx, if_neg (by omega)]
    exact h.srcs j hj hjc2
  · intro s hs
    simp only [Beam.settle_at, List.mem_append] at hs
    rcases hs with hs | hs
    · exact h.seeds s hs
    · obtain ⟨a, b, c⟩ := hseeds s hs
      exact Or.inr ⟨a, b, i, hi, c⟩

theorem SimSlots.settle_slot_sim {v : Impl} {kp : Nat → ℚ} {n : Nat} {bmS bm : Beam}
    {srcs : List (Range × Nat)} (hs : SimSlots v kp n bmS bm srcs) (i : Nat) (hi : i < n)
    (f : PathBuffer → PathBuffer) (seeds : List Seed) :
    SimSlots v kp n bmS (bm.settle_at i f seeds) srcs := by
  refine ⟨hs.1, fun t r k ht => ?_⟩
  have : (bm.settle_at i f seeds).next_at (n + t) = bm.next_at (n + t) := by
    simp only [Beam.next_at, Beam.settle_at, getD_modify_at]
    rw [if_neg (by omega)]
  rw [this]
  exact hs.2 t r k ht


theorem source_step_sim {P : Params} {v : Impl} {kp : Nat → ℚ} {e n : Nat} {bmS : Beam}
    {i : Nat} {st : SrcState} {pl : Plan} (h : P2Inv P v kp e n bmS i st.bm)
    (hs : Sim v kp n bmS st pl) (hi : i < n) :
    P2Inv P v kp e n bmS (i + 1) (source_step P v kp e n st i).bm ∧
      Sim v kp n bmS (source_step P v kp e n st i)
        (plan_step P kp n bmS.next_paths_.length bmS.next_at pl i) := by
  obtain ⟨h1, hs1, _⟩ := left_source_sim h hs hi
  have hread : st.bm.next_at i = bmS.next_at i := h.todo i (le_refl _) hi
  have hread1 : (left_source P v kp i st).bm.next_at i = bmS.next_at i :=
    h1.todo i (le_refl _) hi
  unfold source_step plan_step
  simp only [hread, hread1]
  cases hlt : decide (i < n - 1) with
  | false =>
    simp only [Bool.false_and, Bool.false_eq_true, if_false]
    obtain ⟨h2, hs2, _⟩ := after_source_sim h1 hs1 hi
    have hread2 : (after_source P v kp n i (bmS.next_at i).kmer_
        (left_source P v kp i st)).bm.next_at i = bmS.next_at i := h2.todo i (le_refl _) hi
    have hset : (fun p => (update_seeds P e p false).1) (bmS.next_at i)
        = settle P e n bmS.next_at i := by
      have : ¬ i < n - 1 := by simpa using hlt
      simp only [settle]
      rw [if_neg (by tauto)]
    refine ⟨?_, hs2.kmer, hs2.unchecked, ?_⟩
    · exact h2.settle_slot hi _ _ hset (fun s hs => by
        rw [hread2] at hs
        obtain ⟨a, b, c, _⟩ := update_seeds_snd P e _ false s hs
        exact ⟨b, by rw [a]; exact c, a⟩)
    · exact SimSlots.settle_slot_sim hs2.slots i hi _ _
  | true =>
    have hlt2 : i < n - 1 := by simpa using hlt
    have hread1n : (left_source P v kp i st).bm.next_at (i + 1) = bmS.next_at (i + 1) :=
      h1.todo (i + 1) (by omega) (by omega)
    simp only [Bool.true_and, hread1n]
    by_cases hdup : (bmS.next_at i).fm_range_.eq (bmS.next_at (i + 1)).fm_range_ = true
    · rw [if_pos hdup, if_pos hdup]
      have hset : PathBuffer.invalidate (bmS.next_at i) = settle P e n bmS.next_at i := by
        simp only [settle]
        rw [if_pos ⟨hlt2, hdup⟩]
      refine ⟨?_, hs1.kmer, hs1.unchecked, ?_⟩
      · exact h1.settle_slot hi _ [] hset (fun s hs => by simp at hs)
      · exact SimSlots.settle_slot_sim hs1.slots i hi _ _
    · rw [if_neg hdup, if_neg hdup]
      obtain ⟨h2, hs2, _⟩ := after_source_sim h1 hs1 hi
      have hread2 : (after_source P v kp n i (bmS.next_at i).kmer_
          (left_source P v kp i st)).bm.next_at i = bmS.next_at i := h2.todo i (le_refl _) hi
      have hset : (fun p => (update_seeds P e p false).1) (bmS.next_at i)
          = settle P e n bmS.next_at i := by
        simp only [settle]
        rw [if_neg (by tauto)]
      refine ⟨?_, hs2.kmer, hs2.unchecked, ?_⟩
      · exact h2.settle_slot hi _ _ hset (fun s hs => by
          rw [hread2] at hs
          obtain ⟨a, b, c, _⟩ := update_seeds_snd P e _ false s hs
          exact ⟨b, by rw [a]; exact c, a⟩)
      · exact SimSlots.settle_slot_sim hs2.slots i hi _ _

theorem loop2_sim (P : Params) (v : Impl) (kp : Nat → ℚ) (e n : Nat) (bmS : Beam)
    (hcur : bmS.next_path = n) (hle : n ≤ bmS.next_paths_.length) (hsafe : bmS.overrun = false) :
    ∀ i, i ≤ n →
      P2Inv P v kp e n bmS i (loop2_upto P v kp e n bmS i).bm ∧
        Sim v kp n bmS (loop2_upto P v kp e n bmS i)
          (plan_upto P kp n bmS.next_paths_.length bmS.next_at i) := by
  intro i
  induction i with
  | zero =>
    intro _
    refine ⟨?_, ⟨rfl, rfl, ?_⟩⟩
    · exact
        { len_next := rfl
          prev := rfl
          cursor_ge := by simp [loop2_upto, hcur]
          cursor_le := by simp only [loop2_upto, List.range_zero, List.foldl_nil]; omega
          safe := hsafe
          todo := fun _ _ _ => rfl
          done := fun j hj => by omega
          stale := fun _ _ => rfl
          srcs := fun j hj hjc => by
            simp only [loop2_upto, List.range_zero, List.foldl_nil, hcur] at hjc
            omega
          seeds := fun _ hs => Or.inl hs
          added := fun _ hk => Or.inl hk }
    · refine ⟨by simp [loop2_upto, plan_upto, hcur], fun t r k ht => ?_⟩
      simp [plan_upto] at ht
  | succ i ih =>
    intro hi
    obtain ⟨h1, h2⟩ := ih (by omega)
    have := source_step_sim h1 h2 (by omega)
    simpa only [loop2_upto, plan_upto, List.range_succ, List.foldl_append, List.foldl_cons,
      List.foldl_nil] using this

/-! ## The last loop -/

theorem P3Inv.enter_ok (P : Params) (v : Impl) (kp : Nat → ℚ) (bm2 : Beam)
    (hle : bm2.next_path ≤ bm2.next_paths_.length) (hsafe : bm2.overrun = false) :
    P3Inv P v kp bm2 bm2 :=
  { len_next := rfl
    prev := rfl
    cursor_ge := le_refl _
    cursor_le := hle
    safe := hsafe
    old := fun _ _ => rfl
    stale := fun _ _ => rfl
    srcs := fun j h1 h2 => by omega
    seeds := rfl
    added := fun _ h => h }

theorem phase3_inv (P : Params) (v : Impl) (kp : Nat → ℚ) (bm2 : Beam)
    (hle : bm2.next_path ≤ bm2.next_paths_.length) (hsafe : bm2.overrun = false) :
    P3Inv P v kp bm2 (phase3 P v kp bm2) ∧
      ((phase3 P v kp bm2).at_end = true ∨
        ∀ k, k < P.env.kmer_count → (phase3 P v kp bm2).sources_added_ k = false) := by
  unfold phase3
  refine for_break_rule _
    (fun (rem : List Nat) (bm : Beam) =>
      P3Inv P v kp bm2 bm ∧ rem.Pairwise (fun a b => a < b) ∧
        (∀ k ∈ rem, k < P.env.kmer_count) ∧
        (∀ k ∈ rem, bm.sources_added_ k = bm2.sources_added_ k) ∧
        (∀ j, bm2.next_path ≤ j → j < bm.next_path → ∀ k ∈ rem, (bm.next_at j).kmer_ < k) ∧
        (∀ k, k < P.env.kmer_count → k ∉ rem → bm.sources_added_ k = false))
    (fun (bm : Beam) => P3Inv P v kp bm2 bm ∧
      (bm.at_end = true ∨ ∀ k, k < P.env.kmer_count → bm.sources_added_ k = false))
    ?_ ?_ (List.range P.env.kmer_count) bm2 ?_
  · rintro kmer rest bm ⟨hinv, hpw, hlt, hsame, hinc, hclr⟩
    have hk : kmer < P.env.kmer_count := hlt kmer (List.mem_cons_self _ _)
    have hrest : ∀ k ∈ rest, kmer < k := (List.pairwise_cons.mp hpw).1
    have hpw2 := (List.pairwise_cons.mp hpw).2
    have hnot : kmer ∉ rest := fun hm => by
      have := hrest kmer hm
      omega
    unfold full_source
    by_cases hend : bm.at_end = true
    · rw [if_pos hend]
      exact ⟨fun _ => ⟨hinv, Or.inl hend⟩, fun hh => by simp at hh⟩
    · rw [if_neg hend]
      have hendf : bm.at_end = false := by simpa using hend
      have hltc : bm.next_path < bm.next_paths_.length := by
        have := hinv.cursor_le
        simp only [Beam.at_end, decide_eq_false_iff_not] at hendf
        omega
      by_cases hg : (!bm.sources_added_ kmer && decide (kp kmer ≥ P.get_source_prob) &&
          !bm.at_end && (P.env.kmer_fmranges kmer).is_valid) = true
      · rw [if_pos hg]
        refine ⟨fun hh => by simp at hh, fun _ => ?_⟩
        have hg2 := hg
        simp only [Bool.and_eq_true, Bool.not_eq_true', decide_eq_true_eq] at hg2
        obtain ⟨⟨⟨hflag, hclears⟩, _⟩, hvalid⟩ := hg2
        have hcur : bm.next_at bm.next_path = bm2.next_at bm.next_path :=
          hinv.stale _ (le_refl _)
        have hge := hinv.cursor_ge
        have hnew : ∀ j, ((bm.emplace (fun slot =>
            make_source v slot (P.env.kmer_fmranges kmer) kmer (kp kmer))).advance).next_at j
            = if j = bm.next_path then
                make_source v (bm2.next_at bm.next_path) (P.env.kmer_fmranges kmer) kmer (kp kmer)
              else bm.next_at j := by
          intro j
          rw [Beam.next_at_advance, Beam.next_at_emplace]
          by_cases hj : j = bm.next_path
          · rw [if_pos ⟨hj, hltc⟩, if_pos hj, hcur]
          · rw [if_neg (by tauto), if_neg hj]
        refine ⟨?_, hpw2, fun k hk => hlt k (List.mem_cons_of_mem _ hk),
          fun k hk => hsame k (List.mem_cons_of_mem _ hk), ?_, ?_⟩
        · refine
            { len_next := ?_
              prev := hinv.prev
              cursor_ge := ?_
              cursor_le := ?_
              safe := ?_
              old := ?_
              stale := ?_
              srcs := ?_
              seeds := hinv.seeds
              added := hinv.added }
          · simp only [Beam.advance, Beam.emplace, length_modify_at]
            exact hinv.len_next
          · simp only [Beam.advance, Beam.emplace]
            omega
          · simp only [Beam.advance, Beam.emplace, length_modify_at]
            omega
          · simp only [Beam.advance, Beam.emplace, hinv.safe, Bool.false_or,
              decide_eq_false_iff_not]
            omega
          · intro j hj
            rw [hnew, if_neg (by omega)]
            exact hinv.old j hj
          · intro j hj
            have hj2 : bm.next_path + 1 ≤ j := hj
            rw [hnew, if_neg (by omega)]
            exact hinv.stale j (by omega)
          · intro j hj hjc
            have hjc2 : j < bm.next_path + 1 := hjc
            rw [hnew]
            by_cases hjn : j = bm.next_path
            · rw [if_pos hjn, hjn]
              obtain ⟨f1, f2, _⟩ := make_source_fields v (bm2.next_at bm.next_path)
                (P.env.kmer_fmranges kmer) kmer (kp kmer)
              refine ⟨⟨_, _, rfl, hvalid, hclears⟩, by rw [f1]; exact hk, by rw [f1, f2], ?_, ?_⟩
              · rw [f1, ← hsame kmer (List.mem_cons_self _ _)]
                exact hflag
              · intro j2 h1 h2
                have h3 : j2 < bm.next_path + 1 := h2
                omega
            · rw [if_neg hjn]
              obtain ⟨a, b, c, d, e⟩ := hinv.srcs j hj (by omega)
              refine ⟨a, b, c, d, ?_⟩
              intro j2 h1 h2
              have h3 : j2 < bm.next_path + 1 := h2
              rw [hnew]
              by_cases hj2 : j2 = bm.next_path
              · rw [if_pos hj2, (make_source_fields v _ _ kmer _).1]
                exact hinc j hj (by omega) kmer (List.mem_cons_self _ _)
              · rw [if_neg hj2]
                exact e j2 h1 (by omega)
        · intro j hj hjc k hk
          have hjc2 : j < bm.next_path + 1 := hjc
          rw [hnew]
          by_cases hjn : j = bm.next_path
          · rw [if_pos hjn, (make_source_fields v _ _ kmer _).1]
            exact hrest k hk
          · rw [if_neg hjn]
            exact hinc j hj (by omega) k (List.mem_cons_of_mem _ hk)
        · intro k hk hnr
          by_cases hkk : k = kmer
          · rw [hkk]
            exact hflag
          · exact hclr k hk (by
              intro hm
              rcases List.mem_cons.mp hm with h | h
              · exact hkk h
              · exact hnr h)
      · rw [if_neg hg]
        refine ⟨fun hh => by simp at hh, fun _ => ?_⟩
        refine ⟨?_, hpw2, fun k hk => hlt k (List.mem_cons_of_mem _ hk), ?_, ?_, ?_⟩
        · exact
            { len_next := hinv.len_next
              prev := hinv.prev
              cursor_ge := hinv.cursor_ge
              cursor_le := hinv.cursor_le
              safe := hinv.safe
              old := hinv.old
              stale := hinv.stale
              srcs := hinv.srcs
              seeds := hinv.seeds
              added := fun k hkt => by
                by_cases hkk : k = kmer
                · rw [hkk] at hkt
                  simp [Beam.set_added] at hkt
                · simp only [Beam.set_added, Function.update_noteq hkk] at hkt
                  exact hinv.added k hkt }
        · intro k hk
          have hne : k ≠ kmer := fun h => hnot (h ▸ hk)
          simp only [Beam.set_added, Function.update_noteq hne]
          exact hsame k (List.mem_cons_of_mem _ hk)
        · intro j hj hjc k hk
          exact hinc j hj hjc k (List.mem_cons_of_mem _ hk)
        · intro k hk hnr
          by_cases hkk : k = kmer
          · rw [hkk]
            simp [Beam.set_added]
          · simp only [Beam.set_added, Function.update_noteq hkk]
            exact hclr k hk (by
              intro hm
              rcases List.mem_cons.mp hm with h | h
              · exact hkk h
              · exact hnr h)
  · rintro bm ⟨hinv, _, _, _, _, hclr⟩
    exact ⟨hinv, Or.inr (fun k hk => hclr k hk (List.not_mem_nil k))⟩
  · refine ⟨P3Inv.enter_ok P v kp bm2 hle hsafe, ?_, fun k hk => List.mem_range.mp hk,
      fun _ _ => rfl, fun j h1 h2 => by omega, fun k hk hn => ?_⟩
    · exact List.pairwise_lt_range _
    · exact absurd (List.mem_range.mpr hk) hn

/-! ## The sorted children -/

theorem sort_children_spec (P : Params) (bm : Beam) (hsort : IsSort P.env.sort)
    (hle : bm.next_path ≤ bm.next_paths_.length) :
    (sort_children P bm).next_paths_.length = bm.next_paths_.length ∧
      (sort_children P bm).next_path = bm.next_path ∧
      (∀ j, bm.next_path ≤ j → (sort_children P bm).next_at j = bm.next_at j) ∧
      (∀ j, j < bm.next_path → ∃ j2, j2 < bm.next_path ∧
        (sort_children P bm).next_at j = bm.next_at j2) ∧
      (∀ j2, j2 < bm.next_path → ∃ j, j < bm.next_path ∧
        (sort_children P bm).next_at j = bm.next_at j2) ∧
      (∀ a b, a < b → b < bm.next_path →
        PathBuffer.lt ((sort_children P bm).next_at b) ((sort_children P bm).next_at a)
          = false) := by
  obtain ⟨hperm, hsorted⟩ := hsort (bm.next_paths_.take bm.next_path)
  have hlen : (P.env.sort (bm.next_paths_.take bm.next_path)).length = bm.next_path := by
    rw [hperm.length_eq, List.length_take]
    omega
  have hlow : ∀ j, j < bm.next_path → (sort_children P bm).next_at j
      = (P.env.sort (bm.next_paths_.take bm.next_path)).getD j default := by
    intro j hj
    simp only [Beam.next_at, sort_children, List.getD_eq_getElem?_getD]
    rw [List.getElem?_append_left (by omega)]
  have htake : ∀ j, j < bm.next_path →
      (bm.next_paths_.take bm.next_path).getD j default = bm.next_at j := by
    intro j hj
    simp only [Beam.next_at, List.getD_eq_getElem?_getD, List.getElem?_take, if_pos hj]
  have hlt : (bm.next_paths_.take bm.next_path).length = bm.next_path := by
    rw [List.length_take]
    omega
  refine ⟨?_, rfl, ?_, ?_, ?_, ?_⟩
  · simp only [sort_children, List.length_append, hlen, List.length_drop]
    omega
  · intro j hj
    simp only [Beam.next_at, sort_children, List.getD_eq_getElem?_getD]
    rw [List.getElem?_append_right (by omega), hlen, List.getElem?_drop]
    congr 2
    omega
  · intro j hj
    rw [hlow j hj]
    have hmem : (P.env.sort (bm.next_paths_.take bm.next_path)).getD j default
        ∈ P.env.sort (bm.next_paths_.take bm.next_path) := by
      rw [List.getD_eq_getElem _ _ (by omega)]
      exact List.getElem_mem _
    have hmem2 := hperm.mem_iff.mp hmem
    obtain ⟨j2, hj2, he⟩ := List.getElem_of_mem hmem2
    refine ⟨j2, by omega, ?_⟩
    rw [← he, ← htake j2 (by omega), List.getD_eq_getElem _ _ hj2]
  · intro j2 hj2
    have hmem : bm.next_at j2 ∈ bm.next_paths_.take bm.next_path := by
      rw [← htake j2 hj2, List.getD_eq_getElem _ _ (by omega)]
      exact List.getElem_mem _
    have hmem2 := hperm.mem_iff.mpr hmem
    obtain ⟨j, hj, he⟩ := List.getElem_of_mem hmem2
    refine ⟨j, by omega, ?_⟩
    rw [hlow j (by omega), List.getD_eq_getElem _ _ hj]
    exact he
  · intro a b hab hb
    rw [hlow a (by omega), hlow b hb, List.getD_eq_getElem _ _ (by omega),
      List.getD_eq_getElem _ _ (by omega)]
    exact (List.pairwise_iff_getElem.mp hsorted) a b (by omega) (by omega) hab

theorem phase2_inv (P : Params) (v : Impl) (kp : Nat → ℚ) (e : Nat) (bm1 : Beam)
    (hsort : IsSort P.env.sort) (hle : bm1.next_path ≤ bm1.next_paths_.length)
    (hsafe : bm1.overrun = false) (hn : bm1.next_path ≠ 0) :
    P2Inv P v kp e bm1.next_path (sort_children P bm1) bm1.next_path
        (phase2 P v kp e bm1) ∧
      SimSlots v kp bm1.next_path (sort_children P bm1) (phase2 P v kp e bm1)
        (plan_upto P kp bm1.next_path bm1.next_paths_.length (sort_children P bm1).next_at
          bm1.next_path).srcs := by
  obtain ⟨hlen, hcur, _⟩ := sort_children_spec P bm1 hsort hle
  have h := loop2_sim P v kp e bm1.next_path (sort_children P bm1) hcur
    (by rw [hlen]; exact hle) hsafe bm1.next_path (le_refl _)
  rw [hlen] at h
  unfold phase2
  rw [if_pos hn]
  exact ⟨h.1, h.2.slots⟩


/-! ## The whole step -/

theorem marked_settle (P : Params) (e n : Nat) (S : Nat → PathBuffer) (j : Nat) :
    Marked (S j) (settle P e n S j) := by
  unfold settle Marked
  split_ifs
  · exact Or.inr (Or.inl rfl)
  · rcases update_seeds_fst P e (S j) false with h | h
    · exact Or.inl h
    · exact Or.inr (Or.inr h)

theorem phase12_inv (P : Params) (v : Impl) (kp : Nat → ℚ) (e prev_size : Nat) (bm0 : Beam)
    (hsort : IsSort P.env.sort) (h0 : bm0.next_path = 0) (h1 : bm0.overrun = false)
    (hlen : bm0.prev_paths_.length = bm0.next_paths_.length) :
    StepInv P v kp prev_size bm0 (phase2 P v kp e (phase1 P v kp e prev_size bm0)) ∧
      (phase1 P v kp e prev_size bm0).next_path
        ≤ (phase2 P v kp e (phase1 P v kp e prev_size bm0)).next_path := by
  have p1 := phase1_inv P v kp e prev_size bm0 h0 h1 hlen
  generalize phase1 P v kp e prev_size bm0 = b1 at p1 ⊢
  by_cases hn : b1.next_path = 0
  · have hid : phase2 P v kp e b1 = b1 := by
      unfold phase2
      rw [if_neg (by simpa using hn)]
    rw [hid]
    refine ⟨?_, le_refl _⟩
    exact
      { len_next := p1.len_next
        len_prev := p1.len_prev
        cursor_le := p1.cursor_le
        safe := p1.safe
        stale := p1.stale
        written := fun j hj => by omega
        prev := p1.prev
        seeds := fun s hs => by
          rcases p1.seeds s hs with h | ⟨a, b, c⟩
          · exact Or.inl h
          · exact Or.inr ⟨by rw [a]; exact b, Or.inl ⟨a, c⟩⟩ }
  · obtain ⟨p2, _⟩ := phase2_inv P v kp e b1 hsort p1.cursor_le p1.safe hn
    obtain ⟨s1, _, s3, s4, _, _⟩ := sort_children_spec P b1 hsort p1.cursor_le
    have hchild : ∀ c, c < b1.next_path → ∃ pi slot, pi < prev_size ∧
        (bm0.prev_at pi).is_valid = true ∧
        Child P v kp (bm0.prev_at pi) slot ((sort_children P b1).next_at c) := by
      intro c hc
      obtain ⟨j2, hj2, he⟩ := s4 c hc
      obtain ⟨pi, hpi, hv, hch⟩ := p1.child j2 hj2
      exact ⟨pi, _, hpi, hv, by rw [he]; exact hch⟩
    refine ⟨?_, p2.cursor_ge⟩
    exact
      { len_next := by rw [p2.len_next, s1, p1.len_next]
        len_prev := by
          rw [p2.prev]
          exact p1.len_prev
        cursor_le := p2.cursor_le
        safe := p2.safe
        stale := fun j hj => by
          have := p2.cursor_ge
          rw [p2.stale j hj, s3 j (by omega)]
          exact p1.stale j (by omega)
        written := fun j hj => by
          by_cases hjn : j < b1.next_path
          · rw [p2.done j hjn]
            exact ⟨_, marked_settle P e _ _ j, Or.inl (hchild j hjn)⟩
          · obtain ⟨hsrc, _⟩ := p2.srcs j (by omega) hj
            exact ⟨_, Or.inl rfl, Or.inr ⟨_, hsrc⟩⟩
        prev := fun j => by
          have : (phase2 P v kp e b1).prev_at j = b1.prev_at j := by
            simp only [Beam.prev_at, p2.prev]
            rfl
          rw [this]
          exact p1.prev j
        seeds := fun s hs => by
          rcases p2.seeds s hs with h | ⟨a, b, c, hc, hp⟩
          · rcases p1.seeds s h with h | ⟨a, b, c⟩
            · exact Or.inl h
            · exact Or.inr ⟨by rw [a]; exact b, Or.inl ⟨a, c⟩⟩
          · refine Or.inr ⟨by rw [a]; exact b, Or.inr ⟨a, ?_⟩⟩
            rw [hp]
            exact hchild c hc }

theorem beam_step_inv (P : Params) (v : Impl) (kp : Nat → ℚ) (e prev_size : Nat) (bm0 : Beam)
    (hsort : IsSort P.env.sort) (h0 : bm0.next_path = 0) (h1 : bm0.overrun = false)
    (hlen : bm0.prev_paths_.length = bm0.next_paths_.length) :
    StepInv P v kp prev_size bm0 (beam_step P v kp e prev_size bm0) ∧
      (phase1 P v kp e prev_size bm0).next_path
        ≤ (phase2 P v kp e (phase1 P v kp e prev_size bm0)).next_path ∧
      (phase2 P v kp e (phase1 P v kp e prev_size bm0)).next_path
        ≤ (beam_step P v kp e prev_size bm0).next_path := by
  obtain ⟨p12, hmono⟩ := phase12_inv P v kp e prev_size bm0 hsort h0 h1 hlen
  unfold beam_step
  generalize phase2 P v kp e (phase1 P v kp e prev_size bm0) = b2 at p12 hmono ⊢
  obtain ⟨p3, _⟩ := phase3_inv P v kp b2 p12.cursor_le p12.safe
  refine ⟨?_, hmono, p3.cursor_ge⟩
  exact
    { len_next := by rw [p3.len_next, p12.len_next]
      len_prev := by
        rw [p3.prev]
        exact p12.len_prev
      cursor_le := p3.cursor_le
      safe := p3.safe
      stale := fun j hj => by
        have := p3.cursor_ge
        rw [p3.stale j hj]
        exact p12.stale j (by omega)
      written := fun j hj => by
        by_cases hjn : j < b2.next_path
        · rw [p3.old j hjn]
          exact p12.written j hjn
        · obtain ⟨hsrc, _⟩ := p3.srcs j (by omega) hj
          exact ⟨_, Or.inl rfl, Or.inr ⟨_, hsrc⟩⟩
      prev := fun j => by
        have : (phase3 P v kp b2).prev_at j = b2.prev_at j := by
          simp only [Beam.prev_at, p3.prev]
        rw [this]
        exact p12.prev j
      seeds := fun s hs => by
        rw [p3.seeds] at hs
        exact p12.seeds s hs }

/-! ## Emitted seeds (C3) -/

theorem SeedsExt.of_eq {P : Params} {bm bm2 : Beam} (he : bm2.seeds = bm.seeds) :
    SeedsExt P bm bm2 :=
  ⟨[], by simp [he], by simp⟩

theorem SeedsExt.trans {P : Params} {a b c : Beam} (h1 : SeedsExt P a b) (h2 : SeedsExt P b c) :
    SeedsExt P a c := by
  obtain ⟨x, hx, hxq⟩ := h1
  obtain ⟨y, hy, hyq⟩ := h2
  refine ⟨x ++ y, by rw [hy, hx, List.append_assoc], ?_⟩
  intro s hs
  rcases List.mem_append.mp hs with h | h
  · exact hxq s h
  · exact hyq s h

theorem SeedsExt.settle_ext (P : Params) (bm : Beam) (e i : Nat)
    (f : PathBuffer → PathBuffer) (p : PathBuffer) (pe : Bool) :
    SeedsExt P bm (bm.settle_at i f (update_seeds P e p pe).2) := by
  refine ⟨_, rfl, ?_⟩
  intro s hs
  obtain ⟨a, b, c, d⟩ := update_seeds_snd P e p pe s hs
  exact ⟨by rw [a, b]; exact c, by rw [a]; exact d⟩

theorem add_source_seeds (v : Impl) (kp : Nat → ℚ) (bm : Beam) (r : Range) (k : Nat) :
    (add_source v kp bm r k).seeds = bm.seeds := by
  unfold add_source
  split_ifs <;> rfl

theorem add_neighbor_seeds (P : Params) (v : Impl) (kp : Nat → ℚ) (pp : PathBuffer) (t : ℚ)
    (seeds : List Seed) :
    ∀ (bs : List Nat) (st : Beam × Bool), st.1.seeds = seeds →
      (for_break (add_neighbor P v kp pp t) bs st).1.seeds = seeds := by
  refine for_break_rule _ (fun (_ : List Nat) (st : Beam × Bool) => st.1.seeds = seeds)
    (fun (st : Beam × Bool) => st.1.seeds = seeds) ?_ (fun _ hh => hh)
  intro b rest st hst
  have k2 : (add_neighbor P v kp pp t b st).1.1.seeds = seeds := by
    unfold add_neighbor
    dsimp only
    by_cases h1 : kp (P.env.model_get_neighbor pp.kmer_ b) < t
    · rw [if_pos h1]
      exact hst
    · rw [if_neg h1]
      by_cases h2 : (P.env.fmi_get_neighbor pp.fm_range_
          (neighbor_base v P.env (P.env.model_get_neighbor pp.kmer_ b) b)).is_valid = false
      · rw [if_pos h2]
        exact hst
      · rw [if_neg h2]
        exact hst
  exact ⟨fun _ => k2, fun _ => k2⟩

theorem extend_prev_seeds (P : Params) (v : Impl) (kp : Nat → ℚ) (e pi : Nat) (bm : Beam) :
    SeedsExt P bm (extend_prev P v kp e pi bm).1 := by
  unfold extend_prev
  dsimp only
  by_cases hv : (bm.prev_at pi).is_valid = false
  · rw [if_pos hv]
    exact SeedsExt.of_eq rfl
  · rw [if_neg hv]
    generalize hst : (decide ((bm.prev_at pi).consec_stays_ < P.max_consec_stay) &&
      decide (kp (bm.prev_at pi).kmer_ ≥
        P.get_prob_thresh (bm.prev_at pi).fm_range_.length.toNat)) = stay
    generalize hb1 : (if stay = true then
        (bm.emplace (fun slot =>
          make_child v P.seed_len slot (bm.prev_at pi) (bm.prev_at pi).fm_range_
            (bm.prev_at pi).kmer_ (kp (bm.prev_at pi).kmer_) .STAY)).advance
      else bm) = bm1
    have hs1 : bm1.seeds = bm.seeds := by
      rw [← hb1]
      split_ifs <;> rfl
    by_cases hbrk : (stay && bm1.at_end) = true
    · rw [if_pos hbrk]
      exact SeedsExt.of_eq hs1
    · rw [if_neg hbrk]
      have hs2 := add_neighbor_seeds P v kp (bm.prev_at pi)
        (P.get_prob_thresh (bm.prev_at pi).fm_range_.length.toNat) bm.seeds
        (List.range ALPH_SIZE) (bm1, stay) hs1
      generalize (for_break (add_neighbor P v kp (bm.prev_at pi)
        (P.get_prob_thresh (bm.prev_at pi).fm_range_.length.toNat))
        (List.range ALPH_SIZE) (bm1, stay)) = st2 at hs2 ⊢
      dsimp only
      by_cases hend : (!st2.2 && !(bm.prev_at pi).sa_checked_) = true
      · rw [if_pos hend]
        refine (SeedsExt.of_eq hs2).trans ?_
        refine ⟨_, rfl, ?_⟩
        intro s hs
        obtain ⟨a, b, c, d⟩ := update_seeds_snd P e _ true s hs
        exact ⟨by rw [a, b]; exact c, by rw [a]; exact d⟩
      · rw [if_neg hend]
        exact SeedsExt.of_eq hs2

theorem phase1_seeds (P : Params) (v : Impl) (kp : Nat → ℚ) (e prev_size : Nat) (bm0 : Beam) :
    SeedsExt P bm0 (phase1 P v kp e prev_size bm0) := by
  unfold phase1
  refine for_break_rule _ (fun (_ : List Nat) (bm : Beam) => SeedsExt P bm0 bm)
    (fun (bm : Beam) => SeedsExt P bm0 bm) ?_ (fun _ h => h) _ bm0 (SeedsExt.of_eq rfl)
  intro pi rest bm h
  have key := h.trans (extend_prev_seeds P v kp e pi bm)
  exact ⟨fun _ => key, fun _ => key⟩

theorem left_source_seeds (P : Params) (v : Impl) (kp : Nat → ℚ) (i : Nat) (st : SrcState) :
    (left_source P v kp i st).bm.seeds = st.bm.seeds := by
  unfold left_source
  dsimp only
  split_ifs
  · rw [add_source_seeds]
    rfl
  · rfl

theorem after_source_seeds (P : Params) (v : Impl) (kp : Nat → ℚ) (n i k : Nat)
    (st : SrcState) : (after_source P v kp n i k st).bm.seeds = st.bm.seeds := by
  unfold after_source
  dsimp only
  split_ifs <;> first | rfl | rw [add_source_seeds]

theorem source_step_seeds (P : Params) (v : Impl) (kp : Nat → ℚ) (e n : Nat) (st : SrcState)
    (i : Nat) : SeedsExt P st.bm (source_step P v kp e n st i).bm := by
  unfold source_step
  dsimp only
  split_ifs
  · refine SeedsExt.of_eq ?_
    simp only [invalidate_at, Beam.settle_at, List.append_nil]
    exact left_source_seeds P v kp i st
  · refine SeedsExt.trans (SeedsExt.of_eq ?_) (SeedsExt.settle_ext P _ e i _ _ false)
    rw [after_source_seeds, left_source_seeds]

theorem phase2_seeds (P : Params) (v : Impl) (kp : Nat → ℚ) (e : Nat) (bm : Beam) :
    SeedsExt P bm (phase2 P v kp e bm) := by
  unfold phase2
  split_ifs with hn
  · have : ∀ i, SeedsExt P bm (loop2_upto P v kp e bm.next_path (sort_children P bm) i).bm := by
      intro i
      induction i with
      | zero => exact SeedsExt.of_eq rfl
      | succ i ih =>
        have := ih.trans (source_step_seeds P v kp e bm.next_path _ i)
        simpa only [loop2_upto, List.range_succ, List.foldl_append, List.foldl_cons,
          List.foldl_nil] using this
    exact this _
  · exact SeedsExt.of_eq rfl

theorem phase3_seeds (P : Params) (v : Impl) (kp : Nat → ℚ) (bm : Beam) :
    (phase3 P v kp bm).seeds = bm.seeds := by
  unfold phase3
  refine for_break_rule _ (fun (_ : List Nat) (b : Beam) => b.seeds = bm.seeds)
    (fun (b : Beam) => b.seeds = bm.seeds) ?_ (fun _ h => h) _ bm rfl
  intro k rest b h
  have key : (full_source P v kp k b).1.seeds = bm.seeds := by
    unfold full_source
    dsimp only
    split_ifs <;> exact h
  exact ⟨fun _ => key, fun _ => key⟩

theorem beam_step_seeds (P : Params) (v : Impl) (kp : Nat → ℚ) (e prev_size : Nat) (bm0 : Beam) :
    SeedsExt P bm0 (beam_step P v kp e prev_size bm0) := by
  unfold beam_step
  exact ((phase1_seeds P v kp e prev_size bm0).trans (phase2_seeds P v kp e _)).trans
    (SeedsExt.of_eq (phase3_seeds P v kp _))

theorem seed_valid_facts (P : Params) (p : PathBuffer) (pe : Bool)
    (h : is_seed_valid P p pe = true) :
    p.win_prob_ ≥ P.min_seed_prob ∧ p.length_ ≥ P.seed_len ∧
      (p.fm_range_.length = 1 ∨ pe = true) := by
  simp only [is_seed_valid, Bool.and_eq_true, Bool.or_eq_true, decide_eq_true_eq] at h
  obtain ⟨⟨⟨⟨h1, h2⟩, _⟩, _⟩, h5⟩ := h
  refine ⟨h5, h2, ?_⟩
  rcases h1 with h1 | h1
  · exact Or.inl h1
  · exact Or.inr h1.1.1

/-- C3: every seed that an `add_event` call emits (handed to the seed tracker by
`Mapper::add_event`, returned in the results by `Aligner::add_event`) comes from
a path with `win_prob ≥ window_prob` and `length ≥ W`, whose range has length 1
unless the seed was emitted with `path_ended = true`. -/
theorem emitted_seed_valid (P : Params) :
    (∀ (m : Mapper) (event : ℚ), ∃ emitted,
        (Mapper.add_event P m event).1.seed_tracker_ = m.seed_tracker_ ++ emitted ∧
        ∀ s ∈ emitted,
          s.path.win_prob_ ≥ P.min_seed_prob ∧ s.path.length_ ≥ P.seed_len ∧
            (s.path.fm_range_.length = 1 ∨ s.path_ended = true)) ∧
    (∀ (a : Aligner) (kmer_probs : Nat → ℚ) (s : Seed),
        s ∈ (Aligner.add_event P a kmer_probs).2 →
          s.path.win_prob_ ≥ P.min_seed_prob ∧ s.path.length_ ≥ P.seed_len ∧
            (s.path.fm_range_.length = 1 ∨ s.path_ended = true) ∧
            s.win_prob = s.path.win_prob_) := by
  constructor
  · intro m event
    unfold Mapper.add_event
    by_cases hg : (m.reset_ || decide (m.event_i_ ≥ P.max_events_proc)) = true
    · rw [if_pos hg]
      exact ⟨[], by simp, by simp⟩
    · rw [if_neg hg]
      obtain ⟨extra, hx, hq⟩ := beam_step_seeds P .mapper (P.env.event_match_prob event)
        m.event_i_ m.prev_size_ (Beam.start m.prev_paths_ m.next_paths_ m.sources_added_)
      have hstep : (Mapper.step P m event).seeds = extra := by
        rw [Mapper.step, hx]
        rfl
      refine ⟨extra, ?_, fun s hs => seed_valid_facts P _ _ (hq s hs).1⟩
      dsimp only
      split_ifs <;> simp only [hstep]
  · intro a kp s hs
    obtain ⟨extra, hx, hq⟩ := beam_step_seeds P .aligner kp a.cur_event_ a.prev_size_
      (Beam.start a.prev_paths_ a.next_paths_ a.sources_added_)
    have h2 : s ∈ extra := by
      have : (Aligner.add_event P a kp).2 = extra := by
        simp only [Aligner.add_event, Aligner.step, hx]
        rfl
      rw [this] at hs
      exact hs
    obtain ⟨f1, f2, f3⟩ := seed_valid_facts P _ _ (hq s h2).1
    exact ⟨f1, f2, f3, (hq s h2).2⟩

/-! ## Insertion sort meets the contract of the library sort -/

theorem path_le_iff (a b : PathBuffer) :
    path_le a b ↔
      a.fm_range_.start_ < b.fm_range_.start_ ∨
        (a.fm_range_.start_ = b.fm_range_.start_ ∧
          (a.fm_range_.end_ < b.fm_range_.end_ ∨
            (a.fm_range_.end_ = b.fm_range_.end_ ∧ a.win_prob_ ≤ b.win_prob_))) := by
  simp only [path_le, PathBuffer.lt, Range.lt, Range.eq, Bool.or_eq_false_iff,
    Bool.and_eq_false_imp, Bool.and_eq_true, decide_eq_true_eq, decide_eq_false_iff_not,
    not_lt, and_imp]
  constructor
  · rintro ⟨⟨h1, h2⟩, h3⟩
    rcases lt_trichotomy a.fm_range_.start_ b.fm_range_.start_ with h | h | h
    · exact Or.inl h
    · right
      refine ⟨h, ?_⟩
      rcases lt_trichotomy a.fm_range_.end_ b.fm_range_.end_ with g | g | g
      · exact Or.inl g
      · exact Or.inr ⟨g, h3 h.symm g.symm⟩
      · have := h2 h.symm
        omega
    · omega
  · rintro (h | ⟨h, g | ⟨g, k⟩⟩)
    · exact ⟨⟨by omega, by omega⟩, by omega⟩
    · exact ⟨⟨by omega, by omega⟩, by omega⟩
    · exact ⟨⟨by omega, by omega⟩, fun _ _ => k⟩

theorem path_le_total (a b : PathBuffer) : path_le a b ∨ path_le b a := by
  rw [path_le_iff, path_le_iff]
  rcases lt_trichotomy a.fm_range_.start_ b.fm_range_.start_ with h | h | h
  · exact Or.inl (Or.inl h)
  · rcases lt_trichotomy a.fm_range_.end_ b.fm_range_.end_ with g | g | g
    · exact Or.inl (Or.inr ⟨h, Or.inl g⟩)
    · rcases le_total a.win_prob_ b.win_prob_ with k | k
      · exact Or.inl (Or.inr ⟨h, Or.inr ⟨g, k⟩⟩)
      · exact Or.inr (Or.inr ⟨h.symm, Or.inr ⟨g.symm, k⟩⟩)
    · exact Or.inr (Or.inr ⟨h.symm, Or.inl g⟩)
  · exact Or.inr (Or.inl h)

theorem path_le_trans (a b c : PathBuffer) (h1 : path_le a b) (h2 : path_le b c) :
    path_le a c := by
  rw [path_le_iff] at h1 h2 ⊢
  rcases h1 with h1 | ⟨h1, g1 | ⟨g1, k1⟩⟩ <;> rcases h2 with h2 | ⟨h2, g2 | ⟨g2, k2⟩⟩
  · exact Or.inl (by omega)
  · exact Or.inl (by omega)
  · exact Or.inl (by omega)
  · exact Or.inl (by omega)
  · exact Or.inr ⟨by omega, Or.inl (by omega)⟩
  · exact Or.inr ⟨by omega, Or.inl (by omega)⟩
  · exact Or.inl (by omega)
  · exact Or.inr ⟨by omega, Or.inl (by omega)⟩
  · exact Or.inr ⟨by omega, Or.inr ⟨by omega, le_trans k1 k2⟩⟩

instance path_le_isTotal : IsTotal PathBuffer path_le := ⟨path_le_total⟩

instance path_le_isTrans : IsTrans PathBuffer path_le := ⟨path_le_trans⟩

theorem insertion_sort_isSort : IsSort insertion_sort := by
  intro l
  exact ⟨List.perm_insertionSort path_le l, List.sorted_insertionSort path_le l⟩



/-! ## The cursor stays inside the buffer (C5) -/

theorem start_fields (prev next : List PathBuffer) (added : Nat → Bool) :
    (Beam.start prev next added).next_path = 0 ∧ (Beam.start prev next added).overrun = false ∧
      (Beam.start prev next added).prev_paths_ = prev ∧
      (Beam.start prev next added).next_paths_ = next :=
  ⟨rfl, rfl, rfl, rfl⟩

theorem mapper_add_event_guard (P : Params) (m : Mapper) (event : ℚ)
    (hg : (m.reset_ || decide (m.event_i_ ≥ P.max_events_proc)) = true) :
    Mapper.add_event P m event = ({ m with state_ := .FAILURE }, true) := by
  unfold Mapper.add_event
  rw [if_pos hg]

theorem mapper_add_event_run (P : Params) (m : Mapper) (event : ℚ)
    (hg : ¬ (m.reset_ || decide (m.event_i_ ≥ P.max_events_proc)) = true) :
    (Mapper.add_event P m event).1.prev_size_ = (Mapper.step P m event).next_path ∧
      (Mapper.add_event P m event).1.prev_paths_ = (Mapper.step P m event).next_paths_ ∧
      (Mapper.add_event P m event).1.next_paths_ = (Mapper.step P m event).prev_paths_ ∧
      (Mapper.add_event P m event).1.sources_added_ = (Mapper.step P m event).sources_added_ ∧
      (Mapper.add_event P m event).1.event_i_ = m.event_i_ + 1 ∧
      (Mapper.add_event P m event).1.reset_ = m.reset_ ∧
      (Mapper.add_event P m event).1.seed_tracker_
        = m.seed_tracker_ ++ (Mapper.step P m event).seeds := by
  unfold Mapper.add_event
  rw [if_neg hg]
  dsimp only
  split_ifs <;> exact ⟨rfl, rfl, rfl, rfl, rfl, rfl, rfl⟩

/-- C5: in every `add_event` call the cursor only moves forward through the three
loops and never passes `max_paths`, no `make_child` or `make_source` is applied
to a slot at or beyond the end of the buffer (`overrun` stays false), and
`prev_size` is at most `max_paths` after the swap, for both drivers. -/
theorem cursor_within_capacity (P : Params) (v : Impl) (kmer_probs : Nat → ℚ)
    (event_i prev_size : Nat) (prev next : List PathBuffer) (added : Nat → Bool)
    (m : Mapper) (event : ℚ) (a : Aligner) (probs : Nat → ℚ)
    (hsort : IsSort P.env.sort)
    (hprev : prev.length = P.max_paths) (hnext : next.length = P.max_paths)
    (hm1 : m.prev_paths_.length = P.max_paths) (hm2 : m.next_paths_.length = P.max_paths)
    (hm3 : m.prev_size_ ≤ P.max_paths)
    (ha1 : a.prev_paths_.length = P.max_paths) (ha2 : a.next_paths_.length = P.max_paths) :
    ((phase1 P v kmer_probs event_i prev_size (Beam.start prev next added)).next_path
        ≤ (phase2 P v kmer_probs event_i
            (phase1 P v kmer_probs event_i prev_size (Beam.start prev next added))).next_path ∧
      (phase2 P v kmer_probs event_i
            (phase1 P v kmer_probs event_i prev_size (Beam.start prev next added))).next_path
        ≤ (beam_step P v kmer_probs event_i prev_size (Beam.start prev next added)).next_path ∧
      (beam_step P v kmer_probs event_i prev_size (Beam.start prev next added)).next_path
        ≤ P.max_paths ∧
      (beam_step P v kmer_probs event_i prev_size (Beam.start prev next added)).overrun
        = false) ∧
    ((Mapper.step P m event).overrun = false ∧
      (Mapper.add_event P m event).1.prev_size_ ≤ P.max_paths) ∧
    ((Aligner.step P a probs).overrun = false ∧
      (Aligner.add_event P a probs).1.prev_size_ ≤ P.max_paths) := by
  refine ⟨?_, ?_, ?_⟩
  · obtain ⟨hinv, h12, h23⟩ := beam_step_inv P v kmer_probs event_i prev_size
      (Beam.start prev next added) hsort rfl rfl (hprev.trans hnext.symm)
    refine ⟨h12, h23, ?_, hinv.safe⟩
    have := hinv.cursor_le
    rw [hinv.len_next] at this
    exact this.trans (le_of_eq hnext)
  · obtain ⟨hinv, _, _⟩ := beam_step_inv P .mapper (P.env.event_match_prob event) m.event_i_
      m.prev_size_ (Beam.start m.prev_paths_ m.next_paths_ m.sources_added_) hsort rfl rfl
      (hm1.trans hm2.symm)
    have hle : (Mapper.step P m event).next_path ≤ P.max_paths := by
      have := hinv.cursor_le
      rw [hinv.len_next] at this
      exact this.trans (le_of_eq hm2)
    refine ⟨hinv.safe, ?_⟩
    by_cases hg : (m.reset_ || decide (m.event_i_ ≥ P.max_events_proc)) = true
    · rw [mapper_add_event_guard P m event hg]
      exact hm3
    · rw [(mapper_add_event_run P m event hg).1]
      exact hle
  · obtain ⟨hinv, _, _⟩ := beam_step_inv P .aligner probs a.cur_event_
      a.prev_size_ (Beam.start a.prev_paths_ a.next_paths_ a.sources_added_) hsort rfl rfl
      (ha1.trans ha2.symm)
    refine ⟨hinv.safe, ?_⟩
    have := hinv.cursor_le
    rw [hinv.len_next] at this
    exact this.trans (le_of_eq ha2)

/-- Witness of C5: the second event of the small environment, from the driver
left by the first; the step writes seven slots of the eight. -/
theorem cursor_within_capacity_witness :
    (Mapper.step toy_params toy_mapper1 1).overrun = false ∧
      (Mapper.add_event toy_params toy_mapper1 1).1.prev_size_ ≤ toy_params.max_paths ∧
      (Mapper.add_event toy_params toy_mapper1 1).1.prev_size_ = 7 :=
  ⟨(cursor_within_capacity toy_params .mapper (toy_env.event_match_prob 1) 1 2
      toy_mapper1.prev_paths_ toy_mapper1.next_paths_ toy_mapper1.sources_added_
      toy_mapper1 1 toy_aligner1 (toy_env.event_match_prob 1) insertion_sort_isSort
      (by decide!) (by decide!) (by decide!) (by decide!) (by decide!) (by decide!)
      (by decide!)).2.1.1,
    (cursor_within_capacity toy_params .mapper (toy_env.event_match_prob 1) 1 2
      toy_mapper1.prev_paths_ toy_mapper1.next_paths_ toy_mapper1.sources_added_
      toy_mapper1 1 toy_aligner1 (toy_env.event_match_prob 1) insertion_sort_isSort
      (by decide!) (by decide!) (by decide!) (by decide!) (by decide!) (by decide!)
      (by decide!)).2.1.2,
    by decide!⟩


/-! ## Consecutive stays (C9) -/

theorem make_child_fields (v : Impl) (W : Nat) (slot p : PathBuffer) (r : Range) (k : Nat)
    (prob : ℚ) (t : EventType) :
    (make_child v W slot p r k prob t).kmer_ = k ∧
      (make_child v W slot p r k prob t).fm_range_ = r ∧
      (make_child v W slot p r k prob t).sa_checked_ = p.sa_checked_ ∧
      (make_child v W slot p r k prob t).consec_stays_
        = (if t = .STAY then p.consec_stays_ + 1 else 0) ∧
      (make_child v W slot p r k prob t).length_
        = (match v with
          | .mapper => p.length_ + (if p.length_ ≤ W then 1 else 0)
          | .aligner => p.length_ + 1) := by
  cases v
  · simp only [make_child, Mapper.make_child]
    split_ifs <;> simp_all
  · simp only [make_child, Aligner.make_child]
    split_ifs <;> simp_all

theorem written_stays (P : Params) (v : Impl) (kp : Nat → ℚ) (prev_size : Nat) (bm0 : Beam)
    (c : PathBuffer) (h : Written P v kp prev_size bm0 c) : StaysOK P c := by
  obtain ⟨q, hm, hq⟩ := h
  have hq2 : q.consec_stays_ ≤ P.max_consec_stay := by
    rcases hq with ⟨pi, slot, _, _, hch⟩ | ⟨slot, r, k, he, _, _⟩
    · cases hch with
      | stay h1 _ =>
        rw [(make_child_fields v _ _ _ _ _ _ _).2.2.2.1, if_pos rfl]
        omega
      | mtch b _ _ _ =>
        rw [(make_child_fields v _ _ _ _ _ _ _).2.2.2.1, if_neg (by decide)]
        omega
    · rw [he, (make_source_fields v _ _ _ _).2.2.2.1]
      omega
  intro hv
  rcases hm with h | h | h
  · rw [h]
    exact hq2
  · rw [h] at hv
    simp [PathBuffer.is_valid, PathBuffer.invalidate] at hv
  · rw [h]
    exact hq2

theorem stays_add_event (P : Params) (hsort : IsSort P.env.sort) (m : Mapper) (event : ℚ)
    (h : StaysInv P m) : StaysInv P (Mapper.add_event P m event).1 := by
  obtain ⟨hlen, hp, hn⟩ := h
  by_cases hg : (m.reset_ || decide (m.event_i_ ≥ P.max_events_proc)) = true
  · rw [mapper_add_event_guard P m event hg]
    exact ⟨hlen, hp, hn⟩
  · obtain ⟨_, e2, e3, _⟩ := mapper_add_event_run P m event hg
    obtain ⟨hinv, _, _⟩ := beam_step_inv P .mapper (P.env.event_match_prob event) m.event_i_
      m.prev_size_ (Beam.start m.prev_paths_ m.next_paths_ m.sources_added_) hsort rfl rfl hlen
    refine ⟨?_, ?_, ?_⟩
    · rw [e2, e3]
      exact (hinv.len_next.trans hlen.symm).trans hinv.len_prev.symm
    · intro j
      rw [e2]
      by_cases hj : j < (Mapper.step P m event).next_path
      · exact written_stays P _ _ _ _ _ (hinv.written j hj)
      · have := hinv.stale j (by
          have : ¬ j < (beam_step P .mapper (P.env.event_match_prob event) m.event_i_
            m.prev_size_ (Beam.start m.prev_paths_ m.next_paths_ m.sources_added_)).next_path :=
            hj
          omega)
        have h2 : (Mapper.step P m event).next_paths_.getD j default
            = m.next_paths_.getD j default := this
        rw [h2]
        exact hn j
    · intro j
      rw [e3]
      have h2 : (Mapper.step P m event).prev_paths_.getD j default
            = m.prev_paths_.getD j default ∨
          (Mapper.step P m event).prev_paths_.getD j default
            = { m.prev_paths_.getD j default with sa_checked_ := true } := hinv.prev j
      rcases h2 with h2 | h2
      · rw [h2]
        exact hp j
      · rw [h2]
        exact hp j

theorem construct_invalid (W : Nat) (junk : PathBuffer) :
    (PathBuffer.construct W junk).is_valid = false := by
  simp [PathBuffer.construct, PathBuffer.is_valid]

theorem construct_stays (P : Params) (junk_prev junk_next : Nat → PathBuffer) (reset0 : Bool) :
    StaysInv P (Mapper.construct P junk_prev junk_next reset0) := by
  have key : ∀ (f : Nat → PathBuffer) (j : Nat),
      StaysOK P (((List.range P.max_paths).map
        (fun i => PathBuffer.construct P.seed_len (f i))).getD j default) := by
    intro f j hv
    exfalso
    rw [List.getD_eq_getElem?_getD, List.getElem?_map] at hv
    cases hx : (List.range P.max_paths)[j]? with
    | none =>
      rw [hx] at hv
      simp [default_not_valid] at hv
    | some x =>
      rw [hx] at hv
      simp [construct_invalid] at hv
  exact ⟨by simp [Mapper.construct], key junk_prev, key junk_next⟩

theorem stays_run (P : Params) (hsort : IsSort P.env.sort) (events : List ℚ) :
    ∀ m, StaysInv P m → StaysInv P (Mapper.run P m events) := by
  induction events with
  | nil => exact fun m h => h
  | cons ev rest ih =>
    intro m h
    exact ih _ (stays_add_event P hsort m ev h)

theorem getD_of_mem (l : List PathBuffer) (p : PathBuffer) (h : p ∈ l) :
    ∃ j, l.getD j default = p := by
  obtain ⟨j, hj, he⟩ := List.getElem_of_mem h
  exact ⟨j, by rw [List.getD_eq_getElem _ _ hj]; exact he⟩

theorem phase1_child_explicit (P : Params) (v : Impl) (kmer_probs : Nat → ℚ)
    (event_i prev_size : Nat) (prev next : List PathBuffer) (added : Nat → Bool) (i : Nat)
    (hlen : prev.length = next.length)
    (hi : i < (phase1 P v kmer_probs event_i prev_size (Beam.start prev next added)).next_path) :
    ∃ pi range kmer type, pi < prev_size ∧ (prev.getD pi default).is_valid = true ∧
      (phase1 P v kmer_probs event_i prev_size (Beam.start prev next added)).next_at i
        = make_child v P.seed_len (next.getD i default) (prev.getD pi default) range kmer
            (kmer_probs kmer) type ∧
      kmer_probs kmer ≥ P.get_prob_thresh (prev.getD pi default).fm_range_.length.toNat ∧
      ((type = EventType.STAY ∧
          (prev.getD pi default).consec_stays_ < P.max_consec_stay) ∨
        type = EventType.MATCH) := by
  have p1 := phase1_inv P v kmer_probs event_i prev_size (Beam.start prev next added) rfl rfl hlen
  obtain ⟨pi, hpi, hv, hch⟩ := p1.child i hi
  generalize (phase1 P v kmer_probs event_i prev_size (Beam.start prev next added)).next_at i
    = c at hch ⊢
  have hprev : (Beam.start prev next added).prev_at pi = prev.getD pi default := rfl
  have hnext : (Beam.start prev next added).next_at i = next.getD i default := rfl
  rw [hprev] at hv hch
  rw [hnext] at hch
  cases hch with
  | stay h1 h2 =>
    exact ⟨pi, (prev.getD pi default).fm_range_, _, .STAY, hpi, hv, rfl, h2, Or.inl ⟨rfl, h1⟩⟩
  | mtch b h1 h2 h3 =>
    exact ⟨pi, P.env.fmi_get_neighbor (prev.getD pi default).fm_range_
      (neighbor_base v P.env (P.env.model_get_neighbor (prev.getD pi default).kmer_ b) b),
      _, .MATCH, hpi, hv, rfl, not_lt.mp h2, Or.inr rfl⟩

/-- C9: after any sequence of `add_event` calls on a constructed `Mapper`, every
live path in either buffer has `consec_stays ≤ max_consec_stay`.  Every child
that the first loop writes (slot `i` below the cursor) is either a `STAY` child
of a path with `consec_stays < max_consec_stay`, with one more consecutive stay
than its parent, or a `MATCH` child with none; a source has none. -/
theorem consec_stays_bounded (P : Params) (junk_prev junk_next : Nat → PathBuffer)
    (reset0 : Bool) (events : List ℚ) (v : Impl) (kmer_probs : Nat → ℚ)
    (event_i prev_size : Nat) (prev next : List PathBuffer) (added : Nat → Bool) (i : Nat)
    (hsort : IsSort P.env.sort) (hlen : prev.length = next.length)
    (hi : i < (phase1 P v kmer_probs event_i prev_size (Beam.start prev next added)).next_path) :
    (∀ p ∈ (Mapper.run P (Mapper.construct P junk_prev junk_next reset0) events).prev_paths_ ++
          (Mapper.run P (Mapper.construct P junk_prev junk_next reset0) events).next_paths_,
        p.is_valid = true → p.consec_stays_ ≤ P.max_consec_stay) ∧
    (∃ pi range kmer type, pi < prev_size ∧ (prev.getD pi default).is_valid = true ∧
      (phase1 P v kmer_probs event_i prev_size (Beam.start prev next added)).next_at i
        = make_child v P.seed_len (next.getD i default) (prev.getD pi default) range kmer
            (kmer_probs kmer) type ∧
      ((type = EventType.STAY ∧
          (prev.getD pi default).consec_stays_ < P.max_consec_stay ∧
          ((phase1 P v kmer_probs event_i prev_size (Beam.start prev next added)).next_at
            i).consec_stays_ = (prev.getD pi default).consec_stays_ + 1) ∨
        (type = EventType.MATCH ∧
          ((phase1 P v kmer_probs event_i prev_size (Beam.start prev next added)).next_at
            i).consec_stays_ = 0))) ∧
    (∀ (slot : PathBuffer) (r : Range) (k : Nat) (prob : ℚ),
        (make_source v slot r k prob).consec_stays_ = 0) := by
  refine ⟨?_, ?_, ?_⟩
  · obtain ⟨_, hp, hn⟩ := stays_run P hsort events _
      (construct_stays P junk_prev junk_next reset0)
    intro p hmem
    rcases List.mem_append.mp hmem with h | h
    · obtain ⟨j, hj⟩ := getD_of_mem _ p h
      rw [← hj]
      exact hp j
    · obtain ⟨j, hj⟩ := getD_of_mem _ p h
      rw [← hj]
      exact hn j
  · obtain ⟨pi, range, kmer, type, hpi, hv, he, _, ht⟩ :=
      phase1_child_explicit P v kmer_probs event_i prev_size prev next added i hlen hi
    refine ⟨pi, range, kmer, type, hpi, hv, he, ?_⟩
    rcases ht with ⟨ht, hc⟩ | ht
    · left
      refine ⟨ht, hc, ?_⟩
      rw [he, (make_child_fields v _ _ _ _ _ _ _).2.2.2.1, if_pos ht]
    · right
      refine ⟨ht, ?_⟩
      rw [he, (make_child_fields v _ _ _ _ _ _ _).2.2.2.1, if_neg (by rw [ht]; decide)]
  · intro slot r k prob
    exact (make_source_fields v _ _ _ _).2.2.2.1

/-- Witness of C9: after three events of the small environment the first slot of
`prev_paths_` holds a live path with two consecutive stays, the maximum. -/
theorem consec_stays_bounded_witness :
    ((Mapper.run toy_params toy_mapper [0, 1, 1]).prev_paths_.getD 0 default).consec_stays_
        ≤ toy_params.max_consec_stay ∧
      ((Mapper.run toy_params toy_mapper [0, 1, 1]).prev_paths_.getD 0 default).consec_stays_
        = 2 ∧
      ((Mapper.run toy_params toy_mapper [0, 1, 1]).prev_paths_.getD 0 default).is_valid
        = true :=
  ⟨(consec_stays_bounded toy_params (fun _ => default) (fun _ => default) false [0, 1, 1]
      .mapper (toy_env.event_match_prob 1) 1 2
      toy_mapper1.prev_paths_ toy_mapper1.next_paths_ toy_mapper1.sources_added_ 0
      insertion_sort_isSort (by decide!) (by decide!)).1
      ((Mapper.run toy_params toy_mapper [0, 1, 1]).prev_paths_.getD 0 default)
      (by decide!) (by decide!),
    by decide!, by decide!⟩

/-! ## Children clear the threshold of their parent (C10) -/

/-- C10: every child that the first loop of an `add_event` call writes into
`next_paths_` (slot `i` below the cursor) is `make_child` of a valid path
`parent = prev_paths_[pi]`, with type `STAY` or `MATCH`, and the probability of
its k-mer is at least `get_prob_thresh(parent.fm_range.length())`. -/
theorem child_clears_threshold (P : Params) (v : Impl) (kmer_probs : Nat → ℚ)
    (event_i prev_size : Nat) (prev next : List PathBuffer) (added : Nat → Bool) (i : Nat)
    (hlen : prev.length = next.length)
    (hi : i < (phase1 P v kmer_probs event_i prev_size (Beam.start prev next added)).next_path) :
    ∃ pi range type, pi < prev_size ∧ (prev.getD pi default).is_valid = true ∧
      (type = EventType.STAY ∨ type = EventType.MATCH) ∧
      (phase1 P v kmer_probs event_i prev_size (Beam.start prev next added)).next_at i
        = make_child v P.seed_len (next.getD i default) (prev.getD pi default) range
            ((phase1 P v kmer_probs event_i prev_size (Beam.start prev next added)).next_at i).kmer_
            (kmer_probs
              ((phase1 P v kmer_probs event_i prev_size
                (Beam.start prev next added)).next_at i).kmer_)
            type ∧
      kmer_probs ((phase1 P v kmer_probs event_i prev_size (Beam.start prev next added)).next_at
          i).kmer_
        ≥ P.get_prob_thresh (prev.getD pi default).fm_range_.length.toNat := by
  obtain ⟨pi, range, kmer, type, hpi, hv, he, hth, ht⟩ :=
    phase1_child_explicit P v kmer_probs event_i prev_size prev next added i hlen hi
  have hk : ((phase1 P v kmer_probs event_i prev_size (Beam.start prev next added)).next_at
      i).kmer_ = kmer := by
    rw [he, (make_child_fields v _ _ _ _ _ _ _).1]
  rw [hk]
  refine ⟨pi, range, type, hpi, hv, ?_, he, hth⟩
  rcases ht with ⟨ht, _⟩ | ht
  · exact Or.inl ht
  · exact Or.inr ht

/-- Witness of C10: the child that the second event of the small environment
writes into slot 0. -/
theorem child_clears_threshold_witness :
    ∃ pi range type, pi < 2 ∧ (toy_mapper1.prev_paths_.getD pi default).is_valid = true ∧
      (type = EventType.STAY ∨ type = EventType.MATCH) ∧
      (phase1 toy_params .mapper (toy_env.event_match_prob 1) 1 2
          (Beam.start toy_mapper1.prev_paths_ toy_mapper1.next_paths_
            toy_mapper1.sources_added_)).next_at 0
        = make_child .mapper toy_params.seed_len (toy_mapper1.next_paths_.getD 0 default)
            (toy_mapper1.prev_paths_.getD pi default) range
            ((phase1 toy_params .mapper (toy_env.event_match_prob 1) 1 2
              (Beam.start toy_mapper1.prev_paths_ toy_mapper1.next_paths_
                toy_mapper1.sources_added_)).next_at 0).kmer_
            (toy_env.event_match_prob 1
              ((phase1 toy_params .mapper (toy_env.event_match_prob 1) 1 2
                (Beam.start toy_mapper1.prev_paths_ toy_mapper1.next_paths_
                  toy_mapper1.sources_added_)).next_at 0).kmer_)
            type ∧
      toy_env.event_match_prob 1
          ((phase1 toy_params .mapper (toy_env.event_match_prob 1) 1 2
            (Beam.start toy_mapper1.prev_paths_ toy_mapper1.next_paths_
              toy_mapper1.sources_added_)).next_at 0).kmer_
        ≥ toy_params.get_prob_thresh
            (toy_mapper1.prev_paths_.getD pi default).fm_range_.length.toNat :=
  child_clears_threshold toy_params .mapper (toy_env.event_match_prob 1) 1 2
    toy_mapper1.prev_paths_ toy_mapper1.next_paths_ toy_mapper1.sources_added_ 0
    (by decide!) (by decide!)


/-! ## Deduplication (C7) -/

theorem range_eq_iff (a b : Range) : a.eq b = true ↔ a = b := by
  cases a
  cases b
  simp [Range.eq]

theorem range_trichotomy (a b : Range) (h1 : a.lt b = false) (h2 : b.lt a = false) : a = b := by
  cases a
  cases b
  simp only [Range.lt, Bool.or_eq_false_iff, decide_eq_false_iff_not, Bool.and_eq_false_imp,
    decide_eq_true_eq] at h1 h2
  simp only [Range.mk.injEq]
  omega

theorem lt_false_range (a b : PathBuffer) (h : PathBuffer.lt a b = false) :
    a.fm_range_.lt b.fm_range_ = false ∧
      (a.fm_range_ = b.fm_range_ → b.win_prob_ ≤ a.win_prob_) := by
  simp only [PathBuffer.lt, Bool.or_eq_false_iff, Bool.and_eq_false_imp, range_eq_iff,
    decide_eq_false_iff_not, not_lt] at h
  exact h

theorem settle_fields (P : Params) (e n : Nat) (S : Nat → PathBuffer) (j : Nat) :
    (settle P e n S j).fm_range_ = (S j).fm_range_ ∧
      (settle P e n S j).win_prob_ = (S j).win_prob_ ∧
      (settle P e n S j).kmer_ = (S j).kmer_ ∧
      (settle P e n S j).length_
        = (if j < n - 1 ∧ (S j).fm_range_.eq (S (j + 1)).fm_range_ = true then 0
          else (S j).length_) := by
  unfold settle
  split_ifs
  · exact ⟨rfl, rfl, rfl, rfl⟩
  · rcases update_seeds_fst P e (S j) false with h | h <;> rw [h] <;> exact ⟨rfl, rfl, rfl, rfl⟩

theorem child_valid (P : Params) (v : Impl) (kp : Nat → ℚ) (parent slot c : PathBuffer)
    (hv : parent.is_valid = true) (h : Child P v kp parent slot c) : c.is_valid = true := by
  have hp : 0 < parent.length_ := by simpa [PathBuffer.is_valid] using hv
  have key : ∀ r k prob t, (make_child v P.seed_len slot parent r k prob t).is_valid = true := by
    intro r k prob t
    have := (make_child_fields v P.seed_len slot parent r k prob t).2.2.2.2
    simp only [PathBuffer.is_valid, decide_eq_true_eq]
    rw [this]
    cases v
    · dsimp only
      omega
    · dsimp only
      omega
  cases h with
  | stay _ _ => exact key _ _ _ _
  | mtch b _ _ _ => exact key _ _ _ _

/-- The facts about the sorted children `S` (indices below `n`) on which the
deduplication rests: the greatest index whose range is `r`, and the fact that
the indices with range `r` below it are consecutive. -/
theorem sorted_block (S : Nat → PathBuffer) (n : Nat) (r : Range)
    (hs : ∀ a b, a < b → b < n → PathBuffer.lt (S b) (S a) = false)
    (hex : ∃ j, j < n ∧ (S j).fm_range_ = r) :
    ∃ jm, jm < n ∧ (S jm).fm_range_ = r ∧
      (∀ j, jm < j → j < n → (S j).fm_range_ ≠ r) ∧
      (∀ j c, j < c → c ≤ jm → (S j).fm_range_ = r → (S c).fm_range_ = r) ∧
      (∀ j, j < n → (S j).fm_range_ = r → (S j).win_prob_ ≤ (S jm).win_prob_) := by
  classical
  obtain ⟨j0, hj0, hr0⟩ := hex
  let Q : Nat → Prop := fun j => j < n ∧ (S j).fm_range_ = r
  have hQ : Q (Nat.findGreatest Q n) :=
    Nat.findGreatest_spec (P := Q) (Nat.le_of_lt hj0) ⟨hj0, hr0⟩
  have hgreat : ∀ j, Nat.findGreatest Q n < j → j < n → (S j).fm_range_ ≠ r := by
    intro j h1 h2 h3
    exact Nat.findGreatest_is_greatest (P := Q) h1 (Nat.le_of_lt h2) ⟨h2, h3⟩
  refine ⟨Nat.findGreatest Q n, hQ.1, hQ.2, hgreat, ?_, ?_⟩
  · intro j c hjc hc hr
    by_cases hcm : c = Nat.findGreatest Q n
    · rw [hcm]
      exact hQ.2
    · have h1 := (lt_false_range _ _ (hs j c hjc (by omega))).1
      have h2 := (lt_false_range _ _ (hs c (Nat.findGreatest Q n) (by omega) hQ.1)).1
      rw [hr] at h1
      rw [hQ.2] at h2
      exact range_trichotomy _ _ h1 h2
  · intro j hj hr
    by_cases hjm : j = Nat.findGreatest Q n
    · rw [hjm]
    · have hlt : j < Nat.findGreatest Q n := by
        by_contra hcon
        exact hgreat j (by omega) hj hr
      have := (lt_false_range _ _ (hs j _ hlt hQ.1)).2
      exact this (hQ.2.trans hr.symm)


/-- C7: for every group of children that the first loop wrote with the same
range `r`, after the sort and the second loop exactly one slot `j` among the
children holds a valid path of range `r`; every other slot of range `r` has been
invalidated, and the window mean of the survivor is the maximum of the window
means of the group. -/
theorem dedupe_keeps_best (P : Params) (v : Impl) (kmer_probs : Nat → ℚ)
    (event_i prev_size : Nat) (prev next : List PathBuffer) (added : Nat → Bool) (r : Range)
    (hsort : IsSort P.env.sort) (hlen : prev.length = next.length)
    (hgroup : ∃ c, c < (phase1 P v kmer_probs event_i prev_size
        (Beam.start prev next added)).next_path ∧
      ((phase1 P v kmer_probs event_i prev_size (Beam.start prev next added)).next_at
        c).fm_range_ = r) :
    ∃ j, j < (phase1 P v kmer_probs event_i prev_size (Beam.start prev next added)).next_path ∧
      ((phase2 P v kmer_probs event_i (phase1 P v kmer_probs event_i prev_size
        (Beam.start prev next added))).next_at j).fm_range_ = r ∧
      ((phase2 P v kmer_probs event_i (phase1 P v kmer_probs event_i prev_size
        (Beam.start prev next added))).next_at j).is_valid = true ∧
      (∀ j2, j2 < (phase1 P v kmer_probs event_i prev_size
          (Beam.start prev next added)).next_path → j2 ≠ j →
        ((phase2 P v kmer_probs event_i (phase1 P v kmer_probs event_i prev_size
          (Beam.start prev next added))).next_at j2).fm_range_ = r →
        ((phase2 P v kmer_probs event_i (phase1 P v kmer_probs event_i prev_size
          (Beam.start prev next added))).next_at j2).length_ = 0) ∧
      (∀ c, c < (phase1 P v kmer_probs event_i prev_size
          (Beam.start prev next added)).next_path →
        ((phase1 P v kmer_probs event_i prev_size (Beam.start prev next added)).next_at
          c).fm_range_ = r →
        ((phase1 P v kmer_probs event_i prev_size (Beam.start prev next added)).next_at
          c).win_prob_
          ≤ ((phase2 P v kmer_probs event_i (phase1 P v kmer_probs event_i prev_size
            (Beam.start prev next added))).next_at j).win_prob_) ∧
      (∃ c, c < (phase1 P v kmer_probs event_i prev_size
          (Beam.start prev next added)).next_path ∧
        ((phase1 P v kmer_probs event_i prev_size (Beam.start prev next added)).next_at
          c).fm_range_ = r ∧
        ((phase1 P v kmer_probs event_i prev_size (Beam.start prev next added)).next_at
          c).win_prob_
          = ((phase2 P v kmer_probs event_i (phase1 P v kmer_probs event_i prev_size
            (Beam.start prev next added))).next_at j).win_prob_) := by
  have p1 := phase1_inv P v kmer_probs event_i prev_size (Beam.start prev next added) rfl rfl hlen
  generalize phase1 P v kmer_probs event_i prev_size (Beam.start prev next added) = b1
    at p1 hgroup ⊢
  obtain ⟨c0, hc0, hr0⟩ := hgroup
  have hn : b1.next_path ≠ 0 := by omega
  obtain ⟨p2, _⟩ := phase2_inv P v kmer_probs event_i b1 hsort p1.cursor_le p1.safe hn
  obtain ⟨_, _, _, s4, s5, s6⟩ := sort_children_spec P b1 hsort p1.cursor_le
  have hfin : ∀ j, j < b1.next_path → (phase2 P v kmer_probs event_i b1).next_at j
      = settle P event_i b1.next_path (sort_children P b1).next_at j :=
    fun j hj => p2.done j hj
  generalize (sort_children P b1).next_at = S at s4 s5 s6 hfin
  have hvalid : ∀ j, j < b1.next_path → (S j).is_valid = true := by
    intro j hj
    obtain ⟨j2, hj2, he⟩ := s4 j hj
    obtain ⟨pi, _, hv, hch⟩ := p1.child j2 hj2
    rw [he]
    exact child_valid P v kmer_probs _ _ _ hv hch
  obtain ⟨j1, hj1, he1⟩ := s5 c0 hc0
  obtain ⟨jm, hjm, hrm, hgreat, hblock, hmax⟩ := sorted_block S b1.next_path r s6
    ⟨j1, hj1, by rw [he1]; exact hr0⟩
  have hnodup : ¬ (jm < b1.next_path - 1 ∧ (S jm).fm_range_.eq (S (jm + 1)).fm_range_ = true) := by
    rintro ⟨h1, h2⟩
    rw [range_eq_iff] at h2
    exact hgreat (jm + 1) (by omega) (by omega) (by rw [← h2]; exact hrm)
  obtain ⟨f1, f2, _, f4⟩ := settle_fields P event_i b1.next_path S jm
  refine ⟨jm, hjm, ?_, ?_, ?_, ?_, ?_⟩
  · rw [hfin jm hjm, f1]
    exact hrm
  · rw [hfin jm hjm]
    simp only [PathBuffer.is_valid, decide_eq_true_eq]
    rw [f4, if_neg hnodup]
    simpa [PathBuffer.is_valid] using hvalid jm hjm
  · intro j2 hj2 hne hr2
    obtain ⟨g1, _, _, g4⟩ := settle_fields P event_i b1.next_path S j2
    rw [hfin j2 hj2] at hr2 ⊢
    rw [g1] at hr2
    have hlt : j2 < jm := by
      by_contra hcon
      exact hgreat j2 (by omega) hj2 hr2
    have hdup : (S j2).fm_range_.eq (S (j2 + 1)).fm_range_ = true := by
      rw [range_eq_iff, hr2]
      exact (hblock j2 (j2 + 1) (by omega) (by omega) hr2).symm
    rw [g4, if_pos ⟨by omega, hdup⟩]
  · intro c hc hr
    obtain ⟨j, hj, he⟩ := s5 c hc
    rw [hfin jm hjm, f2, ← he]
    exact hmax j hj (by rw [he]; exact hr)
  · obtain ⟨c, hc, he⟩ := s4 jm hjm
    refine ⟨c, hc, ?_, ?_⟩
    · rw [← he]
      exact hrm
    · rw [hfin jm hjm, f2, he]

/-- Witness of C7: in the second event of the small environment two children
have the range `[12, 16]`, with window means 9/10 and 3/4; the survivor has
9/10. -/
theorem dedupe_keeps_best_witness :
    ∃ j, j < (phase1 toy_params .mapper (toy_env.event_match_prob 1) 1 2
        (Beam.start toy_mapper1.prev_paths_ toy_mapper1.next_paths_
          toy_mapper1.sources_added_)).next_path ∧
      ((phase2 toy_params .mapper (toy_env.event_match_prob 1) 1
        (phase1 toy_params .mapper (toy_env.event_match_prob 1) 1 2
          (Beam.start toy_mapper1.prev_paths_ toy_mapper1.next_paths_
            toy_mapper1.sources_added_))).next_at j).fm_range_ = { start_ := 12, end_ := 16 } ∧
      ((phase2 toy_params .mapper (toy_env.event_match_prob 1) 1
        (phase1 toy_params .mapper (toy_env.event_match_prob 1) 1 2
          (Beam.start toy_mapper1.prev_paths_ toy_mapper1.next_paths_
            toy_mapper1.sources_added_))).next_at j).is_valid = true :=
  (dedupe_keeps_best toy_params .mapper (toy_env.event_match_prob 1) 1 2
    toy_mapper1.prev_paths_ toy_mapper1.next_paths_ toy_mapper1.sources_added_
    { start_ := 12, end_ := 16 } insertion_sort_isSort (by decide!)
    ⟨0, by decide!, by decide!⟩).imp (fun _ h => ⟨h.1, h.2.1, h.2.2.1⟩)

/-! ## The geometry of the sources of the second loop (C8) -/

theorem mem_plan_add (srcs : List (Range × Nat)) (r : Range) (k : Nat) (rk : Range × Nat) :
    rk ∈ plan_add srcs r k ↔ rk ∈ srcs ∨ (r.start_ ≤ r.end_ ∧ rk = (r, k)) := by
  unfold plan_add
  by_cases hr : r.is_valid = true
  · rw [if_pos hr]
    have : r.start_ ≤ r.end_ := by simpa [Range.is_valid] using hr
    simp [this]
  · rw [if_neg hr]
    have : ¬ r.start_ ≤ r.end_ := by simpa [Range.is_valid] using hr
    simp [this]

theorem length_plan_add (srcs : List (Range × Nat)) (r : Range) (k : Nat) :
    srcs.length ≤ (plan_add srcs r k).length ∧ (plan_add srcs r k).length ≤ srcs.length + 1 := by
  unfold plan_add
  split_ifs <;> simp

theorem pairwise_plan_add (srcs : List (Range × Nat)) (r : Range) (k : Nat)
    (h : srcs.Pairwise (fun a b => a.1.end_ < b.1.start_))
    (hnew : ∀ rk ∈ srcs, rk.1.end_ < r.start_) :
    (plan_add srcs r k).Pairwise (fun a b => a.1.end_ < b.1.start_) := by
  unfold plan_add
  split_ifs
  · rw [List.pairwise_append]
    refine ⟨h, List.pairwise_singleton _ _, ?_⟩
    intro a ha b hb
    simp only [List.mem_singleton] at hb
    rw [hb]
    exact hnew a ha
  · exact h

theorem Covered.more_srcs {n : Nat} {S : Nat → PathBuffer} {srcs srcs2 : List (Range × Nat)}
    {K : Nat} {x : Int} (h : Covered n S srcs K x) (hsub : ∀ rk ∈ srcs, rk ∈ srcs2) :
    Covered n S srcs2 K x := by
  rcases h with h | ⟨rk, hm, h⟩
  · exact Or.inl h
  · exact Or.inr ⟨rk, hsub rk hm, h⟩

theorem SrcOK.later {P : Params} {kp : Nat → ℚ} {n : Nat} {S : Nat → PathBuffer} {i i2 : Nat}
    {rk : Range × Nat} (h : SrcOK P kp n S i rk) (hi : i ≤ i2) : SrcOK P kp n S i2 rk := by
  obtain ⟨a, b, ⟨c, hc1, hc2⟩, d, e, f, g, k⟩ := h
  exact ⟨a, b, ⟨c, by omega, hc2⟩, d, e, f, g, k⟩

/-- No child before the first child of a run has the k-mer of the run. -/
theorem KidsOK.run_start {P : Params} {n : Nat} {S : Nat → PathBuffer} (hk : KidsOK P n S)
    {i : Nat} (hi : i < n) (hprev : ∀ c, c + 1 = i → (S c).kmer_ ≠ (S i).kmer_) :
    ∀ j, j < i → (S j).kmer_ ≠ (S i).kmer_ := by
  intro j hj heq
  by_cases hji : j + 1 = i
  · exact hprev j hji heq
  · have hc := hprev (i - 1) (by omega)
    have b1 := hk.block j (i - 1) (by omega) (by omega) (by rw [heq]; exact fun h => hc h.symm)
    have b2 := hk.block (i - 1) i (by omega) hi hc
    have l1 := hk.lo (i - 1) (by omega)
    have l2 := hk.ne (i - 1) (by omega)
    have l3 := hk.hi (i - 1) (by omega)
    have m1 := hk.lo i hi
    have m2 := hk.ne i hi
    have m3 := hk.hi i hi
    rw [heq] at b1
    omega

/-- No child after the last child of a run has the k-mer of the run. -/
theorem KidsOK.run_end {P : Params} {n : Nat} {S : Nat → PathBuffer} (hk : KidsOK P n S)
    {i : Nat} (hi : i < n) (hnext : i + 1 < n → (S (i + 1)).kmer_ ≠ (S i).kmer_) :
    ∀ j, i < j → j < n → (S j).kmer_ ≠ (S i).kmer_ := by
  intro j hj hjn heq
  by_cases hji : j = i + 1
  · rw [hji] at heq
    exact hnext (by omega) heq
  · have hc := hnext (by omega)
    have b1 := hk.block i (i + 1) (by omega) (by omega) (fun h => hc h.symm)
    have b2 := hk.block (i + 1) j (by omega) hjn (by rw [heq]; exact hc)
    have l1 := hk.lo (i + 1) (by omega)
    have l2 := hk.ne (i + 1) (by omega)
    have l3 := hk.hi (i + 1) (by omega)
    have m1 := hk.lo i hi
    have m2 := hk.ne i hi
    have m3 := hk.hi i hi
    rw [heq] at b2
    omega

/-- Two children with the same range have the same k-mer. -/
theorem KidsOK.same_range {P : Params} {n : Nat} {S : Nat → PathBuffer} (hk : KidsOK P n S)
    {a b : Nat} (hab : a < b) (hb : b < n) (he : (S a).fm_range_ = (S b).fm_range_) :
    (S a).kmer_ = (S b).kmer_ := by
  by_contra hne
  have b1 := hk.block a b hab hb hne
  have l1 := hk.lo b hb
  have l3 := hk.hi a (by omega)
  have l2 := hk.ne a (by omega)
  rw [he] at l3 l2
  omega

theorem gap_left {P : Params} {kp : Nat → ℚ} {n cap : Nat} {S : Nat → PathBuffer} {i : Nat}
    {pl : Plan} (hk : KidsOK P n S) (h : GapInv P kp n cap S i pl) (hi : i < n) :
    MidInv P kp n cap S i (plan_left P kp n cap S i pl) := by
  have hfront := h.front hi
  have hcap := h.cap_le
  have l1 := hk.lo i hi
  have l2 := hk.ne i hi
  have l3 := hk.hi i hi
  unfold plan_left
  dsimp only
  by_cases hg : (decide ((S i).kmer_ ≠ pl.prev_kmer) && !decide (n + pl.srcs.length = cap) &&
      decide (kp (S i).kmer_ ≥ P.get_source_prob)) = true
  · rw [if_pos hg]
    simp only [Bool.and_eq_true, Bool.not_eq_true', decide_eq_true_eq, decide_eq_false_iff_not]
      at hg
    obtain ⟨⟨hne, hroom⟩, hclr⟩ := hg
    have hstart : ∀ j, j < i → (S j).kmer_ ≠ (S i).kmer_ :=
      hk.run_start hi (fun c hc heq => hne (by rw [h.kmerS c hc, heq]))
    have hlen := length_plan_add pl.srcs
      { start_ := (P.env.kmer_fmranges (S i).kmer_).start_, end_ := (S i).fm_range_.start_ - 1 }
      (S i).kmer_
    have hsub : ∀ rk ∈ pl.srcs, rk ∈ plan_add pl.srcs
        { start_ := (P.env.kmer_fmranges (S i).kmer_).start_
          end_ := (S i).fm_range_.start_ - 1 } (S i).kmer_ :=
      fun rk hm => (mem_plan_add _ _ _ _).mpr (Or.inl hm)
    refine
      { cap_le := by dsimp only; omega
        kmer := rfl
        act := fun _ _ => ⟨rfl, ?_, ⟨i, le_refl _, hi, rfl, rfl⟩, ?_, ?_⟩
        srcs := ?_
        front := ?_
        order := ?_
        fin := ?_ }
    · intro j hj hjn hjk
      have hji : j = i := by
        by_contra hji
        exact hstart j (by omega) hjk
      rw [hji]
      dsimp only
      omega
    · intro rk hrk
      dsimp only at hrk ⊢
      rcases (mem_plan_add _ _ _ _).mp hrk with hm | ⟨_, hm⟩
      · have := hfront rk hm
        omega
      · rw [hm]
        dsimp only
        omega
    · intro x hx1 hx2
      dsimp only at hx2 ⊢
      by_cases hx : x < (S i).fm_range_.start_
      · right
        refine ⟨(_, (S i).kmer_), (mem_plan_add _ _ _ _).mpr (Or.inr ⟨?_, rfl⟩), rfl, ?_, ?_⟩
        · dsimp only
          omega
        · exact hx1
        · dsimp only
          omega
      · left
        exact ⟨i, hi, rfl, by omega, by omega⟩
    · intro rk hrk
      dsimp only at hrk
      rcases (mem_plan_add _ _ _ _).mp hrk with hm | ⟨hv, hm⟩
      · exact (h.srcs rk hm).later (by omega)
      · rw [hm]
        dsimp only at hv
        refine
          { valid := hv
            clears := hclr
            kid := ⟨i, by omega, hi, rfl⟩
            lo := le_refl _
            hi := by dsimp only; omega
            avoid := ?_
            left_max := Or.inl rfl
            right_max := Or.inr ⟨i, hi, rfl, by dsimp only; omega⟩ }
        intro j hjn hjk
        right
        dsimp only at hjk ⊢
        have hge : i ≤ j := by
          by_contra hlt
          exact hstart j (by omega) hjk
        by_cases hji : j = i
        · rw [hji]
          omega
        · have := hk.sorted i j (by omega) hjn
          omega
    · intro rk hrk
      dsimp only at hrk
      rcases (mem_plan_add _ _ _ _).mp hrk with hm | ⟨_, hm⟩
      · exact hfront rk hm
      · rw [hm]
        dsimp only
        omega
    · dsimp only
      refine pairwise_plan_add _ _ _ h.order ?_
      intro rk hm
      dsimp only
      obtain ⟨c, hc, hcn, hck⟩ := (h.srcs rk hm).kid
      have b := hk.block c i hc hi (hstart c hc)
      have := (h.srcs rk hm).hi
      rw [hck] at b
      omega
    · intro c hc hne2 hroom2 hclr2 x hx1 hx2
      dsimp only at hroom2 ⊢
      exact (h.fin c hc (fun _ => hne2) hroom hclr2 x hx1 hx2).more_srcs hsub
  · rw [if_neg hg]
    refine
      { cap_le := hcap
        kmer := rfl
        act := ?_
        srcs := fun rk hm => (h.srcs rk hm).later (by omega)
        front := hfront
        order := h.order
        fin := fun c hc hne2 hroom2 hclr2 x hx1 hx2 =>
          h.fin c hc (fun _ => hne2) hroom2 hclr2 x hx1 hx2 }
    intro hroom hclr
    have hroom2 : n + pl.srcs.length ≠ cap := hroom
    have heq : (S i).kmer_ = pl.prev_kmer := by
      by_contra hne
      apply hg
      simp only [Bool.and_eq_true, Bool.not_eq_true', decide_eq_true_eq, decide_eq_false_iff_not]
      exact ⟨⟨hne, hroom2⟩, hclr⟩
    have hi0 : i ≠ 0 := by
      intro h0
      exact hk.nosent i hi (by rw [heq, h.kmer0 h0])
    have sw := h.act (i - 1) (by omega) hi (by rw [heq, h.kmerS (i - 1) (by omega)]) hroom2 hclr
    exact ⟨sw.stop, sw.past, sw.tight, sw.srcs_past, sw.covered⟩

theorem gap_dup {P : Params} {kp : Nat → ℚ} {n cap : Nat} {S : Nat → PathBuffer} {i : Nat}
    {pl : Plan} (hk : KidsOK P n S) (h : MidInv P kp n cap S i pl) (hi : i + 1 < n)
    (hdup : (S i).fm_range_ = (S (i + 1)).fm_range_) :
    GapInv P kp n cap S (i + 1) pl := by
  have hkk : (S i).kmer_ = (S (i + 1)).kmer_ := hk.same_range (by omega) hi hdup
  refine
    { cap_le := h.cap_le
      kmer0 := fun h0 => by omega
      kmerS := fun c hc => by
        have : c = i := by omega
        rw [this]
        exact h.kmer
      act := ?_
      srcs := h.srcs
      front := fun _ rk hm => by
        rw [← hdup]
        exact h.front rk hm
      order := h.order
      fin := ?_ }
  · intro c hc _ _ hroom hclr
    rw [← hkk] at hclr ⊢
    have sw := h.act hroom hclr
    refine ⟨sw.stop, ?_, ?_, sw.srcs_past, sw.covered⟩
    · intro j hj hjn hjk
      by_cases hji : j = i + 1
      · have := sw.past i (le_refl _) (by omega) rfl
        rw [hji, ← hdup]
        exact this
      · exact sw.past j (by omega) hjn hjk
    · obtain ⟨j, hj, hjn, hjk, he⟩ := sw.tight
      exact ⟨j, by omega, hjn, hjk, he⟩
  · intro c hc hne hroom hclr x hx1 hx2
    have hne2 := hne hi
    rw [← hkk] at hne2
    have hci : c < i := by
      by_contra hcon
      have : c = i := by omega
      rw [this] at hne2
      exact hne2 rfl
    exact h.fin c hci hne2 hroom hclr x hx1 hx2

theorem gap_after {P : Params} {kp : Nat → ℚ} {n cap : Nat} {S : Nat → PathBuffer} {i : Nat}
    {pl : Plan} (hk : KidsOK P n S) (h : MidInv P kp n cap S i pl) (hi : i < n) :
    GapInv P kp n cap S (i + 1) (plan_after P kp n cap S i pl) := by
  have hcap := h.cap_le
  have l1 := hk.lo i hi
  have l2 := hk.ne i hi
  have l3 := hk.hi i hi
  have hsorted : i + 1 < n → (S i).fm_range_.start_ ≤ (S (i + 1)).fm_range_.start_ :=
    fun h1 => hk.sorted i (i + 1) (by omega) h1
  unfold plan_after
  dsimp only
  by_cases hg : (!decide (n + pl.srcs.length = cap) &&
      decide (kp (S i).kmer_ ≥ P.get_source_prob)) = true
  · rw [if_pos hg]
    simp only [Bool.and_eq_true, Bool.not_eq_true', decide_eq_true_eq, decide_eq_false_iff_not]
      at hg
    obtain ⟨hroom, hclr⟩ := hg
    have sw := h.act hroom hclr
    have hlo : (P.env.kmer_fmranges (S i).kmer_).start_ < pl.unchecked_range.start_ := by
      obtain ⟨j, _, hjn, hjk, he⟩ := sw.tight
      have a1 := hk.lo j hjn
      have a2 := hk.ne j hjn
      rw [hjk] at a1
      omega
    by_cases hb : (decide (i < n - 1) && decide ((S i).kmer_ = (S (i + 1)).kmer_)) = true
    · simp only [hb, if_true, Bool.true_and]
      simp only [Bool.and_eq_true, decide_eq_true_eq] at hb
      obtain ⟨hin, hkk⟩ := hb
      have hi1 : i + 1 < n := by omega
      have m1 := hk.lo (i + 1) hi1
      have m2 := hk.ne (i + 1) hi1
      have m3 := hk.hi (i + 1) hi1
      rw [← hkk] at m1 m3
      have hs := hsorted hi1
      have hfacts : ∀ u2 : Range,
          u2 = (if decide (pl.unchecked_range.start_ ≤ (S (i + 1)).fm_range_.end_) = true then
            { pl.unchecked_range with start_ := (S (i + 1)).fm_range_.end_ + 1 }
          else pl.unchecked_range) →
          u2.end_ = pl.unchecked_range.end_ ∧ pl.unchecked_range.start_ ≤ u2.start_ ∧
            (S (i + 1)).fm_range_.end_ < u2.start_ ∧
            (u2.start_ = pl.unchecked_range.start_ ∨
              u2.start_ = (S (i + 1)).fm_range_.end_ + 1) := by
        intro u2 hu2
        by_cases hc : pl.unchecked_range.start_ ≤ (S (i + 1)).fm_range_.end_
        · rw [if_pos (by simpa using hc)] at hu2
          rw [hu2]
          dsimp only
          exact ⟨rfl, by omega, by omega, Or.inr rfl⟩
        · rw [if_neg (by simpa using hc)] at hu2
          rw [hu2]
          exact ⟨rfl, le_refl _, by omega, Or.inl rfl⟩
      generalize hU : (if decide (pl.unchecked_range.start_ ≤ (S (i + 1)).fm_range_.end_) = true
          then ({ pl.unchecked_range with start_ := (S (i + 1)).fm_range_.end_ + 1 } : Range)
          else pl.unchecked_range) = u2
      obtain ⟨hu1, hu2, hu3, hu4⟩ := hfacts u2 hU.symm
      have hlen := length_plan_add pl.srcs
        { start_ := pl.unchecked_range.start_, end_ := (S (i + 1)).fm_range_.start_ - 1 }
        (S i).kmer_
      have hsub : ∀ rk ∈ pl.srcs, rk ∈ plan_add pl.srcs
          { start_ := pl.unchecked_range.start_, end_ := (S (i + 1)).fm_range_.start_ - 1 }
          (S i).kmer_ :=
        fun rk hm => (mem_plan_add _ _ _ _).mpr (Or.inl hm)
      refine
        { cap_le := by dsimp only; omega
          kmer0 := fun h0 => by omega
          kmerS := fun c hc => by
            have : c = i := by omega
            rw [this]
            exact h.kmer
          act := ?_
          srcs := ?_
          front := ?_
          order := ?_
          fin := ?_ }
      · intro c _ _ _ _ _
        rw [← hkk]
        refine ⟨by rw [← sw.stop]; exact hu1, ?_, ?_, ?_, ?_⟩
        · intro j hj hjn hjk
          dsimp only
          by_cases hji : j = i + 1
          · rw [hji]
            exact hu3
          · have := sw.past j (by omega) hjn hjk
            omega
        · dsimp only
          rcases hu4 with hu4 | hu4
          · obtain ⟨j, hj, hjn, hjk, he⟩ := sw.tight
            exact ⟨j, by omega, hjn, hjk, by rw [hu4]; exact he⟩
          · exact ⟨i + 1, le_refl _, hi1, hkk.symm, hu4⟩
        · intro rk hrk
          dsimp only at hrk ⊢
          rcases (mem_plan_add _ _ _ _).mp hrk with hm | ⟨_, hm⟩
          · have := sw.srcs_past rk hm
            omega
          · rw [hm]
            dsimp only
            omega
        · intro x hx1 hx2
          dsimp only at hx2 ⊢
          by_cases hxa : x < pl.unchecked_range.start_
          · exact (sw.covered x hx1 hxa).more_srcs hsub
          · by_cases hxb : x < (S (i + 1)).fm_range_.start_
            · right
              refine ⟨(_, (S i).kmer_), (mem_plan_add _ _ _ _).mpr (Or.inr ⟨?_, rfl⟩), rfl, ?_, ?_⟩
              · dsimp only
                omega
              · dsimp only
                omega
              · dsimp only
                omega
            · left
              exact ⟨i + 1, hi1, hkk.symm, by omega, by omega⟩
      · intro rk hrk
        dsimp only at hrk
        rcases (mem_plan_add _ _ _ _).mp hrk with hm | ⟨hv, hm⟩
        · exact h.srcs rk hm
        · rw [hm]
          dsimp only at hv
          refine
            { valid := hv
              clears := hclr
              kid := ⟨i, by omega, hi, rfl⟩
              lo := by dsimp only; omega
              hi := by dsimp only; omega
              avoid := ?_
              left_max := Or.inr (by
                obtain ⟨j, _, hjn, hjk, he⟩ := sw.tight
                exact ⟨j, hjn, hjk, by dsimp only; omega⟩)
              right_max := Or.inr ⟨i + 1, hi1, hkk.symm, by dsimp only; omega⟩ }
          intro j hjn hjk
          dsimp only at hjk ⊢
          by_cases hji : j ≤ i
          · left
            exact sw.past j hji hjn hjk
          · right
            by_cases hj1 : j = i + 1
            · rw [hj1]
              omega
            · have := hk.sorted (i + 1) j (by omega) hjn
              omega
      · intro _ rk hrk
        dsimp only at hrk
        rcases (mem_plan_add _ _ _ _).mp hrk with hm | ⟨_, hm⟩
        · have := h.front rk hm
          omega
        · rw [hm]
          dsimp only
          omega
      · dsimp only
        exact pairwise_plan_add _ _ _ h.order (fun rk hm => sw.srcs_past rk hm)
      · intro c hc hne hroom2 hclr2 x hx1 hx2
        dsimp only at hroom2 ⊢
        have hne2 := hne hi1
        rw [← hkk] at hne2
        have hci : c < i := by
          by_contra hcon
          have : c = i := by omega
          rw [this] at hne2
          exact hne2 rfl
        exact (h.fin c hci hne2 hroom hclr2 x hx1 hx2).more_srcs hsub
    · have hbf : (decide (i < n - 1) && decide ((S i).kmer_ = (S (i + 1)).kmer_)) = false := by
        simpa using hb
      simp only [hbf, Bool.false_and, Bool.false_eq_true, if_false]
      have hnext : i + 1 < n → (S (i + 1)).kmer_ ≠ (S i).kmer_ := by
        intro h1 heq
        apply hb
        simp only [Bool.and_eq_true, decide_eq_true_eq]
        exact ⟨by omega, heq.symm⟩
      have hend := hk.run_end hi hnext
      have hlen := length_plan_add pl.srcs pl.unchecked_range (S i).kmer_
      have hsub : ∀ rk ∈ pl.srcs, rk ∈ plan_add pl.srcs pl.unchecked_range (S i).kmer_ :=
        fun rk hm => (mem_plan_add _ _ _ _).mpr (Or.inl hm)
      have hstop := sw.stop
      refine
        { cap_le := by dsimp only; omega
          kmer0 := fun h0 => by omega
          kmerS := fun c hc => by
            have : c = i := by omega
            rw [this]
            exact h.kmer
          act := ?_
          srcs := ?_
          front := ?_
          order := ?_
          fin := ?_ }
      · intro c hc hi1 hkk _ _
        have : c = i := by omega
        rw [this] at hkk
        exact absurd hkk (hnext hi1)
      · intro rk hrk
        dsimp only at hrk
        rcases (mem_plan_add _ _ _ _).mp hrk with hm | ⟨hv, hm⟩
        · exact h.srcs rk hm
        · rw [hm]
          refine
            { valid := hv
              clears := hclr
              kid := ⟨i, by omega, hi, rfl⟩
              lo := by dsimp only; omega
              hi := by dsimp only; omega
              avoid := ?_
              left_max := Or.inr (by
                obtain ⟨j, _, hjn, hjk, he⟩ := sw.tight
                exact ⟨j, hjn, hjk, by dsimp only; omega⟩)
              right_max := Or.inl hstop }
          intro j hjn hjk
          dsimp only at hjk ⊢
          left
          have hji : j ≤ i := by
            by_contra hcon
            exact hend j (by omega) hjn hjk
          exact sw.past j hji hjn hjk
      · intro hi1 rk hrk
        dsimp only at hrk
        have hs := hsorted hi1
        rcases (mem_plan_add _ _ _ _).mp hrk with hm | ⟨_, hm⟩
        · have := h.front rk hm
          omega
        · rw [hm]
          dsimp only
          have b := hk.block i (i + 1) (by omega) hi1 (fun he => hnext hi1 he.symm)
          have m1 := hk.lo (i + 1) hi1
          omega
      · dsimp only
        exact pairwise_plan_add _ _ _ h.order (fun rk hm => sw.srcs_past rk hm)
      · intro c hc hne hroom2 hclr2 x hx1 hx2
        dsimp only at hroom2 ⊢
        by_cases hck : (S c).kmer_ = (S i).kmer_
        · rw [hck] at hx1 hx2 ⊢
          by_cases hxa : x < pl.unchecked_range.start_
          · exact (sw.covered x hx1 hxa).more_srcs hsub
          · right
            refine ⟨(_, (S i).kmer_), (mem_plan_add _ _ _ _).mpr (Or.inr ⟨?_, rfl⟩), rfl, ?_, ?_⟩
            · omega
            · dsimp only
              omega
            · dsimp only
              omega
        · have hci : c < i := by
            by_contra hcon
            have : c = i := by omega
            rw [this] at hck
            exact hck rfl
          exact (h.fin c hci hck hroom hclr2 x hx1 hx2).more_srcs hsub
  · rw [if_neg hg]
    have hcontra : n + pl.srcs.length ≠ cap → kp (S i).kmer_ ≥ P.get_source_prob → False := by
      intro h1 h2
      apply hg
      simp only [Bool.and_eq_true, Bool.not_eq_true', decide_eq_true_eq, decide_eq_false_iff_not]
      exact ⟨h1, h2⟩
    refine
      { cap_le := hcap
        kmer0 := fun h0 => by omega
        kmerS := fun c hc => by
          have : c = i := by omega
          rw [this]
          exact h.kmer
        act := ?_
        srcs := h.srcs
        front := fun hi1 rk hm => by
          have := h.front rk hm
          have := hsorted hi1
          omega
        order := h.order
        fin := ?_ }
    · intro c hc _ hkk hroom hclr
      have : c = i := by omega
      rw [this] at hkk
      rw [hkk] at hclr
      exact absurd hclr (fun h2 => hcontra hroom h2)
    · intro c hc hne hroom hclr x hx1 hx2
      by_cases hck : (S c).kmer_ = (S i).kmer_
      · rw [hck] at hclr
        exact absurd hclr (fun h2 => hcontra hroom h2)
      · have hci : c < i := by
          by_contra hcon
          have : c = i := by omega
          rw [this] at hck
          exact hck rfl
        exact h.fin c hci hck hroom hclr x hx1 hx2

theorem gap_step {P : Params} {kp : Nat → ℚ} {n cap : Nat} {S : Nat → PathBuffer} {i : Nat}
    {pl : Plan} (hk : KidsOK P n S) (h : GapInv P kp n cap S i pl) (hi : i < n) :
    GapInv P kp n cap S (i + 1) (plan_step P kp n cap S pl i) := by
  have hm := gap_left hk h hi
  unfold plan_step
  by_cases hd : (decide (i < n - 1) && (S i).fm_range_.eq (S (i + 1)).fm_range_) = true
  · rw [if_pos hd]
    simp only [Bool.and_eq_true, decide_eq_true_eq, range_eq_iff] at hd
    exact gap_dup hk hm (by omega) hd.2
  · rw [if_neg hd]
    exact gap_after hk hm hi

theorem gap_inv (P : Params) (kp : Nat → ℚ) (n cap : Nat) (S : Nat → PathBuffer)
    (hk : KidsOK P n S) (hcap : n ≤ cap) :
    ∀ i, i ≤ n → GapInv P kp n cap S i (plan_upto P kp n cap S i) := by
  intro i
  induction i with
  | zero =>
    intro _
    exact
      { cap_le := by simpa [plan_upto] using hcap
        kmer0 := fun _ => rfl
        kmerS := fun c hc => by omega
        act := fun c hc => by omega
        srcs := fun rk hm => by simp [plan_upto] at hm
        front := fun _ rk hm => by simp [plan_upto] at hm
        order := by simp [plan_upto]
        fin := fun c hc => by omega }
  | succ i ih =>
    intro hi
    have := gap_step hk (ih (by omega)) (by omega)
    simpa only [plan_upto, List.range_succ, List.foldl_append, List.foldl_cons,
      List.foldl_nil] using this

/-! ## The flags of the k-mers of the children -/

theorem plan_step_kmer (P : Params) (kp : Nat → ℚ) (n cap : Nat) (S : Nat → PathBuffer)
    (pl : Plan) (i : Nat) : (plan_step P kp n cap S pl i).prev_kmer = (S i).kmer_ := by
  have hl : (plan_left P kp n cap S i pl).prev_kmer = (S i).kmer_ := by
    unfold plan_left
    dsimp only
    split_ifs <;> rfl
  have ha : ∀ q : Plan, (plan_after P kp n cap S i q).prev_kmer = q.prev_kmer := by
    intro q
    unfold plan_after
    dsimp only
    split_ifs <;> rfl
  unfold plan_step
  split_ifs
  · exact hl
  · rw [ha, hl]

theorem plan_upto_kmer (P : Params) (kp : Nat → ℚ) (n cap : Nat) (S : Nat → PathBuffer)
    (i : Nat) : (plan_upto P kp n cap S (i + 1)).prev_kmer = (S i).kmer_ := by
  simp only [plan_upto, List.range_succ, List.foldl_append, List.foldl_cons, List.foldl_nil]
  exact plan_step_kmer P kp n cap S _ i

theorem add_source_flags (v : Impl) (kp : Nat → ℚ) (bm : Beam) (r : Range) (k : Nat) :
    (add_source v kp bm r k).sources_added_ = bm.sources_added_ ∧
      bm.next_path ≤ (add_source v kp bm r k).next_path ∧
      (add_source v kp bm r k).next_paths_.length = bm.next_paths_.length := by
  unfold add_source
  split_ifs
  · simp [Beam.advance, Beam.emplace, length_modify_at]
  · exact ⟨rfl, le_refl _, rfl⟩

/-- The effect of one round of the second loop on the bitmap, the cursor and the
size of the buffer: the flag of the k-mer of the child is set when the block of
the left source is entered, no flag is cleared, the cursor does not move back. -/
theorem source_step_flags (P : Params) (v : Impl) (kp : Nat → ℚ) (e n : Nat) (st : SrcState)
    (i : Nat) :
    (∀ k, st.bm.sources_added_ k = true →
        (source_step P v kp e n st i).bm.sources_added_ k = true) ∧
      ((st.bm.next_at i).kmer_ ≠ st.prev_kmer → st.bm.at_end = false →
        kp (st.bm.next_at i).kmer_ ≥ P.get_source_prob →
        (source_step P v kp e n st i).bm.sources_added_ (st.bm.next_at i).kmer_ = true) ∧
      st.bm.next_path ≤ (source_step P v kp e n st i).bm.next_path ∧
      (source_step P v kp e n st i).bm.next_paths_.length = st.bm.next_paths_.length := by
  have hl : (∀ k, st.bm.sources_added_ k = true →
        (left_source P v kp i st).bm.sources_added_ k = true) ∧
      ((st.bm.next_at i).kmer_ ≠ st.prev_kmer → st.bm.at_end = false →
        kp (st.bm.next_at i).kmer_ ≥ P.get_source_prob →
        (left_source P v kp i st).bm.sources_added_ (st.bm.next_at i).kmer_ = true) ∧
      st.bm.next_path ≤ (left_source P v kp i st).bm.next_path ∧
      (left_source P v kp i st).bm.next_paths_.length = st.bm.next_paths_.length := by
    unfold left_source
    dsimp only
    by_cases hg : (decide ((st.bm.next_at i).kmer_ ≠ st.prev_kmer) && !st.bm.at_end &&
        decide (kp (st.bm.next_at i).kmer_ ≥ P.get_source_prob)) = true
    · rw [if_pos hg]
      dsimp only
      obtain ⟨f1, f2, f3⟩ := add_source_flags v kp (st.bm.set_added (st.bm.next_at i).kmer_ true)
        { start_ := (P.env.kmer_fmranges (st.bm.next_at i).kmer_).start_
          end_ := (st.bm.next_at i).fm_range_.start_ - 1 } (st.bm.next_at i).kmer_
      rw [f1]
      refine ⟨?_, ?_, f2, f3⟩
      · intro k hk
        simp only [Beam.set_added, Function.update_apply]
        split_ifs
        · rfl
        · exact hk
      · intro _ _ _
        simp [Beam.set_added]
    · rw [if_neg hg]
      refine ⟨fun k hk => hk, ?_, le_refl _, rfl⟩
      intro h1 h2 h3
      exfalso
      apply hg
      simp only [Bool.and_eq_true, Bool.not_eq_true', decide_eq_true_eq]
      exact ⟨⟨h1, h2⟩, h3⟩
  have ha : ∀ (k : Nat) (q : SrcState),
      (after_source P v kp n i k q).bm.sources_added_ = q.bm.sources_added_ ∧
        q.bm.next_path ≤ (after_source P v kp n i k q).bm.next_path ∧
        (after_source P v kp n i k q).bm.next_paths_.length = q.bm.next_paths_.length := by
    intro k q
    unfold after_source
    dsimp only
    by_cases hg : (!q.bm.at_end && decide (kp k ≥ P.get_source_prob)) = true
    · rw [if_pos hg]
      exact add_source_flags v kp q.bm _ k
    · rw [if_neg hg]
      exact ⟨rfl, le_refl _, rfl⟩
  obtain ⟨l1, l2, l3, l4⟩ := hl
  unfold source_step
  dsimp only
  split_ifs
  · simp only [invalidate_at, Beam.settle_at, length_modify_at]
    exact ⟨l1, l2, l3, l4⟩
  · obtain ⟨a1, a2, a3⟩ := ha (st.bm.next_at i).kmer_ (left_source P v kp i st)
    simp only [report_path, Beam.settle_at, length_modify_at]
    rw [a1, a3]
    exact ⟨l1, l2, le_trans l3 a2, l4⟩

theorem loop2_flags (P : Params) (v : Impl) (kp : Nat → ℚ) (e n : Nat) (bmS : Beam)
    (hcur : bmS.next_path = n) (hle : n ≤ bmS.next_paths_.length) (hsafe : bmS.overrun = false)
    (hns : ∀ j, j < n → (bmS.next_at j).kmer_ ≠ P.env.kmer_count % 65536) :
    ∀ i, i ≤ n → (loop2_upto P v kp e n bmS i).bm.at_end = false →
      ∀ c, c < i → kp (bmS.next_at c).kmer_ ≥ P.get_source_prob →
        (loop2_upto P v kp e n bmS i).bm.sources_added_ (bmS.next_at c).kmer_ = true := by
  intro i
  induction i with
  | zero =>
    intro _ _ c hc
    omega
  | succ i ih =>
    intro hi hend c hc hclr
    obtain ⟨p2, sim⟩ := loop2_sim P v kp e n bmS hcur hle hsafe i (by omega)
    obtain ⟨p2n, _⟩ := loop2_sim P v kp e n bmS hcur hle hsafe (i + 1) hi
    have hstep : loop2_upto P v kp e n bmS (i + 1)
        = source_step P v kp e n (loop2_upto P v kp e n bmS i) i := by
      simp only [loop2_upto, List.range_succ, List.foldl_append, List.foldl_cons, List.foldl_nil]
    have hcl := p2n.cursor_le
    rw [hstep] at hend hcl ⊢
    obtain ⟨f1, f2, f3, f4⟩ := source_step_flags P v kp e n (loop2_upto P v kp e n bmS i) i
    have hread : (loop2_upto P v kp e n bmS i).bm.next_at i = bmS.next_at i :=
      p2.todo i (le_refl _) (by omega)
    have hend0 : (loop2_upto P v kp e n bmS i).bm.at_end = false := by
      simp only [Beam.at_end, decide_eq_false_iff_not] at hend ⊢
      omega
    have ih2 := ih (by omega) hend0
    by_cases hci : c < i
    · exact f1 _ (ih2 c hci hclr)
    · have hce : c = i := by omega
      rw [hce] at hclr ⊢
      by_cases heq : (bmS.next_at i).kmer_ = (loop2_upto P v kp e n bmS i).prev_kmer
      · rw [sim.kmer] at heq
        cases i with
        | zero => exact absurd heq (hns 0 (by omega))
        | succ i2 =>
          rw [plan_upto_kmer] at heq
          have := ih2 i2 (by omega) (by rw [← heq]; exact hclr)
          rw [← heq] at this
          exact f1 _ this
      · rw [← hread] at heq hclr ⊢
        exact f2 heq hend0 hclr

theorem phase2_flags (P : Params) (v : Impl) (kp : Nat → ℚ) (e : Nat) (bm1 : Beam)
    (hsort : IsSort P.env.sort) (hle : bm1.next_path ≤ bm1.next_paths_.length)
    (hsafe : bm1.overrun = false) (hn : bm1.next_path ≠ 0)
    (hns : ∀ j, j < bm1.next_path →
      ((sort_children P bm1).next_at j).kmer_ ≠ P.env.kmer_count % 65536)
    (hend : (phase2 P v kp e bm1).at_end = false) :
    ∀ c, c < bm1.next_path → kp ((sort_children P bm1).next_at c).kmer_ ≥ P.get_source_prob →
      (phase2 P v kp e bm1).sources_added_ ((sort_children P bm1).next_at c).kmer_ = true := by
  obtain ⟨hlen, hcur, _⟩ := sort_children_spec P bm1 hsort hle
  have h := loop2_flags P v kp e bm1.next_path (sort_children P bm1) hcur
    (by rw [hlen]; exact hle) hsafe hns bm1.next_path (le_refl _)
  unfold phase2 at hend ⊢
  rw [if_pos hn] at hend ⊢
  exact h hend

theorem kids_ok_sorted (P : Params) (bm1 : Beam) (hsort : IsSort P.env.sort)
    (hle : bm1.next_path ≤ bm1.next_paths_.length) (hcount : P.env.kmer_count < 65536)
    (hdisj : FullDisjoint P.env) (hkids : ∀ j, j < bm1.next_path → PathOK P (bm1.next_at j)) :
    KidsOK P bm1.next_path (sort_children P bm1).next_at := by
  obtain ⟨_, _, _, s4, _, s6⟩ := sort_children_spec P bm1 hsort hle
  have hok : ∀ j, j < bm1.next_path → PathOK P ((sort_children P bm1).next_at j) := by
    intro j hj
    obtain ⟨j2, hj2, he⟩ := s4 j hj
    rw [he]
    exact hkids j2 hj2
  have hsorted : ∀ a b, a < b → b < bm1.next_path →
      ((sort_children P bm1).next_at a).fm_range_.start_
        ≤ ((sort_children P bm1).next_at b).fm_range_.start_ := by
    intro a b hab hb
    have := (lt_false_range _ _ (s6 a b hab hb)).1
    simp only [Range.lt, Bool.or_eq_false_iff, decide_eq_false_iff_not] at this
    omega
  refine
    { sorted := hsorted
      lo := fun j hj => (hok j hj).2.1
      ne := fun j hj => (hok j hj).2.2.1
      hi := fun j hj => (hok j hj).2.2.2
      block := ?_
      nosent := ?_ }
  · intro a b hab hb hne
    obtain ⟨a1, a2, a3, a4⟩ := hok a (by omega)
    obtain ⟨b1, b2, b3, b4⟩ := hok b hb
    have hs := hsorted a b hab hb
    rcases hdisj _ a1 _ b1 hne (by omega) (by omega) with h | h
    · exact h
    · omega
  · intro j hj
    have := (hok j hj).1
    rw [Nat.mod_eq_of_lt hcount]
    omega

theorem sim_slot {v : Impl} {kp : Nat → ℚ} {n : Nat} {bmS bm : Beam}
    {srcs : List (Range × Nat)} (hs : SimSlots v kp n bmS bm srcs) (j : Nat) (hj1 : n ≤ j)
    (hj2 : j < bm.next_path) :
    ∃ rk, rk ∈ srcs ∧ srcs[j - n]? = some rk ∧ (bm.next_at j).fm_range_ = rk.1 ∧
      (bm.next_at j).kmer_ = rk.2 ∧ (bm.next_at j).length_ = 1 := by
  obtain ⟨hcur, hsl⟩ := hs
  have ht : j - n < srcs.length := by omega
  have hget : srcs[j - n]? = some (srcs[j - n]) := List.getElem?_eq_getElem ht
  have := hsl (j - n) (srcs[j - n]).1 (srcs[j - n]).2 hget
  have hnj : n + (j - n) = j := by omega
  rw [hnj] at this
  refine ⟨srcs[j - n], List.getElem_mem _, hget, ?_, ?_, ?_⟩
  · rw [this, (make_source_fields v _ _ _ _).2.1]
  · rw [this, (make_source_fields v _ _ _ _).1]
  · rw [this, (make_source_fields v _ _ _ _).2.2.1]

/-- What the second loop leaves behind the children, for children that are as an
FM-index makes them: the slots from the old cursor to the new one hold the
sources of a plan that satisfies the invariant `GapInv` at the end of the
loop. -/
theorem phase2_plan (P : Params) (v : Impl) (kp : Nat → ℚ) (e : Nat) (bm1 : Beam)
    (hsort : IsSort P.env.sort) (hle : bm1.next_path ≤ bm1.next_paths_.length)
    (hsafe : bm1.overrun = false) (hn : bm1.next_path ≠ 0)
    (hcount : P.env.kmer_count < 65536) (hdisj : FullDisjoint P.env)
    (hkids : ∀ j, j < bm1.next_path → PathOK P (bm1.next_at j)) :
    ∃ pl : Plan,
      SimSlots v kp bm1.next_path (sort_children P bm1) (phase2 P v kp e bm1) pl.srcs ∧
      GapInv P kp bm1.next_path bm1.next_paths_.length (sort_children P bm1).next_at
        bm1.next_path pl ∧
      ((phase2 P v kp e bm1).at_end = false →
        bm1.next_path + pl.srcs.length ≠ bm1.next_paths_.length) := by
  obtain ⟨p2, sims⟩ := phase2_inv P v kp e bm1 hsort hle hsafe hn
  have hk := kids_ok_sorted P bm1 hsort hle hcount hdisj hkids
  have g := gap_inv P kp bm1.next_path bm1.next_paths_.length (sort_children P bm1).next_at hk hle
    bm1.next_path (le_refl _)
  refine ⟨_, sims, g, ?_⟩
  intro hend
  obtain ⟨hlen, _⟩ := sort_children_spec P bm1 hsort hle
  simp only [Beam.at_end, decide_eq_false_iff_not] at hend
  rw [p2.len_next, hlen, sims.1] at hend
  exact hend

/-! ## The sources between the children (C8) -/

theorem child_path_ok {P : Params} {v : Impl} {kp : Nat → ℚ} {parent slot c : PathBuffer}
    (henv : FMIndexOK P v) (hp : PathOK P parent) (hch : Child P v kp parent slot c) :
    PathOK P c := by
  obtain ⟨p1, p2, p3, p4⟩ := hp
  cases hch with
  | stay _ _ =>
    unfold PathOK
    rw [(make_child_fields v _ _ _ _ _ _ _).1, (make_child_fields v _ _ _ _ _ _ _).2.1]
    exact ⟨p1, p2, p3, p4⟩
  | mtch b hb _ hv =>
    unfold PathOK
    rw [(make_child_fields v _ _ _ _ _ _ _).1, (make_child_fields v _ _ _ _ _ _ _).2.1]
    obtain ⟨i1, i2⟩ := henv.inside parent.kmer_ parent.fm_range_ b p1 hb p2 p3 p4 hv
    refine ⟨henv.kmer_closed _ _ p1 hb, i1, ?_, i2⟩
    simpa [Range.is_valid] using hv

theorem path_ok_disjoint {P : Params} {p q : PathBuffer} (hd : FullDisjoint P.env)
    (hp : PathOK P p) (hq : PathOK P q) (hne : p.kmer_ ≠ q.kmer_) :
    p.fm_range_ ≠ q.fm_range_ := by
  obtain ⟨p1, p2, p3, p4⟩ := hp
  obtain ⟨q1, q2, q3, q4⟩ := hq
  intro he
  rw [he] at p2 p3 p4
  rcases hd _ p1 _ q1 hne (by omega) (by omega) with h | h <;> omega

/-- What the second loop leaves below the cursor when the children are as an
FM-index makes them: every live path is as `PathOK` says, no two live paths
have the same range, and, if the buffer is not full, the flag of the k-mer of
every live path that clears the source threshold is set. -/
theorem phase2_desc (P : Params) (v : Impl) (kp : Nat → ℚ) (e : Nat) (bm1 : Beam)
    (hsort : IsSort P.env.sort) (hle : bm1.next_path ≤ bm1.next_paths_.length)
    (hsafe : bm1.overrun = false) (hcount : P.env.kmer_count < 65536)
    (hdisj : FullDisjoint P.env)
    (hkids : ∀ j, j < bm1.next_path → PathOK P (bm1.next_at j)) :
    (∀ j, j < (phase2 P v kp e bm1).next_path → PathOK P ((phase2 P v kp e bm1).next_at j)) ∧
    (∀ j1 j2, j1 < j2 → j2 < (phase2 P v kp e bm1).next_path →
      ((phase2 P v kp e bm1).next_at j1).is_valid = true →
      ((phase2 P v kp e bm1).next_at j2).is_valid = true →
      ((phase2 P v kp e bm1).next_at j1).fm_range_
        ≠ ((phase2 P v kp e bm1).next_at j2).fm_range_) ∧
    (∀ j, j < (phase2 P v kp e bm1).next_path →
      kp ((phase2 P v kp e bm1).next_at j).kmer_ ≥ P.get_source_prob →
      (phase2 P v kp e bm1).at_end = false →
      (phase2 P v kp e bm1).sources_added_ ((phase2 P v kp e bm1).next_at j).kmer_ = true) := by
  by_cases hn : bm1.next_path = 0
  · have hid : phase2 P v kp e bm1 = bm1 := by
      unfold phase2
      rw [if_neg (by simpa using hn)]
    rw [hid]
    exact ⟨fun j hj => by omega, fun j1 j2 _ hj => by omega, fun j hj => by omega⟩
  · obtain ⟨pl, sims, g, _⟩ := phase2_plan P v kp e bm1 hsort hle hsafe hn hcount hdisj hkids
    obtain ⟨p2, _⟩ := phase2_inv P v kp e bm1 hsort hle hsafe hn
    have hk := kids_ok_sorted P bm1 hsort hle hcount hdisj hkids
    have hflags := phase2_flags P v kp e bm1 hsort hle hsafe hn hk.nosent
    obtain ⟨_, _, _, s4, _, s6⟩ := sort_children_spec P bm1 hsort hle
    have hok : ∀ j, j < bm1.next_path → PathOK P ((sort_children P bm1).next_at j) := by
      intro j hj
      obtain ⟨j2, hj2, he⟩ := s4 j hj
      rw [he]
      exact hkids j2 hj2
    have hdone := p2.done
    generalize phase2 P v kp e bm1 = bm2 at sims hdone hflags ⊢
    generalize (sort_children P bm1).next_at = S at sims hdone hflags g hk s6 hok
    have hfield : ∀ j, j < bm1.next_path → (bm2.next_at j).fm_range_ = (S j).fm_range_ ∧
        (bm2.next_at j).kmer_ = (S j).kmer_ := by
      intro j hj
      rw [hdone j hj]
      obtain ⟨f1, _, f3, _⟩ := settle_fields P e bm1.next_path S j
      exact ⟨f1, f3⟩
    have hA : ∀ j, j < bm2.next_path → PathOK P (bm2.next_at j) := by
      intro j hj
      by_cases hjn : j < bm1.next_path
      · obtain ⟨f1, f3⟩ := hfield j hjn
        unfold PathOK
        rw [f1, f3]
        exact hok j hjn
      · obtain ⟨rk, hm, _, hr, hkk, _⟩ := sim_slot sims j (by omega) hj
        have ok := g.srcs rk hm
        obtain ⟨c, _, hc, hck⟩ := ok.kid
        unfold PathOK
        rw [hr, hkk]
        refine ⟨?_, ok.lo, ok.valid, ok.hi⟩
        rw [← hck]
        exact (hok c hc).1
    refine ⟨hA, ?_, ?_⟩
    · intro j1 j2 hj12 hj2 hv1 hv2 heq
      by_cases hjn2 : j2 < bm1.next_path
      · -- two children
        obtain ⟨f1, _⟩ := hfield j1 (by omega)
        obtain ⟨g1, _⟩ := hfield j2 hjn2
        rw [f1, g1] at heq
        have hdup : (S j1).fm_range_ = (S (j1 + 1)).fm_range_ := by
          by_cases h12 : j1 + 1 = j2
          · rw [h12]
            exact heq
          · have a1 := (lt_false_range _ _ (s6 j1 (j1 + 1) (by omega) (by omega))).1
            have a2 := (lt_false_range _ _ (s6 (j1 + 1) j2 (by omega) hjn2)).1
            rw [← heq] at a2
            exact range_trichotomy _ _ a2 a1
        have hl := (settle_fields P e bm1.next_path S j1).2.2.2
        rw [if_pos ⟨by omega, (range_eq_iff _ _).mpr hdup⟩] at hl
        rw [hdone j1 (by omega)] at hv1
        simp [PathBuffer.is_valid, hl] at hv1
      · obtain ⟨rk2, hm2, hg2, hr2, hkk2, _⟩ := sim_slot sims j2 (by omega) hj2
        have ok2 := g.srcs rk2 hm2
        by_cases hjn1 : j1 < bm1.next_path
        · -- a child and a source
          obtain ⟨f1, f3⟩ := hfield j1 hjn1
          by_cases hkk : (bm2.next_at j1).kmer_ = (bm2.next_at j2).kmer_
          · rw [f1, hr2] at heq
            have := ok2.avoid j1 hjn1 (by rw [← f3, hkk, hkk2])
            have hv := ok2.valid
            have hne := hk.ne j1 hjn1
            rw [heq] at this hne
            omega
          · exact path_ok_disjoint hdisj (hA j1 (by omega)) (hA j2 hj2) hkk heq
        · -- two sources
          obtain ⟨rk1, hm1, hg1, hr1, _⟩ := sim_slot sims j1 (by omega) (by omega)
          have hlt1 : j1 - bm1.next_path < pl.srcs.length := by
            have := sims.1
            omega
          have hlt2 : j2 - bm1.next_path < pl.srcs.length := by
            have := sims.1
            omega
          rw [List.getElem?_eq_getElem hlt1, Option.some.injEq] at hg1
          rw [List.getElem?_eq_getElem hlt2, Option.some.injEq] at hg2
          have := (List.pairwise_iff_getElem.mp g.order) (j1 - bm1.next_path)
            (j2 - bm1.next_path) hlt1 hlt2 (by omega)
          rw [hg1, hg2] at this
          rw [hr1, hr2] at heq
          have hv := ok2.valid
          rw [heq] at this
          omega
    · intro j hj hclr hend
      by_cases hjn : j < bm1.next_path
      · obtain ⟨_, f3⟩ := hfield j hjn
        rw [f3] at hclr ⊢
        exact hflags hend j hjn hclr
      · obtain ⟨rk, hm, _, _, hkk, _⟩ := sim_slot sims j (by omega) hj
        obtain ⟨c, _, hc, hck⟩ := (g.srcs rk hm).kid
        rw [hkk, ← hck] at hclr ⊢
        exact hflags hend c hc hclr

/-- One beam step from a beam whose live paths are as an FM-index makes them:
every slot below the new cursor is as `PathOK` says, and no two live paths
below it have the same range. -/
theorem step_distinct (P : Params) (v : Impl) (kp : Nat → ℚ) (e prev_size : Nat) (bm0 : Beam)
    (hsort : IsSort P.env.sort) (h0 : bm0.next_path = 0) (h1 : bm0.overrun = false)
    (hlen : bm0.prev_paths_.length = bm0.next_paths_.length) (henv : FMIndexOK P v)
    (hprev : ∀ pi, pi < prev_size → (bm0.prev_at pi).is_valid = true →
      PathOK P (bm0.prev_at pi)) :
    (∀ j, j < (beam_step P v kp e prev_size bm0).next_path →
      PathOK P ((beam_step P v kp e prev_size bm0).next_at j)) ∧
    (∀ j1 j2, j1 < j2 → j2 < (beam_step P v kp e prev_size bm0).next_path →
      ((beam_step P v kp e prev_size bm0).next_at j1).is_valid = true →
      ((beam_step P v kp e prev_size bm0).next_at j2).is_valid = true →
      ((beam_step P v kp e prev_size bm0).next_at j1).fm_range_
        ≠ ((beam_step P v kp e prev_size bm0).next_at j2).fm_range_) := by
  have p1 := phase1_inv P v kp e prev_size bm0 h0 h1 hlen
  obtain ⟨p12, _⟩ := phase12_inv P v kp e prev_size bm0 hsort h0 h1 hlen
  have hkids : ∀ j, j < (phase1 P v kp e prev_size bm0).next_path →
      PathOK P ((phase1 P v kp e prev_size bm0).next_at j) := by
    intro j hj
    obtain ⟨pi, hpi, hv, hch⟩ := p1.child j hj
    exact child_path_ok henv (hprev pi hpi hv) hch
  obtain ⟨dA, dB, dC⟩ := phase2_desc P v kp e (phase1 P v kp e prev_size bm0) hsort
    p1.cursor_le p1.safe henv.count henv.disjoint hkids
  unfold beam_step
  generalize phase2 P v kp e (phase1 P v kp e prev_size bm0) = bm2 at p12 dA dB dC ⊢
  obtain ⟨p3, _⟩ := phase3_inv P v kp bm2 p12.cursor_le p12.safe
  generalize phase3 P v kp bm2 = bm3 at p3 ⊢
  have hA : ∀ j, j < bm3.next_path → PathOK P (bm3.next_at j) := by
    intro j hj
    by_cases hj2 : j < bm2.next_path
    · rw [p3.old j hj2]
      exact dA j hj2
    · obtain ⟨⟨r, k, he, hv, _⟩, hk, hr, _, _⟩ := p3.srcs j (by omega) hj
      have hne : (bm3.next_at j).fm_range_.start_ ≤ (bm3.next_at j).fm_range_.end_ := by
        rw [he, (make_source_fields v _ _ _ _).2.1]
        simpa [Range.is_valid] using hv
      refine ⟨hk, ?_, hne, ?_⟩
      · rw [hr]
      · rw [hr]
  refine ⟨hA, ?_⟩
  intro j1 j2 hj12 hj2 hv1 hv2
  by_cases hj2o : j2 < bm2.next_path
  · rw [p3.old j1 (by omega)] at hv1 ⊢
    rw [p3.old j2 hj2o] at hv2 ⊢
    exact dB j1 j2 hj12 hj2o hv1 hv2
  · obtain ⟨⟨r, k, he, _, hclr⟩, _, _, hflag, _⟩ := p3.srcs j2 (by omega) hj2
    have hk2 : (bm3.next_at j2).kmer_ = k := by
      rw [he, (make_source_fields v _ _ _ _).1]
    by_cases hkk : (bm3.next_at j1).kmer_ = (bm3.next_at j2).kmer_
    · exfalso
      by_cases hj1o : j1 < bm2.next_path
      · have hend : bm2.at_end = false := by
          have := p3.cursor_le
          have := p3.len_next
          simp only [Beam.at_end, decide_eq_false_iff_not]
          omega
        rw [p3.old j1 hj1o] at hkk
        have := dC j1 hj1o (by rw [hkk, hk2]; exact hclr) hend
        rw [hkk] at this
        rw [this] at hflag
        exact absurd hflag (by simp)
      · obtain ⟨_, _, _, _, hinc⟩ := p3.srcs j1 (by omega) (by omega)
        have := hinc j2 hj12 hj2
        omega
    · exact path_ok_disjoint henv.disjoint (hA j1 (by omega)) (hA j2 hj2) hkk

theorem live_add_event (P : Params) (hsort : IsSort P.env.sort) (henv : FMIndexOK P .mapper)
    (m : Mapper) (event : ℚ) (h : LiveOK P m) : LiveOK P (Mapper.add_event P m event).1 := by
  obtain ⟨hlen, hp, hd⟩ := h
  by_cases hg : (m.reset_ || decide (m.event_i_ ≥ P.max_events_proc)) = true
  · rw [mapper_add_event_guard P m event hg]
    exact ⟨hlen, hp, hd⟩
  · obtain ⟨e1, e2, e3, _⟩ := mapper_add_event_run P m event hg
    obtain ⟨hinv, _, _⟩ := beam_step_inv P .mapper (P.env.event_match_prob event) m.event_i_
      m.prev_size_ (Beam.start m.prev_paths_ m.next_paths_ m.sources_added_) hsort rfl rfl hlen
    obtain ⟨sA, sB⟩ := step_distinct P .mapper (P.env.event_match_prob event) m.event_i_
      m.prev_size_ (Beam.start m.prev_paths_ m.next_paths_ m.sources_added_) hsort rfl rfl hlen
      henv hp
    refine ⟨?_, ?_, ?_⟩
    · rw [e2, e3]
      exact (hinv.len_next.trans hlen.symm).trans hinv.len_prev.symm
    · intro j hj _
      rw [e1] at hj
      rw [e2]
      exact sA j hj
    · intro j1 j2 hj12 hj2 hv1 hv2
      rw [e1] at hj2
      rw [e2] at hv1 hv2 ⊢
      exact sB j1 j2 hj12 hj2 hv1 hv2

theorem live_construct (P : Params) (junk_prev junk_next : Nat → PathBuffer) (reset0 : Bool) :
    LiveOK P (Mapper.construct P junk_prev junk_next reset0) := by
  refine ⟨by simp [Mapper.construct], ?_, ?_⟩
  · intro j hj
    simp [Mapper.construct] at hj
  · intro j1 j2 _ hj
    simp [Mapper.construct] at hj

theorem live_run (P : Params) (hsort : IsSort P.env.sort) (henv : FMIndexOK P .mapper)
    (events : List ℚ) : ∀ m, LiveOK P m → LiveOK P (Mapper.run P m events) := by
  induction events with
  | nil => exact fun m h => h
  | cons ev rest ih =>
    intro m h
    exact ih _ (live_add_event P hsort henv m ev h)

theorem toy_fmindex_ok : FMIndexOK toy_params .mapper := by
  refine ⟨by decide, ?_, ?_, ?_⟩
  · intro k1 _ k2 _ hne _ _
    simp only [toy_params, AlnParams.params, toy_env]
    omega
  · intro k b _ hb
    exact hb
  · intro k r b _ hb h1 h2 h3 hv
    simp only [toy_params, AlnParams.params, toy_env, neighbor_base, Range.is_valid,
      decide_eq_true_eq] at h1 h3 hv ⊢
    omega

/-- C6: after any sequence of `add_event` calls on a constructed `Mapper`, no two
live paths among the first `prev_size` slots of `prev_paths_` have the same
range, and the same holds of the slots below the cursor after one beam step of
either driver from a beam whose live paths have non-empty ranges inside the
full ranges of their k-mers; both for collaborators that behave as a k-mer
model and an FM-index do (`FMIndexOK`: distinct k-mers have disjoint full
ranges and the range of every child lies inside the full range of its
k-mer). -/
theorem live_ranges_distinct (P : Params) (junk_prev junk_next : Nat → PathBuffer)
    (reset0 : Bool) (events : List ℚ) (v : Impl) (kmer_probs : Nat → ℚ)
    (event_i prev_size : Nat) (prev next : List PathBuffer) (added : Nat → Bool)
    (hsort : IsSort P.env.sort) (hfm : FMIndexOK P .mapper) (hfmv : FMIndexOK P v)
    (hlen : prev.length = next.length)
    (hprev : ∀ pi, pi < prev_size → (prev.getD pi default).is_valid = true →
      PathOK P (prev.getD pi default)) :
    (∀ j1 j2, j1 < j2 →
      j2 < (Mapper.run P (Mapper.construct P junk_prev junk_next reset0) events).prev_size_ →
      ((Mapper.run P (Mapper.construct P junk_prev junk_next reset0) events).prev_paths_.getD
        j1 default).is_valid = true →
      ((Mapper.run P (Mapper.construct P junk_prev junk_next reset0) events).prev_paths_.getD
        j2 default).is_valid = true →
      ((Mapper.run P (Mapper.construct P junk_prev junk_next reset0) events).prev_paths_.getD
          j1 default).fm_range_
        ≠ ((Mapper.run P (Mapper.construct P junk_prev junk_next reset0) events).prev_paths_.getD
          j2 default).fm_range_) ∧
    (∀ j1 j2, j1 < j2 →
      j2 < (beam_step P v kmer_probs event_i prev_size (Beam.start prev next added)).next_path →
      ((beam_step P v kmer_probs event_i prev_size (Beam.start prev next added)).next_at
        j1).is_valid = true →
      ((beam_step P v kmer_probs event_i prev_size (Beam.start prev next added)).next_at
        j2).is_valid = true →
      ((beam_step P v kmer_probs event_i prev_size (Beam.start prev next added)).next_at
          j1).fm_range_
        ≠ ((beam_step P v kmer_probs event_i prev_size (Beam.start prev next added)).next_at
          j2).fm_range_) :=
  ⟨(live_run P hsort hfm events _ (live_construct P junk_prev junk_next reset0)).2.2,
    (step_distinct P v kmer_probs event_i prev_size (Beam.start prev next added) hsort rfl rfl
      hlen hfmv hprev).2⟩

/-- Witness of C6: after the events 0 and 1 of the small environment, the paths
in the slots 0 and 2 are live and have different ranges. -/
theorem live_ranges_distinct_witness :
    ((Mapper.run toy_params toy_mapper [0, 1]).prev_paths_.getD 0 default).fm_range_
      ≠ ((Mapper.run toy_params toy_mapper [0, 1]).prev_paths_.getD 2 default).fm_range_ :=
  (live_ranges_distinct toy_params (fun _ => default) (fun _ => default) false [0, 1] .mapper
    (toy_env.event_match_prob 1) 1 2 toy_mapper1.prev_paths_ toy_mapper1.next_paths_
    toy_mapper1.sources_added_ insertion_sort_isSort toy_fmindex_ok toy_fmindex_ok
    (by decide!)
    (fun pi hpi _ => by
      interval_cases pi
      · exact ⟨by decide!, by decide!, by decide!, by decide!⟩
      · exact ⟨by decide!, by decide!, by decide!, by decide!⟩)).1 0 2 (by decide) (by decide!)
    (by decide!) (by decide!)

/-! ## Sources clear the source threshold (C11) -/

theorem source_facts {P : Params} {v : Impl} {kp : Nat → ℚ} {slot c : PathBuffer}
    (h : IsSource P v kp slot c) :
    c.length_ = 1 ∧ c.fm_range_.is_valid = true ∧ kp c.kmer_ ≥ P.get_source_prob := by
  obtain ⟨r, k, he, hv, hk⟩ := h
  rw [he, (make_source_fields v _ _ _ _).1, (make_source_fields v _ _ _ _).2.1,
    (make_source_fields v _ _ _ _).2.2.1]
  exact ⟨rfl, hv, hk⟩

/-- C11: in every `add_event` call of either driver, every slot that the second
and the last loop write (the slots from the cursor left by the first loop to the
final cursor: left sources, sources between and after the children, sources
over a full range) holds the result of a `make_source` call for a k-mer `k`
with `kmer_probs[k] ≥ get_source_prob()` and a valid range; it has length 1. -/
theorem source_clears_threshold (P : Params) (v : Impl) (kmer_probs : Nat → ℚ)
    (event_i prev_size : Nat) (prev next : List PathBuffer) (added : Nat → Bool) (j : Nat)
    (hsort : IsSort P.env.sort) (hlen : prev.length = next.length)
    (hj1 : (phase1 P v kmer_probs event_i prev_size (Beam.start prev next added)).next_path ≤ j)
    (hj2 : j < (beam_step P v kmer_probs event_i prev_size
      (Beam.start prev next added)).next_path) :
    (∃ slot range kmer,
      (beam_step P v kmer_probs event_i prev_size (Beam.start prev next added)).next_at j
        = make_source v slot range kmer (kmer_probs kmer) ∧
      range.is_valid = true ∧ kmer_probs kmer ≥ P.get_source_prob) ∧
    ((beam_step P v kmer_probs event_i prev_size (Beam.start prev next added)).next_at
      j).length_ = 1 ∧
    ((beam_step P v kmer_probs event_i prev_size (Beam.start prev next added)).next_at
      j).fm_range_.is_valid = true ∧
    kmer_probs ((beam_step P v kmer_probs event_i prev_size
        (Beam.start prev next added)).next_at j).kmer_ ≥ P.get_source_prob := by
  have p1 := phase1_inv P v kmer_probs event_i prev_size (Beam.start prev next added) rfl rfl hlen
  obtain ⟨p12, _⟩ := phase12_inv P v kmer_probs event_i prev_size (Beam.start prev next added)
    hsort rfl rfl hlen
  have hsrc2 : ∀ j, (phase1 P v kmer_probs event_i prev_size
        (Beam.start prev next added)).next_path ≤ j →
      j < (phase2 P v kmer_probs event_i (phase1 P v kmer_probs event_i prev_size
        (Beam.start prev next added))).next_path →
      ∃ slot, IsSource P v kmer_probs slot
        ((phase2 P v kmer_probs event_i (phase1 P v kmer_probs event_i prev_size
          (Beam.start prev next added))).next_at j) := by
    intro j h1 h2
    by_cases hn : (phase1 P v kmer_probs event_i prev_size
        (Beam.start prev next added)).next_path = 0
    · have hid : phase2 P v kmer_probs event_i (phase1 P v kmer_probs event_i prev_size
          (Beam.start prev next added))
          = phase1 P v kmer_probs event_i prev_size (Beam.start prev next added) := by
        unfold phase2
        rw [if_neg (by simpa using hn)]
      rw [hid] at h2
      omega
    · obtain ⟨p2, _⟩ := phase2_inv P v kmer_probs event_i _ hsort p1.cursor_le p1.safe hn
      exact ⟨_, (p2.srcs j h1 h2).1⟩
  unfold beam_step at hj2 ⊢
  generalize phase2 P v kmer_probs event_i (phase1 P v kmer_probs event_i prev_size
    (Beam.start prev next added)) = bm2 at p12 hsrc2 hj2 ⊢
  obtain ⟨p3, _⟩ := phase3_inv P v kmer_probs bm2 p12.cursor_le p12.safe
  have hsrc : ∃ slot, IsSource P v kmer_probs slot ((phase3 P v kmer_probs bm2).next_at j) := by
    by_cases hjo : j < bm2.next_path
    · rw [p3.old j hjo]
      exact hsrc2 j hj1 hjo
    · exact ⟨_, (p3.srcs j (by omega) hj2).1⟩
  obtain ⟨slot, hs⟩ := hsrc
  obtain ⟨f1, f2, f3⟩ := source_facts hs
  obtain ⟨r, k, he, hv, hk⟩ := hs
  exact ⟨⟨slot, r, k, he, hv, hk⟩, f1, f2, f3⟩

/-- Witness of C11: in the second event of the small environment the first loop
writes five children; slot 5 holds the left source `[21, 21]` of the k-mer 2. -/
theorem source_clears_threshold_witness :
    ((beam_step toy_params .mapper (toy_env.event_match_prob 1) 1 2
        (Beam.start toy_mapper1.prev_paths_ toy_mapper1.next_paths_
          toy_mapper1.sources_added_)).next_at 5).length_ = 1 ∧
      ((beam_step toy_params .mapper (toy_env.event_match_prob 1) 1 2
        (Beam.start toy_mapper1.prev_paths_ toy_mapper1.next_paths_
          toy_mapper1.sources_added_)).next_at 5).fm_range_.is_valid = true ∧
      toy_env.event_match_prob 1
          ((beam_step toy_params .mapper (toy_env.event_match_prob 1) 1 2
            (Beam.start toy_mapper1.prev_paths_ toy_mapper1.next_paths_
              toy_mapper1.sources_added_)).next_at 5).kmer_ ≥ toy_params.get_source_prob :=
  (source_clears_threshold toy_params .mapper (toy_env.event_match_prob 1) 1 2
    toy_mapper1.prev_paths_ toy_mapper1.next_paths_ toy_mapper1.sources_added_ 5
    insertion_sort_isSort (by decide!) (by decide!) (by decide!)).2

/-! ## Seed emission (C17) -/

theorem indices_eq (r : Range) :
    r.indices = (List.range r.length.toNat).map (fun k : Nat => r.start_ + (k : Int)) := by
  unfold Range.indices Range.length
  simp only [List.pure_def, List.bind_eq_flatMap, List.map_flatMap, List.map_cons, List.map_nil]
  induction (List.range (r.end_ - r.start_ + 1).toNat) with
  | nil => rfl
  | cons a l ih => simp [List.flatMap_cons, ih]

theorem indices_length (r : Range) : r.indices.length = r.length.toNat := by
  rw [indices_eq, List.length_map, List.length_range]

theorem indices_get (r : Range) (k : Nat) (hk : k < r.length.toNat) :
    r.indices[k]? = some (r.start_ + (k : Int)) := by
  rw [indices_eq, List.getElem?_map, List.getElem?_range hk]
  rfl

/-- C17: when the seed predicate holds for a path `p`, the emission step
(`update_seeds`, `check_alignments`) emits `fm_range.length()` seeds (that is
`end - start + 1` for a valid range), the `k`-th for the suffix-array index
`start + k`, with `ref_end = fmi.size() - fmi.sa(start + k) + 1`, the event
index minus 1 if `path_ended` (else the event index) and the match length
`p.match_len()`, and sets `sa_checked`; when the predicate does not hold it
emits nothing and leaves the path unchanged.  Both loops of `add_event` append
the emitted seeds to the seeds of the step. -/
theorem seeds_per_position (P : Params) (event_i : Nat) (p : PathBuffer) (path_ended : Bool)
    (pi i : Nat) (bm : Beam) :
    (is_seed_valid P p path_ended = true →
      (update_seeds P event_i p path_ended).1 = { p with sa_checked_ := true } ∧
      (update_seeds P event_i p path_ended).2.length = p.fm_range_.length.toNat ∧
      (p.fm_range_.is_valid = true →
        ((update_seeds P event_i p path_ended).2.length : Int)
          = p.fm_range_.end_ - p.fm_range_.start_ + 1) ∧
      ∀ k, k < p.fm_range_.length.toNat →
        ∃ s, (update_seeds P event_i p path_ended).2[k]? = some s ∧
          s.ref_end = (P.env.fmi_size : Int)
            - (P.env.fmi_sa (p.fm_range_.start_ + (k : Int)) : Int) + 1 ∧
          s.match_len = p.match_len ∧
          s.read_event_end = (event_i : Int) - (if path_ended then 1 else 0) ∧
          s.read_window = P.seed_len ∧ s.win_prob = p.win_prob_) ∧
    (is_seed_valid P p path_ended = false →
      (update_seeds P event_i p path_ended) = (p, [])) ∧
    (end_path P event_i pi bm).seeds
      = bm.seeds ++ (update_seeds P event_i (bm.prev_at pi) true).2 ∧
    (report_path P event_i i bm).seeds
      = bm.seeds ++ (update_seeds P event_i (bm.next_at i) false).2 := by
  refine ⟨?_, ?_, rfl, rfl⟩
  · intro hv
    unfold update_seeds
    rw [if_pos hv]
    refine ⟨rfl, ?_, ?_, ?_⟩
    · rw [List.length_map, indices_length]
    · intro hr
      have hr2 : p.fm_range_.start_ ≤ p.fm_range_.end_ := by
        simpa [Range.is_valid] using hr
      simp only [List.length_map, indices_length, Range.length]
      omega
    · intro k hk
      simp only [List.getElem?_map, indices_get _ k hk, Option.map_some']
      exact ⟨_, rfl, rfl, rfl, rfl, rfl, rfl⟩
  · intro hv
    unfold update_seeds
    rw [if_neg (by simp [hv])]

/-- Witness of C17: a path with the range `[5, 7]` that has ended emits three
seeds, one per suffix-array index. -/
theorem seeds_per_position_witness :
    (update_seeds toy_params 4 seed_path true).1 = { seed_path with sa_checked_ := true } ∧
      (update_seeds toy_params 4 seed_path true).2.length = 3 ∧
      (update_seeds toy_params 4 seed_path true).2.map (fun s => s.ref_end) = [96, 95, 94] :=
  ⟨((seeds_per_position toy_params 4 seed_path true 0 0
      (Beam.start [] [] (fun _ => false))).1 (by decide!)).1,
    by decide!, by decide!⟩

/-! ## The reference range of a seed record (C18) -/

theorem u32_lt (n : Int) : u32 n < 4294967296 := by
  unfold u32
  have := Int.emod_lt_of_pos n (show (0 : Int) < 4294967296 by norm_num)
  have := Int.emod_nonneg n (show (4294967296 : Int) ≠ 0 by norm_num)
  omega

theorem u32_cast (n : Int) : ((u32 n : Nat) : Int) = n % 4294967296 := by
  unfold u32
  have := Int.emod_nonneg n (show (4294967296 : Int) ≠ 0 by norm_num)
  omega

/-- C18: for the record `r` that `check_alignments` pushes for an emitted seed
`s`, the reference range set by `set_ref_range` satisfies `ref_end - ref_start +
1 == match_len` in the `unsigned int` arithmetic in which `ref_start` is
computed; over the integers the equality holds, with `ref_start = ref_end -
match_len + 1`, whenever the subtraction does not wrap (`1 ≤ match_len ≤
ref_end + 1`, with `match_len` an `unsigned int` value).  The match length of
every seed emitted for a path `p` is `p.match_len()`. -/
theorem ref_range_round_trip (P : Params) (event_i : Nat) (p : PathBuffer) (path_ended : Bool)
    (ref_start0 ref_end0 : Int) (s : Seed) :
    u32 ((Aligner.result_of ref_start0 ref_end0 s).ref_range_.end_
        - (Aligner.result_of ref_start0 ref_end0 s).ref_range_.start_ + 1) = u32 s.match_len ∧
    (1 ≤ s.match_len → s.match_len < 4294967296 →
      (s.match_len : Int) ≤ (Aligner.result_of ref_start0 ref_end0 s).ref_range_.end_ + 1 →
      (Aligner.result_of ref_start0 ref_end0 s).ref_range_.end_
          - (Aligner.result_of ref_start0 ref_end0 s).ref_range_.start_ + 1 = s.match_len ∧
        (Aligner.result_of ref_start0 ref_end0 s).ref_range_.start_
          = (Aligner.result_of ref_start0 ref_end0 s).ref_range_.end_ - s.match_len + 1) ∧
    (s ∈ (update_seeds P event_i p path_ended).2 → s.match_len = p.match_len) := by
  simp only [Aligner.result_of, Result.set_ref_range]
  have c1 := u32_cast s.ref_end
  have c2 := u32_cast (s.match_len : Int)
  have c3 := u32_cast ((u32 s.ref_end : Int) - (u32 (s.match_len : Int) : Int) + 1)
  have l1 := u32_lt s.ref_end
  have l2 := u32_lt (s.match_len : Int)
  have l3 := u32_lt ((u32 s.ref_end : Int) - (u32 (s.match_len : Int) : Int) + 1)
  refine ⟨?_, ?_, ?_⟩
  · have : ((u32 ((u32 s.ref_end : Int)
        - (u32 ((u32 s.ref_end : Int) - (u32 (s.match_len : Int) : Int) + 1) : Nat) + 1) : Nat)
          : Int) = ((u32 (s.match_len : Int) : Nat) : Int) := by
      rw [u32_cast, c3]
      omega
    exact_mod_cast this
  · intro hpos hlt hle
    have e1 : u32 (s.match_len : Int) = s.match_len := by
      have : ((u32 (s.match_len : Int) : Nat) : Int) = s.match_len := by
        rw [c2]
        omega
      exact_mod_cast this
    simp only [e1] at c3 l3 ⊢
    omega
  · intro hs
    by_cases hv : is_seed_valid P p path_ended = true
    · rw [update_seeds, if_pos hv] at hs
      obtain ⟨x, _, hx⟩ := List.mem_map.mp hs
      rw [← hx]
    · rw [update_seeds, if_neg hv] at hs
      simp at hs

/-- Witness of C18: the record of the first seed of the path with the range
`[5, 7]`: `ref_end` is 96, the match length is 2, the reference range is
`[95, 96]`. -/
theorem ref_range_round_trip_witness :
    (Aligner.result_of 0 0 seed_record).ref_range_ = { start_ := 95, end_ := 96 } ∧
      (Aligner.result_of 0 0 seed_record).ref_range_.end_
        - (Aligner.result_of 0 0 seed_record).ref_range_.start_ + 1 = seed_record.match_len ∧
      (update_seeds toy_params 4 seed_path true).2.head? = some seed_record :=
  ⟨by decide,
    ((ref_range_round_trip toy_params 4 seed_path true 0 0 seed_record).2.1 (by decide)
      (by decide) (by decide)).1,
    by decide!⟩

/-! ## The packed history (C14) -/

theorem slots_nil (W : Nat) : slots W [] = List.replicate (W - 1) 0 := by
  simp [slots]

theorem slots_length (W : Nat) (ts : List EventType) : (slots W ts).length = W - 1 := by
  simp [slots]

theorem slots_snoc (W : Nat) (hW : 2 ≤ W) (ts : List EventType) (t : EventType) :
    slots W (ts ++ [t]) = (slots W ts).tail ++ [t.toNat] := by
  have h1 : (List.replicate (W - 1) 0 ++ (ts ++ [t]).map EventType.toNat)
      = (List.replicate (W - 1) 0 ++ ts.map EventType.toNat) ++ [t.toNat] := by simp
  unfold slots
  rw [h1, List.length_append, List.length_singleton, ← List.drop_drop,
    List.drop_append_of_le_length (by simp), List.drop_one]
  have hne : (List.replicate (W - 1) 0 ++ ts.map EventType.toNat).drop ts.length ≠ [] := by
    intro h
    have := congrArg List.length h
    simp at this
    omega
  exact List.tail_append_of_ne_nil hne

theorem toNat_lt (t : EventType) : t.toNat < 4 := by
  cases t <;> decide

theorem slots_lt (W : Nat) (ts : List EventType) : ∀ d ∈ slots W ts, d < 4 := by
  intro d hd
  have hd2 := List.mem_of_mem_drop hd
  rcases List.mem_append.mp hd2 with h | h
  · rw [List.eq_of_mem_replicate h]
    decide
  · obtain ⟨t, _, rfl⟩ := List.mem_map.mp h
    exact toNat_lt t

theorem ofDigits_lt (L : List Nat) (h : ∀ d ∈ L, d < 4) : Nat.ofDigits 4 L < 4 ^ L.length :=
  Nat.ofDigits_lt_base_pow_length (by decide) h

theorem ofDigits_replicate_zero (n : Nat) : Nat.ofDigits 4 (List.replicate n 0) = 0 := by
  induction n with
  | zero => rfl
  | succ n ih => simp [List.replicate_succ, Nat.ofDigits_cons, ih]

/-- Shifting the packed slots right by one slot and writing `t` at the head. -/
theorem ofDigits_shift (L : List Nat) (h : ∀ d ∈ L, d < 4) (hne : L ≠ []) (t : Nat) :
    t * 4 ^ (L.length - 1) + Nat.ofDigits 4 L / 4 = Nat.ofDigits 4 (L.tail ++ [t]) ∧
      Nat.ofDigits 4 L % 4 = L.head hne := by
  cases L with
  | nil => exact absurd rfl hne
  | cons d L =>
    have hd : d < 4 := h d (List.mem_cons_self _ _)
    simp only [List.tail_cons, List.head_cons, List.length_cons, Nat.add_sub_cancel,
      Nat.ofDigits_cons, Nat.ofDigits_append, Nat.ofDigits_singleton]
    constructor
    · have : (d + 4 * Nat.ofDigits 4 L) / 4 = Nat.ofDigits 4 L := by omega
      rw [this]
      simp only [Nat.ofDigits_nil]
      ring
    · omega

theorem make_child_types (v : Impl) (W : Nat) (self p : PathBuffer) (r : Range) (k : Nat)
    (prob : ℚ) (t : EventType) :
    (make_child v W self p r k prob t).event_types_
      = TYPE_ADDS v W t ||| (p.event_types_ >>> TYPE_BITS) := by
  cases v
  · simp only [make_child, Mapper.make_child]
    split_ifs <;> rfl
  · simp only [make_child, Aligner.make_child]
    split_ifs <;> rfl

theorem four_pow (n : Nat) : (4 : Nat) ^ n = 2 ^ (2 * n) := by
  rw [pow_mul]
  rfl

theorem type_adds_fit (v : Impl) (W : Nat) (t : EventType) (hW : 2 ≤ W)
    (hfit : 2 * (W - 1) ≤ v.type_adds_bits) : TYPE_ADDS v W t = t.toNat * 4 ^ (W - 2) := by
  unfold TYPE_ADDS TYPE_BITS
  rw [Nat.shiftLeft_eq, Nat.mul_comm (W - 2) 2, ← four_pow]
  apply Nat.mod_eq_of_lt
  have h1 : t.toNat * 4 ^ (W - 2) < 4 * 4 ^ (W - 2) :=
    Nat.mul_lt_mul_of_pos_right (toNat_lt t) (pow_pos (by decide) _)
  have h2 : 4 * 4 ^ (W - 2) = 2 ^ (2 * (W - 1)) := by
    rw [← four_pow, ← pow_succ']
    congr 1
    omega
  have h3 : 2 ^ (2 * (W - 1)) ≤ 2 ^ v.type_adds_bits := Nat.pow_le_pow_right (by decide) hfit
  omega

/-- The packed history of a child, for a parent whose history fits below the
head position. -/
theorem child_types_value (v : Impl) (W : Nat) (self p : PathBuffer) (r : Range) (k : Nat)
    (prob : ℚ) (t : EventType) (hW : 2 ≤ W) (hfit : 2 * (W - 1) ≤ v.type_adds_bits)
    (hp : p.event_types_ < 4 ^ (W - 1)) :
    (make_child v W self p r k prob t).event_types_
      = t.toNat * 4 ^ (W - 2) + p.event_types_ / 4 ∧ p.event_types_ / 4 < 4 ^ (W - 2) := by
  have hq : p.event_types_ / 4 < 4 ^ (W - 2) := by
    have : (4 : Nat) ^ (W - 1) = 4 ^ (W - 2) * 4 := by
      rw [← pow_succ]
      congr 1
      omega
    rw [this] at hp
    exact Nat.div_lt_of_lt_mul (by rw [Nat.mul_comm]; exact hp)
  refine ⟨?_, hq⟩
  rw [make_child_types, type_adds_fit v W t hW hfit]
  have hsh : p.event_types_ >>> TYPE_BITS = p.event_types_ / 4 := by
    unfold TYPE_BITS
    rw [Nat.shiftRight_eq_div_pow]
  rw [hsh, Nat.mul_comm t.toNat, four_pow]
  rw [four_pow] at hq
  exact (Nat.mul_add_lt_is_or hq _).symm

theorem type_mask_eq : TYPE_MASK = 2 ^ 2 - 1 := by decide

/-- C14: for a parent whose packed history fits below the head position
(`event_types < 4^(W-1)`, `W ≥ 2`, and the `2 (W - 1)` bits of the history within
the word of `TYPE_ADDS`) and every event type `t`, the child made by
`make_child` has `type_head = t`; its packed history is the parent's shifted
right by two bits with `t` at the head position, so that slot `i` of the child
holds what slot `i + 1` of the parent held; and its history fits again.  A
fresh source has `type_head = MATCH`. -/
theorem history_shift (v : Impl) (W : Nat) (self p : PathBuffer) (r : Range) (k : Nat)
    (prob : ℚ) (t : EventType) (hW : 2 ≤ W) (hfit : 2 * (W - 1) ≤ v.type_adds_bits)
    (hp : p.event_types_ < 4 ^ (W - 1)) :
    (make_child v W self p r k prob t).type_head W = t.toNat ∧
    (make_child v W self p r k prob t).event_types_
      = t.toNat * 4 ^ (W - 2) + p.event_types_ / 4 ∧
    (make_child v W self p r k prob t).event_types_
      = (t.toNat <<< (TYPE_BITS * (W - 2))) ||| (p.event_types_ >>> TYPE_BITS) ∧
    (∀ i, i < W - 2 →
      ((make_child v W self p r k prob t).event_types_ >>> (TYPE_BITS * i)) &&& TYPE_MASK
        = (p.event_types_ >>> (TYPE_BITS * (i + 1))) &&& TYPE_MASK) ∧
    (make_child v W self p r k prob t).event_types_ < 4 ^ (W - 1) ∧
    (make_source v self r k prob).type_head W = EventType.MATCH.toNat := by
  obtain ⟨hval, hq⟩ := child_types_value v W self p r k prob t hW hfit hp
  have ht := toNat_lt t
  have hsl : ∀ (x i : Nat), (x >>> (TYPE_BITS * i)) &&& TYPE_MASK = x / 4 ^ i % 4 := by
    intro x i
    rw [type_mask_eq, Nat.and_pow_two_sub_one_eq_mod, Nat.shiftRight_eq_div_pow]
    unfold TYPE_BITS
    rw [← four_pow]
  refine ⟨?_, hval, ?_, ?_, ?_, ?_⟩
  · unfold PathBuffer.type_head
    rw [hsl, hval, Nat.add_comm, Nat.add_mul_div_right _ _ (pow_pos (by decide) _),
      Nat.div_eq_of_lt hq, Nat.zero_add]
    exact Nat.mod_eq_of_lt ht
  · rw [make_child_types]
    congr 1
    unfold TYPE_ADDS
    have := type_adds_fit v W t hW hfit
    unfold TYPE_ADDS at this
    rw [this, Nat.shiftLeft_eq, Nat.mul_comm TYPE_BITS]
    unfold TYPE_BITS
    rw [Nat.mul_comm (W - 2) 2, ← four_pow]
  · intro i hi
    rw [hsl, hsl, hval]
    have hsplit : (4 : Nat) ^ (W - 2) = 4 ^ i * (4 * 4 ^ (W - 2 - i - 1)) := by
      rw [← pow_succ', ← pow_add]
      congr 1
      omega
    have e1 : t.toNat * 4 ^ (W - 2) = 4 ^ i * (4 * (t.toNat * 4 ^ (W - 2 - i - 1))) := by
      rw [hsplit]
      ring
    have e2 : p.event_types_ / 4 / 4 ^ i = p.event_types_ / 4 ^ (i + 1) := by
      rw [Nat.div_div_eq_div_mul, ← pow_succ']
    rw [e1, Nat.mul_add_div (pow_pos (by decide) _), e2, Nat.mul_add_mod]
  · rw [hval]
    have : (4 : Nat) ^ (W - 1) = 4 * 4 ^ (W - 2) := by
      rw [← pow_succ']
      congr 1
      omega
    rw [this]
    have := Nat.mul_le_mul_right (4 ^ (W - 2)) (Nat.le_of_lt_succ ht)
    omega
  · cases v <;> simp [make_source, Mapper.make_source, Aligner.make_source,
      PathBuffer.type_head, EventType.toNat]

/-- Witness of C14: with `W = 4` the history `STAY, MATCH, STAY` (tail first,
`1 + 4 * 0 + 16 * 1 = 17`) extended by a `MATCH` becomes `MATCH, STAY, MATCH`
(`0 + 4 * 1 + 16 * 0 = 4`). -/
theorem history_shift_witness :
    (make_child .mapper 4 default { (default : PathBuffer) with event_types_ := 17 } ⟨1, 1⟩ 0 0
        .MATCH).type_head 4 = EventType.MATCH.toNat ∧
      (make_child .mapper 4 default { (default : PathBuffer) with event_types_ := 17 } ⟨1, 1⟩ 0 0
        .MATCH).event_types_ = 4 :=
  ⟨(history_shift .mapper 4 default { (default : PathBuffer) with event_types_ := 17 } ⟨1, 1⟩ 0 0
      .MATCH (by decide) (by decide) (by decide)).1,
    by decide!⟩

/-! ## The counts of the event types (C12, C13, C15) -/

theorem get_incr (c : TypeCounts) (i j : Nat) :
    (c.incr i).get j = if i = j ∧ i < 4 then (c.get i + 1) % 256 else c.get j := by
  rcases i with _ | _ | _ | _ | i <;> rcases j with _ | _ | _ | _ | j <;>
    simp [TypeCounts.incr, TypeCounts.set, TypeCounts.get] <;> rw [if_neg (by omega)]

theorem get_decr (c : TypeCounts) (i j : Nat) :
    (c.decr i).get j = if i = j ∧ i < 4 then (c.get i + 255) % 256 else c.get j := by
  rcases i with _ | _ | _ | _ | i <;> rcases j with _ | _ | _ | _ | j <;>
    simp [TypeCounts.decr, TypeCounts.set, TypeCounts.get] <;> rw [if_neg (by omega)]

theorem make_child_counts (v : Impl) (W : Nat) (self p : PathBuffer) (r : Range) (k : Nat)
    (prob : ℚ) (t : EventType) :
    (W ≤ p.length_ →
      (make_child v W self p r k prob t).win_type_counts_
        = match v with
          | .mapper => (p.win_type_counts_.incr t.toNat).decr p.type_tail
          | .aligner => (p.win_type_counts_.decr p.type_tail).incr t.toNat) ∧
    (p.length_ < W →
      (make_child v W self p r k prob t).win_type_counts_ = p.win_type_counts_.incr t.toNat) := by
  constructor
  · intro h
    cases v
    · have hc : p.length_ + (if p.length_ ≤ W then 1 else 0) > W := by
        split_ifs <;> omega
      simp only [make_child, Mapper.make_child, if_pos hc]
    · have hc : p.length_ + 1 > W := by omega
      simp only [make_child, Aligner.make_child, if_pos hc]
  · intro h
    cases v
    · have hc : ¬ p.length_ + (if p.length_ ≤ W then 1 else 0) > W := by
        rw [if_pos (by omega)]
        omega
      simp only [make_child, Mapper.make_child, if_neg hc]
    · have hc : ¬ p.length_ + 1 > W := by omega
      simp only [make_child, Aligner.make_child, if_neg hc]

theorem tracked_snoc_grow (W : Nat) (ts : List EventType) (t : EventType)
    (h : ts.length < W - 1) :
    tracked W ts = ts ∧ tracked W (ts ++ [t]) = ts ++ [t] := by
  unfold tracked
  have e1 : ts.length - (W - 1) = 0 := by omega
  have e2 : (ts ++ [t]).length - (W - 1) = 0 := by
    simp only [List.length_append, List.length_singleton]
    omega
  rw [e1, e2]
  exact ⟨rfl, rfl⟩

theorem tracked_snoc_slide (W : Nat) (hW : 2 ≤ W) (ts : List EventType) (t : EventType)
    (h : W - 1 ≤ ts.length) :
    tracked W (ts ++ [t]) = (tracked W ts).tail ++ [t] ∧ (tracked W ts).length = W - 1 ∧
      slots W ts = (tracked W ts).map EventType.toNat := by
  unfold tracked slots
  refine ⟨?_, ?_, ?_⟩
  · have e : (ts ++ [t]).length - (W - 1) = (ts.length - (W - 1)) + 1 := by
      simp only [List.length_append, List.length_singleton]
      omega
    rw [e, List.drop_append_of_le_length (by omega), List.tail_drop]
  · rw [List.length_drop]
    omega
  · rw [List.drop_append_eq_append_drop, List.length_replicate, List.drop_replicate,
      List.map_drop]
    have : W - 1 - ts.length = 0 := by omega
    rw [this]
    rfl

theorem length_tracked (W : Nat) (ts : List EventType) :
    (tracked W ts).length = min ts.length (W - 1) := by
  unfold tracked
  rw [List.length_drop]
  omega

theorem count_two (l : List EventType) (h : ∀ t ∈ l, t = .MATCH ∨ t = .STAY) :
    l.count .MATCH + l.count .STAY = l.length := by
  induction l with
  | nil => rfl
  | cons a l ih =>
    have := ih (fun t ht => h t (List.mem_cons_of_mem _ ht))
    rcases h a (List.mem_cons_self _ _) with ha | ha <;> rw [ha] <;>
      simp [List.count_cons] <;> omega

theorem HistInv_source (v : Impl) (W : Nat) (slot : PathBuffer) (r : Range) (k : Nat) (p : ℚ) :
    HistInv v W (make_source v slot r k p) [] := by
  cases v
  · refine ⟨by simp [make_source, Mapper.make_source, path_len], ?_, ?_, ?_, fun h => by cases h⟩
    · rw [slots_nil, ofDigits_replicate_zero]
      rfl
    · simp [make_source, Mapper.make_source, tracked, TypeCounts.get, TypeCounts.set,
        EventType.toNat]
    · simp [make_source, Mapper.make_source, tracked, TypeCounts.get, TypeCounts.set,
        EventType.toNat]
  · refine ⟨by simp [make_source, Aligner.make_source, path_len], ?_, ?_, ?_, fun _ => ?_⟩
    · rw [slots_nil, ofDigits_replicate_zero]
      rfl
    · simp [make_source, Aligner.make_source, tracked, TypeCounts.get]
    · simp [make_source, Aligner.make_source, tracked, TypeCounts.get]
    · simp [make_source, Aligner.make_source, TypeCounts.get]

theorem fit_bound (v : Impl) (W : Nat) (hfit : 2 * (W - 1) ≤ v.type_adds_bits) : W - 1 ≤ 32 := by
  cases v <;> simp only [Impl.type_adds_bits] at hfit <;> omega

theorem HistInv.slide_iff {v : Impl} {W : Nat} {p : PathBuffer} {ts : List EventType}
    (h : HistInv v W p ts) : W ≤ p.length_ ↔ W - 1 ≤ ts.length := by
  have := h.len
  cases v
  · have h2 : p.length_ = min (ts.length + 1) (W + 1) := this
    omega
  · have h2 : p.length_ = ts.length + 1 := this
    omega

/-- The tail type of a path whose window is full is the type of the oldest
child event in the packed history. -/
theorem HistInv.tail {v : Impl} {W : Nat} {p : PathBuffer} {ts : List EventType}
    (h : HistInv v W p ts) (hW : 2 ≤ W) (hs : W - 1 ≤ ts.length) :
    ∃ hd rest, tracked W ts = hd :: rest ∧ p.type_tail = hd.toNat := by
  obtain ⟨_, hl, hsl⟩ := tracked_snoc_slide W hW ts .MATCH hs
  cases htr : tracked W ts with
  | nil =>
    rw [htr] at hl
    simp at hl
    omega
  | cons hd rest =>
    refine ⟨hd, rest, rfl, ?_⟩
    unfold PathBuffer.type_tail
    rw [type_mask_eq, Nat.and_pow_two_sub_one_eq_mod, h.types, hsl, htr]
    have hlt : ∀ d ∈ (hd :: rest).map EventType.toNat, d < 4 := by
      intro d hd2
      obtain ⟨t, _, rfl⟩ := List.mem_map.mp hd2
      exact toNat_lt t
    exact (ofDigits_shift _ hlt (by simp) 0).2

theorem child_len (v : Impl) (W : Nat) (slot p : PathBuffer) (n : Nat) (r : Range)
    (k : Nat) (prob : ℚ) (t : EventType) (hlen : p.length_ = path_len v W n) :
    (make_child v W slot p r k prob t).length_ = path_len v W (n + 1) := by
  rw [(make_child_fields v W slot p r k prob t).2.2.2.2]
  cases v
  · have h2 : p.length_ = min n (W + 1) := hlen
    simp only [path_len]
    split_ifs <;> omega
  · have h2 : p.length_ = n := hlen
    simp only [path_len]
    omega

theorem HistInv_child (v : Impl) (W : Nat) (hW : 2 ≤ W) (hfit : 2 * (W - 1) ≤ v.type_adds_bits)
    (slot p : PathBuffer) (ts : List EventType) (h : HistInv v W p ts)
    (hts : ∀ x ∈ ts, x = .MATCH ∨ x = .STAY) (r : Range) (k : Nat) (prob : ℚ) (t : EventType)
    (ht : t = .MATCH ∨ t = .STAY) :
    HistInv v W (make_child v W slot p r k prob t) (ts ++ [t]) ∧
      (W ≤ p.length_ → 1 ≤ decr_operand v p t) := by
  have hb := fit_bound v W hfit
  have hlen := h.len
  have hltd := slots_lt W ts
  have hplt : p.event_types_ < 4 ^ (W - 1) := by
    rw [h.types]
    have := ofDigits_lt _ hltd
    rwa [slots_length] at this
  have hne : slots W ts ≠ [] := by
    intro he
    have := congrArg List.length he
    rw [slots_length] at this
    simp at this
    omega
  have htypes : (make_child v W slot p r k prob t).event_types_
      = Nat.ofDigits 4 (slots W (ts ++ [t])) := by
    rw [(child_types_value v W slot p r k prob t hW hfit hplt).1, h.types, slots_snoc W hW]
    have := (ofDigits_shift _ hltd hne t.toNat).1
    rw [slots_length] at this
    have e : W - 1 - 1 = W - 2 := by omega
    rw [e] at this
    exact this
  have hlen2 : (make_child v W slot p r k prob t).length_
      = path_len v W ((ts ++ [t]).length + 1) := by
    rw [List.length_append, List.length_singleton]
    exact child_len v W slot p _ r k prob t hlen
  have hm := h.n_match
  have hst := h.n_stay
  have hcnt := count_two (tracked W ts) (fun x hx => hts x (List.mem_of_mem_drop hx))
  have hltr := length_tracked W ts
  by_cases hs : W - 1 ≤ ts.length
  · -- the window is full: it slides
    have hsl : W ≤ p.length_ := h.slide_iff.mpr hs
    obtain ⟨hd, rest, htr, htail⟩ := h.tail hW hs
    have hhd : hd = .MATCH ∨ hd = .STAY :=
      hts hd (List.mem_of_mem_drop (by
        have : hd ∈ tracked W ts := by rw [htr]; exact List.mem_cons_self _ _
        exact this))
    obtain ⟨hnew, _, _⟩ := tracked_snoc_slide W hW ts t hs
    rw [htr] at hm hst hcnt hltr
    rw [htr, List.tail_cons] at hnew
    have hc := (make_child_counts v W slot p r k prob t).1 hsl
    simp only [List.length_cons] at hcnt hltr
    have hres : ((make_child v W slot p r k prob t).win_type_counts_.get 0
          = 1 + (rest ++ [t]).count .MATCH ∧
        (make_child v W slot p r k prob t).win_type_counts_.get 1
          = (rest ++ [t]).count .STAY ∧
        (make_child v W slot p r k prob t).win_type_counts_.get 2 = p.win_type_counts_.get 2 ∧
        (make_child v W slot p r k prob t).win_type_counts_.get 3 = p.win_type_counts_.get 3) ∧
        1 ≤ decr_operand v p t := by
      rw [hc]
      unfold decr_operand
      rw [htail]
      clear hnew htypes hlen2 hplt htr htail hc hlen hne hltd
      rcases ht with rfl | rfl <;> rcases hhd with rfl | rfl <;> cases v <;>
        simp [get_incr, get_decr, EventType.toNat, List.count_cons] at hm hst hcnt ⊢ <;>
        omega
    refine ⟨⟨hlen2, htypes, ?_, ?_, ?_⟩, fun _ => hres.2⟩
    · rw [hnew]
      exact hres.1.1
    · rw [hnew]
      exact hres.1.2.1
    · intro hv
      rw [hres.1.2.2.1, hres.1.2.2.2]
      exact h.others hv
  · -- the window grows
    have hgr : p.length_ < W := by
      have := h.slide_iff
      omega
    obtain ⟨e1, e2⟩ := tracked_snoc_grow W ts t (by omega)
    have hc := (make_child_counts v W slot p r k prob t).2 hgr
    rw [e1] at hm hst hcnt
    have hres : (make_child v W slot p r k prob t).win_type_counts_.get 0
          = 1 + (ts ++ [t]).count .MATCH ∧
        (make_child v W slot p r k prob t).win_type_counts_.get 1
          = (ts ++ [t]).count .STAY ∧
        (make_child v W slot p r k prob t).win_type_counts_.get 2 = p.win_type_counts_.get 2 ∧
        (make_child v W slot p r k prob t).win_type_counts_.get 3
          = p.win_type_counts_.get 3 := by
      rw [hc]
      rcases ht with rfl | rfl <;>
        simp [get_incr, EventType.toNat, List.count_cons] <;> omega
    refine ⟨⟨hlen2, htypes, ?_, ?_, ?_⟩, fun hcon => by omega⟩
    · rw [e2]
      exact hres.1
    · rw [e2]
      exact hres.2.1
    · intro hv
      rw [hres.2.2.1, hres.2.2.2]
      exact h.others hv

theorem build_snoc (v : Impl) (W : Nat) (slot0 : PathBuffer) (range0 : Range) (kmer0 : Nat)
    (p1 : ℚ) (es : List Ext) (e : Ext) :
    build_path v W slot0 range0 kmer0 p1 (es ++ [e])
      = make_child v W e.slot (build_path v W slot0 range0 kmer0 p1 es)
          e.range e.kmer e.prob e.type := by
  simp [build_path, List.foldl_append]

theorem HistInv_build (v : Impl) (W : Nat) (hW : 2 ≤ W) (hfit : 2 * (W - 1) ≤ v.type_adds_bits)
    (slot0 : PathBuffer) (range0 : Range) (kmer0 : Nat) (p1 : ℚ) (exts : List Ext)
    (hts : ∀ e ∈ exts, e.type = .MATCH ∨ e.type = .STAY) :
    HistInv v W (build_path v W slot0 range0 kmer0 p1 exts) (child_types exts) := by
  induction exts using List.reverseRecOn with
  | nil => exact HistInv_source v W slot0 range0 kmer0 p1
  | append_singleton es e ih =>
    have ih2 := ih (fun x hx => hts x (List.mem_append_left _ hx))
    have hte := hts e (List.mem_append_right _ (List.mem_singleton_self e))
    have hts2 : ∀ x ∈ child_types es, x = .MATCH ∨ x = .STAY := by
      intro x hx
      obtain ⟨y, hy, rfl⟩ := List.mem_map.mp hx
      exact hts y (List.mem_append_left _ hy)
    have hstep := (HistInv_child v W hW hfit e.slot _ _ ih2 hts2 e.range e.kmer e.prob e.type
      hte).1
    have e2 : child_types (es ++ [e]) = child_types es ++ [e.type] := by
      simp [child_types]
    rw [build_snoc, e2]
    exact hstep

theorem child_types_mem (exts : List Ext) (hts : ∀ e ∈ exts, e.type = .MATCH ∨ e.type = .STAY) :
    ∀ x ∈ child_types exts, x = .MATCH ∨ x = .STAY := by
  intro x hx
  obtain ⟨y, hy, rfl⟩ := List.mem_map.mp hx
  exact hts y hy

/-- Refutation of C12 as stated, for `W = 18` in `mapper.cpp`: the entries of
the `u32` table `TYPE_ADDS` are 0, the packed history stays 0 and the tail type
is always `MATCH`.  After a source and nineteen `STAY` events the counts of
`MATCH` and `STAY` are 255 and 19, and the last decrement was applied to a count
that was 0.  Moreover `Mapper::PathBuffer::make_source` writes only the counts
of `MATCH` and `STAY`: a source made in a slot whose `SKIP` counter held 5 has
counts that sum to 6. -/
theorem type_counts_sum_fails :
    TYPE_ADDS .mapper 18 .STAY = 0 ∧
      (build_path .mapper 18 slot_w18 ⟨1, 1⟩ 0 (1 / 2) stays_w18).win_type_counts_.get
        EventType.MATCH.toNat = 255 ∧
      (build_path .mapper 18 slot_w18 ⟨1, 1⟩ 0 (1 / 2) stays_w18).win_type_counts_.get
        EventType.STAY.toNat = 19 ∧
      (build_path .mapper 18 slot_w18 ⟨1, 1⟩ 0 (1 / 2) stays_w18).win_type_counts_.total
        ≠ min (build_path .mapper 18 slot_w18 ⟨1, 1⟩ 0 (1 / 2) stays_w18).length_ 18 ∧
      18 ≤ (build_path .mapper 18 slot_w18 ⟨1, 1⟩ 0 (1 / 2) (stays_w18.take 18)).length_ ∧
      decr_operand .mapper (build_path .mapper 18 slot_w18 ⟨1, 1⟩ 0 (1 / 2) (stays_w18.take 18))
        .STAY = 0 ∧
      (make_source .mapper slot_junk ⟨1, 9⟩ 0 (1 / 2)).win_type_counts_.total = 6 ∧
      (make_source .mapper slot_junk ⟨1, 9⟩ 0 (1 / 2)).length_ = 1 := by
  decide!

/-- C12 (amended): for every path built by `make_source` followed by `make_child`
calls with types in `{MATCH, STAY}`, for a window length `W ≥ 2` whose `W - 1`
two-bit slots fit in the word of `TYPE_ADDS` (32 bits in `mapper.cpp`, 64 in
`aligner.cpp`): the counts of `MATCH` and `STAY` sum to `min(length, W)`, which
is `min(n, W)` for the `n` events of the path; in `aligner.cpp` the other two
counts are 0, so the four counts sum to it; and every decrement of the count of
the tail type, made when the window slides, is applied to a count that is at
least 1. -/
theorem type_counts_sum (v : Impl) (W : Nat) (hW : 2 ≤ W)
    (hfit : 2 * (W - 1) ≤ v.type_adds_bits) (slot0 : PathBuffer) (range0 : Range) (kmer0 : Nat)
    (p1 : ℚ) (exts : List Ext) (hts : ∀ e ∈ exts, e.type = .MATCH ∨ e.type = .STAY) :
    (build_path v W slot0 range0 kmer0 p1 exts).win_type_counts_.get EventType.MATCH.toNat
        + (build_path v W slot0 range0 kmer0 p1 exts).win_type_counts_.get EventType.STAY.toNat
      = min (build_path v W slot0 range0 kmer0 p1 exts).length_ W ∧
    min (build_path v W slot0 range0 kmer0 p1 exts).length_ W = min (exts.length + 1) W ∧
    (v = .aligner →
      (build_path v W slot0 range0 kmer0 p1 exts).win_type_counts_.total
        = min (build_path v W slot0 range0 kmer0 p1 exts).length_ W) ∧
    (∀ pre e rest, exts = pre ++ e :: rest →
      W ≤ (build_path v W slot0 range0 kmer0 p1 pre).length_ →
      1 ≤ decr_operand v (build_path v W slot0 range0 kmer0 p1 pre) e.type) := by
  have h := HistInv_build v W hW hfit slot0 range0 kmer0 p1 exts hts
  have hcnt := count_two (tracked W (child_types exts))
    (fun x hx => child_types_mem exts hts x (List.mem_of_mem_drop hx))
  have hltr := length_tracked W (child_types exts)
  have hcl : (child_types exts).length = exts.length := by simp [child_types]
  have hm := h.n_match
  have hs := h.n_stay
  have hlen : min (build_path v W slot0 range0 kmer0 p1 exts).length_ W
      = min (exts.length + 1) W := by
    have := h.len
    rw [hcl] at this
    cases v
    · have h2 : (build_path .mapper W slot0 range0 kmer0 p1 exts).length_
          = min (exts.length + 1) (W + 1) := this
      omega
    · have h2 : (build_path .aligner W slot0 range0 kmer0 p1 exts).length_
          = exts.length + 1 := this
      omega
  have hsum : (build_path v W slot0 range0 kmer0 p1 exts).win_type_counts_.get
        EventType.MATCH.toNat
        + (build_path v W slot0 range0 kmer0 p1 exts).win_type_counts_.get EventType.STAY.toNat
      = min (build_path v W slot0 range0 kmer0 p1 exts).length_ W := by
    have e0 : EventType.MATCH.toNat = 0 := rfl
    have e1 : EventType.STAY.toNat = 1 := rfl
    rw [hlen, e0, e1, hm, hs]
    omega
  refine ⟨hsum, hlen, ?_, ?_⟩
  · intro hv
    obtain ⟨o1, o2⟩ := h.others hv
    rw [← hsum]
    simp only [TypeCounts.get] at o1 o2
    simp only [TypeCounts.total, TypeCounts.get, EventType.toNat, o1, o2, Nat.add_zero]
  · intro pre e rest he hfull
    have hpre : ∀ x ∈ pre, x.type = .MATCH ∨ x.type = .STAY :=
      fun x hx => hts x (by rw [he]; exact List.mem_append_left _ hx)
    have hte : e.type = .MATCH ∨ e.type = .STAY :=
      hts e (by rw [he]; exact List.mem_append_right _ (List.mem_cons_self _ _))
    exact (HistInv_child v W hW hfit e.slot _ _
      (HistInv_build v W hW hfit slot0 range0 kmer0 p1 pre hpre) (child_types_mem pre hpre)
      e.range e.kmer e.prob e.type hte).2 hfull

/-- Witness of C12: a source extended by `MATCH`, `STAY`, `MATCH` with `W = 2`;
the counts of `MATCH` and `STAY` sum to 2. -/
theorem type_counts_sum_witness :
    (build_path .mapper 2 slot_w2 ⟨1, 9⟩ 0 (1 / 2) exts_w2).win_type_counts_.get
          EventType.MATCH.toNat
        + (build_path .mapper 2 slot_w2 ⟨1, 9⟩ 0 (1 / 2) exts_w2).win_type_counts_.get
          EventType.STAY.toNat
      = min (build_path .mapper 2 slot_w2 ⟨1, 9⟩ 0 (1 / 2) exts_w2).length_ 2 ∧
      min (build_path .mapper 2 slot_w2 ⟨1, 9⟩ 0 (1 / 2) exts_w2).length_ 2 = 2 :=
  ⟨(type_counts_sum .mapper 2 (by decide) (by decide) slot_w2 ⟨1, 9⟩ 0 (1 / 2) exts_w2
      (by decide)).1,
    by decide!⟩

/-- Refutation of C13 as stated: with `W = 2`, after a source and the events
`MATCH`, `STAY`, `MATCH` the window holds a `STAY` and a `MATCH`, but the stored
counts are 2 for `MATCH` and 0 for `STAY`, in both translation units. -/
theorem window_counts_differ :
    window_types 2 (child_types exts_w2) = [.STAY, .MATCH] ∧
      (build_path .mapper 2 slot_w2 ⟨1, 9⟩ 0 (1 / 2) exts_w2).win_type_counts_.get
        EventType.STAY.toNat ≠ (window_types 2 (child_types exts_w2)).count .STAY ∧
      (build_path .aligner 2 slot_w2 ⟨1, 9⟩ 0 (1 / 2) exts_w2).win_type_counts_.get
        EventType.STAY.toNat ≠ (window_types 2 (child_types exts_w2)).count .STAY ∧
      (build_path .mapper 2 slot_w2 ⟨1, 9⟩ 0 (1 / 2) exts_w2).match_len
        ≠ (window_types 2 (child_types exts_w2)).count .MATCH ∧
      (build_path .aligner 2 slot_w2 ⟨1, 9⟩ 0 (1 / 2) exts_w2).match_len
        ≠ (window_types 2 (child_types exts_w2)).count .MATCH := by
  decide!

/-- C13 (amended): for every path built by `make_source` followed by
`make_child` calls with the types `t2 .. tn` in `{MATCH, STAY}` (`W ≥ 2`, the
history fitting in the word of `TYPE_ADDS`), the stored count of `MATCH` is 1
plus the number of `MATCH` among the last `min(n - 1, W - 1)` child events, and
the stored count of `STAY` is the number of `STAY` among them; in particular
`match_len()` is 1 plus the number of `MATCH` among those events.  While the
window is not full (`n ≤ W`) these are the counts of the events of the
window. -/
theorem type_counts_tracked (v : Impl) (W : Nat) (hW : 2 ≤ W)
    (hfit : 2 * (W - 1) ≤ v.type_adds_bits) (slot0 : PathBuffer) (range0 : Range) (kmer0 : Nat)
    (p1 : ℚ) (exts : List Ext) (hts : ∀ e ∈ exts, e.type = .MATCH ∨ e.type = .STAY) :
    (∀ t, t = EventType.MATCH ∨ t = EventType.STAY →
      (build_path v W slot0 range0 kmer0 p1 exts).win_type_counts_.get t.toNat
        = (if t = .MATCH then 1 else 0) + (tracked W (child_types exts)).count t) ∧
    (build_path v W slot0 range0 kmer0 p1 exts).match_len
      = 1 + (tracked W (child_types exts)).count .MATCH ∧
    (tracked W (child_types exts)).length = min exts.length (W - 1) ∧
    (exts.length + 1 ≤ W → ∀ t, t = EventType.MATCH ∨ t = EventType.STAY →
      (build_path v W slot0 range0 kmer0 p1 exts).win_type_counts_.get t.toNat
        = (window_types W (child_types exts)).count t) := by
  have h := HistInv_build v W hW hfit slot0 range0 kmer0 p1 exts hts
  have hcl : (child_types exts).length = exts.length := by simp [child_types]
  have hall : ∀ t, t = EventType.MATCH ∨ t = EventType.STAY →
      (build_path v W slot0 range0 kmer0 p1 exts).win_type_counts_.get t.toNat
        = (if t = .MATCH then 1 else 0) + (tracked W (child_types exts)).count t := by
    intro t ht
    rcases ht with rfl | rfl
    · rw [if_pos rfl]
      exact h.n_match
    · rw [if_neg (by decide), Nat.zero_add]
      exact h.n_stay
  refine ⟨hall, h.n_match, ?_, ?_⟩
  · rw [length_tracked, hcl]
  · intro hn t ht
    rw [hall t ht]
    have e1 : tracked W (child_types exts) = child_types exts := by
      unfold tracked
      rw [hcl]
      have : exts.length - (W - 1) = 0 := by omega
      rw [this]
      rfl
    have e2 : window_types W (child_types exts) = .MATCH :: child_types exts := by
      unfold window_types
      rw [hcl]
      have : exts.length + 1 - min (exts.length + 1) W = 0 := by omega
      rw [this]
      rfl
    rw [e1, e2, List.count_cons]
    rcases ht with rfl | rfl <;> simp <;> omega

/-- Witness of C13: with `W = 2` the path of `exts_w2` tracks its last child
event, a `MATCH`; the stored counts are 2 and 0. -/
theorem type_counts_tracked_witness :
    (build_path .mapper 2 slot_w2 ⟨1, 9⟩ 0 (1 / 2) exts_w2).match_len
        = 1 + (tracked 2 (child_types exts_w2)).count .MATCH ∧
      tracked 2 (child_types exts_w2) = [.MATCH] ∧
      (build_path .mapper 2 slot_w2 ⟨1, 9⟩ 0 (1 / 2) exts_w2).match_len = 2 :=
  ⟨(type_counts_tracked .mapper 2 (by decide) (by decide) slot_w2 ⟨1, 9⟩ 0 (1 / 2) exts_w2
      (by decide)).2.1,
    by decide, by decide!⟩

/-- Refutation of C15 as stated: with `W = 2`, after a source and the events
`MATCH`, `STAY` the window holds the `MATCH` and the `STAY`; its oldest event is
the `MATCH`, but `type_tail()` returns `STAY`, in both translation units. -/
theorem tail_not_oldest :
    window_types 2 (child_types (exts_w2.take 2)) = [.MATCH, .STAY] ∧
      (build_path .mapper 2 slot_w2 ⟨1, 9⟩ 0 (1 / 2) (exts_w2.take 2)).type_tail
        = EventType.STAY.toNat ∧
      (build_path .aligner 2 slot_w2 ⟨1, 9⟩ 0 (1 / 2) (exts_w2.take 2)).type_tail
        = EventType.STAY.toNat := by
  decide!

/-- C15 (amended): for every path of `n ≥ W` events built by `make_source`
followed by `make_child` calls with the types `t2 .. tn` in `{MATCH, STAY}`
(`W ≥ 2`, the history fitting in the word of `TYPE_ADDS`), `type_tail()` returns
`t_{n-W+2}`: the type of the oldest of the `W - 1` events in the packed history,
which is the second-oldest event of the window of `W` events.  It is the type
whose count the next extension decrements. -/
theorem type_tail_second_oldest (v : Impl) (W : Nat) (hW : 2 ≤ W)
    (hfit : 2 * (W - 1) ≤ v.type_adds_bits) (slot0 : PathBuffer) (range0 : Range) (kmer0 : Nat)
    (p1 : ℚ) (exts : List Ext) (hts : ∀ e ∈ exts, e.type = .MATCH ∨ e.type = .STAY)
    (hn : W ≤ exts.length + 1) :
    ∃ t, (child_types exts)[exts.length + 1 - W]? = some t ∧
      (window_types W (child_types exts))[1]? = some t ∧
      (tracked W (child_types exts)).head? = some t ∧
      (build_path v W slot0 range0 kmer0 p1 exts).type_tail = t.toNat ∧
      (∀ (slot : PathBuffer) (r : Range) (k : Nat) (prob : ℚ) (type : EventType),
        (v = .mapper →
          (make_child v W slot (build_path v W slot0 range0 kmer0 p1 exts) r k prob
              type).win_type_counts_
            = ((build_path v W slot0 range0 kmer0 p1 exts).win_type_counts_.incr
                type.toNat).decr t.toNat) ∧
        (v = .aligner →
          (make_child v W slot (build_path v W slot0 range0 kmer0 p1 exts) r k prob
              type).win_type_counts_
            = ((build_path v W slot0 range0 kmer0 p1 exts).win_type_counts_.decr
                t.toNat).incr type.toNat)) := by
  have h := HistInv_build v W hW hfit slot0 range0 kmer0 p1 exts hts
  have hcl : (child_types exts).length = exts.length := by simp [child_types]
  obtain ⟨hd, rest, htr, htail⟩ := h.tail hW (by rw [hcl]; omega)
  have hidx : (child_types exts)[exts.length + 1 - W]? = some hd := by
    have : tracked W (child_types exts) = (child_types exts).drop (exts.length + 1 - W) := by
      unfold tracked
      rw [hcl]
      congr 1
      omega
    rw [this] at htr
    have := congrArg (fun l => l[0]?) htr
    simpa using this
  refine ⟨hd, hidx, ?_, by rw [htr]; rfl, htail, ?_⟩
  · unfold window_types
    rw [hcl, List.getElem?_drop]
    have e : exts.length + 1 - min (exts.length + 1) W + 1 = (exts.length + 1 - W) + 1 := by
      omega
    rw [e, List.getElem?_cons_succ]
    exact hidx
  · intro slot r k prob type
    have hfull : W ≤ (build_path v W slot0 range0 kmer0 p1 exts).length_ :=
      h.slide_iff.mpr (by rw [hcl]; omega)
    have hc := (make_child_counts v W slot _ r k prob type).1 hfull
    rw [← htail]
    constructor
    · intro hv
      subst hv
      exact hc
    · intro hv
      subst hv
      exact hc

/-- Witness of C15: with `W = 2`, after a source and the events `MATCH`, `STAY`
the tail type is that of the newest event, `STAY`. -/
theorem type_tail_second_oldest_witness :
    ∃ t, (child_types (exts_w2.take 2))[(exts_w2.take 2).length + 1 - 2]? = some t ∧
      (build_path .mapper 2 slot_w2 ⟨1, 9⟩ 0 (1 / 2) (exts_w2.take 2)).type_tail = t.toNat :=
  (type_tail_second_oldest .mapper 2 (by decide) (by decide) slot_w2 ⟨1, 9⟩ 0 (1 / 2)
    (exts_w2.take 2) (by decide) (by decide)).imp (fun _ h => ⟨h.1, h.2.2.2.1⟩)

/-! ## The entry guard of `add_event` (C20) -/

/-- C20: if on entry to `Mapper::add_event` the flag `reset_` is set or
`event_i_ >= max_events_proc`, the call returns true with the state `FAILURE`
and runs no beam step: both buffers, `prev_size_`, `event_i_`,
`sources_added_`, the seeds handed to the seed tracker and the flag itself are
unchanged.  Otherwise the buffers, `prev_size_`, `sources_added_` and the seeds
are those that one beam step leaves, with the buffers swapped, `event_i_`
increases by exactly 1, and the call returns whether the seed tracker accepts,
in which case the state is `SUCCESS`. -/
theorem add_event_guard (P : Params) (m : Mapper) (event : ℚ) :
    ((m.reset_ = true ∨ m.event_i_ ≥ P.max_events_proc) →
      (Mapper.add_event P m event).2 = true ∧
      (Mapper.add_event P m event).1.state_ = .FAILURE ∧
      (Mapper.add_event P m event).1.prev_paths_ = m.prev_paths_ ∧
      (Mapper.add_event P m event).1.next_paths_ = m.next_paths_ ∧
      (Mapper.add_event P m event).1.prev_size_ = m.prev_size_ ∧
      (Mapper.add_event P m event).1.event_i_ = m.event_i_ ∧
      (Mapper.add_event P m event).1.sources_added_ = m.sources_added_ ∧
      (Mapper.add_event P m event).1.seed_tracker_ = m.seed_tracker_ ∧
      (Mapper.add_event P m event).1.reset_ = m.reset_) ∧
    (¬ (m.reset_ = true ∨ m.event_i_ ≥ P.max_events_proc) →
      (Mapper.add_event P m event).1.prev_size_ = (Mapper.step P m event).next_path ∧
      (Mapper.add_event P m event).1.prev_paths_ = (Mapper.step P m event).next_paths_ ∧
      (Mapper.add_event P m event).1.next_paths_ = (Mapper.step P m event).prev_paths_ ∧
      (Mapper.add_event P m event).1.sources_added_ = (Mapper.step P m event).sources_added_ ∧
      (Mapper.add_event P m event).1.seed_tracker_
        = m.seed_tracker_ ++ (Mapper.step P m event).seeds ∧
      (Mapper.add_event P m event).1.event_i_ = m.event_i_ + 1 ∧
      (Mapper.add_event P m event).1.reset_ = m.reset_ ∧
      (Mapper.add_event P m event).2
        = P.env.seed_tracker_final (m.seed_tracker_ ++ (Mapper.step P m event).seeds) ∧
      (Mapper.add_event P m event).1.state_
        = (if P.env.seed_tracker_final (m.seed_tracker_ ++ (Mapper.step P m event).seeds)
            then .SUCCESS else m.state_)) := by
  constructor
  · intro h
    have hg : (m.reset_ || decide (m.event_i_ ≥ P.max_events_proc)) = true := by
      rcases h with h | h
      · simp [h]
      · simp [h]
    unfold Mapper.add_event
    rw [if_pos hg]
    exact ⟨rfl, rfl, rfl, rfl, rfl, rfl, rfl, rfl, rfl⟩
  · intro h
    have hg : ¬ (m.reset_ || decide (m.event_i_ ≥ P.max_events_proc)) = true := by
      intro hh
      apply h
      rcases Bool.or_eq_true _ _ ▸ hh with h1 | h1
      · exact Or.inl h1
      · exact Or.inr (of_decide_eq_true h1)
    unfold Mapper.add_event
    rw [if_neg hg]
    dsimp only
    by_cases hf : P.env.seed_tracker_final (m.seed_tracker_ ++ (Mapper.step P m event).seeds)
        = true
    · rw [if_pos hf, if_pos hf]
      exact ⟨rfl, rfl, rfl, rfl, rfl, rfl, rfl, hf.symm, rfl⟩
    · rw [if_neg hf, if_neg hf]
      exact ⟨rfl, rfl, rfl, rfl, rfl, rfl, rfl, (Bool.eq_false_iff.mpr hf).symm, rfl⟩

/-- Witness of C20: with the reset flag set the constructed driver of the small
environment fails at once and stays at event 0; without it the first event
moves it to event 1 and leaves two live paths. -/
theorem add_event_guard_witness :
    ((Mapper.add_event toy_params reset_mapper 0).2 = true ∧
      (Mapper.add_event toy_params reset_mapper 0).1.state_ = .FAILURE ∧
      (Mapper.add_event toy_params reset_mapper 0).1.event_i_ = 0) ∧
    ((Mapper.add_event toy_params toy_mapper 0).1.event_i_ = 1 ∧
      (Mapper.add_event toy_params toy_mapper 0).1.prev_size_ = 2 ∧
      (Mapper.add_event toy_params toy_mapper 0).2 = false) :=
  ⟨⟨((add_event_guard toy_params reset_mapper 0).1 (Or.inl rfl)).1,
      ((add_event_guard toy_params reset_mapper 0).1 (Or.inl rfl)).2.1,
      ((add_event_guard toy_params reset_mapper 0).1 (Or.inl rfl)).2.2.2.2.2.1⟩,
    ⟨((add_event_guard toy_params toy_mapper 0).2 (by decide)).2.2.2.2.2.1,
      by decide!, by decide!⟩⟩

/-! ## The length of a path (C16) -/

theorem mapper_child_length (W : Nat) (self p : PathBuffer) (r : Range) (k : Nat) (prob : ℚ)
    (t : EventType) :
    (Mapper.make_child W self p r k prob t).length_
      = p.length_ + (if p.length_ ≤ W then 1 else 0) :=
  (make_child_fields .mapper W self p r k prob t).2.2.2.2

theorem aligner_child_length (W : Nat) (self p : PathBuffer) (r : Range) (k : Nat) (prob : ℚ)
    (t : EventType) :
    (Aligner.make_child W self p r k prob t).length_ = p.length_ + 1 :=
  (make_child_fields .aligner W self p r k prob t).2.2.2.2

theorem written_len (P : Params) (kp : Nat → ℚ) (prev_size : Nat) (bm0 : Beam)
    (c : PathBuffer) (hprev : ∀ pi, (bm0.prev_at pi).length_ ≤ P.seed_len + 1)
    (h : Written P .mapper kp prev_size bm0 c) : c.length_ ≤ P.seed_len + 1 := by
  obtain ⟨q, hm, hq⟩ := h
  have hq2 : q.length_ ≤ P.seed_len + 1 := by
    rcases hq with ⟨pi, slot, _, _, hch⟩ | ⟨slot, r, k, he, _, _⟩
    · have hp := hprev pi
      cases hch with
      | stay _ _ =>
        have e := mapper_child_length P.seed_len slot (bm0.prev_at pi)
          (bm0.prev_at pi).fm_range_ (bm0.prev_at pi).kmer_ (kp (bm0.prev_at pi).kmer_) .STAY
        have e2 : (make_child .mapper P.seed_len slot (bm0.prev_at pi)
            (bm0.prev_at pi).fm_range_ (bm0.prev_at pi).kmer_ (kp (bm0.prev_at pi).kmer_)
            .STAY).length_
            = (bm0.prev_at pi).length_ + (if (bm0.prev_at pi).length_ ≤ P.seed_len then 1 else 0) :=
          e
        rw [e2]
        split_ifs <;> omega
      | mtch b _ _ _ =>
        have e2 := (make_child_fields .mapper P.seed_len slot (bm0.prev_at pi)
          (P.env.fmi_get_neighbor (bm0.prev_at pi).fm_range_
            (neighbor_base .mapper P.env (P.env.model_get_neighbor (bm0.prev_at pi).kmer_ b) b))
          (P.env.model_get_neighbor (bm0.prev_at pi).kmer_ b)
          (kp (P.env.model_get_neighbor (bm0.prev_at pi).kmer_ b)) .MATCH).2.2.2.2
        rw [e2]
        dsimp only
        split_ifs <;> omega
    · rw [he, (make_source_fields .mapper _ _ _ _).2.2.1]
      omega
  rcases hm with h | h | h
  · rw [h]
    exact hq2
  · rw [h]
    simp [PathBuffer.invalidate]
  · rw [h]
    exact hq2

theorem len_add_event (P : Params) (hsort : IsSort P.env.sort) (m : Mapper) (event : ℚ)
    (h : LenInv P m) : LenInv P (Mapper.add_event P m event).1 := by
  obtain ⟨hlen, hp, hn⟩ := h
  by_cases hg : (m.reset_ || decide (m.event_i_ ≥ P.max_events_proc)) = true
  · rw [mapper_add_event_guard P m event hg]
    exact ⟨hlen, hp, hn⟩
  · obtain ⟨_, e2, e3, _⟩ := mapper_add_event_run P m event hg
    obtain ⟨hinv, _, _⟩ := beam_step_inv P .mapper (P.env.event_match_prob event) m.event_i_
      m.prev_size_ (Beam.start m.prev_paths_ m.next_paths_ m.sources_added_) hsort rfl rfl hlen
    refine ⟨?_, ?_, ?_⟩
    · rw [e2, e3]
      exact (hinv.len_next.trans hlen.symm).trans hinv.len_prev.symm
    · intro j
      rw [e2]
      by_cases hj : j < (Mapper.step P m event).next_path
      · exact written_len P (P.env.event_match_prob event) m.prev_size_
          (Beam.start m.prev_paths_ m.next_paths_ m.sources_added_) _ (fun pi => hp pi)
          (hinv.written j hj)
      · have := hinv.stale j (by
          have : ¬ j < (beam_step P .mapper (P.env.event_match_prob event) m.event_i_
            m.prev_size_ (Beam.start m.prev_paths_ m.next_paths_ m.sources_added_)).next_path :=
            hj
          omega)
        have h2 : (Mapper.step P m event).next_paths_.getD j default
            = m.next_paths_.getD j default := this
        rw [h2]
        exact hn j
    · intro j
      rw [e3]
      have h2 : (Mapper.step P m event).prev_paths_.getD j default
            = m.prev_paths_.getD j default ∨
          (Mapper.step P m event).prev_paths_.getD j default
            = { m.prev_paths_.getD j default with sa_checked_ := true } := hinv.prev j
      rcases h2 with h2 | h2
      · rw [h2]
        exact hp j
      · rw [h2]
        exact hp j

theorem construct_len (P : Params) (junk_prev junk_next : Nat → PathBuffer) (reset0 : Bool) :
    LenInv P (Mapper.construct P junk_prev junk_next reset0) := by
  have key : ∀ (f : Nat → PathBuffer) (j : Nat),
      (((List.range P.max_paths).map
        (fun i => PathBuffer.construct P.seed_len (f i))).getD j default).length_
        ≤ P.seed_len + 1 := by
    intro f j
    rw [List.getD_eq_getElem?_getD, List.getElem?_map]
    cases hx : (List.range P.max_paths)[j]? with
    | none =>
      have : (default : PathBuffer).length_ = 0 := rfl
      simp [this]
    | some x =>
      simp [PathBuffer.construct]
  exact ⟨by simp [Mapper.construct], key junk_prev, key junk_next⟩

theorem len_run (P : Params) (hsort : IsSort P.env.sort) (events : List ℚ) :
    ∀ m, LenInv P m → LenInv P (Mapper.run P m events) := by
  induction events with
  | nil => exact fun m h => h
  | cons ev rest ih =>
    intro m h
    exact ih _ (len_add_event P hsort m ev h)

/-- Refutation of C16 as stated: `Aligner::PathBuffer::make_child` adds 1 to the
length of its parent without saturating; with `W = 2` the child of a path of
length 3 has length 4, not `min(3 + 1, 2 + 1)`.  In `mapper.cpp` the equation
also needs a parent of length at most `W + 1`: the child of a valid path of
length 5 has length 5. -/
theorem aligner_length_unbounded :
    (build_path .aligner 2 slot_w2 ⟨1, 9⟩ 0 (1 / 2) (exts_w2.take 2)).is_valid = true ∧
      (build_path .aligner 2 slot_w2 ⟨1, 9⟩ 0 (1 / 2) (exts_w2.take 2)).length_ = 3 ∧
      (Aligner.make_child 2 slot_w2
        (build_path .aligner 2 slot_w2 ⟨1, 9⟩ 0 (1 / 2) (exts_w2.take 2)) ⟨3, 3⟩ 2 (1 / 2)
        .MATCH).length_ = 4 ∧
      (Aligner.make_child 2 slot_w2
        (build_path .aligner 2 slot_w2 ⟨1, 9⟩ 0 (1 / 2) (exts_w2.take 2)) ⟨3, 3⟩ 2 (1 / 2)
        .MATCH).length_ ≠ min (3 + 1) (2 + 1) ∧
      long_path.is_valid = true ∧
      (Mapper.make_child 2 slot_w2 long_path ⟨3, 3⟩ 2 (1 / 2) .MATCH).length_
        ≠ min (long_path.length_ + 1) (2 + 1) := by
  decide!

/-- C16 (amended): for every parent path of length at most `W + 1`,
`Mapper::PathBuffer::make_child` yields `length = min(parent.length + 1, W + 1)`,
and `Aligner::PathBuffer::make_child` yields `length = parent.length + 1` for
every parent; the child of a valid parent is valid.  Hence after any sequence of
`add_event` calls on a constructed `Mapper` every slot of either buffer has
`length ≤ W + 1`, every live path has `1 ≤ length ≤ W + 1`, and for `W ≤ 254`
the length stays below 256 and does not wrap around to 0. -/
theorem child_length (P : Params) (junk_prev junk_next : Nat → PathBuffer) (reset0 : Bool)
    (events : List ℚ) (hsort : IsSort P.env.sort) (W : Nat) (self p : PathBuffer) (r : Range)
    (k : Nat) (prob : ℚ) (t : EventType) :
    (p.length_ ≤ W + 1 →
      (Mapper.make_child W self p r k prob t).length_ = min (p.length_ + 1) (W + 1)) ∧
    (Aligner.make_child W self p r k prob t).length_ = p.length_ + 1 ∧
    (p.is_valid = true →
      (Mapper.make_child W self p r k prob t).is_valid = true ∧
        (Aligner.make_child W self p r k prob t).is_valid = true) ∧
    (∀ q ∈ (Mapper.run P (Mapper.construct P junk_prev junk_next reset0) events).prev_paths_ ++
          (Mapper.run P (Mapper.construct P junk_prev junk_next reset0) events).next_paths_,
        q.length_ ≤ P.seed_len + 1 ∧ (q.is_valid = true → 1 ≤ q.length_) ∧
          (P.seed_len ≤ 254 → q.length_ < 256)) := by
  have hm := mapper_child_length W self p r k prob t
  have ha := aligner_child_length W self p r k prob t
  refine ⟨?_, ha, ?_, ?_⟩
  · intro hp
    rw [hm]
    split_ifs <;> omega
  · intro hv
    have hv2 : 0 < p.length_ := by
      simpa [PathBuffer.is_valid] using hv
    constructor
    · simp only [PathBuffer.is_valid, hm, decide_eq_true_eq]
      omega
    · simp only [PathBuffer.is_valid, ha, decide_eq_true_eq]
      omega
  · obtain ⟨_, hp, hn⟩ := len_run P hsort events _ (construct_len P junk_prev junk_next reset0)
    intro q hmem
    have hq : q.length_ ≤ P.seed_len + 1 := by
      rcases List.mem_append.mp hmem with h | h
      · obtain ⟨j, hj⟩ := getD_of_mem _ q h
        rw [← hj]
        exact hp j
      · obtain ⟨j, hj⟩ := getD_of_mem _ q h
        rw [← hj]
        exact hn j
    refine ⟨hq, ?_, fun h => by omega⟩
    intro hv
    have hv2 : 0 < q.length_ := by
      simpa [PathBuffer.is_valid] using hv
    exact hv2

/-- Witness of C16: after three events of the small environment (`W = 2`) the
first slot of `prev_paths_` holds a live path of length 3, and a further child
of it has length 3 in `mapper.cpp`. -/
theorem child_length_witness :
    ((Mapper.run toy_params toy_mapper [0, 1, 1]).prev_paths_.getD 0 default).length_
        ≤ toy_params.seed_len + 1 ∧
      ((Mapper.run toy_params toy_mapper [0, 1, 1]).prev_paths_.getD 0 default).length_ = 3 ∧
      (Mapper.make_child 2 slot_w2
        ((Mapper.run toy_params toy_mapper [0, 1, 1]).prev_paths_.getD 0 default) ⟨3, 3⟩ 2
        (1 / 2) .MATCH).length_ = min (3 + 1) (2 + 1) :=
  ⟨((child_length toy_params (fun _ => default) (fun _ => default) false [0, 1, 1]
      insertion_sort_isSort 2 slot_w2 slot_w2 ⟨3, 3⟩ 2 (1 / 2) .MATCH).2.2.2
      ((Mapper.run toy_params toy_mapper [0, 1, 1]).prev_paths_.getD 0 default)
      (by decide!)).1,
    by decide!, by decide!⟩

/-! ## The flag `sa_checked_` (C19) -/

theorem SeedsSat.same {Q : Seed → Prop} {bm bm2 : Beam} (he : bm2.seeds = bm.seeds) :
    SeedsSat Q bm bm2 :=
  ⟨[], by simp [he], by simp⟩

theorem SeedsSat.chain {Q : Seed → Prop} {a b c : Beam} (h1 : SeedsSat Q a b)
    (h2 : SeedsSat Q b c) : SeedsSat Q a c := by
  obtain ⟨x, hx, hxq⟩ := h1
  obtain ⟨y, hy, hyq⟩ := h2
  refine ⟨x ++ y, by rw [hy, hx, List.append_assoc], ?_⟩
  intro s hs
  rcases List.mem_append.mp hs with h | h
  · exact hxq s h
  · exact hyq s h

theorem add_neighbor_prev (P : Params) (v : Impl) (kp : Nat → ℚ) (pp : PathBuffer) (t : ℚ)
    (prevs : List PathBuffer) :
    ∀ (bs : List Nat) (st : Beam × Bool), st.1.prev_paths_ = prevs →
      (for_break (add_neighbor P v kp pp t) bs st).1.prev_paths_ = prevs := by
  refine for_break_rule _ (fun (_ : List Nat) (st : Beam × Bool) => st.1.prev_paths_ = prevs)
    (fun (st : Beam × Bool) => st.1.prev_paths_ = prevs) ?_ (fun _ hh => hh)
  intro b rest st hst
  have k2 : (add_neighbor P v kp pp t b st).1.1.prev_paths_ = prevs := by
    unfold add_neighbor
    dsimp only
    by_cases h1 : kp (P.env.model_get_neighbor pp.kmer_ b) < t
    · rw [if_pos h1]
      exact hst
    · rw [if_neg h1]
      by_cases h2 : (P.env.fmi_get_neighbor pp.fm_range_
          (neighbor_base v P.env (P.env.model_get_neighbor pp.kmer_ b) b)).is_valid = false
      · rw [if_pos h2]
        exact hst
      · rw [if_neg h2]
        exact hst
  exact ⟨fun _ => k2, fun _ => k2⟩

theorem extend_prev_fresh (P : Params) (v : Impl) (kp : Nat → ℚ) (e pi : Nat) (bm : Beam) :
    SeedsSat (fun s => s.path_ended = true ∧ s.path.sa_checked_ = false) bm
      (extend_prev P v kp e pi bm).1 := by
  unfold extend_prev
  dsimp only
  by_cases hv : (bm.prev_at pi).is_valid = false
  · rw [if_pos hv]
    exact SeedsSat.same rfl
  · rw [if_neg hv]
    generalize hst : (decide ((bm.prev_at pi).consec_stays_ < P.max_consec_stay) &&
      decide (kp (bm.prev_at pi).kmer_ ≥
        P.get_prob_thresh (bm.prev_at pi).fm_range_.length.toNat)) = stay
    generalize hb1 : (if stay = true then
        (bm.emplace (fun slot =>
          make_child v P.seed_len slot (bm.prev_at pi) (bm.prev_at pi).fm_range_
            (bm.prev_at pi).kmer_ (kp (bm.prev_at pi).kmer_) .STAY)).advance
      else bm) = bm1
    have hs1 : bm1.seeds = bm.seeds := by
      rw [← hb1]
      split_ifs <;> rfl
    have hp1 : bm1.prev_paths_ = bm.prev_paths_ := by
      rw [← hb1]
      split_ifs <;> rfl
    by_cases hbrk : (stay && bm1.at_end) = true
    · rw [if_pos hbrk]
      exact SeedsSat.same hs1
    · rw [if_neg hbrk]
      have hs2 := add_neighbor_seeds P v kp (bm.prev_at pi)
        (P.get_prob_thresh (bm.prev_at pi).fm_range_.length.toNat) bm.seeds
        (List.range ALPH_SIZE) (bm1, stay) hs1
      have hp2 := add_neighbor_prev P v kp (bm.prev_at pi)
        (P.get_prob_thresh (bm.prev_at pi).fm_range_.length.toNat) bm.prev_paths_
        (List.range ALPH_SIZE) (bm1, stay) hp1
      generalize (for_break (add_neighbor P v kp (bm.prev_at pi)
        (P.get_prob_thresh (bm.prev_at pi).fm_range_.length.toNat))
        (List.range ALPH_SIZE) (bm1, stay)) = st2 at hs2 hp2 ⊢
      dsimp only
      by_cases hend : (!st2.2 && !(bm.prev_at pi).sa_checked_) = true
      · rw [if_pos hend]
        refine (SeedsSat.same hs2).chain ?_
        refine ⟨_, rfl, ?_⟩
        intro s hs
        obtain ⟨a, b, _, _⟩ := update_seeds_snd P e _ true s hs
        have hsame : st2.1.prev_at pi = bm.prev_at pi := by
          simp only [Beam.prev_at, hp2]
        have hflag : (bm.prev_at pi).sa_checked_ = false := by
          simp only [Bool.and_eq_true, Bool.not_eq_true_eq_eq_false] at hend
          simpa using hend.2
        exact ⟨b, by rw [a, hsame]; exact hflag⟩
      · rw [if_neg hend]
        exact SeedsSat.same hs2

theorem phase1_fresh (P : Params) (v : Impl) (kp : Nat → ℚ) (e prev_size : Nat) (bm0 : Beam) :
    SeedsSat (fun s => s.path_ended = true ∧ s.path.sa_checked_ = false) bm0
      (phase1 P v kp e prev_size bm0) := by
  unfold phase1
  refine for_break_rule _
    (fun (_ : List Nat) (bm : Beam) =>
      SeedsSat (fun s => s.path_ended = true ∧ s.path.sa_checked_ = false) bm0 bm)
    (fun (bm : Beam) =>
      SeedsSat (fun s => s.path_ended = true ∧ s.path.sa_checked_ = false) bm0 bm)
    ?_ (fun _ h => h) _ bm0 (SeedsSat.same rfl)
  intro pi rest bm h
  have key := h.chain (extend_prev_fresh P v kp e pi bm)
  exact ⟨fun _ => key, fun _ => key⟩

theorem source_step_open (P : Params) (v : Impl) (kp : Nat → ℚ) (e n : Nat) (st : SrcState)
    (i : Nat) :
    SeedsSat (fun s => s.path_ended = false) st.bm (source_step P v kp e n st i).bm := by
  unfold source_step
  dsimp only
  split_ifs
  · refine SeedsSat.same ?_
    simp only [invalidate_at, Beam.settle_at, List.append_nil]
    exact left_source_seeds P v kp i st
  · have h1 : SeedsSat (fun s => s.path_ended = false) st.bm
        (after_source P v kp n i (st.bm.next_at i).kmer_ (left_source P v kp i st)).bm :=
      SeedsSat.same (by rw [after_source_seeds, left_source_seeds])
    refine h1.chain ⟨_, rfl, ?_⟩
    intro s hs
    exact (update_seeds_snd P e _ false s hs).2.1

theorem phase2_open (P : Params) (v : Impl) (kp : Nat → ℚ) (e : Nat) (bm : Beam) :
    SeedsSat (fun s => s.path_ended = false) bm (phase2 P v kp e bm) := by
  unfold phase2
  split_ifs with hn
  · have : ∀ i, SeedsSat (fun s => s.path_ended = false) bm
        (loop2_upto P v kp e bm.next_path (sort_children P bm) i).bm := by
      intro i
      induction i with
      | zero => exact SeedsSat.same rfl
      | succ i ih =>
        have := ih.chain (source_step_open P v kp e bm.next_path _ i)
        simpa only [loop2_upto, List.range_succ, List.foldl_append, List.foldl_cons,
          List.foldl_nil] using this
    exact this _
  · exact SeedsSat.same rfl

/-- Refutation of C19 as stated: over `uniq_env` the path that is live after the
events `[0, 0]` has emitted a seed and has `sa_checked_` set.  In the next
`add_event` call its `MATCH` child, which inherits the flag, emits a seed again
in the second loop (`path_ended = false`). -/
theorem checked_child_emits_again :
    (Mapper.run uniq_params uniq_mapper [0, 0]).prev_size_ = 1 ∧
      ((Mapper.run uniq_params uniq_mapper [0, 0]).prev_paths_.getD 0 default).sa_checked_
        = true ∧
      (Mapper.run uniq_params uniq_mapper [0, 0]).seed_tracker_.map
          (fun s => (s.ref_end, s.match_len, s.read_event_end, s.path_ended))
        = [(100, 2, 1, false)] ∧
      (Mapper.step uniq_params (Mapper.run uniq_params uniq_mapper [0, 0]) 0).seeds.map
          (fun s => (s.ref_end, s.match_len, s.read_event_end, s.path_ended))
        = [(100, 2, 2, false)] ∧
      (Mapper.step uniq_params (Mapper.run uniq_params uniq_mapper [0, 0]) 0).seeds.map
          (fun s => s.path)
        = [Mapper.make_child 2
            ((Mapper.run uniq_params uniq_mapper [0, 0]).next_paths_.getD 0 default)
            ((Mapper.run uniq_params uniq_mapper [0, 0]).prev_paths_.getD 0 default)
            ⟨1, 1⟩ 0 (9 / 10) .MATCH] ∧
      (Mapper.step uniq_params (Mapper.run uniq_params uniq_mapper [0, 0]) 0).seeds.map
          (fun s => s.path.sa_checked_)
        = [true] := by
  decide!

/-- C19 (amended): `make_child` copies `sa_checked_` from the parent,
`update_seeds` sets it when the seed predicate holds and never clears it, and in
every beam step of either driver the first loop emits seeds only for ended paths
(`path_ended = true`) whose flag is clear: once a path has emitted seeds,
neither it nor any path descended from it through `make_child` emits seeds again
in the first loop of a later `add_event` call.  The seeds of the second loop
all have `path_ended = false`; they are emitted without a test of the flag. -/
theorem ended_path_emits_once (P : Params) (v : Impl) (kp : Nat → ℚ) (e prev_size : Nat)
    (prev next : List PathBuffer) (added : Nat → Bool) (W : Nat) (slot p : PathBuffer)
    (r : Range) (k : Nat) (prob : ℚ) (t : EventType) (pe : Bool) :
    (make_child v W slot p r k prob t).sa_checked_ = p.sa_checked_ ∧
    (is_seed_valid P p pe = true → (update_seeds P e p pe).1.sa_checked_ = true) ∧
    (p.sa_checked_ = true → (update_seeds P e p pe).1.sa_checked_ = true) ∧
    (∀ s ∈ (phase1 P v kp e prev_size (Beam.start prev next added)).seeds,
      s.path_ended = true ∧ s.path.sa_checked_ = false) ∧
    (∃ extra,
      (beam_step P v kp e prev_size (Beam.start prev next added)).seeds
        = (phase1 P v kp e prev_size (Beam.start prev next added)).seeds ++ extra ∧
      ∀ s ∈ extra, s.path_ended = false) ∧
    (∀ s ∈ (beam_step P v kp e prev_size (Beam.start prev next added)).seeds,
      s.path_ended = true → s.path.sa_checked_ = false) := by
  have h1 : ∀ s ∈ (phase1 P v kp e prev_size (Beam.start prev next added)).seeds,
      s.path_ended = true ∧ s.path.sa_checked_ = false := by
    obtain ⟨extra, he, hq⟩ := phase1_fresh P v kp e prev_size (Beam.start prev next added)
    intro s hs
    rw [he] at hs
    exact hq s (by simpa [Beam.start] using hs)
  have h2 : ∃ extra,
      (beam_step P v kp e prev_size (Beam.start prev next added)).seeds
        = (phase1 P v kp e prev_size (Beam.start prev next added)).seeds ++ extra ∧
      ∀ s ∈ extra, s.path_ended = false := by
    obtain ⟨extra, he, hq⟩ := phase2_open P v kp e
      (phase1 P v kp e prev_size (Beam.start prev next added))
    refine ⟨extra, ?_, hq⟩
    unfold beam_step
    rw [phase3_seeds, he]
  refine ⟨(make_child_fields v W slot p r k prob t).2.2.1, ?_, ?_, h1, h2, ?_⟩
  · intro hv
    rw [update_seeds, if_pos hv]
  · intro hp
    rcases update_seeds_fst P e p pe with h | h
    · rw [h]
      exact hp
    · rw [h]
  · obtain ⟨extra, he, hq⟩ := h2
    intro s hs hended
    rw [he] at hs
    rcases List.mem_append.mp hs with h | h
    · exact (h1 s h).2
    · rw [hq s h] at hended
      exact absurd hended (by decide)

/-- Witness of C19: the fourth event of the small environment ends a path whose
flag is clear; the seed emitted for it is in the seeds of the step. -/
theorem ended_path_emits_once_witness :
    ∃ s ∈ (Mapper.step toy_params (Mapper.run toy_params toy_mapper [0, 1, 2]) 3).seeds,
      s.path_ended = true ∧ s.path.sa_checked_ = false ∧ s.ref_end = 80 :=
  ⟨((Mapper.step toy_params (Mapper.run toy_params toy_mapper [0, 1, 2]) 3).seeds.getD 0
      default),
    by decide!,
    by decide!,
    (ended_path_emits_once toy_params .mapper (toy_env.event_match_prob 3) 3
      (Mapper.run toy_params toy_mapper [0, 1, 2]).prev_size_
      (Mapper.run toy_params toy_mapper [0, 1, 2]).prev_paths_
      (Mapper.run toy_params toy_mapper [0, 1, 2]).next_paths_
      (Mapper.run toy_params toy_mapper [0, 1, 2]).sources_added_
      2 slot_w2 slot_w2 ⟨3, 3⟩ 2 (1 / 2) .MATCH true).2.2.2.2.2
      ((Mapper.step toy_params (Mapper.run toy_params toy_mapper [0, 1, 2]) 3).seeds.getD 0
        default)
      (by decide!) (by decide!),
    by decide!⟩

/-! ## The threshold lookup is antitone (C24) -/

theorem thresh_pos_antitone (ls : List Nat) (L L2 : Nat) (h : L ≤ L2) :
    thresh_pos ls L2 ≤ thresh_pos ls L := by
  induction ls with
  | nil => simp [thresh_pos]
  | cons len rest ih =>
    by_cases h2 : L2 > len
    · simp [thresh_pos, h2]
    · have h1 : ¬ L > len := by omega
      simp only [thresh_pos, h1, h2, if_false]
      omega

theorem rd_mono (l : List ℚ) (hmono : l.Pairwise (fun x y => x ≤ y)) (i j : Nat) (hij : i ≤ j)
    (hj : j < l.length) : rd l i ≤ rd l j := by
  unfold rd
  rw [List.getD_eq_getElem _ _ hj, List.getD_eq_getElem _ _ (by omega)]
  rcases Nat.eq_or_lt_of_le hij with h | h
  · subst h
    exact le_refl _
  · exact List.pairwise_iff_getElem.mp hmono i j (by omega) hj h

/-- C24: for every threshold policy (`k` boundaries, `k + 1` thresholds) whose
thresholds are non-decreasing in declared order, `get_prob_thresh` is
non-increasing in the length of the FM interval: `L ≤ L2` gives
`get_prob_thresh(L) ≥ get_prob_thresh(L2)`.  The boundaries need not be
ordered. -/
theorem get_prob_thresh_antitone (a : AlnParams) (E : Env)
    (hlen : a.evpr_threshes_.length = a.evpr_lengths_.length + 1)
    (hmono : a.evpr_threshes_.Pairwise (fun x y => x ≤ y)) (L L2 : Nat) (h : L ≤ L2) :
    a.get_prob_thresh L ≥ a.get_prob_thresh L2 ∧
      (a.params E).get_prob_thresh L ≥ (a.params E).get_prob_thresh L2 ∧
      thresh_pos a.evpr_lengths_ L2 ≤ thresh_pos a.evpr_lengths_ L := by
  have hp := thresh_pos_antitone a.evpr_lengths_ L L2 h
  have hle := thresh_pos_le a.evpr_lengths_ L
  have key : a.get_prob_thresh L ≥ a.get_prob_thresh L2 :=
    rd_mono a.evpr_threshes_ hmono _ _ hp (by omega)
  exact ⟨key, key, hp⟩

/-- Witness of C24: the policy with boundaries `[10, 5]` and thresholds
`[1/10, 1/5, 3/10]`; the lengths 3 and 7 give 3/10 and 1/5. -/
theorem get_prob_thresh_antitone_witness :
    aln_two_buckets.get_prob_thresh 3 ≥ aln_two_buckets.get_prob_thresh 7 ∧
      aln_two_buckets.get_prob_thresh 3 = 3 / 10 ∧ aln_two_buckets.get_prob_thresh 7 = 1 / 5 :=
  ⟨(get_prob_thresh_antitone aln_two_buckets toy_env (by decide) (by decide!) 3 7
      (by decide)).1,
    by decide!, by decide!⟩

/-! ## The prefix sums of the window (C28) -/

theorem psum_succ (probs : List ℚ) (k : Nat) (hk : k < probs.length) :
    psum probs (k + 1) = psum probs k + probs.getD k 0 := by
  unfold psum
  rw [List.sum_take_succ probs k hk, List.getD_eq_getElem _ _ hk]

/-- Refutation of C28 as stated: with `W = 2`, the path built from a source of
probability 1/2 and three children of probabilities 1/4, 1/8 and 1/2 is valid
and its window has slid twice; `prob_sums_[0]` holds 3/4, the sum of the two
probabilities that have left the window, in both translation units. -/
theorem first_sum_not_zero :
    (build_path .mapper 2 slot_w2 ⟨1, 9⟩ 0 (1 / 2) exts_w2).is_valid = true ∧
      (build_path .mapper 2 slot_w2 ⟨1, 9⟩ 0 (1 / 2) exts_w2).length_ = 3 ∧
      (build_path .mapper 2 slot_w2 ⟨1, 9⟩ 0 (1 / 2) exts_w2).prob_sums_
        = [3 / 4, 7 / 8, 11 / 8] ∧
      (build_path .aligner 2 slot_w2 ⟨1, 9⟩ 0 (1 / 2) exts_w2).is_valid = true ∧
      (build_path .aligner 2 slot_w2 ⟨1, 9⟩ 0 (1 / 2) exts_w2).length_ = 4 ∧
      (build_path .aligner 2 slot_w2 ⟨1, 9⟩ 0 (1 / 2) exts_w2).prob_sums_
        = [3 / 4, 7 / 8, 11 / 8] := by
  decide!

/-- C28 (amended): for every path built by `make_source` with probability `p1`
followed by `make_child` calls (`n` events in all, window length `W ≥ 1`, every
slot owning its array of `W + 1` prefix sums), and for each `i` below
`min(length, W) = min(n, W)`, `prob_sums[i+1] - prob_sums[i]` is the probability
of the `i`-th event of the current window; `prob_sums[0]` is the sum of the
probabilities of the `n - min(n, W)` events that have left the window, which is 0
as long as the window has not slid (`n ≤ W`). -/
theorem prob_sums_window (v : Impl) (W : Nat) (hW : 1 ≤ W) (slot0 : PathBuffer)
    (range0 : Range) (kmer0 : Nat) (p1 : ℚ) (exts : List Ext)
    (h0 : slot0.prob_sums_.length = W + 1)
    (hs : ∀ e ∈ exts, e.slot.prob_sums_.length = W + 1) :
    min (build_path v W slot0 range0 kmer0 p1 exts).length_ W = min (exts.length + 1) W ∧
    (∀ i, i < min (build_path v W slot0 range0 kmer0 p1 exts).length_ W →
      rd (build_path v W slot0 range0 kmer0 p1 exts).prob_sums_ (i + 1)
          - rd (build_path v W slot0 range0 kmer0 p1 exts).prob_sums_ i
        = ((path_probs p1 exts).drop (exts.length + 1 - min (exts.length + 1) W)).getD i 0) ∧
    rd (build_path v W slot0 range0 kmer0 p1 exts).prob_sums_ 0
      = ((path_probs p1 exts).take (exts.length + 1 - min (exts.length + 1) W)).sum ∧
    (exts.length + 1 ≤ W →
      rd (build_path v W slot0 range0 kmer0 p1 exts).prob_sums_ 0 = 0) := by
  have h := WinInv_build v W hW slot0 range0 kmer0 p1 exts h0 hs
  have hn : (path_probs p1 exts).length = exts.length + 1 := by simp [path_probs]
  have hlen : min (build_path v W slot0 range0 kmer0 p1 exts).length_ W
      = min (exts.length + 1) W := by
    have := h.len
    rw [hn] at this
    cases v
    · have h2 : (build_path .mapper W slot0 range0 kmer0 p1 exts).length_
          = min (exts.length + 1) (W + 1) := this
      omega
    · have h2 : (build_path .aligner W slot0 range0 kmer0 p1 exts).length_
          = exts.length + 1 := this
      omega
  have hsum := h.sums
  rw [hn] at hsum
  have h00 : rd (build_path v W slot0 range0 kmer0 p1 exts).prob_sums_ 0
      = ((path_probs p1 exts).take (exts.length + 1 - min (exts.length + 1) W)).sum := by
    rw [hsum 0 (by omega)]
    rfl
  refine ⟨hlen, ?_, h00, ?_⟩
  · intro i hi
    rw [hlen] at hi
    rw [hsum (i + 1) (by omega), hsum i (by omega)]
    have hk : exts.length + 1 - min (exts.length + 1) W + i < (path_probs p1 exts).length := by
      rw [hn]
      omega
    have e := psum_succ (path_probs p1 exts) _ hk
    have e2 : exts.length + 1 - min (exts.length + 1) W + (i + 1)
        = exts.length + 1 - min (exts.length + 1) W + i + 1 := by omega
    have e3 : ((path_probs p1 exts).drop (exts.length + 1 - min (exts.length + 1) W)).getD i 0
        = (path_probs p1 exts).getD (exts.length + 1 - min (exts.length + 1) W + i) 0 := by
      simp only [List.getD_eq_getElem?_getD, List.getElem?_drop]
    rw [e2, e, e3]
    ring
  · intro hle
    rw [h00]
    have : exts.length + 1 - min (exts.length + 1) W = 0 := by omega
    rw [this]
    rfl

/-- Witness of C28: a path of four events with `W = 2`; the
two differences are the probabilities 1/8 and 1/2 of the window, and
`prob_sums_[0]` is `1/2 + 1/4`. -/
theorem prob_sums_window_witness :
    rd (build_path .mapper 2 slot_w2 ⟨1, 9⟩ 0 (1 / 2) exts_w2).prob_sums_ 0
        = ((path_probs (1 / 2) exts_w2).take (exts_w2.length + 1
            - min (exts_w2.length + 1) 2)).sum ∧
      ((path_probs (1 / 2) exts_w2).take (exts_w2.length + 1
            - min (exts_w2.length + 1) 2)).sum = 3 / 4 ∧
      rd (build_path .mapper 2 slot_w2 ⟨1, 9⟩ 0 (1 / 2) exts_w2).prob_sums_ 1
          - rd (build_path .mapper 2 slot_w2 ⟨1, 9⟩ 0 (1 / 2) exts_w2).prob_sums_ 0 = 1 / 8 :=
  ⟨(prob_sums_window .mapper 2 (by decide) slot_w2 ⟨1, 9⟩ 0 (1 / 2) exts_w2 (by decide)
      (by decide)).2.2.1,
    by decide!, by decide!⟩

/-! ## The initial match stays in the counts (C29) -/

/-- Refutation of C29 as stated, for `W = 18` in `mapper.cpp`, where the entries
of the `u32` table `TYPE_ADDS` are 0: after a source and eighteen `STAY` events
the window has slid once, the tail type read from the packed history was
`MATCH`, and the counts of `MATCH` and `STAY` are 0 and 18; the last 17 child
events hold no `MATCH` and 17 `STAY`. -/
theorem initial_match_lost :
    TYPE_ADDS .mapper 18 .STAY = 0 ∧
      (build_path .mapper 18 slot_w18 ⟨1, 1⟩ 0 (1 / 2) stays_slide).is_valid = true ∧
      (build_path .mapper 18 slot_w18 ⟨1, 1⟩ 0 (1 / 2) stays_slide).win_type_counts_.get
        EventType.MATCH.toNat = 0 ∧
      (build_path .mapper 18 slot_w18 ⟨1, 1⟩ 0 (1 / 2) stays_slide).win_type_counts_.get
        EventType.STAY.toNat = 18 ∧
      (tracked 18 (child_types stays_slide)).count .MATCH = 0 ∧
      (tracked 18 (child_types stays_slide)).count .STAY = 17 := by
  decide!

/-- C29 (amended): for every path built by `make_source` followed by
`make_child` calls with event types `t2 .. tn` in `{MATCH, STAY}` (`W ≥ 2`, and
the `2 (W - 1)` bits of the packed history within the word of `TYPE_ADDS`: 32
bits in `mapper.cpp`, 64 in `aligner.cpp`), the stored counts are
`win_type_counts[t] = (1 if t = MATCH else 0) +` the number of events of type
`t` among the last `min(n - 1, W - 1)` child events.  So the initial `MATCH` of
the source is never removed: `win_type_counts[MATCH] ≥ 1` and `match_len() ≥ 1`;
and when the window is full the type that the next `make_child` removes is that
of the second-oldest event of the window, after which the count of `MATCH` is
still at least 1. -/
theorem initial_match_kept (v : Impl) (W : Nat) (hW : 2 ≤ W)
    (hfit : 2 * (W - 1) ≤ v.type_adds_bits) (slot0 : PathBuffer) (range0 : Range) (kmer0 : Nat)
    (p1 : ℚ) (exts : List Ext) (hts : ∀ e ∈ exts, e.type = .MATCH ∨ e.type = .STAY) :
    (build_path v W slot0 range0 kmer0 p1 exts).win_type_counts_.get EventType.MATCH.toNat
      = 1 + (tracked W (child_types exts)).count .MATCH ∧
    (build_path v W slot0 range0 kmer0 p1 exts).win_type_counts_.get EventType.STAY.toNat
      = (tracked W (child_types exts)).count .STAY ∧
    (tracked W (child_types exts)).length = min exts.length (W - 1) ∧
    1 ≤ (build_path v W slot0 range0 kmer0 p1 exts).win_type_counts_.get
      EventType.MATCH.toNat ∧
    1 ≤ (build_path v W slot0 range0 kmer0 p1 exts).match_len ∧
    (W ≤ exts.length + 1 →
      ∃ t, (window_types W (child_types exts))[1]? = some t ∧
        (build_path v W slot0 range0 kmer0 p1 exts).type_tail = t.toNat ∧
        ∀ e : Ext, e.type = .MATCH ∨ e.type = .STAY →
          1 ≤ (build_path v W slot0 range0 kmer0 p1 (exts ++ [e])).win_type_counts_.get
            EventType.MATCH.toNat) := by
  have h := HistInv_build v W hW hfit slot0 range0 kmer0 p1 exts hts
  have hcl : (child_types exts).length = exts.length := by simp [child_types]
  have hm := h.n_match
  refine ⟨hm, h.n_stay, by rw [length_tracked, hcl], ?_, ?_, ?_⟩
  · have e0 : EventType.MATCH.toNat = 0 := rfl
    rw [e0, hm]
    omega
  · have : (build_path v W slot0 range0 kmer0 p1 exts).match_len
        = 1 + (tracked W (child_types exts)).count .MATCH := hm
    omega
  · intro hn
    obtain ⟨hd, rest, htr, htail⟩ := h.tail hW (by rw [hcl]; omega)
    have hidx : (child_types exts)[exts.length + 1 - W]? = some hd := by
      have : tracked W (child_types exts) = (child_types exts).drop (exts.length + 1 - W) := by
        unfold tracked
        rw [hcl]
        congr 1
        omega
      rw [this] at htr
      have := congrArg (fun l => l[0]?) htr
      simpa using this
    refine ⟨hd, ?_, htail, ?_⟩
    · unfold window_types
      rw [hcl, List.getElem?_drop]
      have e : exts.length + 1 - min (exts.length + 1) W + 1 = (exts.length + 1 - W) + 1 := by
        omega
      rw [e, List.getElem?_cons_succ]
      exact hidx
    · intro e he
      have hts2 : ∀ x ∈ exts ++ [e], x.type = .MATCH ∨ x.type = .STAY := by
        intro x hx
        rcases List.mem_append.mp hx with hx | hx
        · exact hts x hx
        · rw [List.mem_singleton.mp hx]
          exact he
      have h2 := (HistInv_build v W hW hfit slot0 range0 kmer0 p1 (exts ++ [e]) hts2).n_match
      have e0 : EventType.MATCH.toNat = 0 := rfl
      rw [e0, h2]
      omega

/-- Witness of C29: with `W = 2` the path of `exts_w2` (`MATCH`, `STAY`, `MATCH`)
tracks its last child event, a `MATCH`; the count of `MATCH` is 2. -/
theorem initial_match_kept_witness :
    (build_path .aligner 2 slot_w2 ⟨1, 9⟩ 0 (1 / 2) exts_w2).win_type_counts_.get
          EventType.MATCH.toNat
        = 1 + (tracked 2 (child_types exts_w2)).count .MATCH ∧
      (build_path .aligner 2 slot_w2 ⟨1, 9⟩ 0 (1 / 2) exts_w2).win_type_counts_.get
          EventType.MATCH.toNat = 2 :=
  ⟨(initial_match_kept .aligner 2 (by decide) (by decide) slot_w2 ⟨1, 9⟩ 0 (1 / 2) exts_w2
      (by decide)).1,
    by decide!⟩

/-! ## Finished reads (C21) -/

theorem add_event_state (P : Params) (m : Mapper) (event : ℚ) :
    ((Mapper.add_event P m event).2 = true →
      (Mapper.add_event P m event).1.finished = true) ∧
    ((Mapper.add_event P m event).2 = false →
      (Mapper.add_event P m event).1.state_ = m.state_) ∧
    (m.event_i_ ≥ P.max_events_proc →
      (Mapper.add_event P m event).1.state_ = .FAILURE ∧
        (Mapper.add_event P m event).1.event_i_ = m.event_i_) := by
  unfold Mapper.add_event
  by_cases hg : (m.reset_ || decide (m.event_i_ ≥ P.max_events_proc)) = true
  · rw [if_pos hg]
    exact ⟨fun _ => by simp [Mapper.finished], fun h => by simp at h, fun _ => ⟨rfl, rfl⟩⟩
  · rw [if_neg hg]
    dsimp only
    refine ⟨?_, ?_, ?_⟩
    · split_ifs
      · intro _
        simp [Mapper.finished]
      · intro h
        simp at h
    · split_ifs
      · intro h
        simp at h
      · intro _
        rfl
    · intro hcap
      exfalso
      apply hg
      simp [hcap]

theorem call_finished (P : Params) (m : Mapper) (c : Call) (h : m.finished = true) :
    (Mapper.call P m c).finished = true := by
  cases c with
  | add_event event =>
    obtain ⟨h1, h2, _⟩ := add_event_state P m event
    cases hr : (Mapper.add_event P m event).2 with
    | true => exact h1 hr
    | false =>
      have := h2 hr
      simp only [Mapper.call, Mapper.finished, this]
      exact h
  | request_reset => exact h
  | end_reset => exact h

theorem call_capped (P : Params) (m : Mapper) (c : Call) (h : m.state_ = .FAILURE)
    (hcap : m.event_i_ ≥ P.max_events_proc) :
    (Mapper.call P m c).state_ = .FAILURE ∧
      (Mapper.call P m c).event_i_ ≥ P.max_events_proc := by
  cases c with
  | add_event event =>
    obtain ⟨h1, h2⟩ := (add_event_state P m event).2.2 hcap
    exact ⟨h1, by simp only [Mapper.call, h2]; exact hcap⟩
  | request_reset => exact ⟨h, hcap⟩
  | end_reset => exact ⟨h, hcap⟩

theorem calls_finished (P : Params) (cs : List Call) :
    ∀ m : Mapper, m.finished = true → (Mapper.calls P m cs).finished = true := by
  unfold Mapper.calls
  induction cs with
  | nil => exact fun m h => h
  | cons c rest ih => exact fun m h => ih _ (call_finished P m c h)

theorem calls_capped (P : Params) (cs : List Call) :
    ∀ m : Mapper, m.state_ = .FAILURE → m.event_i_ ≥ P.max_events_proc →
      (Mapper.calls P m cs).state_ = .FAILURE := by
  unfold Mapper.calls
  induction cs with
  | nil => exact fun m h _ => h
  | cons c rest ih =>
    intro m h hcap
    obtain ⟨a, b⟩ := call_capped P m c h hcap
    exact ih _ a b

/-- Refutation of C21 as stated: over `accept_env` the read is in state `SUCCESS`
after the events `[0, 0]`; after `request_reset` the next `add_event` call moves
the state to `FAILURE`.  Conversely, a read that `add_event` has put in state
`FAILURE` because the reset flag was set is moved to `SUCCESS` by the second
`add_event` call after `end_reset`. -/
theorem finished_state_changes :
    accept_mapper.state_ = .MAPPING ∧
      (Mapper.calls accept_params accept_mapper [.add_event 0, .add_event 0]).state_
        = .SUCCESS ∧
      (Mapper.calls accept_params accept_mapper
        [.add_event 0, .add_event 0, .request_reset, .add_event 0]).state_ = .FAILURE ∧
      (Mapper.calls accept_params accept_mapper [.request_reset, .add_event 0]).state_
        = .FAILURE ∧
      (Mapper.calls accept_params accept_mapper
        [.request_reset, .add_event 0, .end_reset, .add_event 0, .add_event 0]).state_
        = .SUCCESS := by
  decide!

/-- C21 (amended): `new_read` and `reset` put the driver in state `MAPPING`;
`add_event` returns true only with the state `SUCCESS` or `FAILURE` and leaves
the state unchanged when it returns false; and once the state is `SUCCESS` or
`FAILURE`, it is `SUCCESS` or `FAILURE` after every later sequence of
`add_event`, `request_reset` and `end_reset` calls: the read stays finished
until the next `new_read`.  Which of the two it is can still change, since
`add_event` does not test the state; a `FAILURE` of a read that has reached the
event cap stays `FAILURE`. -/
theorem finished_stays (P : Params) (m : Mapper) (event : ℚ) (cs : List Call) :
    m.new_read.state_ = .MAPPING ∧ m.reset.state_ = .MAPPING ∧
    ((Mapper.add_event P m event).2 = true →
      (Mapper.add_event P m event).1.state_ = .SUCCESS ∨
        (Mapper.add_event P m event).1.state_ = .FAILURE) ∧
    ((Mapper.add_event P m event).2 = false →
      (Mapper.add_event P m event).1.state_ = m.state_) ∧
    (m.state_ = .SUCCESS ∨ m.state_ = .FAILURE →
      (Mapper.calls P m cs).state_ = .SUCCESS ∨ (Mapper.calls P m cs).state_ = .FAILURE) ∧
    (m.state_ = .FAILURE → m.event_i_ ≥ P.max_events_proc →
      (Mapper.calls P m cs).state_ = .FAILURE) := by
  have hfin : ∀ x : Mapper, x.finished = true ↔ (x.state_ = .SUCCESS ∨ x.state_ = .FAILURE) := by
    intro x
    simp [Mapper.finished]
  obtain ⟨h1, h2, _⟩ := add_event_state P m event
  refine ⟨rfl, rfl, fun h => (hfin _).mp (h1 h), h2, ?_, ?_⟩
  · intro h
    rw [← hfin]
    exact calls_finished P cs m ((hfin m).mpr h)
  · exact calls_capped P cs m

/-- Witness of C21: a read over `accept_env` in state `SUCCESS`; after
`request_reset` and a further `add_event` call it is still finished, in state
`FAILURE`. -/
theorem finished_stays_witness :
    ((Mapper.calls accept_params
        (Mapper.calls accept_params accept_mapper [.add_event 0, .add_event 0])
        [.request_reset, .add_event 0]).state_ = .SUCCESS ∨
      (Mapper.calls accept_params
        (Mapper.calls accept_params accept_mapper [.add_event 0, .add_event 0])
        [.request_reset, .add_event 0]).state_ = .FAILURE) ∧
    (Mapper.calls accept_params accept_mapper [.add_event 0, .add_event 0]).state_
      = .SUCCESS :=
  ⟨(finished_stays accept_params
      (Mapper.calls accept_params accept_mapper [.add_event 0, .add_event 0]) 0
      [.request_reset, .add_event 0]).2.2.2.2.1 (Or.inl (by decide!)),
    by decide!⟩

/-! ## The bitmap `sources_added_` between steps (C22) -/

theorem step_flags (P : Params) (v : Impl) (kp : Nat → ℚ) (e prev_size : Nat)
    (prev next : List PathBuffer) (added : Nat → Bool) (hsort : IsSort P.env.sort)
    (hlen : prev.length = next.length) :
    (beam_step P v kp e prev_size (Beam.start prev next added)).next_path = next.length ∨
      ∀ k, k < P.env.kmer_count →
        (beam_step P v kp e prev_size (Beam.start prev next added)).sources_added_ k = false := by
  obtain ⟨p12, _⟩ := phase12_inv P v kp e prev_size (Beam.start prev next added) hsort rfl rfl hlen
  obtain ⟨p3, h3⟩ := phase3_inv P v kp _ p12.cursor_le p12.safe
  have hl : (beam_step P v kp e prev_size (Beam.start prev next added)).next_paths_.length
      = next.length := by
    unfold beam_step
    rw [p3.len_next, p12.len_next]
    rfl
  rcases h3 with h | h
  · left
    have : (beam_step P v kp e prev_size (Beam.start prev next added)).at_end = true := h
    simp only [Beam.at_end, decide_eq_true_eq] at this
    rw [this, hl]
  · right
    exact h

theorem construct_flags (P : Params) (junk_prev junk_next : Nat → PathBuffer) (reset0 : Bool)
    (k : Nat) : (Mapper.construct P junk_prev junk_next reset0).sources_added_ k = false := rfl

theorem add_event_flags (P : Params) (hsort : IsSort P.env.sort) (m : Mapper) (event : ℚ)
    (hlen : m.prev_paths_.length = m.next_paths_.length) :
    (Mapper.add_event P m event).1.prev_paths_.length
        = (Mapper.add_event P m event).1.next_paths_.length ∧
    ((m.reset_ || decide (m.event_i_ ≥ P.max_events_proc)) = true →
      (Mapper.add_event P m event).1.sources_added_ = m.sources_added_) ∧
    (¬ (m.reset_ || decide (m.event_i_ ≥ P.max_events_proc)) = true →
      (Mapper.add_event P m event).1.prev_size_
          = (Mapper.add_event P m event).1.prev_paths_.length ∨
        ∀ k, k < P.env.kmer_count →
          (Mapper.add_event P m event).1.sources_added_ k = false) := by
  by_cases hg : (m.reset_ || decide (m.event_i_ ≥ P.max_events_proc)) = true
  · rw [mapper_add_event_guard P m event hg]
    exact ⟨hlen, fun _ => rfl, fun h => absurd hg h⟩
  · obtain ⟨e1, e2, e3, e4, _⟩ := mapper_add_event_run P m event hg
    obtain ⟨hinv, _, _⟩ := beam_step_inv P .mapper (P.env.event_match_prob event) m.event_i_
      m.prev_size_ (Beam.start m.prev_paths_ m.next_paths_ m.sources_added_) hsort rfl rfl hlen
    have hl : (Mapper.step P m event).next_paths_.length = m.next_paths_.length :=
      hinv.len_next
    have hl2 : (Mapper.step P m event).prev_paths_.length = m.prev_paths_.length :=
      hinv.len_prev
    refine ⟨by rw [e2, e3, hl, hl2, hlen], fun h => absurd h hg, fun _ => ?_⟩
    rw [e1, e2, e4, hl]
    exact step_flags P .mapper (P.env.event_match_prob event) m.event_i_ m.prev_size_
      m.prev_paths_ m.next_paths_ m.sources_added_ hsort hlen

theorem run_cons (P : Params) (m : Mapper) (ev : ℚ) (rest : List ℚ) :
    Mapper.run P m (ev :: rest) = Mapper.run P (Mapper.add_event P m ev).1 rest := rfl

theorem run_flags (P : Params) (hsort : IsSort P.env.sort) (events : List ℚ) :
    ∀ m : Mapper, m.prev_paths_.length = m.next_paths_.length →
      (∀ k, k < P.env.kmer_count → m.sources_added_ k = false) →
      (∀ n, 0 < n → n ≤ events.length →
        (Mapper.run P m (events.take n)).prev_size_
          < (Mapper.run P m (events.take n)).prev_paths_.length) →
      ∀ k, k < P.env.kmer_count → (Mapper.run P m events).sources_added_ k = false := by
  induction events with
  | nil => exact fun m _ h _ => h
  | cons ev rest ih =>
    intro m hlen hclr hroom
    obtain ⟨a, b, c⟩ := add_event_flags P hsort m ev hlen
    rw [run_cons]
    refine ih _ a ?_ ?_
    · by_cases hg : (m.reset_ || decide (m.event_i_ ≥ P.max_events_proc)) = true
      · rw [b hg]
        exact hclr
      · rcases c hg with h | h
        · have := hroom 1 (by omega) (by simp)
          rw [List.take_succ_cons, List.take_zero] at this
          have e : Mapper.run P m [ev] = (Mapper.add_event P m ev).1 := rfl
          rw [e] at this
          omega
        · exact h
    · intro n hn hle
      have := hroom (n + 1) (by omega) (by simpa using hle)
      rw [List.take_succ_cons, run_cons] at this
      exact this

/-- C22 fails on the code: the small environment with room for seven paths.
The bitmap is clear when the second `add_event` call is entered; in that call
the second loop sets the flags of the k-mers 1 and 2 and fills the buffer, the
last loop visits no k-mer, and the flags are still set on return and after
`new_read`.  The first event of the next read then makes no source at all,
while the same event on a driver whose bitmap is clear makes the sources of the
k-mers 1 and 2. -/
theorem stale_flags_at_capacity :
    cap7_params.max_paths = 7 ∧
      (List.range 4).map (Mapper.run cap7_params cap7_mapper [0]).sources_added_
        = [false, false, false, false] ∧
      (Mapper.run cap7_params cap7_mapper [0, 1]).prev_size_ = 7 ∧
      (List.range 4).map (Mapper.run cap7_params cap7_mapper [0, 1]).sources_added_
        = [false, true, true, false] ∧
      (List.range 4).map (Mapper.run cap7_params cap7_mapper [0, 1]).new_read.sources_added_
        = [false, true, true, false] ∧
      (Mapper.run cap7_params (Mapper.run cap7_params cap7_mapper [0, 1]).new_read [1]).prev_size_
        = 0 ∧
      (Mapper.run cap7_params cap7_mapper.new_read [1]).prev_size_ = 2 ∧
      ((Mapper.run cap7_params cap7_mapper.new_read [1]).prev_paths_.take 2).map
          (fun p => (p.is_valid, p.kmer_, p.length_))
        = [(true, 1, 1), (true, 2, 1)] := by
  decide!

/-- Where the bitmap `sources_added_` is clear.  The constructor clears it;
`reset` and `new_read` do not touch it; a beam step of either driver leaves
every flag false unless it ends with a full path buffer (the last loop stops at
a full buffer before it has cleared the flags that the second loop set).  So at
the entry of every beam step of a constructed `Mapper` every flag is false as
long as no earlier `add_event` call returned with a full buffer. -/
theorem flags_clear_unless_full (P : Params) (junk_prev junk_next : Nat → PathBuffer)
    (reset0 : Bool) (events : List ℚ) (v : Impl) (kp : Nat → ℚ) (e prev_size : Nat)
    (prev next : List PathBuffer) (added : Nat → Bool) (m : Mapper)
    (hsort : IsSort P.env.sort) (hlen : prev.length = next.length)
    (hroom : ∀ n, 0 < n → n ≤ events.length →
      (Mapper.run P (Mapper.construct P junk_prev junk_next reset0) (events.take n)).prev_size_
        < (Mapper.run P (Mapper.construct P junk_prev junk_next reset0)
            (events.take n)).prev_paths_.length) :
    (∀ k, (Mapper.construct P junk_prev junk_next reset0).sources_added_ k = false) ∧
    m.reset.sources_added_ = m.sources_added_ ∧
    m.new_read.sources_added_ = m.sources_added_ ∧
    ((beam_step P v kp e prev_size (Beam.start prev next added)).next_path = next.length ∨
      ∀ k, k < P.env.kmer_count →
        (beam_step P v kp e prev_size (Beam.start prev next added)).sources_added_ k = false) ∧
    (∀ k, k < P.env.kmer_count →
      (Mapper.run P (Mapper.construct P junk_prev junk_next reset0) events).sources_added_ k
        = false) :=
  ⟨fun _ => rfl, rfl, rfl, step_flags P v kp e prev_size prev next added hsort hlen,
    run_flags P hsort events _ (by simp [Mapper.construct]) (fun _ _ => rfl) hroom⟩

/-- An instance with room left: the small environment with room for eight paths;
the first two `add_event` calls leave 2 and 7 paths, and the bitmap is clear when
the third is entered. -/
theorem flags_clear_unless_full_witness :
    (Mapper.run toy_params toy_mapper [0, 1]).prev_size_ = 7 ∧
      ∀ k, k < toy_params.env.kmer_count →
        (Mapper.run toy_params toy_mapper [0, 1]).sources_added_ k = false :=
  ⟨by decide!,
    (flags_clear_unless_full toy_params (fun _ => default) (fun _ => default) false [0, 1]
      .mapper (toy_env.event_match_prob 1) 1 2 toy_mapper1.prev_paths_
      toy_mapper1.next_paths_ toy_mapper1.sources_added_ toy_mapper insertion_sort_isSort
      (by decide!)
      (fun n h1 h2 => by
        have h3 : n ≤ 2 := h2
        interval_cases n
        · decide!
        · decide!)).2.2.2.2⟩

/-! ## A full buffer (C23) -/

theorem add_neighbor_count (P : Params) (v : Impl) (kp : Nat → ℚ) (pp : PathBuffer)
    (L K : Nat) (prevs : List PathBuffer) :
    ∀ (bs : List Nat) (st : Beam × Bool),
      (st.1.next_paths_.length = L ∧ st.1.next_path < L ∧
        st.1.next_path + (bs.filter (passes P v kp pp)).length = K ∧
        st.1.prev_paths_ = prevs) →
      (for_break (add_neighbor P v kp pp (evpr_thresh_of P pp)) bs st).1.next_paths_.length = L ∧
        (for_break (add_neighbor P v kp pp (evpr_thresh_of P pp)) bs st).1.prev_paths_ = prevs ∧
        (((for_break (add_neighbor P v kp pp (evpr_thresh_of P pp)) bs st).1.next_path = L ∧
            L ≤ K) ∨
          ((for_break (add_neighbor P v kp pp (evpr_thresh_of P pp)) bs st).1.next_path = K ∧
            K < L)) := by
  refine for_break_rule _
    (fun (bs : List Nat) (st : Beam × Bool) =>
      st.1.next_paths_.length = L ∧ st.1.next_path < L ∧
        st.1.next_path + (bs.filter (passes P v kp pp)).length = K ∧
        st.1.prev_paths_ = prevs)
    (fun (st : Beam × Bool) =>
      st.1.next_paths_.length = L ∧ st.1.prev_paths_ = prevs ∧
        ((st.1.next_path = L ∧ L ≤ K) ∨ (st.1.next_path = K ∧ K < L)))
    ?_ ?_
  · rintro b rest ⟨bm, cf⟩ ⟨hl, hc, hk, hp⟩
    simp only at hl hc hk hp
    unfold add_neighbor
    by_cases h1 : kp (P.env.model_get_neighbor pp.kmer_ b) < evpr_thresh_of P pp
    · have hno : passes P v kp pp b = false := by simp [passes, h1]
      simp only [if_pos h1]
      rw [List.filter_cons_of_neg (by simp [hno])] at hk
      exact ⟨fun hh => by simp at hh, fun _ => ⟨hl, hc, hk, hp⟩⟩
    · simp only [if_neg h1]
      by_cases h2 : (P.env.fmi_get_neighbor pp.fm_range_
          (neighbor_base v P.env (P.env.model_get_neighbor pp.kmer_ b) b)).is_valid = false
      · have hno : passes P v kp pp b = false := by simp [passes, h2]
        simp only [if_pos h2]
        rw [List.filter_cons_of_neg (by simp [hno])] at hk
        exact ⟨fun hh => by simp at hh, fun _ => ⟨hl, hc, hk, hp⟩⟩
      · have hyes : passes P v kp pp b = true := by
          simp only [passes, Bool.and_eq_true, Bool.not_eq_true', decide_eq_false_iff_not]
          exact ⟨h1, by simpa using h2⟩
        simp only [if_neg h2]
        rw [List.filter_cons_of_pos hyes, List.length_cons] at hk
        have hl2 : ((bm.emplace (fun slot => make_child v P.seed_len slot pp
            (P.env.fmi_get_neighbor pp.fm_range_
              (neighbor_base v P.env (P.env.model_get_neighbor pp.kmer_ b) b))
            (P.env.model_get_neighbor pp.kmer_ b)
            (kp (P.env.model_get_neighbor pp.kmer_ b)) .MATCH)).advance).next_paths_.length
            = L := by
          simp only [Beam.advance, Beam.emplace, length_modify_at]
          exact hl
        constructor
        · intro hbrk
          simp only [Beam.at_end, decide_eq_true_eq] at hbrk
          refine ⟨hl2, hp, Or.inl ⟨?_, ?_⟩⟩
          · rw [hbrk, hl2]
          · have e : ((bm.emplace (fun slot => make_child v P.seed_len slot pp
                (P.env.fmi_get_neighbor pp.fm_range_
                  (neighbor_base v P.env (P.env.model_get_neighbor pp.kmer_ b) b))
                (P.env.model_get_neighbor pp.kmer_ b)
                (kp (P.env.model_get_neighbor pp.kmer_ b)) .MATCH)).advance).next_path
                = bm.next_path + 1 := rfl
            rw [e, hl2] at hbrk
            omega
        · intro hbrk
          simp only [Beam.at_end, decide_eq_false_iff_not] at hbrk
          rw [hl2] at hbrk
          refine ⟨hl2, ?_, ?_, hp⟩
          · have e : ((bm.emplace (fun slot => make_child v P.seed_len slot pp
                (P.env.fmi_get_neighbor pp.fm_range_
                  (neighbor_base v P.env (P.env.model_get_neighbor pp.kmer_ b) b))
                (P.env.model_get_neighbor pp.kmer_ b)
                (kp (P.env.model_get_neighbor pp.kmer_ b)) .MATCH)).advance).next_path
                = bm.next_path + 1 := rfl
            rw [e] at hbrk ⊢
            omega
          · show bm.next_path + 1 + _ = K
            omega
  · rintro st ⟨hl, hc, hk, hp⟩
    refine ⟨hl, hp, Or.inr ⟨?_, ?_⟩⟩
    · simpa using hk
    · simp only [List.filter_nil, List.length_nil, Nat.add_zero] at hk
      omega

theorem n_children_checked (P : Params) (v : Impl) (kp : Nat → ℚ) (e : Nat) (p : PathBuffer)
    (pe : Bool) : n_children P v kp (update_seeds P e p pe).1 = n_children P v kp p := by
  rcases update_seeds_fst P e p pe with h | h
  · rw [h]
  · rw [h]
    rfl

theorem extend_prev_count (P : Params) (v : Impl) (kp : Nat → ℚ) (e pi L : Nat) (bm : Beam)
    (hl : bm.next_paths_.length = L) (hc : bm.next_path < L) :
    (extend_prev P v kp e pi bm).1.next_paths_.length = L ∧
      (∀ j, n_children P v kp ((extend_prev P v kp e pi bm).1.prev_at j)
        = n_children P v kp (bm.prev_at j)) ∧
      ((extend_prev P v kp e pi bm).2 = true →
        (extend_prev P v kp e pi bm).1.next_path = L ∧
          L ≤ bm.next_path + n_children P v kp (bm.prev_at pi)) ∧
      ((extend_prev P v kp e pi bm).2 = false →
        (extend_prev P v kp e pi bm).1.next_path
            = bm.next_path + n_children P v kp (bm.prev_at pi) ∧
          (extend_prev P v kp e pi bm).1.next_path < L) := by
  unfold extend_prev
  dsimp only
  by_cases hv : (bm.prev_at pi).is_valid = false
  · rw [if_pos hv]
    have hn : n_children P v kp (bm.prev_at pi) = 0 := by
      unfold n_children
      rw [if_pos hv]
    exact ⟨hl, fun _ => rfl, fun hh => by simp at hh, fun _ => ⟨by rw [hn]; rfl, hc⟩⟩
  · rw [if_neg hv]
    generalize hst : (decide ((bm.prev_at pi).consec_stays_ < P.max_consec_stay) &&
      decide (kp (bm.prev_at pi).kmer_ ≥
        P.get_prob_thresh (bm.prev_at pi).fm_range_.length.toNat)) = stay
    have hn : n_children P v kp (bm.prev_at pi)
        = (if stay = true then 1 else 0)
          + ((List.range ALPH_SIZE).filter (passes P v kp (bm.prev_at pi))).length := by
      unfold n_children
      rw [if_neg hv, hst]
    generalize hb1 : (if stay = true then
        (bm.emplace (fun slot =>
          make_child v P.seed_len slot (bm.prev_at pi) (bm.prev_at pi).fm_range_
            (bm.prev_at pi).kmer_ (kp (bm.prev_at pi).kmer_) .STAY)).advance
      else bm) = bm1
    have hl1 : bm1.next_paths_.length = L := by
      rw [← hb1]
      split_ifs
      · simp only [Beam.advance, Beam.emplace, length_modify_at]
        exact hl
      · exact hl
    have hp1 : bm1.prev_paths_ = bm.prev_paths_ := by
      rw [← hb1]
      split_ifs <;> rfl
    have hc1 : bm1.next_path = bm.next_path + (if stay = true then 1 else 0) := by
      rw [← hb1]
      split_ifs <;> rfl
    by_cases hbrk : (stay && bm1.at_end) = true
    · rw [if_pos hbrk]
      simp only [Bool.and_eq_true, Beam.at_end, decide_eq_true_eq] at hbrk
      obtain ⟨hs, hend⟩ := hbrk
      refine ⟨hl1, fun j => by simp only [Beam.prev_at, hp1], fun _ => ⟨?_, ?_⟩,
        fun hh => by simp at hh⟩
      · rw [hend, hl1]
      · rw [hc1, hl1, if_pos hs] at hend
        rw [hn, if_pos hs]
        omega
    · rw [if_neg hbrk]
      have hc1lt : bm1.next_path < L := by
        rw [hc1]
        by_cases hs : stay = true
        · rw [if_pos hs]
          have : ¬ bm1.at_end = true := by
            intro hh
            exact hbrk (by simp [hs, hh])
          simp only [Beam.at_end, decide_eq_true_eq] at this
          rw [hc1, hl1, if_pos hs] at this
          omega
        · rw [if_neg hs]
          omega
      have hloop := add_neighbor_count P v kp (bm.prev_at pi) L
        (bm1.next_path + ((List.range ALPH_SIZE).filter (passes P v kp (bm.prev_at pi))).length)
        bm.prev_paths_ (List.range ALPH_SIZE) (bm1, stay) ⟨hl1, hc1lt, rfl, hp1⟩
      have hthr : P.get_prob_thresh (bm.prev_at pi).fm_range_.length.toNat
          = evpr_thresh_of P (bm.prev_at pi) := rfl
      rw [hthr]
      generalize (for_break (add_neighbor P v kp (bm.prev_at pi)
        (evpr_thresh_of P (bm.prev_at pi))) (List.range ALPH_SIZE) (bm1, stay)) = st2
        at hloop ⊢
      obtain ⟨hl2, hp2, hcur⟩ := hloop
      dsimp only
      generalize hb3 : (if (!st2.2 && !(bm.prev_at pi).sa_checked_) = true
        then end_path P e pi st2.1 else st2.1) = bm3
      have hl3 : bm3.next_paths_.length = L := by
        rw [← hb3]
        split_ifs
        · exact hl2
        · exact hl2
      have hc3 : bm3.next_path = st2.1.next_path := by
        rw [← hb3]
        split_ifs <;> rfl
      have hp3 : ∀ j, n_children P v kp (bm3.prev_at j) = n_children P v kp (bm.prev_at j) := by
        intro j
        have hsame : ∀ j, st2.1.prev_at j = bm.prev_at j := by
          intro j
          simp only [Beam.prev_at, hp2]
        rw [← hb3]
        split_ifs
        · rw [prev_at_end_path]
          split_ifs with hj
          · rw [n_children_checked, hsame, hj.1]
          · rw [hsame]
        · rw [hsame]
      refine ⟨hl3, hp3, ?_, ?_⟩
      · intro hend
        simp only [Beam.at_end, decide_eq_true_eq] at hend
        rw [hl3] at hend
        refine ⟨hend, ?_⟩
        rw [hc3] at hend
        rcases hcur with ⟨_, hle⟩ | ⟨he, hlt⟩
        · rw [hn]
          omega
        · omega
      · intro hend
        simp only [Beam.at_end, decide_eq_false_iff_not] at hend
        rw [hl3, hc3] at hend
        rw [hc3]
        rcases hcur with ⟨he, _⟩ | ⟨he, hlt⟩
        · exact absurd he hend
        · rw [he, hn]
          omega

theorem phase1_count (P : Params) (v : Impl) (kp : Nat → ℚ) (e prev_size : Nat)
    (prev next : List PathBuffer) (added : Nat → Bool) (hlen : prev.length = next.length) :
    (phase1 P v kp e prev_size (Beam.start prev next added)).next_path
      = min (potential_children P v kp prev_size prev) next.length := by
  by_cases hL : next.length = 0
  · have hnil : prev = [] := List.length_eq_zero.mp (by omega)
    have hpot : ∀ n, potential_children P v kp n prev = 0 := by
      intro n
      unfold potential_children
      apply List.sum_eq_zero
      intro x hx
      obtain ⟨pi, _, rfl⟩ := List.mem_map.mp hx
      rw [hnil]
      rfl
    rw [hpot, hL]
    unfold phase1
    refine for_break_rule _
      (fun (_ : List Nat) (bm : Beam) => bm.prev_paths_ = [] ∧ bm.next_path = 0)
      (fun (bm : Beam) => bm.next_path = min 0 0) ?_ (fun _ h => h.2) _ _ ⟨hnil, rfl⟩
    rintro pi rest bm ⟨hp, hc⟩
    have hid : extend_prev P v kp e pi bm = (bm, false) := by
      unfold extend_prev
      dsimp only
      rw [if_pos (by rw [prev_at_nil bm hp]; exact default_not_valid)]
    rw [hid]
    exact ⟨fun hh => by simp at hh, fun _ => ⟨hp, hc⟩⟩
  · unfold phase1 potential_children
    refine for_break_rule _
      (fun (rest : List Nat) (bm : Beam) =>
        bm.next_paths_.length = next.length ∧ bm.next_path < next.length ∧
          bm.next_path + (rest.map (fun pi => n_children P v kp (bm.prev_at pi))).sum
            = ((List.range prev_size).map
                (fun pi => n_children P v kp (prev.getD pi default))).sum)
      (fun (bm : Beam) =>
        bm.next_path = min (((List.range prev_size).map
          (fun pi => n_children P v kp (prev.getD pi default))).sum) next.length)
      ?_ ?_ _ _ ⟨rfl, by
        show 0 < next.length
        omega, by
        show 0 + _ = _
        rw [Nat.zero_add]
        rfl⟩
    · rintro pi rest bm ⟨hl, hc, hsum⟩
      obtain ⟨a, b, c, d⟩ := extend_prev_count P v kp e pi next.length bm hl hc
      rw [List.map_cons, List.sum_cons] at hsum
      have hrest : (rest.map (fun pi2 =>
            n_children P v kp ((extend_prev P v kp e pi bm).1.prev_at pi2))).sum
          = (rest.map (fun pi2 => n_children P v kp (bm.prev_at pi2))).sum := by
        congr 1
        apply List.map_congr_left
        intro x _
        exact b x
      constructor
      · intro hbrk
        obtain ⟨c1, c2⟩ := c hbrk
        rw [c1]
        omega
      · intro hbrk
        obtain ⟨d1, d2⟩ := d hbrk
        refine ⟨a, d2, ?_⟩
        rw [hrest, d1]
        omega
    · rintro bm ⟨_, hc, hsum⟩
      simp only [List.map_nil, List.sum_nil, Nat.add_zero] at hsum
      omega

/-- C23: if the first loop of a step would make at least as many children as
the buffer has slots (`max_paths`), then it writes exactly that many, each a
child of a valid path of `prev_paths_`; no slot beyond the buffer is written;
the second loop sorts the children and leaves in slot `j` the `j`-th sorted
child, invalidated if the next one has the same range and else passed to
`update_seeds`; no source is made by the second or the last loop; and the cursor
at the end of the step, which is `prev_size` for the next event, is the number
of slots.  For a `Mapper` whose buffers have `max_paths` slots the next
`prev_size_` is `max_paths`. -/
theorem full_buffer_step (P : Params) (v : Impl) (kmer_probs : Nat → ℚ)
    (event_i prev_size : Nat) (prev next : List PathBuffer) (added : Nat → Bool)
    (m : Mapper) (event : ℚ)
    (hsort : IsSort P.env.sort) (hlen : prev.length = next.length)
    (hfull : next.length ≤ potential_children P v kmer_probs prev_size prev)
    (hm1 : m.prev_paths_.length = P.max_paths) (hm2 : m.next_paths_.length = P.max_paths)
    (hmfull : P.max_paths ≤ potential_children P .mapper (P.env.event_match_prob event)
      m.prev_size_ m.prev_paths_)
    (hgo : (m.reset_ || decide (m.event_i_ ≥ P.max_events_proc)) = false) :
    (phase1 P v kmer_probs event_i prev_size (Beam.start prev next added)).next_path
      = next.length ∧
    (∀ i, i < next.length → ∃ pi, pi < prev_size ∧ (prev.getD pi default).is_valid = true ∧
      Child P v kmer_probs (prev.getD pi default) (next.getD i default)
        ((phase1 P v kmer_probs event_i prev_size (Beam.start prev next added)).next_at i)) ∧
    (beam_step P v kmer_probs event_i prev_size (Beam.start prev next added)).overrun = false ∧
    (beam_step P v kmer_probs event_i prev_size (Beam.start prev next added)).next_path
      = next.length ∧
    (beam_step P v kmer_probs event_i prev_size (Beam.start prev next added)).next_paths_.length
      = next.length ∧
    (∀ j, j < next.length →
      (beam_step P v kmer_probs event_i prev_size (Beam.start prev next added)).next_at j
        = settle P event_i next.length
            (sort_children P
              (phase1 P v kmer_probs event_i prev_size (Beam.start prev next added))).next_at
            j) ∧
    (∀ j, j < next.length → ∃ j2, j2 < next.length ∧
      (sort_children P
          (phase1 P v kmer_probs event_i prev_size (Beam.start prev next added))).next_at j
        = (phase1 P v kmer_probs event_i prev_size (Beam.start prev next added)).next_at j2) ∧
    (∀ a b, a < b → b < next.length →
      PathBuffer.lt
        ((sort_children P
          (phase1 P v kmer_probs event_i prev_size (Beam.start prev next added))).next_at b)
        ((sort_children P
          (phase1 P v kmer_probs event_i prev_size (Beam.start prev next added))).next_at a)
        = false) ∧
    (Mapper.add_event P m event).1.prev_size_ = P.max_paths := by
  have key : ∀ (v : Impl) (kp : Nat → ℚ) (e ps : Nat) (prev next : List PathBuffer)
      (added : Nat → Bool), prev.length = next.length →
      next.length ≤ potential_children P v kp ps prev →
      (phase1 P v kp e ps (Beam.start prev next added)).next_path = next.length ∧
      (beam_step P v kp e ps (Beam.start prev next added)).overrun = false ∧
      (beam_step P v kp e ps (Beam.start prev next added)).next_path = next.length ∧
      (beam_step P v kp e ps (Beam.start prev next added)).next_paths_.length = next.length ∧
      (∀ j, j < next.length →
        (beam_step P v kp e ps (Beam.start prev next added)).next_at j
          = settle P e next.length
              (sort_children P (phase1 P v kp e ps (Beam.start prev next added))).next_at j) := by
    intro v kp e ps prev next added hlen hfull
    have hcount := phase1_count P v kp e ps prev next added hlen
    have hc1 : (phase1 P v kp e ps (Beam.start prev next added)).next_path = next.length := by
      rw [hcount]
      omega
    have p1 := phase1_inv P v kp e ps (Beam.start prev next added) rfl rfl hlen
    have hl1 : (phase1 P v kp e ps (Beam.start prev next added)).next_paths_.length
        = next.length := p1.len_next
    obtain ⟨p12, _⟩ := phase12_inv P v kp e ps (Beam.start prev next added) hsort rfl rfl hlen
    obtain ⟨p3, _⟩ := phase3_inv P v kp _ p12.cursor_le p12.safe
    have hl2 : (phase2 P v kp e (phase1 P v kp e ps (Beam.start prev next added))).next_paths_.length
        = next.length := p12.len_next
    have hl3 : (beam_step P v kp e ps (Beam.start prev next added)).next_paths_.length
        = next.length := by
      unfold beam_step
      rw [p3.len_next, hl2]
    by_cases hn : next.length = 0
    · have hc2 : (phase2 P v kp e (phase1 P v kp e ps (Beam.start prev next added))).next_path
          = 0 := by
        have := p12.cursor_le
        rw [hl2] at this
        omega
      have hc3 : (beam_step P v kp e ps (Beam.start prev next added)).next_path = next.length := by
        have := p3.cursor_le
        unfold beam_step
        rw [p3.len_next, hl2] at this
        omega
      exact ⟨hc1, p3.safe, hc3, hl3, fun j hj => by omega⟩
    · have hne : (phase1 P v kp e ps (Beam.start prev next added)).next_path ≠ 0 := by
        rw [hc1]
        exact hn
      obtain ⟨p2, _⟩ := phase2_inv P v kp e _ hsort p1.cursor_le p1.safe hne
      rw [hc1] at p2
      have hc2 : (phase2 P v kp e (phase1 P v kp e ps (Beam.start prev next added))).next_path
          = next.length := by
        have h1 := p2.cursor_ge
        have h2 := p12.cursor_le
        rw [hl2] at h2
        omega
      have hc3 : (beam_step P v kp e ps (Beam.start prev next added)).next_path = next.length := by
        have h1 := p3.cursor_ge
        have h2 := p3.cursor_le
        unfold beam_step
        rw [p3.len_next, hl2] at h2
        rw [hc2] at h1
        omega
      refine ⟨hc1, p3.safe, hc3, hl3, fun j hj => ?_⟩
      have ho := p3.old j (by rw [hc2]; exact hj)
      have hd := p2.done j hj
      unfold beam_step
      rw [ho, hd]
  obtain ⟨k1, k2, k3, k4, k5⟩ := key v kmer_probs event_i prev_size prev next added hlen hfull
  have p1 := phase1_inv P v kmer_probs event_i prev_size (Beam.start prev next added) rfl rfl hlen
  obtain ⟨_, _, _, s4, _, s6⟩ := sort_children_spec P
    (phase1 P v kmer_probs event_i prev_size (Beam.start prev next added)) hsort p1.cursor_le
  rw [k1] at s4 s6
  refine ⟨k1, ?_, k2, k3, k4, k5, s4, s6, ?_⟩
  · intro i hi
    exact p1.child i (by rw [k1]; exact hi)
  · have hg : ¬ (m.reset_ || decide (m.event_i_ ≥ P.max_events_proc)) = true := by
      rw [hgo]
      decide
    rw [(mapper_add_event_run P m event hg).1]
    obtain ⟨_, _, k3m, _, _⟩ := key .mapper (P.env.event_match_prob event) m.event_i_
      m.prev_size_ m.prev_paths_ m.next_paths_ m.sources_added_ (hm1.trans hm2.symm)
      (by rw [hm2]; exact hmfull)
    have : (Mapper.step P m event).next_path = m.next_paths_.length := k3m
    rw [this, hm2]

/-- Witness of C23: the third event of the small environment, with eight slots
and eleven potential children; eight children are written and `prev_size_` is 8
for the next event. -/
theorem full_buffer_step_witness :
    potential_children toy_params .mapper (toy_env.event_match_prob 2)
        (Mapper.run toy_params toy_mapper [0, 1]).prev_size_
        (Mapper.run toy_params toy_mapper [0, 1]).prev_paths_ = 11 ∧
      toy_params.max_paths = 8 ∧
      (Mapper.add_event toy_params (Mapper.run toy_params toy_mapper [0, 1]) 2).1.prev_size_
        = toy_params.max_paths :=
  ⟨by decide!, by decide!,
    (full_buffer_step toy_params .mapper (toy_env.event_match_prob 2) 2
      (Mapper.run toy_params toy_mapper [0, 1]).prev_size_
      (Mapper.run toy_params toy_mapper [0, 1]).prev_paths_
      (Mapper.run toy_params toy_mapper [0, 1]).next_paths_
      (Mapper.run toy_params toy_mapper [0, 1]).sources_added_
      (Mapper.run toy_params toy_mapper [0, 1]) 2 insertion_sort_isSort
      (by decide!) (by decide!) (by decide!) (by decide!) (by decide!) (by decide!)).2.2.2.2.2.2.2.2⟩

/-! ## The parsing loop ends and keeps the tables in step -/

theorem str_find_spec (s : List Char) (c : Char) (pos : Nat) :
    str_find s c pos = npos ∨ (pos ≤ str_find s c pos ∧ str_find s c pos < s.length) := by
  unfold str_find
  split_ifs with h
  · right
    rw [List.length_drop] at h
    omega
  · left
    rfl

theorem size_t_small (n : Nat) (h : n < 18446744073709551616) : size_t n = n :=
  Nat.mod_eq_of_lt h

theorem str_find_none (s : List Char) (c : Char) (pos : Nat) (h : c ∉ s.drop pos) :
    str_find s c pos = npos := by
  unfold str_find
  rw [if_neg]
  rw [List.findIdx_lt_length]
  rintro ⟨x, hx, hxe⟩
  have : x = c := by simpa using hxe
  rw [this] at hx
  exact h hx

theorem str_find_found (s : List Char) (c : Char) (pos : Nat) (h : c ∈ s.drop pos) :
    pos ≤ str_find s c pos ∧ str_find s c pos < s.length := by
  have hlt : (s.drop pos).findIdx (fun x => x == c) < (s.drop pos).length :=
    List.findIdx_lt_length.mpr ⟨c, h, by simp⟩
  unfold str_find
  rw [if_pos hlt]
  rw [List.length_drop] at hlt
  omega

theorem str_find_npos (s : List Char) (c : Char) (pos : Nat)
    (hsize : s.length < 18446744073709551615) (h : str_find s c pos = npos) :
    c ∉ s.drop pos := by
  intro hmem
  have := (str_find_found s c pos hmem).2
  rw [h] at this
  unfold npos at this
  omega

theorem evpr_loop_ends (C : LibC) (s : List Char) (hsize : s.length + 2 < 18446744073709551615) :
    ∀ (fuel i j : Nat) (ls : List Nat) (ts : List ℚ), j ≤ s.length →
      (i ≤ j ∨ s.length ≤ i) → s.length - i ≤ fuel →
      evpr_loop C s fuel i j ls ts ≠ .cut_off := by
  intro fuel
  induction fuel with
  | zero =>
    intro i j ls ts _ _ hf
    unfold evpr_loop
    rw [if_neg (by omega)]
    intro h
    cases h
  | succ fuel ih =>
    intro i j ls ts hj hij hf
    unfold evpr_loop
    by_cases hi : i < s.length
    · rw [if_pos hi]
      dsimp only
      by_cases hk : str_find s '-' i > s.length
      · rw [if_pos hk]
        intro h
        cases h
      · rw [if_neg hk]
        have e1 : size_t (j + 1) = j + 1 := size_t_small _ (by omega)
        have e2 : size_t (size_t (j + 1) + 1) = j + 2 := by
          rw [e1]
          exact size_t_small _ (by omega)
        rw [e2, e1]
        apply ih
        · split_ifs
          · exact le_refl _
          · rcases str_find_spec s '_' (j + 2) with h | h
            · contradiction
            · omega
        · split_ifs with h0
          · omega
          · rcases str_find_spec s '_' (j + 2) with h | h
            · contradiction
            · omega
        · omega
    · rw [if_neg hi]
      intro h
      cases h

theorem evpr_tables_ends (C : LibC) (s : List Char)
    (hsize : s.length + 2 < 18446744073709551615) : evpr_tables C s ≠ .cut_off := by
  unfold evpr_tables
  dsimp only
  unfold evpr_loop
  by_cases hi : size_t (str_find s '_' 0 + 1) < s.length
  · rw [if_pos hi]
    dsimp only
    by_cases hk : str_find s '-' (size_t (str_find s '_' 0 + 1)) > s.length
    · rw [if_pos hk]
      intro h
      cases h
    · rw [if_neg hk]
      rcases str_find_spec s '_' 0 with h0 | h0
      · -- no underscore: the next state is `i = 0`, `j = size()`
        have e1 : size_t (str_find s '_' 0 + 1) = 0 := by
          rw [h0]
          rfl
        have e2 : str_find s '_' (size_t (size_t (str_find s '_' 0 + 1) + 1)) = npos := by
          rw [e1]
          have e3 : size_t (0 + 1) = 1 := rfl
          rw [e3]
          apply str_find_none
          intro hmem
          exact str_find_npos s '_' 0 (by omega) h0 (List.mem_of_mem_drop hmem)
        rw [e2, if_pos rfl, e1]
        exact evpr_loop_ends C s hsize _ 0 s.length _ _ (le_refl _) (Or.inl (Nat.zero_le _))
          (by omega)
      · have e1 : size_t (str_find s '_' 0 + 1) = str_find s '_' 0 + 1 :=
          size_t_small _ (by omega)
        rw [e1] at hi ⊢
        have e2 : size_t (str_find s '_' 0 + 1 + 1) = str_find s '_' 0 + 2 :=
          size_t_small _ (by omega)
        rw [e2]
        apply evpr_loop_ends C s hsize
        · split_ifs
          · exact le_refl _
          · rcases str_find_spec s '_' (str_find s '_' 0 + 2) with h | h
            · contradiction
            · omega
        · split_ifs
          · left
            omega
          · rcases str_find_spec s '_' (str_find s '_' 0 + 2) with h | h
            · contradiction
            · left
              omega
        · omega
  · rw [if_neg hi]
    intro h
    cases h

theorem evpr_loop_sizes (C : LibC) (s : List Char) :
    ∀ (fuel i j : Nat) (ls : List Nat) (ts : List ℚ) (r : List Nat × List ℚ),
      ts.length = ls.length + 1 → evpr_loop C s fuel i j ls ts = .returned r →
      r.2.length = r.1.length + 1 := by
  intro fuel
  induction fuel with
  | zero =>
    intro i j ls ts r h hr
    unfold evpr_loop at hr
    split_ifs at hr
    cases hr
    exact h
  | succ fuel ih =>
    intro i j ls ts r h hr
    unfold evpr_loop at hr
    dsimp only at hr
    split_ifs at hr
    · exact ih _ _ _ _ r (by simp [h]) hr
    · exact ih _ _ _ _ r (by simp [h]) hr
    · cases hr
      exact h

theorem evpr_loop_throws (C : LibC) (s : List Char) :
    ∀ (fuel i j : Nat) (ls : List Nat) (ts : List ℚ),
      evpr_loop C s fuel i j ls ts = .out_of_range →
      ∃ i2, i2 < s.length ∧ str_find s '-' i2 > s.length := by
  intro fuel
  induction fuel with
  | zero =>
    intro i j ls ts h
    unfold evpr_loop at h
    split_ifs at h
  | succ fuel ih =>
    intro i j ls ts h
    unfold evpr_loop at h
    by_cases hi : i < s.length
    · rw [if_pos hi] at h
      dsimp only at h
      by_cases hk : str_find s '-' i > s.length
      · exact ⟨i, hi, hk⟩
      · rw [if_neg hk] at h
        exact ih _ _ _ _ h
    · rw [if_neg hi] at h
      cases h

/-! ## What the constructor reads from a threshold string -/

theorem findIdx_mid (mid post : List Char) (c : Char) (h : c ∉ mid) :
    (mid ++ c :: post).findIdx (fun x => x == c) = mid.length := by
  induction mid with
  | nil => simp [List.findIdx_cons]
  | cons a rest ih =>
    have ha : (a == c) = false := by
      simp only [beq_eq_false_iff_ne, ne_eq]
      intro hh
      exact h (by rw [hh]; exact List.mem_cons_self _ _)
    rw [List.cons_append, List.findIdx_cons, ha, cond_false,
      ih (fun hh => h (List.mem_cons_of_mem _ hh)), List.length_cons]

theorem str_find_mid (pre mid post : List Char) (c : Char) (h : c ∉ mid) :
    str_find (pre ++ (mid ++ c :: post)) c pre.length = pre.length + mid.length := by
  unfold str_find
  rw [List.drop_left, findIdx_mid mid post c h, if_pos (by simp)]

theorem evpr_loop_done (C : LibC) (s : List Char) (fuel i j : Nat) (ls : List Nat)
    (ts : List ℚ) (h : s.length ≤ i) : evpr_loop C s fuel i j ls ts = .returned (ls, ts) := by
  cases fuel with
  | zero =>
    unfold evpr_loop
    rw [if_neg (by omega)]
  | succ fuel =>
    unfold evpr_loop
    rw [if_neg (by omega)]

theorem text_length (b : Bucket) :
    b.text.length = b.len_text.length + b.thr_text.length + 2 := by
  simp [Bucket.text]
  omega

/-- The position that the loop computes for the end of the bucket `b`, which
starts at the end of `pre`: the next `_`, or the end of the string. -/
theorem next_underscore (pre : List Char) (b : Bucket) (bs : List Bucket) (hb : b.ok)
    (hsize : (pre ++ ((b :: bs).map Bucket.text).flatten).length + 2 < 18446744073709551615) :
    (if str_find (pre ++ ((b :: bs).map Bucket.text).flatten) '_' (pre.length + 2) = npos
      then (pre ++ ((b :: bs).map Bucket.text).flatten).length
      else str_find (pre ++ ((b :: bs).map Bucket.text).flatten) '_' (pre.length + 2))
      = pre.length + b.text.length := by
  obtain ⟨h1, _, h3⟩ := hb
  -- the content of the bucket is not empty: split off its first character
  obtain ⟨x, ys, hxy⟩ : ∃ x ys, b.len_text ++ '-' :: b.thr_text = x :: ys := by
    cases hl : b.len_text with
    | nil => exact ⟨'-', b.thr_text, by simp⟩
    | cons a r => exact ⟨a, r ++ '-' :: b.thr_text, by simp⟩
  have hys : '_' ∉ ys := by
    intro hmem
    have : '_' ∈ b.len_text ++ '-' :: b.thr_text := by
      rw [hxy]
      exact List.mem_cons_of_mem _ hmem
    rcases List.mem_append.mp this with h | h
    · exact h1 h
    · rcases List.mem_cons.mp h with h | h
      · exact absurd h (by decide)
      · exact h3 h
  have htext : b.text = '_' :: x :: ys := by
    unfold Bucket.text
    rw [hxy]
  have hlen : b.text.length = ys.length + 2 := by
    rw [htext]
    simp
  have hs : pre ++ ((b :: bs).map Bucket.text).flatten
      = (pre ++ ['_', x]) ++ (ys ++ (bs.map Bucket.text).flatten) := by
    simp [htext]
  have hpl : (pre ++ ['_', x]).length = pre.length + 2 := by simp
  cases bs with
  | nil =>
    have hnone : str_find (pre ++ (([b] : List Bucket).map Bucket.text).flatten) '_'
        (pre.length + 2) = npos := by
      apply str_find_none
      rw [hs, ← hpl, List.drop_left]
      simpa using hys
    rw [if_pos hnone]
    simp [hlen, htext]
  | cons b2 bs2 =>
    have hs2 : pre ++ ((b :: b2 :: bs2).map Bucket.text).flatten
        = (pre ++ ['_', x]) ++ (ys ++ '_' :: ((b2.len_text ++ '-' :: b2.thr_text)
            ++ (bs2.map Bucket.text).flatten)) := by
      rw [hs]
      simp [Bucket.text]
    have hfound := str_find_mid (pre ++ ['_', x]) ys
      ((b2.len_text ++ '-' :: b2.thr_text) ++ (bs2.map Bucket.text).flatten) '_' hys
    rw [← hs2, hpl] at hfound
    rw [hfound, if_neg]
    · omega
    · rw [hs2] at hsize
      unfold npos
      simp at hsize
      omega

theorem find_dash (s pre : List Char) (b : Bucket) (rest : List Char) (hb : b.ok)
    (hs : s = pre ++ (b.text ++ rest)) :
    str_find s '-' (pre.length + 1) = pre.length + 1 + b.len_text.length := by
  have h := str_find_mid (pre ++ ['_']) b.len_text (b.thr_text ++ rest) '-' hb.2.1
  have e : pre ++ ['_'] ++ (b.len_text ++ '-' :: (b.thr_text ++ rest)) = s := by
    rw [hs]
    simp [Bucket.text]
  rw [e] at h
  simpa using h

theorem evpr_loop_reads (C : LibC) (s : List Char)
    (hsize : s.length + 2 < 18446744073709551615) :
    ∀ (bs : List Bucket) (b : Bucket) (pre : List Char) (ls : List Nat) (ts : List ℚ)
      (fuel : Nat),
      s = pre ++ ((b :: bs).map Bucket.text).flatten →
      (∀ x ∈ b :: bs, x.ok) → (b :: bs).length ≤ fuel →
      evpr_loop C s fuel (pre.length + 1) (pre.length + b.text.length) ls ts
        = .returned (ls ++ read_lengths C s pre.length (b :: bs),
            ts ++ read_threshes C s pre.length (b :: bs)) := by
  intro bs
  induction bs with
  | nil =>
    intro b pre ls ts fuel hs hok hf
    obtain ⟨f, rfl⟩ : ∃ f, fuel = f + 1 := ⟨fuel - 1, by simp at hf; omega⟩
    have hb := hok b (List.mem_cons_self _ _)
    have hn : s.length = pre.length + b.text.length := by
      rw [hs]
      simp
    have htl := text_length b
    have hk := find_dash s pre b [] hb (by rw [hs]; simp)
    unfold evpr_loop
    rw [if_pos (by omega)]
    dsimp only
    rw [hk, if_neg (by omega), size_t_small (pre.length + b.text.length + 1) (by omega),
      evpr_loop_done _ _ _ _ _ _ _ (by omega)]
    simp [read_lengths, read_threshes, Bucket.length_at, Bucket.thresh_at]
  | cons b2 bs2 ih =>
    intro b pre ls ts fuel hs hok hf
    obtain ⟨f, rfl⟩ : ∃ f, fuel = f + 1 := ⟨fuel - 1, by simp at hf; omega⟩
    have hb := hok b (List.mem_cons_self _ _)
    have hb2 := hok b2 (List.mem_cons_of_mem _ (List.mem_cons_self _ _))
    have hs2 : s = (pre ++ b.text) ++ ((b2 :: bs2).map Bucket.text).flatten := by
      rw [hs]
      simp
    have hn : pre.length + b.text.length + b2.text.length ≤ s.length := by
      rw [hs2]
      simp
      omega
    have htl := text_length b
    have htl2 := text_length b2
    have hk := find_dash s pre b ((b2 :: bs2).map Bucket.text).flatten hb (by rw [hs]; simp)
    have hnext := next_underscore (pre ++ b.text) b2 bs2 hb2 (by rw [← hs2]; exact hsize)
    rw [← hs2, List.length_append] at hnext
    unfold evpr_loop
    rw [if_pos (by omega)]
    dsimp only
    rw [hk, if_neg (by omega), size_t_small (pre.length + b.text.length + 1) (by omega),
      size_t_small (pre.length + b.text.length + 1 + 1) (by omega), hnext]
    have hih := ih b2 (pre ++ b.text) (ls ++ [u32 (C.atoi (str_substr s (pre.length + 1)
        (pre.length + 1 + b.len_text.length)))])
      (ts ++ [C.atof (str_substr s (pre.length + 1 + b.len_text.length)
        (pre.length + b.text.length))]) f hs2
      (fun x hx => hok x (List.mem_cons_of_mem _ hx)) (by simpa using hf)
    rw [List.length_append] at hih
    rw [hih]
    simp [read_lengths, read_threshes, Bucket.length_at, Bucket.thresh_at]

/-- The tables that the constructor fills from a threshold string with at least
one bucket: the boundary of the first bucket is stored twice, and the second
threshold is read from the text at the `-` of the first bucket, cut after as
many characters as `p0` has. -/
theorem evpr_tables_reads (C : LibC) (p0 : List Char) (b : Bucket) (bs : List Bucket)
    (hp0 : '_' ∉ p0) (hok : ∀ x ∈ b :: bs, x.ok)
    (hsize : (policy_text p0 (b :: bs)).length + 2 < 18446744073709551615) :
    evpr_tables C (policy_text p0 (b :: bs))
      = .returned
          (b.length_at C (policy_text p0 (b :: bs)) p0.length
              :: read_lengths C (policy_text p0 (b :: bs)) p0.length (b :: bs),
            C.atof p0
              :: C.atof (str_substr (policy_text p0 (b :: bs))
                  (p0.length + 1 + b.len_text.length) p0.length)
              :: read_threshes C (policy_text p0 (b :: bs)) p0.length (b :: bs)) := by
  have hb := hok b (List.mem_cons_self _ _)
  generalize hs : policy_text p0 (b :: bs) = s at hsize ⊢
  have hs1 : s = p0 ++ ((b :: bs).map Bucket.text).flatten := by
    rw [← hs]
    rfl
  have htl := text_length b
  have hn : p0.length + b.text.length ≤ s.length := by
    rw [hs1]
    simp
  have hi0 : str_find s '_' 0 = p0.length := by
    have h := str_find_mid [] p0 ((b.len_text ++ '-' :: b.thr_text)
      ++ (bs.map Bucket.text).flatten) '_' hp0
    have e : [] ++ (p0 ++ '_' :: ((b.len_text ++ '-' :: b.thr_text)
        ++ (bs.map Bucket.text).flatten)) = s := by
      rw [hs1]
      simp [Bucket.text]
    rw [e] at h
    simpa using h
  have hp0v : str_substr s 0 p0.length = p0 := by
    unfold str_substr
    rw [hs1]
    simp
  have hk := find_dash s p0 b (bs.map Bucket.text).flatten hb (by rw [hs1]; simp)
  have hnext := next_underscore p0 b bs hb (by rw [← hs1]; exact hsize)
  rw [← hs1] at hnext
  unfold evpr_tables
  dsimp only
  rw [hi0, hp0v, size_t_small (p0.length + 1) (by omega)]
  unfold evpr_loop
  rw [if_pos (by omega)]
  dsimp only
  rw [hk, if_neg (by omega), size_t_small (p0.length + 1) (by omega),
    size_t_small (p0.length + 1 + 1) (by omega), hnext]
  have hl : (b :: bs).length ≤ s.length + 1 := by
    have : ∀ (l : List Bucket), l.length ≤ ((l.map Bucket.text).flatten).length := by
      intro l
      induction l with
      | nil => simp
      | cons a r ih =>
        have := text_length a
        simp only [List.map_cons, List.flatten_cons, List.length_append, List.length_cons]
        omega
    have h2 := this (b :: bs)
    rw [hs1, List.length_append]
    omega
  rw [evpr_loop_reads C s hsize bs b p0 _ _ (s.length + 1) hs1 hok hl]
  simp [Bucket.length_at]

/-! ## The tables of the constructed policy (C25, C26, C27, C30) -/

theorem construct_returned (C : LibC) (w r c mp : Nat) (f : ℚ) (cs ig sk : Nat)
    (s : List Char) (wp : ℚ) (ls : List Nat) (ts : List ℚ)
    (h : evpr_tables C s = .returned (ls, ts)) :
    AlnParams.construct C w r c mp f cs ig sk s wp
      = .returned
        { path_win_len_ := w, min_rep_len_ := r, max_rep_copy_ := c, max_paths_ := mp,
          max_stay_frac_ := f, max_consec_stay_ := cs, max_ignores_ := ig, max_skips_ := sk,
          evpr_lengths_ := ls, evpr_threshes_ := ts, window_prob_ := wp } := by
  unfold AlnParams.construct
  rw [h]

theorem construct_inv (C : LibC) (w r c mp : Nat) (f : ℚ) (cs ig sk : Nat)
    (s : List Char) (wp : ℚ) (a : AlnParams)
    (h : AlnParams.construct C w r c mp f cs ig sk s wp = .returned a) :
    evpr_tables C s = .returned (a.evpr_lengths_, a.evpr_threshes_) ∧
      a.path_win_len_ = w ∧ a.max_paths_ = mp := by
  unfold AlnParams.construct at h
  cases ht : evpr_tables C s with
  | returned p =>
    rw [ht] at h
    obtain ⟨ls, ts⟩ := p
    simp only [Run.returned.injEq] at h
    rw [← h]
    exact ⟨rfl, rfl, rfl⟩
  | out_of_range =>
    rw [ht] at h
    cases h
  | cut_off =>
    rw [ht] at h
    cases h

theorem read_lengths_length (C : LibC) (s : List Char) (bs : List Bucket) :
    ∀ off, (read_lengths C s off bs).length = bs.length := by
  induction bs with
  | nil => exact fun _ => rfl
  | cons b rest ih => exact fun off => by simp [read_lengths, ih]

theorem read_threshes_length (C : LibC) (s : List Char) (bs : List Bucket) :
    ∀ off, (read_threshes C s off bs).length = bs.length := by
  induction bs with
  | nil => exact fun _ => rfl
  | cons b rest ih => exact fun off => by simp [read_threshes, ih]

theorem lookup_twice (l : Nat) (ls : List Nat) (p0 r : ℚ) (qs : List ℚ) (fm : Nat) :
    thresh_pos (l :: l :: ls) fm ≠ 1 ∧
      rd (p0 :: r :: qs) (thresh_pos (l :: l :: ls) fm)
        = rd (p0 :: qs) (thresh_pos (l :: ls) fm) := by
  by_cases h : fm > l
  · simp [thresh_pos, h, rd]
  · simp [thresh_pos, h, rd]

/-- C25 fails on the code: from the string `0.5_10-0.6` (`k = 1`) the
constructor makes a policy with the two boundaries `[10, 10]` and the three
thresholds `[1/2, 0, -3/5]`, not `[10]` and `[1/2, 3/5]`; on the string `0.5`
(`k = 0`) it is left by `std::out_of_range`; and from the string `-0.5`
(`k = 0`) it makes the boundaries `[0, 0]` and the thresholds
`[-1/2, -1/2, -1/2]`, not no boundary and `[-1/2]`. -/
theorem first_bucket_stored_twice :
    policy_text text_p0 (text_buckets.take 1) = ['0', '.', '5', '_', '1', '0', '-', '0', '.', '6'] ∧
      toy_construct (policy_text text_p0 (text_buckets.take 1))
        = .returned
          { aln_read with evpr_lengths_ := [10, 10], evpr_threshes_ := [1 / 2, 0, -3 / 5] } ∧
      toy_construct (policy_text text_p0 []) = .out_of_range ∧
      toy_construct ['-', '0', '.', '5']
        = .returned
          { aln_read with evpr_lengths_ := [0, 0], evpr_threshes_ := [-1 / 2, -1 / 2, -1 / 2] } := by
  decide!

/-- What the constructor stores: for every threshold string `p0_L1-p1_..._Lk-pk`
with `k ≥ 1` (no `_` inside a field and no `-` inside a boundary, fewer than
`2^64 - 3` characters), the constructor returns a policy with the `k + 1` boundaries
`[L1, L1, L2, ..., Lk]`, where `Li` is what `atoi` reads at the start of the
`i`-th bucket, and the `k + 2` thresholds `[p0, r, q1, ..., qk]`, where `qi` is
what `atof` reads from the text that starts at the `-` of the `i`-th bucket and
`r` is read from the same text as `q1`, cut after as many characters as `p0`
has; `get_source_prob()` returns `p0`. -/
theorem construct_tables (C : LibC) (w r c mp : Nat) (f : ℚ) (cs ig sk : Nat) (wp : ℚ)
    (p0 : List Char) (b : Bucket) (bs : List Bucket) (E : Env)
    (hp0 : '_' ∉ p0) (hok : ∀ x ∈ b :: bs, x.ok)
    (hsize : (policy_text p0 (b :: bs)).length + 2 < 18446744073709551615) :
    ∃ a, AlnParams.construct C w r c mp f cs ig sk (policy_text p0 (b :: bs)) wp = .returned a ∧
      a.evpr_lengths_
        = b.length_at C (policy_text p0 (b :: bs)) p0.length
          :: read_lengths C (policy_text p0 (b :: bs)) p0.length (b :: bs) ∧
      a.evpr_threshes_
        = C.atof p0
          :: C.atof (str_substr (policy_text p0 (b :: bs))
              (p0.length + 1 + b.len_text.length) p0.length)
          :: read_threshes C (policy_text p0 (b :: bs)) p0.length (b :: bs) ∧
      (read_lengths C (policy_text p0 (b :: bs)) p0.length (b :: bs)).head?
        = some (b.length_at C (policy_text p0 (b :: bs)) p0.length) ∧
      a.evpr_lengths_.length = (b :: bs).length + 1 ∧
      a.evpr_threshes_.length = (b :: bs).length + 2 ∧
      a.get_source_prob = C.atof p0 ∧ (a.params E).get_source_prob = C.atof p0 := by
  have h := evpr_tables_reads C p0 b bs hp0 hok hsize
  refine ⟨_, construct_returned C w r c mp f cs ig sk _ wp _ _ h, rfl, rfl, rfl, ?_, ?_,
    rfl, rfl⟩
  · simp [read_lengths_length]
  · simp [read_threshes_length]

/-- An instance: the string `0.5_10-0.6_5-0.7`; the policy has the boundaries
`[10, 10, 5]` and the thresholds `[1/2, 0, -3/5, -7/10]`. -/
theorem construct_tables_witness :
    ∃ a, toy_construct (policy_text text_p0 text_buckets) = .returned a ∧
      a.evpr_lengths_.length = 3 ∧ a.get_source_prob = dec_atof text_p0 ∧
      toy_construct (policy_text text_p0 text_buckets) = .returned aln_read ∧
      dec_atof text_p0 = 1 / 2 :=
  (construct_tables dec_libc 2 1 10 8 (1 / 2) 2 0 0 (1 / 2) text_p0
    { len_text := ['1', '0'], thr_text := ['0', '.', '6'] }
    [{ len_text := ['5'], thr_text := ['0', '.', '7'] }] toy_env (by decide) (by decide)
    (by decide)).imp
    (fun _ h => ⟨h.1, h.2.2.2.2.1, h.2.2.2.2.2.2.1, by decide!, by decide!⟩)

/-- Refutation of C26 as stated: with `max_paths = 0`, `W = 1` and the threshold
string `x y_z-w`, whose fields are not numbers and hold a blank, the constructor
returns a policy; its tables hold zeros. -/
theorem invalid_config_accepted :
    AlnParams.construct dec_libc 1 1 10 0 (1 / 2) 2 0 0 text_junk (1 / 2)
      = .returned
        { path_win_len_ := 1, min_rep_len_ := 1, max_rep_copy_ := 10, max_paths_ := 0,
          max_stay_frac_ := 1 / 2, max_consec_stay_ := 2, max_ignores_ := 0, max_skips_ := 0,
          evpr_lengths_ := [0, 0], evpr_threshes_ := [0, 0, 0], window_prob_ := 1 / 2 } ∧
      (Mapper.construct { toy_params with max_paths := 0 } (fun _ => default)
        (fun _ => default) false).prev_paths_ = [] := by
  decide!

/-- C26 (amended): the constructor of `AlnParams` validates nothing.  For every
threshold string with at least one bucket (`k ≥ 1`) whose separators are placed
as in the grammar, whatever characters its fields hold, and for every
`max_paths` and `W` (0 and 1 included), it returns an object that stores
`max_paths` and `W` as given.  It is left only by the exception
`std::out_of_range` of `substr`, when a round of the loop finds no `-` at or
after its start, as for every string without `-` in which the loop is entered (a
character follows the first `_`); in that case no object is produced.  A run
ends in one of these two ways. -/
theorem construct_validates_nothing (C : LibC) (w r c mp : Nat) (f : ℚ) (cs ig sk : Nat)
    (wp : ℚ) (p0 : List Char) (b : Bucket) (bs : List Bucket) (s : List Char)
    (hp0 : '_' ∉ p0) (hok : ∀ x ∈ b :: bs, x.ok)
    (hsize : (policy_text p0 (b :: bs)).length + 2 < 18446744073709551615)
    (hs : s.length + 2 < 18446744073709551615) :
    (∃ a, AlnParams.construct C w r c mp f cs ig sk (policy_text p0 (b :: bs)) wp
        = .returned a ∧ a.max_paths_ = mp ∧ a.path_win_len_ = w) ∧
    ('-' ∉ s → size_t (str_find s '_' 0 + 1) < s.length →
      AlnParams.construct C w r c mp f cs ig sk s wp = .out_of_range) ∧
    ((∃ a, AlnParams.construct C w r c mp f cs ig sk s wp = .returned a ∧
        a.max_paths_ = mp ∧ a.path_win_len_ = w) ∨
      AlnParams.construct C w r c mp f cs ig sk s wp = .out_of_range) ∧
    (AlnParams.construct C w r c mp f cs ig sk s wp = .out_of_range →
      ∃ i, i < s.length ∧ '-' ∉ s.drop i) := by
  refine ⟨?_, ?_, ?_, ?_⟩
  · exact ⟨_, construct_returned C w r c mp f cs ig sk _ wp _ _
      (evpr_tables_reads C p0 b bs hp0 hok hsize), rfl, rfl⟩
  · intro hdash hin
    have hk : str_find s '-' (size_t (str_find s '_' 0 + 1)) = npos :=
      str_find_none s '-' _ (fun hmem => hdash (List.mem_of_mem_drop hmem))
    unfold AlnParams.construct evpr_tables
    dsimp only
    unfold evpr_loop
    rw [if_pos hin]
    dsimp only
    rw [hk, if_pos (by unfold npos; omega)]
  · have hne := evpr_tables_ends C s hs
    cases ht : evpr_tables C s with
    | returned p =>
      left
      obtain ⟨ls, ts⟩ := p
      exact ⟨_, construct_returned C w r c mp f cs ig sk s wp ls ts ht, rfl, rfl⟩
    | out_of_range =>
      right
      unfold AlnParams.construct
      rw [ht]
    | cut_off => exact absurd ht hne
  · intro h
    have ht : evpr_tables C s = .out_of_range := by
      unfold AlnParams.construct at h
      cases ht : evpr_tables C s with
      | returned p =>
        rw [ht] at h
        cases h
      | out_of_range => rfl
      | cut_off =>
        rw [ht] at h
        cases h
    unfold evpr_tables at ht
    obtain ⟨i, hi, hk⟩ := evpr_loop_throws C s _ _ _ _ _ ht
    refine ⟨i, hi, str_find_npos s '-' i (by omega) ?_⟩
    rcases str_find_spec s '-' i with h1 | h1
    · exact h1
    · omega

/-- Witness of C26: the string `0.5_10`, whose bucket has no `-`, is rejected by
`std::out_of_range`. -/
theorem construct_validates_nothing_witness :
    toy_construct ['0', '.', '5', '_', '1', '0'] = .out_of_range :=
  (construct_validates_nothing dec_libc 2 1 10 8 (1 / 2) 2 0 0 (1 / 2) text_p0
    { len_text := ['1', '0'], thr_text := ['0', '.', '6'] } []
    ['0', '.', '5', '_', '1', '0'] (by decide) (by decide) (by decide) (by decide)).2.1
    (by decide) (by decide)

/-- C27: for every threshold string on which the constructor returns, the
tables of the policy satisfy `|thresholds| = |boundaries| + 1`; so for every
`fm_length` the position that `get_prob_thresh` dereferences is inside the table
of thresholds, and `get_source_prob` reads the front of a table that is not
empty. -/
theorem lookups_in_range (C : LibC) (w r c mp : Nat) (f : ℚ) (cs ig sk : Nat)
    (s : List Char) (wp : ℚ) (a : AlnParams) (fm_length : Nat)
    (h : AlnParams.construct C w r c mp f cs ig sk s wp = .returned a) :
    a.evpr_threshes_.length = a.evpr_lengths_.length + 1 ∧
      thresh_pos a.evpr_lengths_ fm_length < a.evpr_threshes_.length ∧
      (∃ x, a.evpr_threshes_[thresh_pos a.evpr_lengths_ fm_length]? = some x ∧
        a.get_prob_thresh fm_length = x) ∧
      a.evpr_threshes_ ≠ [] ∧
      (∃ y, a.evpr_threshes_.head? = some y ∧ a.get_source_prob = y) := by
  obtain ⟨ht, _, _⟩ := construct_inv C w r c mp f cs ig sk s wp a h
  have hsz : a.evpr_threshes_.length = a.evpr_lengths_.length + 1 := by
    unfold evpr_tables at ht
    exact evpr_loop_sizes C s _ _ _ [] [_] (a.evpr_lengths_, a.evpr_threshes_) rfl ht
  have hpos := thresh_pos_le a.evpr_lengths_ fm_length
  have hlt : thresh_pos a.evpr_lengths_ fm_length < a.evpr_threshes_.length := by omega
  refine ⟨hsz, hlt, ⟨a.evpr_threshes_[thresh_pos a.evpr_lengths_ fm_length], ?_, ?_⟩, ?_, ?_⟩
  · exact List.getElem?_eq_getElem hlt
  · unfold AlnParams.get_prob_thresh rd
    exact List.getD_eq_getElem _ _ hlt
  · intro hnil
    rw [hnil] at hsz
    simp at hsz
  · cases hts : a.evpr_threshes_ with
    | nil =>
      rw [hts] at hsz
      simp at hsz
    | cons y rest =>
      refine ⟨y, rfl, ?_⟩
      unfold AlnParams.get_source_prob rd
      rw [hts]
      rfl

/-- Witness of C27: the policy made from `0.5_10-0.6_5-0.7` has three boundaries
and four thresholds. -/
theorem lookups_in_range_witness :
    aln_read.evpr_threshes_.length = aln_read.evpr_lengths_.length + 1 ∧
      thresh_pos aln_read.evpr_lengths_ 7 < aln_read.evpr_threshes_.length :=
  ⟨(lookups_in_range dec_libc 2 1 10 8 (1 / 2) 2 0 0 (policy_text text_p0 text_buckets)
      (1 / 2) aln_read 7 (by decide!)).1,
    (lookups_in_range dec_libc 2 1 10 8 (1 / 2) 2 0 0 (policy_text text_p0 text_buckets)
      (1 / 2) aln_read 7 (by decide!)).2.1⟩

theorem thresh_text_at (s pre rest : List Char) (x : Bucket)
    (hs : s = pre ++ (x.text ++ rest)) :
    ∃ more, str_substr s (pre.length + 1 + x.len_text.length) (pre.length + x.text.length)
      = '-' :: x.thr_text ++ more := by
  have hd : s.drop (pre.length + 1 + x.len_text.length) = '-' :: (x.thr_text ++ rest) := by
    have e : s = (pre ++ '_' :: x.len_text) ++ ('-' :: (x.thr_text ++ rest)) := by
      rw [hs]
      simp [Bucket.text]
    have l : (pre ++ '_' :: x.len_text).length = pre.length + 1 + x.len_text.length := by
      simp
      omega
    rw [e, ← l, List.drop_left]
  unfold str_substr
  rw [hd]
  have hl := text_length x
  refine ⟨(rest.take (pre.length + x.text.length - ('-' :: x.thr_text).length)), ?_⟩
  have e : '-' :: (x.thr_text ++ rest) = ('-' :: x.thr_text) ++ rest := rfl
  rw [e, List.take_append_eq_append_take, List.take_of_length_le (by simp; omega)]

theorem digit_range (d : Char) (hd : d.isDigit = true) : 48 ≤ d.toNat ∧ d.toNat ≤ 57 := by
  simp only [Char.isDigit, Bool.and_eq_true, decide_eq_true_eq] at hd
  exact hd

theorem read_sign_other (d : Char) (rest : List Char) (h1 : d ≠ '-') (h2 : d ≠ '+') :
    read_sign (d :: rest) = (false, d :: rest) := by
  unfold read_sign
  split
  · rename_i heq
    simp only [List.cons.injEq] at heq
    exact absurd heq.1 h1
  · rename_i heq
    simp only [List.cons.injEq] at heq
    exact absurd heq.1 h2
  · rfl

theorem dec_minus (d : Char) (rest : List Char) (hd : d.isDigit = true) :
    dec_atof ('-' :: d :: rest) = - dec_atof (d :: rest) := by
  obtain ⟨h1, h2⟩ := digit_range d hd
  have hsp : is_space d = false := by
    unfold is_space
    simp
    omega
  have hm : d ≠ '-' := by
    intro h
    rw [h] at h1
    exact absurd h1 (by decide)
  have hp : d ≠ '+' := by
    intro h
    rw [h] at h1
    exact absurd h1 (by decide)
  have hsm : is_space '-' = false := by decide
  have e1 : ('-' :: d :: rest).dropWhile is_space = '-' :: d :: rest := by
    rw [List.dropWhile_cons, hsm]
    rfl
  have e2 : (d :: rest).dropWhile is_space = d :: rest := by
    rw [List.dropWhile_cons, hsp]
    rfl
  have e3 : read_sign ('-' :: d :: rest) = (true, d :: rest) := rfl
  unfold dec_atof
  rw [e1, e2, e3, read_sign_other d rest hm hp]
  simp

/-- C30: for every threshold string `p0_L1-p1_..._Lk-pk` with `k ≥ 1` buckets
(no `_` inside a field and no `-` inside a boundary, fewer than `2^64 - 3`
characters), the constructor reads the first bucket twice: it stores the
`k + 1` boundaries `[L1, L1, L2, ..., Lk]` and `k + 2` thresholds.  Since the
first two boundaries are equal, `get_prob_thresh` never dereferences the
threshold at index 1, and for every `fm_length` its result is that of the
lookup over the boundaries `[L1..Lk]` with the thresholds `[p0, q1, ..., qk]`,
where `qi` is what `atof` reads from a text that starts with the `-` of the
`i`-th bucket followed by its field `pi`: read as decimal text, the `-` is a
minus sign. -/
theorem first_bucket_lookup (C : LibC) (w r c mp : Nat) (f : ℚ) (cs ig sk : Nat) (wp : ℚ)
    (p0 : List Char) (b : Bucket) (bs : List Bucket) (E : Env) (fm_length : Nat)
    (hp0 : '_' ∉ p0) (hok : ∀ x ∈ b :: bs, x.ok)
    (hsize : (policy_text p0 (b :: bs)).length + 2 < 18446744073709551615) :
    ∃ a, AlnParams.construct C w r c mp f cs ig sk (policy_text p0 (b :: bs)) wp = .returned a ∧
      a.evpr_lengths_
        = b.length_at C (policy_text p0 (b :: bs)) p0.length
          :: b.length_at C (policy_text p0 (b :: bs)) p0.length
          :: read_lengths C (policy_text p0 (b :: bs)) (p0.length + b.text.length) bs ∧
      a.evpr_lengths_.length = (b :: bs).length + 1 ∧
      a.evpr_threshes_.length = (b :: bs).length + 2 ∧
      thresh_pos a.evpr_lengths_ fm_length ≠ 1 ∧
      a.get_prob_thresh fm_length
        = rd (C.atof p0 :: read_threshes C (policy_text p0 (b :: bs)) p0.length (b :: bs))
            (thresh_pos (read_lengths C (policy_text p0 (b :: bs)) p0.length (b :: bs))
              fm_length) ∧
      (a.params E).get_prob_thresh fm_length = a.get_prob_thresh fm_length ∧
      (read_lengths C (policy_text p0 (b :: bs)) p0.length (b :: bs)).length = (b :: bs).length ∧
      (read_threshes C (policy_text p0 (b :: bs)) p0.length (b :: bs)).length
        = (b :: bs).length ∧
      (∀ (pre rest : List Char) (x : Bucket),
        policy_text p0 (b :: bs) = pre ++ (x.text ++ rest) →
        ∃ more, x.thresh_at C (policy_text p0 (b :: bs)) pre.length
          = C.atof ('-' :: x.thr_text ++ more)) ∧
      (∀ (d : Char) (rest : List Char), d.isDigit = true →
        dec_libc.atof ('-' :: d :: rest) = - dec_libc.atof (d :: rest)) := by
  have h := evpr_tables_reads C p0 b bs hp0 hok hsize
  refine ⟨_, construct_returned C w r c mp f cs ig sk _ wp _ _ h, rfl, ?_, ?_, ?_, ?_, rfl,
    read_lengths_length C _ _ _, read_threshes_length C _ _ _, ?_, dec_minus⟩
  · simp [read_lengths, read_lengths_length]
  · simp [read_threshes_length]
  · exact (lookup_twice _ _ (C.atof p0) (C.atof (str_substr (policy_text p0 (b :: bs))
      (p0.length + 1 + b.len_text.length) p0.length))
      (read_threshes C (policy_text p0 (b :: bs)) p0.length (b :: bs)) fm_length).1
  · exact (lookup_twice _ _ (C.atof p0) (C.atof (str_substr (policy_text p0 (b :: bs))
      (p0.length + 1 + b.len_text.length) p0.length))
      (read_threshes C (policy_text p0 (b :: bs)) p0.length (b :: bs)) fm_length).2
  · intro pre rest x hx
    obtain ⟨more, hm⟩ := thresh_text_at _ pre rest x hx
    exact ⟨more, by unfold Bucket.thresh_at; rw [hm]⟩

/-- Witness of C30: the string `0.5_10-0.6_5-0.7`; for an interval of length 7
the lookup over `[10, 10, 5]` gives the threshold at index 2, which is `-3/5`,
as the lookup over `[10, 5]` with `[1/2, -3/5, -7/10]` does. -/
theorem first_bucket_lookup_witness :
    ∃ a, toy_construct (policy_text text_p0 text_buckets) = .returned a ∧
      thresh_pos a.evpr_lengths_ 7 ≠ 1 ∧
      toy_construct (policy_text text_p0 text_buckets) = .returned aln_read ∧
      thresh_pos aln_read.evpr_lengths_ 7 = 2 ∧ aln_read.get_prob_thresh 7 = -3 / 5 ∧
      rd [1 / 2, -3 / 5, -7 / 10] (thresh_pos [10, 5] 7) = -3 / 5 :=
  (first_bucket_lookup dec_libc 2 1 10 8 (1 / 2) 2 0 0 (1 / 2) text_p0
    { len_text := ['1', '0'], thr_text := ['0', '.', '6'] }
    [{ len_text := ['5'], thr_text := ['0', '.', '7'] }] toy_env 7 (by decide) (by decide)
    (by decide)).imp
    (fun _ h => ⟨h.1, h.2.2.2.2.1, by decide!, by decide!, by decide!, by decide!⟩)

end Uncalled
